import Mathlib

/-!
# rtags `ClangRunnable.cpp`: tree reconstruction, symbol graph builder, reference resolver, parse task

A shallow embedding of `src/ClangRunnable.cpp`.

* Pointers into the C++ heap are indices (`Nat`) into a list of cells; a null pointer is `none`.
* A finished scratch tree is passed to `buildTree` and `addReference` as the tree it is
  (`CursorTree`), `c->parent` being passed along where the code reads it.
* `Q_ASSERT(e)` aborts the process in a debug build and is a no-op in a release build.  The
  embedding follows the release build and records a violated assertion in a sticky
  `assertFailed` flag, so both behaviours can be read off a result.
* `qDebug()`/`qWarning()` output is not part of the embedding.
* Functions of the parser (libclang) and of the parts of the repository that are not in
  `ClangRunnable.cpp` (`Node`, `Location`, `PreCompile`, `GccArguments`) are parameters or are
  modelled from the spec, as their doc comments say.
-/

namespace RTags

/-! ## Cursors, the scratch tree and its reconstruction (`buildComprehensiveTree`) -/

/-- The cursor kinds (`CXCursorKind`) that `ClangRunnable.cpp` names; every other kind is
`other n`. -/
inductive CXCursorKind where
  | StructDecl
  | ClassDecl
  | FieldDecl
  | EnumConstantDecl
  | FunctionDecl
  | VarDecl
  | ParmDecl
  | CXXMethod
  | NonTypeTemplateParameter
  | DeclRefExpr
  | MemberRefExpr
  | TranslationUnit
  | MacroDefinition
  | MacroExpansion
  | other (n : Nat)
  deriving DecidableEq, Repr

/-- A source location as the parser reports it: `file` is the `CXFile` that
`clang_getInstantiationLocation` yields (`none` is the null file). -/
structure CXSourceLocation where
  file : Option String
  line : Nat
  column : Nat
  deriving DecidableEq, Repr

/-- A parser cursor: its kind, its opaque `data` words, the result of `clang_getCursorLocation`
and the result of `clang_getCursorSpelling`. -/
structure CXCursor where
  kind : CXCursorKind
  data : Nat
  location : CXSourceLocation
  spelling : String
  deriving DecidableEq, Repr

/-- The file-local `operator==(const CXCursor &, const CXCursor &)`: same kind and
`clang_equalLocations` of the two cursor locations. -/
def cursorEq (left right : CXCursor) : Bool :=
  decide (left.kind = right.kind) && decide (left.location = right.location)

/-- The enumeration `CXChildVisitResult`. -/
inductive CXChildVisitResult where
  | Break
  | Continue
  | Recurse
  deriving DecidableEq, Repr

/-- A finite tree of cursors: the parser's cursor tree of a translation unit, and also the shape
of a finished scratch tree. -/
inductive CursorTree where
  | node (cursor : CXCursor) (children : List CursorTree)
  deriving Repr

/-- The cursor at the root of a tree. -/
def CursorTree.cursor : CursorTree → CXCursor
  | .node c _ => c

/-- The subtrees below the root of a tree. -/
def CursorTree.children : CursorTree → List CursorTree
  | .node _ ks => ks

/-- The fields of `struct CursorNode`; a `CursorNode*` is an index into a list of cells. -/
structure CursorNode where
  cursor : CXCursor
  parent : Option Nat
  firstChild : Option Nat
  nextSibling : Option Nat
  lastChild : Option Nat
  deriving DecidableEq, Repr

/-- Assignment through a pointer: replace the cell at `p` by `f` of it. -/
def updateAt (heap : List CursorNode) (p : Nat) (f : CursorNode → CursorNode) : List CursorNode :=
  match heap[p]? with
  | some n => heap.set p (f n)
  | none => heap

/-- The method `CursorNode::append(CursorNode *c)` called on the node `this`. -/
def CursorNode.append (heap : List CursorNode) (this c : Nat) : List CursorNode :=
  let h1 := updateAt heap c (fun n => { n with parent := some this })
  let h2 :=
    match (h1[this]?).bind (fun n => n.lastChild) with
    | some l =>
      updateAt (updateAt h1 l (fun n => { n with nextSibling := some c })) this
        (fun n => { n with lastChild := some c })
    | none =>
      updateAt h1 this (fun n => { n with lastChild := some c, firstChild := some c })
  updateAt h2 this (fun n => { n with nextSibling := none })

/-- The constructor `CursorNode(CXCursor c, CursorNode *p = 0)`: allocates a cell and, when `p`
is not null, appends it to `p`.  Returns the new heap and the new pointer. -/
def CursorNode.new (heap : List CursorNode) (c : CXCursor) (p : Option Nat) :
    List CursorNode × Nat :=
  let ptr := heap.length
  let h1 := heap ++ [{ cursor := c, parent := p, firstChild := none, nextSibling := none,
                       lastChild := none }]
  match p with
  | some q => (CursorNode.append h1 q ptr, ptr)
  | none => (h1, ptr)

mutual
/-- The method `CursorNode::count()` called on the node `p`: `ret = 1`, then the loop
`for (c = firstChild; c; c = c->nextSibling) ret += c->count()`.  `none` when a pointer dangles
or `fuel` runs out (a pointer structure that is not a finite tree). -/
def CursorNode.count (heap : List CursorNode) : Nat → Nat → Option Nat
  | 0, _ => none
  | fuel + 1, p =>
    match heap[p]? with
    | none => none
    | some n =>
      match CursorNode.countLoop heap fuel n.firstChild with
      | some k => some (1 + k)
      | none => none
/-- The loop of `count()` from the child `c` on: the sum of `c->count()` over the sibling chain
that starts at `c`. -/
def CursorNode.countLoop (heap : List CursorNode) : Nat → Option Nat → Option Nat
  | 0, _ => none
  | _ + 1, none => some 0
  | fuel + 1, some c =>
    match heap[c]? with
    | none => none
    | some n =>
      match CursorNode.count heap fuel c, CursorNode.countLoop heap fuel n.nextSibling with
      | some a, some b => some (a + b)
      | _, _ => none
end

/-- The state `struct ComprehensiveTreeUserData`, together with the heap its pointers point into
and the assertion flag. -/
structure ComprehensiveTreeUserData where
  heap : List CursorNode
  root : Option Nat
  last : Option Nat
  parents : List (CXCursor × Option Nat)
  lastCursor : CXCursor
  assertFailed : Bool
  deriving DecidableEq, Repr

/-- The loop `for (int i=u->parents.size() - 1; i>=0; --i)` of `buildComprehensiveTree`, entered
with `n = parents.size()`: the node of the topmost frame whose cursor equals `parent`, and the
vector resized to end with that frame. -/
def scanParents (parent : CXCursor) (parents : List (CXCursor × Option Nat)) :
    Nat → Option (Option Nat × List (CXCursor × Option Nat))
  | 0 => none
  | i + 1 =>
    match parents[i]? with
    | some f =>
      if cursorEq parent f.1 then some (f.2, parents.take (i + 1))
      else scanParents parent parents i
    | none => scanParents parent parents i

/-- The `switch (clang_getCursorKind(cursor))` that ends `buildComprehensiveTree`. -/
def visitResultOfKind : CXCursorKind → CXChildVisitResult
  | .EnumConstantDecl => .Continue
  | .MemberRefExpr => .Continue
  | .DeclRefExpr => .Continue
  | _ => .Recurse

/-- The visitor `buildComprehensiveTree(CXCursor cursor, CXCursor parent, CXClientData data)`. -/
def buildComprehensiveTree (cursor parent : CXCursor) (u : ComprehensiveTreeUserData) :
    CXChildVisitResult × ComprehensiveTreeUserData :=
  if cursor.location.file.isNone then (.Continue, u)
  else
    let pu : Option Nat × ComprehensiveTreeUserData :=
      match u.root with
      | none =>
        let r := CursorNode.new u.heap parent none
        (some r.2, { u with heap := r.1, root := some r.2,
                            parents := u.parents ++ [(parent, some r.2)],
                            lastCursor := cursor })
      | some _ =>
        -- Q_ASSERT(u->last)
        let u0 := { u with assertFailed := u.assertFailed || u.last.isNone }
        if cursorEq parent u0.lastCursor then
          -- p = u->last; Q_ASSERT(p)
          (u0.last, { u0 with assertFailed := u0.assertFailed || u0.last.isNone,
                              parents := u0.parents ++ [(parent, u0.last)] })
        else
          match scanParents parent u0.parents u0.parents.length with
          | some (p, ps) => (p, { u0 with parents := ps })
          | none => (none, u0)
    let p := pu.1
    -- Q_ASSERT(p)
    let u1 := { pu.2 with assertFailed := pu.2.assertFailed || p.isNone }
    let r := CursorNode.new u1.heap cursor p
    (visitResultOfKind cursor.kind,
      { u1 with heap := r.1, last := some r.2, lastCursor := cursor })

mutual
/-- The parser's traversal at one cursor of the tree: the visitor is called with the cursor and
its parent; `Break` ends the whole traversal, `Continue` skips the children, `Recurse` visits
them.  The `Bool` is true when the traversal was ended by `Break`. -/
def visitTree {σ : Type} (visitor : CXCursor → CXCursor → σ → CXChildVisitResult × σ)
    (parent : CXCursor) : CursorTree → σ → Bool × σ
  | .node c ks, s =>
    match visitor c parent s with
    | (.Break, s1) => (true, s1)
    | (.Continue, s1) => (false, s1)
    | (.Recurse, s1) => visitForest visitor c ks s1
/-- The parser's traversal of the children `ts` of the cursor `parent`, in order (pre-order
over the whole tree). -/
def visitForest {σ : Type} (visitor : CXCursor → CXCursor → σ → CXChildVisitResult × σ)
    (parent : CXCursor) : List CursorTree → σ → Bool × σ
  | [], s => (false, s)
  | t :: ts, s =>
    match visitTree visitor parent t s with
    | (true, s1) => (true, s1)
    | (false, s1) => visitForest visitor parent ts s1
end

/-- The call `clang_visitChildren(rootCursor, visitor, data)` on a translation unit whose cursor
tree is `t`. -/
def clang_visitChildren {σ : Type}
    (visitor : CXCursor → CXCursor → σ → CXChildVisitResult × σ) (t : CursorTree) (s : σ) :
    Bool × σ :=
  visitForest visitor t.cursor t.children s

/-- The null cursor `clang_getNullCursor()`. -/
def nullCursor : CXCursor :=
  { kind := .other 70, data := 0, location := { file := none, line := 0, column := 0 },
    spelling := "" }

/-- The user data as `run` initialises it: `ud.last = ud.root = 0`, `ud.lastCursor` the null
cursor, an empty `parents` vector. -/
def ComprehensiveTreeUserData.init : ComprehensiveTreeUserData :=
  { heap := [], root := none, last := none, parents := [], lastCursor := nullCursor,
    assertFailed := false }

mutual
/-- The scratch tree below the node `p`, read by following `firstChild` and `nextSibling` as the
loops `for (c = firstChild; c; c = c->nextSibling)` do (`readChain` reads a sibling chain);
every node read must have `parent` as its `parent` pointer.  `none` when a pointer dangles, a
parent pointer disagrees or `fuel` runs out (a pointer structure that is not a finite tree). -/
def readTree (heap : List CursorNode) : Nat → Option Nat → Nat → Option CursorTree
  | 0, _, _ => none
  | fuel + 1, parent, p =>
    match heap[p]? with
    | none => none
    | some n =>
      if n.parent = parent then
        match readChain heap fuel (some p) n.firstChild with
        | some ks => some (.node n.cursor ks)
        | none => none
      else none
def readChain (heap : List CursorNode) : Nat → Option Nat → Option Nat → Option (List CursorTree)
  | 0, _, _ => none
  | _ + 1, _, none => some []
  | fuel + 1, parent, some c =>
    match heap[c]? with
    | none => none
    | some n =>
      match readTree heap fuel parent c, readChain heap fuel parent n.nextSibling with
      | some t, some ts => some (t :: ts)
      | _, _ => none
end

/-! ## A tree laid out in the heap, for the proof of tree fidelity -/

mutual
/-- Number of nodes of a tree. -/
def CursorTree.size : CursorTree → Nat
  | .node _ ks => 1 + CursorTree.sizeF ks
/-- Number of nodes of a forest. -/
def CursorTree.sizeF : List CursorTree → Nat
  | [] => 0
  | k :: ks => k.size + CursorTree.sizeF ks
end

/-- Heap index of the root of the last tree of a forest that is laid out from index `s`. -/
def lastStart : Nat → List CursorTree → Option Nat
  | _, [] => none
  | s, [_] => some s
  | s, k :: k2 :: ks => lastStart (s + k.size) (k2 :: ks)

mutual
/-- The cells of a tree allocated in pre-order from index `s`, its root having parent pointer
`par` and next-sibling pointer `nxt`. -/
def layout (s : Nat) (par nxt : Option Nat) : CursorTree → List CursorNode
  | .node c ks =>
    { cursor := c, parent := par, firstChild := if ks.isEmpty then none else some (s + 1),
      nextSibling := nxt, lastChild := lastStart (s + 1) ks } :: layoutF (s + 1) (some s) ks
/-- The cells of a forest of siblings allocated in pre-order from index `s`. -/
def layoutF (s : Nat) (par : Option Nat) : List CursorTree → List CursorNode
  | [] => []
  | k :: ks =>
    layout s par (if ks.isEmpty then none else some (s + k.size)) k
      ++ layoutF (s + k.size) par ks
end

mutual
/-- The rightmost path of a tree laid out from `s`: cursor and heap index of the root, of its
last child, and so on. -/
def spine (s : Nat) : CursorTree → List (CXCursor × Nat)
  | .node c ks => (c, s) :: spineF (s + 1) ks
/-- The rightmost path below a forest: the path of its last tree. -/
def spineF (s : Nat) : List CursorTree → List (CXCursor × Nat)
  | [] => []
  | [k] => spine s k
  | k :: k2 :: ks => spineF (s + k.size) (k2 :: ks)
end

mutual
/-- The tree with the forest `g` appended to the children of the node at depth `d` of the
rightmost path. -/
def graft (g : List CursorTree) : Nat → CursorTree → CursorTree
  | 0, .node r ks => .node r (ks ++ g)
  | d + 1, .node r ks => .node r (graftF g d ks)
/-- Grafting below the last tree of a forest. -/
def graftF (g : List CursorTree) : Nat → List CursorTree → List CursorTree
  | _, [] => []
  | d, [k] => [graft g d k]
  | d, k :: k2 :: ks => k :: graftF g d (k2 :: ks)
end

/-- The cell of a node that has just been allocated. -/
def leafCell (c : CXCursor) (p : Option Nat) : CursorNode :=
  { cursor := c, parent := p, firstChild := none, nextSibling := none, lastChild := none }

/-- The traversal state `u` represents the partially built tree `t`: the heap is the layout of
`t`, the frames are the rightmost path of `t` without its end, and the end of that path is the
last node created. -/
def Corr (u : ComprehensiveTreeUserData) (t : CursorTree) : Prop :=
  u.heap = layout 0 none none t ∧ u.root = some 0 ∧ u.assertFailed = false ∧
  ∃ fr lc li, spine 0 t = fr ++ [(lc, li)] ∧ fr ≠ [] ∧
    u.parents = fr.map (fun x => (x.1, some x.2)) ∧ u.last = some li ∧ u.lastCursor = lc

mutual
/-- The cursors of a tree in pre-order. -/
def CursorTree.cursors : CursorTree → List CXCursor
  | .node c ks => c :: CursorTree.cursorsF ks
/-- The cursors of a forest in pre-order. -/
def CursorTree.cursorsF : List CursorTree → List CXCursor
  | [] => []
  | k :: ks => k.cursors ++ CursorTree.cursorsF ks
end

/-- The part of a forest that `clang_visitChildren` reports to `buildComprehensiveTree`: the
children of a cursor are kept when the visitor answers `Recurse` for its kind. -/
def visitedForest : List CursorTree → List CursorTree
  | [] => []
  | .node c ks :: ts =>
    .node c (match visitResultOfKind c.kind with
      | .Recurse => visitedForest ks
      | _ => []) :: visitedForest ts

/-- The visited part of a cursor tree: its root with the visited part of its children. -/
def visitedPart (t : CursorTree) : CursorTree :=
  .node t.cursor (visitedForest t.children)

/-- What visiting the forest `F` below the cursor `pc` does to a state that represents `t`, when
`pc` is on the rightmost path of `t` after the frames `A`. -/
def VisitSpec (F : List CursorTree) : Prop :=
  ∀ (pc : CXCursor) (u : ComprehensiveTreeUserData) (t : CursorTree)
    (p : Nat) (A B : List (CXCursor × Nat)),
    Corr u t → spine 0 t = A ++ (pc, p) :: B →
    (∀ x ∈ B, cursorEq pc x.1 = false) →
    (∀ c ∈ CursorTree.cursorsF F, c.location.file.isSome = true) →
    (A.map Prod.fst ++ pc :: CursorTree.cursorsF F).Pairwise
      (fun a b => cursorEq a b = false) →
    (visitForest buildComprehensiveTree pc F u).1 = false ∧
    Corr (visitForest buildComprehensiveTree pc F u).2 (graft (visitedForest F) A.length t) ∧
    ∃ B', spine 0 (graft (visitedForest F) A.length t) = A ++ (pc, p) :: B' ∧
      ∀ x ∈ B', x.1 ∈ CursorTree.cursorsF F ∨ x ∈ B

/-- A cursor of kind `k` in file `a.c` at line `n`. -/
def sampleCursor (k : CXCursorKind) (n : Nat) : CXCursor :=
  { kind := k, data := n, location := { file := some "a.c", line := n, column := 1 },
    spelling := "" }

/-- A translation unit with a class (a field, a reference with a child the traversal skips, a
method with a parameter) followed by a variable. -/
def sampleUnit : CursorTree :=
  .node (sampleCursor .TranslationUnit 0)
    [.node (sampleCursor .ClassDecl 1)
      [.node (sampleCursor .FieldDecl 2) [],
       .node (sampleCursor .DeclRefExpr 3) [.node (sampleCursor .VarDecl 4) []],
       .node (sampleCursor .CXXMethod 5) [.node (sampleCursor .ParmDecl 6) []]],
     .node (sampleCursor .VarDecl 7) []]

/-! ## The symbol graph: `buildTree` and `addReference` -/

/-- Byte strings (`QByteArray`). -/
abbrev QByteArray := String

/-- A `QHash<QByteArray, α>` as the list of its entries, at most one per key after `insert`. -/
abbrev QHash (α : Type) := List (QByteArray × α)

/-- The method `QHash::contains(key)`. -/
def QHash.contains {α : Type} (h : QHash α) (key : QByteArray) : Bool :=
  (List.lookup key h).isSome

/-- The method `QHash::value(key)`; for a hash of pointers the default value is the null
pointer, `none`. -/
def QHash.value {α : Type} (h : QHash α) (key : QByteArray) : Option α :=
  List.lookup key h

/-- The assignment `h[key] = v`: the entry for `key` is replaced or added. -/
def QHash.insert {α : Type} (h : QHash α) (key : QByteArray) (v : α) : QHash α :=
  (key, v) :: h.filter (fun e => e.1 != key)

/-- Modelled from the spec: the class `Location` (Location.h is not in src/): a resolved file
path, a line and a column. -/
structure Location where
  path : String
  line : Nat
  column : Nat
  deriving DecidableEq, Repr

/-- Modelled from the spec: the enumeration `NodeType` (Node.h is not in src/).
`ClangRunnable.cpp` names `Reference`, `Invalid` and `MethodDefinition`; the other
declaration-like categories are those the spec lists. -/
inductive NodeType where
  | Root
  | Namespace
  | Class
  | Struct
  | Function
  | MethodDeclaration
  | MethodDefinition
  | Variable
  | Field
  | Enumerator
  | MacroDefinition
  | Reference
  | Invalid
  deriving DecidableEq, Repr

/-- Modelled from the spec: a `Node` object (Node.h is not in src/), as the arguments its
constructor was called with.  A `Node*` is an index into `Graph.nodes`. -/
structure Node where
  parent : Option Nat
  type : NodeType
  cursor : CXCursor
  location : Location
  id : QByteArray
  deriving DecidableEq, Repr

/-- The shared graph: the `Node` objects allocated so far, the index `Node::sNodes` from
Location key to node, and the flags for a violated `Q_ASSERT` and for a dereferenced null
pointer. -/
structure Graph where
  nodes : List Node
  sNodes : QHash Nat
  assertFailed : Bool
  nullDeref : Bool
  deriving DecidableEq, Repr

/-- The statement `Q_ASSERT(cond)`. -/
def Graph.qAssert (g : Graph) (cond : Bool) : Graph :=
  { g with assertFailed := g.assertFailed || !cond }

/-- Modelled from the spec: the constructor `Node(Node *parent, NodeType type, const CXCursor &,
const Location &, const QByteArray &id)` (Node.h is not in src/): the node is allocated, keeps
its parent as a back-reference and is entered in `Node::sNodes` under `id`.  Returns the graph
and the new pointer. -/
def Node.new (g : Graph) (parent : Option Nat) (type : NodeType) (cursor : CXCursor)
    (loc : Location) (id : QByteArray) : Graph × Nat :=
  ({ g with nodes := g.nodes ++ [{ parent := parent, type := type, cursor := cursor,
                                   location := loc, id := id }],
            sNodes := QHash.insert g.sNodes id g.nodes.length },
   g.nodes.length)

/-- The struct `PendingReference { CursorNode *node; Location location; }`; the node pointer is
the scratch subtree it points to. -/
structure PendingReference where
  node : CursorTree
  location : Location

/-- The functions `ClangRunnable.cpp` calls that are not defined in it: the parser's cursor
queries, `isValidCursor`, `Node::nodeTypeFromCursor`, `Node::methodDeclaration`, the `Location`
class, and the order in which a `QHash` is iterated. -/
structure Clang where
  getCursorSemanticParent : CXCursor → CXCursor
  getCursorReferenced : CXCursor → CXCursor
  getCursorDefinition : CXCursor → CXCursor
  equalCursors : CXCursor → CXCursor → Bool
  isValidCursor : CXCursor → Bool
  nodeTypeFromCursor : CXCursor → NodeType
  methodDeclaration : Graph → Nat → Option Nat
  location : CXCursor → Location
  locationExists : Location → Bool
  locationIsNull : Location → Bool
  locationToString : Location → QByteArray
  hashOrder : QHash PendingReference → QHash PendingReference

/-- The state `buildTree` works on: the graph and the map `references`. -/
structure BuildState where
  graph : Graph
  references : QHash PendingReference

/-- The loop `for (cn = c->parent->firstChild; cn; cn = cn->nextSibling)` of `buildTree`: the
first sibling that is a macro definition spelled `symbolName`. -/
def findMacroDefinition (symbolName : String) : List CursorTree → Option CursorTree
  | [] => none
  | cn :: rest =>
    if cn.cursor.kind = .MacroDefinition && symbolName == cn.cursor.spelling then some cn
    else findMacroDefinition symbolName rest

/-- The block `if (clang_getCursorKind(c->cursor) == CXCursor_MacroExpansion) { ... }` that
opens `buildTree`, for the node `c` with `c->parent` = `cparent`.  The `Bool` is true when the
block returned from `buildTree`. -/
def buildTreeMacroExpansion (env : Clang) (cparent : Option CursorTree) (c : CursorTree)
    (g : Graph) : Bool × Graph :=
  if c.cursor.kind = .MacroExpansion then
    let loc := env.location c.cursor
    let g1 := g.qAssert (!env.locationIsNull loc)
    let id := env.locationToString loc
    if QHash.contains g1.sNodes id then (true, g1)
    else
      let symbolName := c.cursor.spelling
      match cparent with
      | none => (true, { g1 with nullDeref := true })
      | some cp =>
        match findMacroDefinition symbolName cp.children with
        | some cn =>
          let macroDefinitionId := env.locationToString (env.location cn.cursor)
          let parent := QHash.value g1.sNodes macroDefinitionId
          let g2 := g1.qAssert parent.isSome
          (true, (Node.new g2 parent .Reference c.cursor loc id).1)
        | none => (false, g1)
  else (false, g)

/-- The declaration branch of `buildTree` up to the loop over the children, entered when
`c->parent && type != Invalid`: `none` when it returned from `buildTree`, otherwise the graph
and the parent for the children. -/
def buildTreeDeclaration (env : Clang) (parent : Option Nat) (cp : CursorTree)
    (c : CursorTree) (type : NodeType) (g : Graph) : Option (Graph × Option Nat) :=
  let loc := env.location c.cursor
  if env.locationExists loc then
    let id := env.locationToString loc
    if QHash.contains g.sNodes id then none
    else
      let realParent := env.getCursorSemanticParent c.cursor
      let parent1 :=
        if env.isValidCursor realParent && !env.equalCursors realParent cp.cursor then
          match QHash.value g.sNodes (env.locationToString (env.location realParent)) with
          | some p => some p
          | none => parent
        else parent
      let r := Node.new g parent1 type c.cursor loc id
      some (r.1, some r.2)
  else some (g, parent)

mutual
/-- The method `ClangRunnable::buildTree(Node *parent, CursorNode *c, QHash<QByteArray,
PendingReference> &references)`; `cparent` is `c->parent`. -/
def buildTree (env : Clang) (parent : Option Nat) (cparent : Option CursorTree) :
    CursorTree → BuildState → BuildState
  | .node cursor children, st =>
    let c := CursorTree.node cursor children
    let m := buildTreeMacroExpansion env cparent c st.graph
    if m.1 then { st with graph := m.2 }
    else
      let st1 := { st with graph := m.2 }
      let type := env.nodeTypeFromCursor cursor
      if type = .Reference then
        let loc := env.location cursor
        if env.locationExists loc then
          let id := env.locationToString loc
          if !QHash.contains st1.graph.sNodes id then
            { st1 with references := QHash.insert st1.references id { node := c, location := loc } }
          else st1
        else st1
      else
        match cparent with
        | some cp =>
          if type ≠ .Invalid then
            match buildTreeDeclaration env parent cp c type st1.graph with
            | none => st1
            | some (g2, parent2) =>
              buildTreeChildren env parent2 c children { st1 with graph := g2 }
          else buildTreeChildren env parent c children st1
        | none => buildTreeChildren env parent c children st1
/-- The loop `for (child = c->firstChild; child; child = child->nextSibling)
buildTree(parent, child, references)` of `buildTree`, over the children of `c`. -/
def buildTreeChildren (env : Clang) (parent : Option Nat) (c : CursorTree) :
    List CursorTree → BuildState → BuildState
  | [], st => st
  | child :: rest, st =>
    buildTreeChildren env parent c rest (buildTree env parent (some c) child st)
end

/-- The `switch (refKind)` of `addReference` for a use-site of kind `CXCursor_DeclRefExpr`:
true for the kinds that `break`. -/
def declRefAccepts : CXCursorKind → Bool
  | .ParmDecl => true
  | .VarDecl => true
  | .FieldDecl => true
  | .CXXMethod => true
  | .EnumConstantDecl => true
  | .FunctionDecl => true
  | _ => false

/-- The cursor `ref` of `addReference` after the substitution of the definition for a class or
struct declaration that refers to itself. -/
def referencedCursor (env : Clang) (cursor : CXCursor) : CXCursor :=
  let ref := env.getCursorReferenced cursor
  if env.equalCursors ref cursor && (cursor.kind = .ClassDecl || cursor.kind = .StructDecl) then
    env.getCursorDefinition ref
  else ref

/-- The lines `if (refNode->type == MethodDefinition) { Node *decl =
refNode->methodDeclaration(); if (decl) refNode = decl; }` of `addReference`. -/
def declarationOf (env : Clang) (g : Graph) (refNode : Nat) : Nat :=
  match g.nodes[refNode]? with
  | some n =>
    if n.type = .MethodDefinition then
      match env.methodDeclaration g refNode with
      | some decl => decl
      | none => refNode
    else refNode
  | none => refNode

/-- The block `if (Node::nodeTypeFromCursor(c->cursor) != Invalid && loc.exists()) { ... }` of
`addReference`.  The `Bool` is true when the block returned from `addReference`. -/
def addReferenceNode (env : Clang) (c : CursorTree) (id : QByteArray) (loc : Location)
    (g : Graph) : Bool × Graph :=
  if env.nodeTypeFromCursor c.cursor ≠ .Invalid && env.locationExists loc then
    let kind := c.cursor.kind
    let ref := referencedCursor env c.cursor
    if !env.isValidCursor ref then (true, g)
    else if kind = .DeclRefExpr && !declRefAccepts ref.kind then (true, g)
    else
      let refId := env.locationToString (env.location ref)
      match QHash.value g.sNodes refId with
      | none => (true, g)
      | some refNode =>
        let refNode1 := declarationOf env g refNode
        let g1 := g.qAssert (!QHash.contains g.sNodes id)
        let g2 := (Node.new g1 (some refNode1) .Reference c.cursor loc id).1
        (false, g2.qAssert (QHash.contains g2.sNodes id))
  else (false, g)

mutual
/-- The method `ClangRunnable::addReference(CursorNode *c, const QByteArray &id, const Location
&loc)`. -/
def addReference (env : Clang) : CursorTree → QByteArray → Location → Graph → Graph
  | .node cursor children, id, loc, g =>
    if QHash.contains g.sNodes id then g
    else
      let r := addReferenceNode env (.node cursor children) id loc g
      if r.1 then r.2 else addReferenceChildren env children r.2
/-- The loop of `addReference` over the children of `c`: `addReference(child, l.toString(), l)`
with `l` the child's own Location. -/
def addReferenceChildren (env : Clang) : List CursorTree → Graph → Graph
  | [], g => g
  | child :: rest, g =>
    let l := env.location child.cursor
    addReferenceChildren env rest (addReference env child (env.locationToString l) l g)
end

/-- The loop of `run` over the pending references: `addReference(p.node, it.key(),
p.location)` for each entry. -/
def addReferences (env : Clang) : List (QByteArray × PendingReference) → Graph → Graph
  | [], g => g
  | e :: rest, g => addReferences env rest (addReference env e.2.node e.1 e.2.location g)

/-- The block of `run` under `sTreeMutex`: `buildTree(sRoot, ud.root, references)` with an empty
`references`, then `addReference` for every pending entry in the order the hash iterates. -/
def indexScratchTree (env : Clang) (sRoot : Option Nat) (root : CursorTree) (g : Graph) :
    Graph :=
  let st := buildTree env sRoot none root { graph := g, references := [] }
  addReferences env (env.hashOrder st.references) st.graph

/-! ## The parse task (`ClangRunnable::run`) -/

/-- Modelled from the spec: the language of a compile command (`GccArguments::language()`;
GccArguments.h is not in src/).  `run` tests for `LangCPlusPlus` only. -/
inductive Language where
  | LangCPlusPlus
  | LangOther
  deriving DecidableEq, Repr

/-- Modelled from the spec: a precompiled-preamble entry (`PreCompile`; PreCompile.h is not in
src/), as far as `run` reads it: its file name. -/
structure PreCompile where
  filename : String
  deriving DecidableEq, Repr

/-- What the parser returns for a file: the cursor tree below the translation-unit cursor and
the inclusions `clang_getInclusions` reports, each with the length of its inclusion stack. -/
structure TranslationUnit where
  cursors : CursorTree
  inclusions : List (String × Nat)

/-- What `run` does that other parts of the process can observe. -/
inductive Event where
  | pchLock
  | pchUnlock
  | parse (attempt : Nat) (args : List (Option String)) (pchHeld : Bool)
  | couldNotParse (attempt : Nat)
  | precompileAdd (direct all : List String)
  | visitChildren
  | treeLock
  | buildTree
  | addReferences
  | treeUnlock
  | finished
  deriving DecidableEq, Repr

/-- The environment of one `run`: the flag `disablePch`, the compile command, the result of
`PreCompile::get(compilerOptions)`, the file system, the parser (by attempt and by the
`argCount` arguments passed), and the successive values of `mFile.lastModified()`. -/
structure RunEnv where
  disablePch : Bool
  compilerOptions : List String
  precompileGet : Option PreCompile
  language : Language
  isFile : String → Bool
  parse : Nat → List (Option String) → Option TranslationUnit
  lastModified : Nat → Nat

/-- The local state of `run` during the attempt loop: whether this task holds `sPchMutex`, the
vector `args`, the variable `unit`, how often `lastModified()` has been read, the events so far
and the assertion flag. -/
structure RunState where
  pchHeld : Bool
  args : List (Option String)
  unit : Option TranslationUnit
  reads : Nat
  trace : List Event
  assertFailed : Bool

/-- The constant `WithPCH` of the enumeration in `run`. -/
def WithPCH : Nat := 0

/-- The statement `sPchMutex.lock()`. -/
def RunState.lock (s : RunState) : RunState :=
  { s with pchHeld := true, trace := s.trace ++ [.pchLock] }

/-- The statement `sPchMutex.unlock()`. -/
def RunState.unlock (s : RunState) : RunState :=
  { s with pchHeld := false, trace := s.trace ++ [.pchUnlock] }

/-- The lines `if (args.size() < argCount) args.resize(argCount);`: new entries are null. -/
def resizeArgs (args : List (Option String)) (argCount : Nat) : List (Option String) :=
  if args.length < argCount then args ++ List.replicate (argCount - args.length) none else args

/-- The loop `for (int a=0; a<compilerOptionsCount; ++a) args[a] = compilerOptions.at(a)`. -/
def fillArgs (args : List (Option String)) (compilerOptions : List String) :
    List (Option String) :=
  compilerOptions.map some ++ args.drop compilerOptions.length

/-- The callback `precompileHeaders` over the inclusions of a unit: entries with an empty
inclusion stack are skipped, those with a stack of length 1 are direct. -/
def precompileHeaders (inclusions : List (String × Nat)) : List String × List String :=
  ((inclusions.filter (fun e => e.2 == 1)).map Prod.fst,
   (inclusions.filter (fun e => e.2 != 0)).map Prod.fst)

/-- The `do { ... } while (false)` of `run`: read the modification time, assert that no argument
is null, parse.  The `continue` taken when a unit came back and the modification time has
changed jumps to the loop test `while (false)`, which ends the loop like falling through. -/
def parseOnce (env : RunEnv) (i argCount : Nat) (s : RunState) : RunState :=
  let before := env.lastModified s.reads
  let s1 := { s with reads := s.reads + 1,
                     assertFailed := s.assertFailed || s.args.contains none }
  let unit := env.parse i (s1.args.take argCount)
  let s2 := { s1 with unit := unit,
                      trace := s1.trace ++ [.parse i (s1.args.take argCount) s1.pchHeld] }
  match unit with
  | some _ =>
    let after := env.lastModified s2.reads
    let s3 := { s2 with reads := s2.reads + 1 }
    if before ≠ after then s3 else s3
  | none => s2

/-- The rest of the loop body of `run` once the guards of the `WithPCH` attempt are passed: the
unlock `if (!disablePch && i == WithPCH) sPchMutex.unlock()`, the argument vector, the parse and
the bookkeeping after it. -/
def attemptParse (env : RunEnv) (i : Nat) (precompile : Option PreCompile) (argCount : Nat)
    (pchfile : String) (s : RunState) : RunState :=
  let s1 := if !env.disablePch && i == WithPCH then s.unlock else s
  let args1 := fillArgs (resizeArgs s1.args argCount) env.compilerOptions
  let args2 :=
    if i == WithPCH then
      (args1.set env.compilerOptions.length (some "-pch")).set
        (env.compilerOptions.length + 1) (some pchfile)
    else args1
  let s2 := parseOnce env i argCount { s1 with args := args2 }
  match s2.unit with
  | none => { s2 with trace := s2.trace ++ [.couldNotParse i] }
  | some unit =>
    match precompile with
    | some _ =>
      let pre := precompileHeaders unit.inclusions
      { s2 with trace := s2.trace ++ [.precompileAdd pre.1 pre.2] }
    | none => s2

/-- One pass through the body of `for (int i=0; i<2 && !unit; ++i)`; each of the three
`continue` statements ends the pass. -/
def attempt (env : RunEnv) (i : Nat) (s : RunState) : RunState :=
  let locksHere := !env.disablePch && i == WithPCH
  let precompile := if locksHere then env.precompileGet else none
  let s1 := if locksHere then s.lock else s
  let argCount := env.compilerOptions.length
  if i == WithPCH then
    match precompile with
    | none => s1
    | some pc =>
      if env.language ≠ .LangCPlusPlus then s1.unlock
      else if !env.isFile pc.filename then s1.unlock
      else attemptParse env i precompile (argCount + 2) pc.filename s1
  else attemptParse env i precompile argCount "" s1

/-- The loop `for (int i=0; i<2 && !unit; ++i)` of `run`, started with `unit = 0` and an empty
`args`. -/
def attemptLoop (env : RunEnv) : RunState :=
  let s0 : RunState := { pchHeld := false, args := [], unit := none, reads := 0, trace := [],
                         assertFailed := false }
  let s1 := if s0.unit.isNone then attempt env 0 s0 else s0
  if s1.unit.isNone then attempt env 1 s1 else s1

/-- What `run` leaves behind: whether `sPchMutex` is still held, the graph, the events, and
whether an assertion was violated. -/
structure RunResult where
  pchHeld : Bool
  graph : Graph
  trace : List Event
  assertFailed : Bool

/-- The block `if (ud.root) { ... }` of `run`: under `sTreeMutex`, the build pass and the
resolve pass over the scratch tree below `ud.root`; nothing without a root.  The block reads
`ud.root` only.  A scratch heap that is not a finite tree below the root would make the passes
run forever; the embedding then leaves the graph as it is and the lock taken. -/
def indexUserData (clang : Clang) (sRoot : Option Nat) (ud : ComprehensiveTreeUserData)
    (g : Graph) : Graph × List Event :=
  match ud.root with
  | none => (g, [.finished])
  | some r =>
    match readTree ud.heap (2 * ud.heap.length) none r with
    | none => (g, [.treeLock])
    | some root =>
      (indexScratchTree clang sRoot root g,
        [.treeLock, .buildTree, .addReferences, .treeUnlock, .finished])

/-- The method `ClangRunnable::run()`: the attempt loop, then, when a unit came back, the
reconstruction of the scratch tree by `clang_visitChildren` with `buildComprehensiveTree` and
the block `if (ud.root) { ... }`. -/
def run (env : RunEnv) (clang : Clang) (sRoot : Option Nat) (g : Graph) : RunResult :=
  let s := attemptLoop env
  match s.unit with
  | none => { pchHeld := s.pchHeld, graph := g, trace := s.trace ++ [.finished],
              assertFailed := s.assertFailed }
  | some unit =>
    let ud := (clang_visitChildren buildComprehensiveTree unit.cursors
                ComprehensiveTreeUserData.init).2
    let r := indexUserData clang sRoot ud g
    { pchHeld := s.pchHeld, graph := r.1, trace := s.trace ++ [.visitChildren] ++ r.2,
      assertFailed := s.assertFailed || ud.assertFailed }

/-! ## The assignments to the pending map and the keys the resolver sweeps -/

mutual
/-- The assignments `references[id] = r` that `buildTree` executes on the node `c`, in the
order of execution, starting from the graph `g`.  The control flow of `buildTree` reads the
graph only, never `references`. -/
def buildTreeStores (env : Clang) (parent : Option Nat) (cparent : Option CursorTree) :
    CursorTree → Graph → List (QByteArray × PendingReference)
  | .node cursor children, g =>
    let c := CursorTree.node cursor children
    let m := buildTreeMacroExpansion env cparent c g
    if m.1 then []
    else
      let type := env.nodeTypeFromCursor cursor
      if type = .Reference then
        let loc := env.location cursor
        if env.locationExists loc then
          let id := env.locationToString loc
          if !QHash.contains m.2.sNodes id then [(id, { node := c, location := loc })]
          else []
        else []
      else
        match cparent with
        | some cp =>
          if type ≠ .Invalid then
            match buildTreeDeclaration env parent cp c type m.2 with
            | none => []
            | some (g2, parent2) => buildTreeChildrenStores env parent2 c children g2
          else buildTreeChildrenStores env parent c children m.2
        | none => buildTreeChildrenStores env parent c children m.2
/-- The assignments `references[id] = r` executed by the loop of `buildTree` over the children
of `c`. -/
def buildTreeChildrenStores (env : Clang) (parent : Option Nat) (c : CursorTree) :
    List CursorTree → Graph → List (QByteArray × PendingReference)
  | [], _ => []
  | child :: rest, g =>
    buildTreeStores env parent (some c) child g ++
      buildTreeChildrenStores env parent c rest
        (buildTree env parent (some c) child { graph := g, references := [] }).graph
end

/-- The map after the assignments `stores` in order. -/
def applyStores (refs : QHash PendingReference) (stores : List (QByteArray × PendingReference)) :
    QHash PendingReference :=
  stores.foldl (fun m e => QHash.insert m e.1 e.2) refs

mutual
/-- The Location keys of the nodes strictly below `c` in the scratch tree: the keys that the
sweep of `addReference` over the descendants of `c` can pass on. -/
def keysBelow (env : Clang) : CursorTree → List QByteArray
  | .node _ children => keysOfForest env children
/-- The Location keys of the nodes of a forest. -/
def keysOfForest (env : Clang) : List CursorTree → List QByteArray
  | [] => []
  | child :: rest =>
    env.locationToString (env.location child.cursor) ::
      (keysBelow env child ++ keysOfForest env rest)
end

/-! ## Invariants of the symbol graph -/

/-- The graph `g'` comes from `g` by node creations at keys that were absent at the moment of
creation: the node heap only grows, no entry of the index that `g` has is changed, and every
node allocated since `g` has a key that `g` did not hold and is the index entry of its key. -/
def FreshGrowth (g g' : Graph) : Prop :=
  (∃ new, g'.nodes = g.nodes ++ new) ∧
  (∀ k p, List.lookup k g.sNodes = some p → List.lookup k g'.sNodes = some p) ∧
  (∀ i n, g.nodes.length ≤ i → g'.nodes[i]? = some n →
    List.lookup n.id g.sNodes = none ∧ List.lookup n.id g'.sNodes = some i)

/-- The graph after `addReference` has created the Reference node for `c` under `parent`. -/
def referenceCreated (g : Graph) (parent : Nat) (cursor : CXCursor) (loc : Location)
    (id : QByteArray) : Graph :=
  { nodes := g.nodes ++ [{ parent := some parent, type := .Reference, cursor := cursor,
                           location := loc, id := id }],
    sNodes := QHash.insert g.sNodes id g.nodes.length,
    assertFailed := g.assertFailed || QHash.contains g.sNodes id
      || !QHash.contains (QHash.insert g.sNodes id g.nodes.length) id,
    nullDeref := g.nullDeref }

/-- Every node allocated since `g` has the string of its own Location as its key. -/
def KeyedGrowth (env : Clang) (g g2 : Graph) : Prop :=
  ∀ i n, g.nodes.length ≤ i → g2.nodes[i]? = some n → n.id = env.locationToString n.location

/-! ## Sample inputs -/

/-- A cursor of kind `k` at `file:line`, spelled `sp`. -/
def sampleCursorAt (k : CXCursorKind) (file : String) (line : Nat) (sp : String) : CXCursor :=
  { kind := k, data := line, location := { file := some file, line := line, column := 1 },
    spelling := sp }

/-- The Location key used by the sample environments: `path:line`. -/
def sampleKey (l : Location) : QByteArray :=
  l.path ++ ":" ++ String.mk (Nat.toDigits 10 l.line)

/-- A sample environment in which no cursor refers to another one: node types by cursor kind,
Locations taken from the cursor location, every file present. -/
def sampleClang : Clang :=
  { getCursorSemanticParent := fun _ => nullCursor
    getCursorReferenced := fun _ => nullCursor
    getCursorDefinition := fun _ => nullCursor
    equalCursors := fun a b => decide (a = b)
    isValidCursor := fun c => decide (c ≠ nullCursor)
    nodeTypeFromCursor := fun c =>
      match c.kind with
      | .MacroDefinition => .MacroDefinition
      | .MacroExpansion => .Reference
      | .DeclRefExpr => .Reference
      | .other 43 => .Reference
      | .ClassDecl => .Class
      | .StructDecl => .Struct
      | .CXXMethod => .MethodDeclaration
      | .FunctionDecl => .Function
      | .VarDecl => .Variable
      | _ => .Invalid
    methodDeclaration := fun _ _ => none
    location := fun c =>
      { path := c.location.file.getD "", line := c.location.line, column := c.location.column }
    locationExists := fun l => l.path != ""
    locationIsNull := fun l => l.path == ""
    locationToString := sampleKey
    hashOrder := fun h => h }

/-- The graph after `ClangRunnable::init()`: the root node alone, no index entry. -/
def sampleGraph : Graph :=
  { nodes := [{ parent := none, type := .Root, cursor := nullCursor,
                location := { path := "", line := 0, column := 0 }, id := "" }],
    sNodes := [], assertFailed := false, nullDeref := false }

/-- The scratch tree of `b.c`, which includes `a.h`: the macro `FOO` defined at `a.h:3` and
expanded at `b.c:10`. -/
def macroTree : CursorTree :=
  .node (sampleCursorAt .TranslationUnit "b.c" 0 "b.c")
    [.node (sampleCursorAt .MacroDefinition "a.h" 3 "FOO") [],
     .node (sampleCursorAt .MacroExpansion "b.c" 10 "FOO") []]

/-- The state `buildTree` leaves when run on `root` from the sample graph with an empty
pending map. -/
def sampleBuild (env : Clang) (root : CursorTree) : BuildState :=
  buildTree env (some 0) none root { graph := sampleGraph, references := [] }

/-- The declaration of `C::m` at `c.h:8`. -/
def methodDeclCursor : CXCursor := sampleCursorAt .CXXMethod "c.h" 8 "m"

/-- The definition of `C::m` at `c.cpp:4`. -/
def methodDefCursor : CXCursor := sampleCursorAt .CXXMethod "c.cpp" 4 "m"

/-- The call site at `d.cpp:1`. -/
def methodCallCursor : CXCursor := sampleCursorAt .DeclRefExpr "d.cpp" 1 "m"

/-- The scratch tree of `d.cpp`. -/
def methodTree : CursorTree :=
  .node (sampleCursorAt .TranslationUnit "d.cpp" 0 "d.cpp")
    [.node (sampleCursorAt .ClassDecl "c.h" 7 "C") [.node methodDeclCursor []],
     .node methodDefCursor [],
     .node (sampleCursorAt .FunctionDecl "d.cpp" 0 "f") [.node methodCallCursor []]]

/-- The sample environment in which the call refers to the definition of `C::m`, the definition
has node type MethodDefinition and `methodDeclaration()` finds the method declaration of the
same name. -/
def methodClang : Clang :=
  { sampleClang with
    getCursorReferenced := fun c => if c = methodCallCursor then methodDefCursor else nullCursor
    nodeTypeFromCursor := fun c =>
      if c = methodDefCursor then .MethodDefinition else sampleClang.nodeTypeFromCursor c
    methodDeclaration := fun g p =>
      match g.nodes[p]? with
      | some n =>
        let i := g.nodes.findIdx
          (fun m => decide (m.type = .MethodDeclaration) && m.cursor.spelling == n.cursor.spelling)
        if i < g.nodes.length then some i else none
      | none => none }

/-- The forward declaration at `x.h:5`. -/
def forwardDeclCursor : CXCursor := sampleCursorAt .ClassDecl "x.h" 5 "C"

/-- The definition at `x.h:20`. -/
def classDefCursor : CXCursor := sampleCursorAt .ClassDecl "x.h" 20 "C"

/-- The use-site at `y.c:7`, a type reference. -/
def classUseCursor : CXCursor := sampleCursorAt (.other 43) "y.c" 7 "C"

/-- The scratch tree of `y.c`. -/
def forwardTree : CursorTree :=
  .node (sampleCursorAt .TranslationUnit "y.c" 0 "y.c")
    [.node forwardDeclCursor [], .node classDefCursor [], .node classUseCursor []]

/-- The sample environment in which the use-site refers to the forward declaration, both
declarations refer to themselves, and the definition of either is the definition. -/
def forwardClang : Clang :=
  { sampleClang with
    getCursorReferenced := fun c =>
      if c = classUseCursor then forwardDeclCursor
      else if c = forwardDeclCursor then forwardDeclCursor
      else if c = classDefCursor then classDefCursor
      else nullCursor
    getCursorDefinition := fun c =>
      if c = forwardDeclCursor ∨ c = classDefCursor then classDefCursor else nullCursor }

/-- The scratch tree of a file that holds the definition only. -/
def definitionOnlyTree : CursorTree :=
  .node (sampleCursorAt .TranslationUnit "x.h" 0 "x.h") [.node classDefCursor []]

/-- The sample environment in which the file `gone.h` does not exist. -/
def goneClang : Clang :=
  { sampleClang with locationExists := fun l => l.path != "" && l.path != "gone.h" }

/-- The scratch tree of `b.c`: `FOO` defined in `gone.h` and in `a.h`, expanded at `b.c:10`. -/
def twoDefinitionsTree : CursorTree :=
  .node (sampleCursorAt .TranslationUnit "b.c" 0 "b.c")
    [.node (sampleCursorAt .MacroDefinition "gone.h" 1 "FOO") [],
     .node (sampleCursorAt .MacroDefinition "a.h" 3 "FOO") [],
     .node (sampleCursorAt .MacroExpansion "b.c" 10 "FOO") []]

/-- The first reference expression at `a.c:5`. -/
def firstUseCursor : CXCursor :=
  { kind := .DeclRefExpr, data := 1, location := { file := some "a.c", line := 5, column := 1 },
    spelling := "x" }

/-- The second reference expression at `a.c:5`, another cursor at the same Location. -/
def secondUseCursor : CXCursor :=
  { kind := .DeclRefExpr, data := 2, location := { file := some "a.c", line := 5, column := 1 },
    spelling := "x" }

/-- A scratch tree in which both reference expressions are visited, the first one first. -/
def twoUsesTree : CursorTree :=
  .node (sampleCursorAt .TranslationUnit "a.c" 0 "a.c")
    [.node firstUseCursor [], .node secondUseCursor []]

/-- The variable declared at `a.c:9`. -/
def lateVarCursor : CXCursor := sampleCursorAt .VarDecl "a.c" 9 "v"

/-- The use of the variable at `a.c:2`. -/
def earlyUseCursor : CXCursor := sampleCursorAt .DeclRefExpr "a.c" 2 "v"

/-- The scratch tree of `a.c`: the function with the use comes before the declaration. -/
def useBeforeDeclTree : CursorTree :=
  .node (sampleCursorAt .TranslationUnit "a.c" 0 "a.c")
    [.node (sampleCursorAt .FunctionDecl "a.c" 1 "f") [.node earlyUseCursor []],
     .node lateVarCursor []]

/-- The sample environment in which the use refers to the variable. -/
def useBeforeDeclClang : Clang :=
  { sampleClang with
    getCursorReferenced := fun c => if c = earlyUseCursor then lateVarCursor else nullCursor }

/-- The cursor tree of `a.c` as the parser has it: the tree of `useBeforeDeclTree` with a type
reference below the use of `v` at `a.c:2`. -/
def useWithChildUnit : CursorTree :=
  .node (sampleCursorAt .TranslationUnit "a.c" 0 "a.c")
    [.node (sampleCursorAt .FunctionDecl "a.c" 1 "f")
      [.node earlyUseCursor [.node (sampleCursorAt (.other 43) "a.c" 2 "T") []]],
     .node lateVarCursor []]

/-- The scratch tree of `d.cpp` with the call site visited before the class and the method
definition. -/
def methodTreeUseFirst : CursorTree :=
  .node (sampleCursorAt .TranslationUnit "d.cpp" 0 "d.cpp")
    [.node (sampleCursorAt .FunctionDecl "d.cpp" 0 "f") [.node methodCallCursor []],
     .node (sampleCursorAt .ClassDecl "c.h" 7 "C") [.node methodDeclCursor []],
     .node methodDefCursor []]

/-- The variable `w` declared at `a.c:8`. -/
def otherVarCursor : CXCursor := sampleCursorAt .VarDecl "a.c" 8 "w"

/-- A type reference at `a.c:3`, pending, which refers to `w`. -/
def outerUseCursor : CXCursor := sampleCursorAt (.other 43) "a.c" 3 "w"

/-- A reference expression below it, at the Location `a.c:2` of `earlyUseCursor` (another
cursor: its `data` differs), which refers to `w`. -/
def innerUseCursor : CXCursor :=
  { kind := .DeclRefExpr, data := 7, location := { file := some "a.c", line := 2, column := 1 },
    spelling := "w" }

/-- The scratch tree of `a.c`: the use of `v` at `a.c:2`, then the reference at `a.c:3` with
the inner reference below it, then the declarations of `v` and `w`. -/
def sweptKeyTree : CursorTree :=
  .node (sampleCursorAt .TranslationUnit "a.c" 0 "a.c")
    [.node (sampleCursorAt .FunctionDecl "a.c" 1 "f")
      [.node earlyUseCursor [], .node outerUseCursor [.node innerUseCursor []]],
     .node lateVarCursor [],
     .node otherVarCursor []]

/-- The sample environment in which the use at `a.c:2` refers to `v` and the two other
references refer to `w`. -/
def sweptKeyClang : Clang :=
  { sampleClang with
    getCursorReferenced := fun c =>
      if c = earlyUseCursor then lateVarCursor
      else if c = outerUseCursor ∨ c = innerUseCursor then otherVarCursor
      else nullCursor }

/-- A parse task with preambles disabled whose file changes while it is parsed: the parser
returns the unit of `b.c`, and the modification time read after the parse (1) differs from the
one read before it (0). -/
def raceEnv : RunEnv :=
  { disablePch := true
    compilerOptions := ["-I/usr/include"]
    precompileGet := none
    language := .LangCPlusPlus
    isFile := fun _ => false
    parse := fun _ _ => some { cursors := macroTree, inclusions := [] }
    lastModified := fun n => n }

/-- A parse task with preambles enabled for which `PreCompile::get` returns null; the parser
returns the unit of `b.c` and the file does not change. -/
def noPreambleEnv : RunEnv :=
  { disablePch := false
    compilerOptions := ["-I/usr/include"]
    precompileGet := none
    language := .LangCPlusPlus
    isFile := fun _ => false
    parse := fun _ _ => some { cursors := macroTree, inclusions := [] }
    lastModified := fun _ => 0 }

/-- The node of `macroTree` that defines `FOO`. -/
def macroDefinitionNode : CursorTree :=
  .node (sampleCursorAt .MacroDefinition "a.h" 3 "FOO") []

/-- The node of `macroTree` that expands `FOO`. -/
def macroExpansionNode : CursorTree :=
  .node (sampleCursorAt .MacroExpansion "b.c" 10 "FOO") []

/-- The build state when `buildTree` reaches the expansion in `macroTree`: the definition has
been built. -/
def macroStateAtExpansion : BuildState :=
  buildTree sampleClang (some 0) (some macroTree) macroDefinitionNode
    { graph := sampleGraph, references := [] }

/-- The state after the first callback of a traversal: the cursor `a.c:1` below the translation
unit. -/
def sampleStateAfterFirst : ComprehensiveTreeUserData :=
  (buildComprehensiveTree (sampleCursor .ClassDecl 1) (sampleCursor .TranslationUnit 0)
    ComprehensiveTreeUserData.init).2

/-! ## Callback sequences of the tree reconstruction -/

/-- The state after the parser has called the visitor `buildComprehensiveTree` for the pairs
(cursor, reported parent) of `calls`, in order.  What a call returns tells the parser where to
go on and does not enter the state. -/
def visitCallbacks (calls : List (CXCursor × CXCursor)) (u : ComprehensiveTreeUserData) :
    ComprehensiveTreeUserData :=
  calls.foldl (fun v cb => (buildComprehensiveTree cb.1 cb.2 v).2) u

/-- The number of callbacks of `calls` received for cursors that have a file. -/
def fileCallbacks (calls : List (CXCursor × CXCursor)) : Nat :=
  (calls.filter (fun cb => cb.1.location.file.isSome)).length

/-- The traversal state `u` has the shape of the tree `t`: the heap is the layout of `t`, the
nodes of the frames are the nodes of the rightmost path of `t` without its end, and the end of
that path is the last node created.  Nothing is said about the cursors of the frames. -/
def Shaped (u : ComprehensiveTreeUserData) (t : CursorTree) : Prop :=
  u.heap = layout 0 none none t ∧ u.root = some 0 ∧
  ∃ fr lc li, spine 0 t = fr ++ [(lc, li)] ∧ fr ≠ [] ∧
    u.parents.map Prod.snd = fr.map (fun x => some x.2) ∧ u.last = some li

/-- A cursor that equals the class cursor of `a.c:1` under the (kind, location) equality and is
another cursor: its `data` differs. -/
def collidingClassCursor : CXCursor :=
  { kind := .ClassDecl, data := 99, location := { file := some "a.c", line := 1, column := 1 },
    spelling := "" }

/-- A callback sequence: a class below the translation unit, a field below the class, a method
reported with the colliding class cursor as its parent, a parameter below the method, a cursor
without a file, and a variable below the translation unit. -/
def collidingCalls : List (CXCursor × CXCursor) :=
  [(sampleCursor .ClassDecl 1, sampleCursor .TranslationUnit 0),
   (sampleCursor .FieldDecl 2, sampleCursor .ClassDecl 1),
   (sampleCursor .CXXMethod 5, collidingClassCursor),
   (sampleCursor .ParmDecl 6, sampleCursor .CXXMethod 5),
   (nullCursor, sampleCursor .TranslationUnit 0),
   (sampleCursor .VarDecl 7, sampleCursor .TranslationUnit 0)]

/-- Callbacks that follow the inconsistent one of the sample: a variable reported below the
cursor of the inconsistent callback, then a variable reported below the translation unit. -/
def callsAfterOrphan : List (CXCursor × CXCursor) :=
  [(sampleCursor .VarDecl 11, sampleCursor .FieldDecl 10),
   (sampleCursor .VarDecl 7, sampleCursor .TranslationUnit 0)]

/-! ## Invariants of the scratch heap -/

/-- No `DeclRefExpr` node of the scratch heap has a child, and the nodes that a later callback
can attach a child to (the last node, the nodes of the frames) have the kind of the cursor
they are found by. -/
def ChildlessRefs (u : ComprehensiveTreeUserData) : Prop :=
  (∀ (i : Nat) (n : CursorNode), u.heap[i]? = some n → n.firstChild.isSome = true →
    n.cursor.kind ≠ .DeclRefExpr) ∧
  (∀ l, u.last = some l → ∃ n, u.heap[l]? = some n ∧ n.cursor.kind = u.lastCursor.kind) ∧
  (∀ f ∈ u.parents, ∀ p, f.2 = some p →
    ∃ n, u.heap[p]? = some n ∧ n.cursor.kind = f.1.kind)

/-- The heap `h2` has the cells of `h` with the same cursors, and the same first child except
at `q`. -/
def SameCells (q : Nat) (h h2 : List CursorNode) : Prop :=
  ∀ i, (h[i]? = none ∧ h2[i]? = none) ∨
    ∃ n n2, h[i]? = some n ∧ h2[i]? = some n2 ∧ n2.cursor = n.cursor ∧
      (i ≠ q → n2.firstChild = n.firstChild)

/-- The links of the scratch heap are well formed: a first child, a last child and a next
sibling are allocated cells with a greater index, the children have the node as their parent
and a next sibling has the parent of the node. -/
def WellLinked (heap : List CursorNode) : Prop :=
  ∀ (i : Nat) (n : CursorNode), heap[i]? = some n →
    (∀ c, n.firstChild = some c → i < c ∧ ∃ m, heap[c]? = some m ∧ m.parent = some i) ∧
    (∀ s, n.nextSibling = some s →
      i < s ∧ ∃ m, heap[s]? = some m ∧ m.parent = n.parent) ∧
    (∀ l, n.lastChild = some l → i < l ∧ ∃ m, heap[l]? = some m ∧ m.parent = some i)

/-- The traversal state points into a well-linked heap: the root is a cell without a parent,
the last node and the nodes of the frames are allocated. -/
def WellFormed (u : ComprehensiveTreeUserData) : Prop :=
  WellLinked u.heap ∧
  (∀ r, u.root = some r → ∃ n, u.heap[r]? = some n ∧ n.parent = none) ∧
  (∀ l, u.last = some l → l < u.heap.length) ∧
  (∀ f ∈ u.parents, ∀ p, f.2 = some p → p < u.heap.length)

/-- The heap `h2` has the cells of `h`, with these changes at most: the cell `ptr` gets the
parent `q`, the cell `q` gets `ptr` as its first or last child, a next sibling is cleared, and a
cell that satisfies `L` gets `ptr` as its next sibling. -/
def Relinked (q ptr : Nat) (L : Nat → Prop) (h h2 : List CursorNode) : Prop :=
  ∀ i, (h[i]? = none ∧ h2[i]? = none) ∨
    ∃ n n2, h[i]? = some n ∧ h2[i]? = some n2 ∧
      (n2.parent = n.parent ∨ (i = ptr ∧ n2.parent = some q)) ∧
      (n2.firstChild = n.firstChild ∨ (i = q ∧ n2.firstChild = some ptr)) ∧
      (n2.lastChild = n.lastChild ∨ (i = q ∧ n2.lastChild = some ptr)) ∧
      (n2.nextSibling = n.nextSibling ∨ n2.nextSibling = none ∨
        (L i ∧ n2.nextSibling = some ptr))

/-! ## The parser invocations of a run -/

/-- The invocations of `clang_parseTranslationUnit` among the events of a run, in order: the
attempt `i` and the first `argCount` entries of `args`. -/
def parseCalls : List Event → List (Nat × List (Option String))
  | [] => []
  | .parse i args _ :: rest => (i, args) :: parseCalls rest
  | _ :: rest => parseCalls rest

/-- The state of `run` when the attempt loop is entered: `unit = 0`, an empty `args`. -/
def RunState.init : RunState :=
  { pchHeld := false, args := [], unit := none, reads := 0, trace := [], assertFailed := false }

/-- The sample environment in which the definition of `C::m` at `c.cpp:4` has the class `C` at
`c.h:7` as its semantic parent. -/
def semanticClang : Clang :=
  { methodClang with
    getCursorSemanticParent := fun c =>
      if c = methodDefCursor then sampleCursorAt .ClassDecl "c.h" 7 "C" else nullCursor }

/-- A variable declared in the body of `C::m`, at `c.cpp:5`. -/
def bodyVarCursor : CXCursor := sampleCursorAt .VarDecl "c.cpp" 5 "x"

/-- The scratch node of the definition of `C::m` with the variable of its body below it. -/
def methodDefNode : CursorTree := .node methodDefCursor [.node bodyVarCursor []]

/-- The scratch tree of `c.cpp`: the class `C` with the declaration of `m`, then the definition
of `C::m` with its body. -/
def methodBodyTree : CursorTree :=
  .node (sampleCursorAt .TranslationUnit "c.cpp" 0 "c.cpp")
    [.node (sampleCursorAt .ClassDecl "c.h" 7 "C") [.node methodDeclCursor []],
     methodDefNode]

/-- The state in which `buildTree` reaches the definition of `C::m` in the scratch tree of
`c.cpp`: the class and the method declaration have their nodes. -/
def semanticStateAtBody : BuildState :=
  buildTree semanticClang (some 0) (some methodBodyTree)
    (.node (sampleCursorAt .ClassDecl "c.h" 7 "C") [.node methodDeclCursor []])
    { graph := sampleGraph, references := [] }

/-- A parse task with a usable preamble `p.pch` for which the parser fails when given the
preamble and returns the unit of `b.c` without it. -/
def fallbackEnv : RunEnv :=
  { disablePch := false
    compilerOptions := ["-I/usr/include", "-DX=1"]
    precompileGet := some { filename := "p.pch" }
    language := .LangCPlusPlus
    isFile := fun f => f == "p.pch"
    parse := fun i _ => if i = 0 then none else some { cursors := macroTree, inclusions := [] }
    lastModified := fun _ => 0 }

/-- The scratch tree of a file `b.c` in which the expansion of `FOO` at `b.c:10` comes before a
definition of `FOO` at `b.c:20` among the children of the translation unit. -/
def expansionFirstTree : CursorTree :=
  .node (sampleCursorAt .TranslationUnit "b.c" 0 "b.c")
    [.node (sampleCursorAt .MacroExpansion "b.c" 10 "FOO") [],
     .node (sampleCursorAt .MacroDefinition "b.c" 20 "FOO") []]

/-- Every key of the index of `g` is a key of the index of `g2`. -/
def IndexIncluded (g g2 : Graph) : Prop :=
  ∀ k, QHash.contains g.sNodes k = true → QHash.contains g2.sNodes k = true

/-- Every node allocated since `g` is a Reference node. -/
def ReferenceGrowth (g g2 : Graph) : Prop :=
  ∀ i n, g.nodes.length ≤ i → g2.nodes[i]? = some n → n.type = .Reference

/-- The node that the index holds for the key `k`, when it holds one. -/
def Graph.nodeAt (g : Graph) (k : QByteArray) : Option Node :=
  (QHash.value g.sNodes k).bind (fun p => g.nodes[p]?)

/-- Every entry of the index points to an allocated node. -/
def Graph.Consistent (g : Graph) : Prop :=
  ∀ e ∈ g.sNodes, e.2 < g.nodes.length

/-- A reference expression at `a.c:4`, which refers to `w`. -/
def deepUseCursor : CXCursor := sampleCursorAt .DeclRefExpr "a.c" 4 "w"

/-- The scratch tree of `a.c`: the use of `v` at `a.c:2`, then the reference at `a.c:3` with
the reference at `a.c:4` below it, then the declarations of `v` and `w`. -/
def nestedPendingTree : CursorTree :=
  .node (sampleCursorAt .TranslationUnit "a.c" 0 "a.c")
    [.node (sampleCursorAt .FunctionDecl "a.c" 1 "f")
      [.node earlyUseCursor [], .node outerUseCursor [.node deepUseCursor []]],
     .node lateVarCursor [],
     .node otherVarCursor []]

/-- The sample environment in which the use at `a.c:2` refers to `v` and the references at
`a.c:3` and `a.c:4` refer to `w`. -/
def nestedPendingClang : Clang :=
  { sampleClang with
    getCursorReferenced := fun c =>
      if c = earlyUseCursor then lateVarCursor
      else if c = outerUseCursor ∨ c = deepUseCursor then otherVarCursor
      else nullCursor }

/-- A parser under which only the reference at `a.c:4` has a referenced cursor, the variable
`w`. -/
def deepOnlyClang : Clang :=
  { sampleClang with
    getCursorReferenced := fun c => if c = deepUseCursor then otherVarCursor else nullCursor }

/-- The graph `g` has grown from `g0` by fresh nodes, its index is consistent, and only keys of
`P` were added to the index. -/
def GrownWithin (g0 : Graph) (P : List QByteArray) (g : Graph) : Prop :=
  FreshGrowth g0 g ∧ g.Consistent ∧
  ∀ k, k ∉ P → List.lookup k g.sNodes = List.lookup k g0.sNodes

/-- The keys that resolving a pending entry can add to the index: the key of the entry and the
Location keys of the scratch nodes below its scratch node. -/
def entryKeys (env : Clang) (e : QByteArray × PendingReference) : List QByteArray :=
  e.1 :: keysBelow env e.2.node

mutual
/-- The Location keys of the referenced cursors of a scratch node and of the nodes below it:
the keys that `addReference` looks up for the declaration. -/
def targetKeys (env : Clang) : CursorTree → List QByteArray
  | .node cursor children =>
    env.locationToString (env.location (referencedCursor env cursor)) ::
      targetKeysF env children
/-- The keys of `targetKeys` for a list of scratch nodes. -/
def targetKeysF (env : Clang) : List CursorTree → List QByteArray
  | [] => []
  | child :: rest => targetKeys env child ++ targetKeysF env rest
end

/-- A reference at `a.c:2` whose referenced cursor is the reference at `a.c:3`. -/
def chainUseCursor : CXCursor := sampleCursorAt (.other 43) "a.c" 2 "w"

/-- The scratch tree of `a.c`: below the translation unit the reference at `a.c:3`, the
reference at `a.c:2` and the declaration of `w` at `a.c:8`. -/
def chainTree : CursorTree :=
  .node (sampleCursorAt .TranslationUnit "a.c" 0 "a.c")
    [.node outerUseCursor [], .node chainUseCursor [], .node otherVarCursor []]

/-- The sample environment in which the reference at `a.c:3` refers to `w` and the reference at
`a.c:2` refers to the cursor at `a.c:3`. -/
def chainClang : Clang :=
  { sampleClang with
    getCursorReferenced := fun c =>
      if c = chainUseCursor then outerUseCursor
      else if c = outerUseCursor then otherVarCursor
      else nullCursor }

/-! ## The nodes below a scratch node -/

mutual
/-- The nodes strictly below a scratch node, in pre-order. -/
def CursorTree.descendants : CursorTree → List CursorTree
  | .node _ ks => CursorTree.descendantsF ks
/-- The nodes of a forest, in pre-order. -/
def CursorTree.descendantsF : List CursorTree → List CursorTree
  | [] => []
  | k :: ks => k :: (k.descendants ++ CursorTree.descendantsF ks)
end

/-! ## Theorems -/

/-! ## Tree fidelity (C1) -/

mutual
theorem length_layout (s : Nat) (par nxt : Option Nat) :
    (t : CursorTree) → (layout s par nxt t).length = t.size
  | .node c ks => by
    simp only [layout, CursorTree.size, List.length_cons, length_layoutF (s + 1) (some s) ks]
    omega
theorem length_layoutF (s : Nat) (par : Option Nat) :
    (ks : List CursorTree) → (layoutF s par ks).length = CursorTree.sizeF ks
  | [] => by simp [layoutF, CursorTree.sizeF]
  | k :: ks => by
    simp only [layoutF, CursorTree.sizeF, List.length_append, length_layout _ _ _ k,
      length_layoutF _ _ ks]
end

theorem CursorTree.size_pos (t : CursorTree) : 0 < t.size := by
  cases t; simp [CursorTree.size]

theorem sizeF_append (a b : List CursorTree) :
    CursorTree.sizeF (a ++ b) = CursorTree.sizeF a + CursorTree.sizeF b := by
  induction a with
  | nil => simp [CursorTree.sizeF]
  | cons k ks ih => simp [CursorTree.sizeF, ih]; omega

theorem updateAt_length (h : List CursorNode) (p : Nat) (f : CursorNode → CursorNode) :
    (updateAt h p f).length = h.length := by
  unfold updateAt; split <;> simp

theorem updateAt_at_length (pre rest : List CursorNode) (x : CursorNode)
    (f : CursorNode → CursorNode) (p : Nat) (hp : p = pre.length) :
    updateAt (pre ++ x :: rest) p f = pre ++ f x :: rest := by
  subst hp
  have h : (pre ++ x :: rest)[pre.length]? = some x := by
    rw [List.getElem?_append_right (le_refl _)]; simp
  simp only [updateAt, h, List.set_append_right _ _ (le_refl _), Nat.sub_self, List.set_cons_zero]

theorem updateAt_append_left (a b : List CursorNode) (p : Nat) (f : CursorNode → CursorNode)
    (hp : p < a.length) : updateAt (a ++ b) p f = updateAt a p f ++ b := by
  unfold updateAt
  rw [List.getElem?_append_left hp]
  split
  · rw [List.set_append_left _ _ hp]
  · rfl

theorem getElem?_at_length (pre rest : List CursorNode) (x : CursorNode) (p : Nat)
    (hp : p = pre.length) : (pre ++ x :: rest)[p]? = some x := by
  subst hp
  rw [List.getElem?_append_right (le_refl _)]; simp

theorem layout_cons_form (s : Nat) (par : Option Nat) (t : CursorTree) :
    ∃ tl, ∀ nx, layout s par nx t =
      { cursor := t.cursor, parent := par,
        firstChild := if t.children.isEmpty then none else some (s + 1),
        nextSibling := nx, lastChild := lastStart (s + 1) t.children } :: tl := by
  cases t with
  | node c ks => exact ⟨layoutF (s + 1) (some s) ks, fun nx => by simp [layout, CursorTree.cursor, CursorTree.children]⟩

theorem updateAt_layout_next (pre : List CursorNode) (s : Nat) (par nxt nx : Option Nat)
    (t : CursorTree) (hs : pre.length = s) :
    updateAt (pre ++ layout s par nxt t) s (fun n => { n with nextSibling := nx })
      = pre ++ layout s par nx t := by
  obtain ⟨tl, h⟩ := layout_cons_form s par t
  rw [h nxt, h nx, updateAt_at_length _ _ _ _ _ hs.symm]

theorem layoutF_snoc (x : CursorTree) :
    (ks : List CursorTree) → ∀ (s : Nat) (par : Option Nat) (pre : List CursorNode) (l : Nat),
      pre.length = s → lastStart s ks = some l →
      pre ++ layoutF s par (ks ++ [x])
        = updateAt (pre ++ layoutF s par ks) l
            (fun n => { n with nextSibling := some (s + CursorTree.sizeF ks) })
          ++ layout (s + CursorTree.sizeF ks) par none x
  | [], _, _, _, _, _, h => by simp [lastStart] at h
  | [k], s, par, pre, l, hs, h => by
    simp only [lastStart, Option.some.injEq] at h
    subst h
    rw [show [k] ++ [x] = [k, x] from rfl]
    simp only [layoutF, List.isEmpty_cons, List.isEmpty_nil,
      if_true, if_false, List.append_nil, CursorTree.sizeF, Nat.add_zero, Bool.false_eq_true]
    rw [updateAt_layout_next pre s par none _ k hs, List.append_assoc]
  | k :: k2 :: ks, s, par, pre, l, hs, h => by
    simp only [lastStart] at h
    have ih := layoutF_snoc x (k2 :: ks) (s + k.size) par
      (pre ++ layout s par (some (s + k.size)) k) l
      (by simp [length_layout, hs]) h
    rw [show (k :: k2 :: ks) ++ [x] = k :: ((k2 :: ks) ++ [x]) from rfl]
    rw [show (k2 :: ks) ++ [x] = k2 :: (ks ++ [x]) from rfl] at ih ⊢
    rw [layoutF, layoutF.eq_2 s par k (k2 :: ks)]
    simp only [List.isEmpty_cons, if_false, CursorTree.sizeF.eq_2 k (k2 :: ks),
      Bool.false_eq_true, List.append_assoc, Nat.add_assoc] at ih ⊢
    rw [ih]

theorem lastStart_snoc (x : CursorTree) :
    (ks : List CursorTree) → ∀ (s : Nat),
      lastStart s (ks ++ [x]) = some (s + CursorTree.sizeF ks)
  | [], s => by simp [lastStart, CursorTree.sizeF]
  | [k], s => by simp [lastStart, CursorTree.sizeF]
  | k :: k2 :: ks, s => by
    have ih := lastStart_snoc x (k2 :: ks) (s + k.size)
    rw [show (k :: k2 :: ks) ++ [x] = k :: k2 :: (ks ++ [x]) from rfl]
    rw [show (k2 :: ks) ++ [x] = k2 :: (ks ++ [x]) from rfl] at ih
    rw [lastStart, ih, CursorTree.sizeF.eq_2 k (k2 :: ks)]; simp only [Nat.add_assoc]

theorem lastStart_lt :
    (ks : List CursorTree) → ∀ (s l : Nat), lastStart s ks = some l →
      s ≤ l ∧ l < s + CursorTree.sizeF ks
  | [], _, _, h => by simp [lastStart] at h
  | [k], s, l, h => by
    simp only [lastStart, Option.some.injEq] at h
    have := k.size_pos
    simp only [CursorTree.sizeF]; omega
  | k :: k2 :: ks, s, l, h => by
    simp only [lastStart] at h
    have := lastStart_lt (k2 :: ks) _ _ h
    simp only [CursorTree.sizeF] at this ⊢
    omega

theorem lastStart_eq_none : (ks : List CursorTree) → ∀ (s : Nat), lastStart s ks = none → ks = []
  | [], _, _ => rfl
  | [k], s, h => by simp [lastStart] at h
  | k :: k2 :: ks, s, h => by
    simp only [lastStart] at h
    have := lastStart_eq_none (k2 :: ks) _ h
    simp at this

mutual
theorem graft_size (g : List CursorTree) :
    (d : Nat) → (t : CursorTree) → (graft g d t).cursor = t.cursor
  | 0, .node r ks => by simp [graft, CursorTree.cursor]
  | d + 1, .node r ks => by simp [graft, CursorTree.cursor]
end

theorem graftF_isEmpty (g : List CursorTree) (d : Nat) :
    (ks : List CursorTree) → (graftF g d ks).isEmpty = ks.isEmpty
  | [] => by simp [graftF]
  | [k] => by simp [graftF]
  | k :: k2 :: ks => by simp [graftF]

theorem lastStart_graftF (g : List CursorTree) (d : Nat) :
    (ks : List CursorTree) → ∀ s, lastStart s (graftF g d ks) = lastStart s ks
  | [], s => by simp [graftF]
  | [k], s => by simp [graftF, lastStart]
  | k :: k2 :: ks, s => by
    have ih := lastStart_graftF g d (k2 :: ks) (s + k.size)
    cases hg : graftF g d (k2 :: ks) with
    | nil =>
      have := graftF_isEmpty g d (k2 :: ks)
      simp [hg] at this
    | cons a as =>
      simp only [graftF, hg, lastStart] at ih ⊢
      exact ih

theorem layout_leaf (s : Nat) (par : Option Nat) (c : CXCursor) :
    layout s par none (.node c []) = [leafCell c par] := by
  simp [layout, layoutF, lastStart, leafCell]

theorem updateAt_last (a : List CursorNode) (x : CursorNode) (f : CursorNode → CursorNode)
    (p : Nat) (hp : p = a.length) : updateAt (a ++ [x]) p f = a ++ [f x] :=
  updateAt_at_length a [] x f p hp

theorem append_layout_zero (c r : CXCursor) (ks : List CursorTree) (s : Nat) (par : Option Nat)
    (pre : List CursorNode) (hs : pre.length = s) :
    CursorNode.append (pre ++ layout s par none (.node r ks) ++ [leafCell c (some s)]) s
        (s + (CursorTree.node r ks).size)
      = pre ++ layout s par none (graft [.node c []] 0 (.node r ks)) := by
  have hptr : s + (CursorTree.node r ks).size
      = (pre ++ layout s par none (.node r ks)).length := by
    simp [length_layout, hs]
  simp only [CursorNode.append]
  rw [updateAt_last _ _ _ _ hptr]
  simp only [leafCell]
  simp only [layout, graft, List.append_assoc, List.cons_append]
  rw [getElem?_at_length _ _ _ _ hs.symm]
  simp only [Option.some_bind]
  cases hl : lastStart (s + 1) ks with
  | none =>
    have hk := lastStart_eq_none ks _ hl
    subst hk
    simp only [List.nil_append, layoutF, List.append_nil]
    rw [updateAt_at_length _ _ _ _ _ hs.symm, updateAt_at_length _ _ _ _ _ hs.symm]
    simp [layout, layoutF, lastStart, CursorTree.size, CursorTree.sizeF]
  | some l =>
    have hlt := lastStart_lt ks _ _ hl
    have hne : ks.isEmpty = false := by
      cases ks with
      | nil => simp [lastStart] at hl
      | cons a as => rfl
    simp only [hne, Bool.false_eq_true, if_false]
    have hsn := layoutF_snoc (.node c []) ks (s + 1) (some s)
      (pre ++ [CursorNode.mk r par (some (s + 1)) none (some l)]) l (by simp [hs]) hl
    rw [layout_leaf] at hsn
    simp only [List.append_assoc, List.cons_append, List.nil_append, leafCell] at hsn
    have e1 : s + (CursorTree.node r ks).size = s + 1 + CursorTree.sizeF ks := by
      simp only [CursorTree.size]; omega
    rw [e1]
    have hlen : l < (pre ++ CursorNode.mk r par (some (s + 1)) none (some l)
        :: layoutF (s + 1) (some s) ks).length := by
      simp [length_layoutF, hs]; omega
    have e2 : pre ++ CursorNode.mk r par (some (s + 1)) none (some l) ::
          (layoutF (s + 1) (some s) ks ++ [CursorNode.mk c (some s) none none none])
        = (pre ++ CursorNode.mk r par (some (s + 1)) none (some l)
            :: layoutF (s + 1) (some s) ks)
          ++ [CursorNode.mk c (some s) none none none] := by simp
    rw [e2, updateAt_append_left _ _ _ _ hlen, ← hsn]
    rw [updateAt_at_length _ _ _ _ _ hs.symm, updateAt_at_length _ _ _ _ _ hs.symm]
    simp [lastStart_snoc]

mutual
theorem append_layout (c q : CXCursor) (p : Nat) :
    (t : CursorTree) → ∀ (d s : Nat) (par : Option Nat) (pre : List CursorNode),
      pre.length = s → (spine s t)[d]? = some (q, p) →
      CursorNode.append (pre ++ layout s par none t ++ [leafCell c (some p)]) p (s + t.size)
        = pre ++ layout s par none (graft [.node c []] d t)
  | .node r ks, 0, s, par, pre, hs, hsp => by
    simp only [spine, List.getElem?_cons_zero, Option.some.injEq, Prod.mk.injEq] at hsp
    obtain ⟨_, hp⟩ := hsp
    subst hp
    exact append_layout_zero c r ks s par pre hs
  | .node r ks, d + 1, s, par, pre, hs, hsp => by
    simp only [spine, List.getElem?_cons_succ] at hsp
    have ih := append_layoutF c q p ks d (s + 1) (some s)
      (pre ++ [CursorNode.mk r par (if ks.isEmpty then none else some (s + 1)) none
        (lastStart (s + 1) ks)]) (by simp [hs]) hsp
    have e1 : s + (CursorTree.node r ks).size = s + 1 + CursorTree.sizeF ks := by
      simp only [CursorTree.size]; omega
    simp only [layout, graft, e1, graftF_isEmpty, lastStart_graftF]
    simp only [List.append_assoc, List.cons_append, List.nil_append] at ih ⊢
    exact ih
theorem append_layoutF (c q : CXCursor) (p : Nat) :
    (ks : List CursorTree) → ∀ (d s : Nat) (par : Option Nat) (pre : List CursorNode),
      pre.length = s → (spineF s ks)[d]? = some (q, p) →
      CursorNode.append (pre ++ layoutF s par ks ++ [leafCell c (some p)]) p
          (s + CursorTree.sizeF ks)
        = pre ++ layoutF s par (graftF [.node c []] d ks)
  | [], d, s, par, pre, hs, hsp => by simp [spineF] at hsp
  | [k], d, s, par, pre, hs, hsp => by
    simp only [spineF] at hsp
    have ih := append_layout c q p k d s par pre hs hsp
    simp only [layoutF, graftF, List.isEmpty_nil, if_true, List.append_nil, CursorTree.sizeF,
      Nat.add_zero]
    exact ih
  | k :: k2 :: ks, d, s, par, pre, hs, hsp => by
    simp only [spineF] at hsp
    have ih := append_layoutF c q p (k2 :: ks) d (s + k.size) par
      (pre ++ layout s par (some (s + k.size)) k) (by simp [length_layout, hs]) hsp
    have hne : (graftF [.node c []] d (k2 :: ks)).isEmpty = false := by
      rw [graftF_isEmpty]; rfl
    rw [graftF, layoutF.eq_2 s par k (k2 :: ks),
      layoutF.eq_2 s par k (graftF [.node c []] d (k2 :: ks)), CursorTree.sizeF.eq_2 k (k2 :: ks)]
    simp only [hne, List.isEmpty_cons, Bool.false_eq_true, if_false, List.append_assoc,
      Nat.add_assoc] at ih ⊢
    exact ih
end

theorem graftF_snoc (g : List CursorTree) (d : Nat) (x : CursorTree) :
    (ks : List CursorTree) → graftF g d (ks ++ [x]) = ks ++ [graft g d x]
  | [] => by simp [graftF]
  | [k] => by simp [graftF]
  | k :: k2 :: ks => by
    have ih := graftF_snoc g d x (k2 :: ks)
    rw [show (k :: k2 :: ks) ++ [x] = k :: k2 :: (ks ++ [x]) from rfl, graftF]
    rw [show (k2 :: ks) ++ [x] = k2 :: (ks ++ [x]) from rfl] at ih
    rw [ih]; rfl

theorem graftF_cons_cons (g : List CursorTree) (d : Nat) (k : CursorTree)
    (ks : List CursorTree) (h : ks ≠ []) : graftF g d (k :: ks) = k :: graftF g d ks := by
  cases ks with
  | nil => exact absurd rfl h
  | cons a as => simp [graftF]

theorem graftF_ne_nil (g : List CursorTree) (d : Nat) (ks : List CursorTree) (h : ks ≠ []) :
    graftF g d ks ≠ [] := by
  intro hc
  have := graftF_isEmpty g d ks
  rw [hc] at this
  cases ks with
  | nil => exact h rfl
  | cons a as => simp at this

mutual
theorem graft_cons (x : CursorTree) (g : List CursorTree) :
    (t : CursorTree) → ∀ (d : Nat), graft (x :: g) d t = graft g d (graft [x] d t)
  | .node r ks, 0 => by simp [graft]
  | .node r ks, d + 1 => by simp only [graft, graftF_cons x g ks d]
theorem graftF_cons (x : CursorTree) (g : List CursorTree) :
    (ks : List CursorTree) → ∀ (d : Nat), graftF (x :: g) d ks = graftF g d (graftF [x] d ks)
  | [], d => by simp [graftF]
  | [k], d => by simp only [graftF, graft_cons x g k d]
  | k :: k2 :: ks, d => by
    have ih := graftF_cons x g (k2 :: ks) d
    rw [graftF, graftF, ih,
      graftF_cons_cons g d k _ (graftF_ne_nil [x] d (k2 :: ks) (by simp))]
end

mutual
theorem graft_node (c : CXCursor) (g : List CursorTree) :
    (t : CursorTree) → ∀ (d : Nat),
      graft [.node c g] d t = graft g (d + 1) (graft [.node c []] d t)
  | .node r ks, 0 => by simp [graft, graftF_snoc]
  | .node r ks, d + 1 => by simp only [graft, graftF_node c g ks d]
theorem graftF_node (c : CXCursor) (g : List CursorTree) :
    (ks : List CursorTree) → ∀ (d : Nat),
      graftF [.node c g] d ks = graftF g (d + 1) (graftF [.node c []] d ks)
  | [], d => by simp [graftF]
  | [k], d => by simp only [graftF, graft_node c g k d]
  | k :: k2 :: ks, d => by
    have ih := graftF_node c g (k2 :: ks) d
    rw [graftF, graftF, ih,
      graftF_cons_cons g (d + 1) k _ (graftF_ne_nil [.node c []] d (k2 :: ks) (by simp))]
end

mutual
theorem graft_nil : (t : CursorTree) → ∀ (d : Nat), graft [] d t = t
  | .node r ks, 0 => by simp [graft]
  | .node r ks, d + 1 => by simp only [graft, graftF_nil ks d]
theorem graftF_nil : (ks : List CursorTree) → ∀ (d : Nat), graftF [] d ks = ks
  | [], d => by simp [graftF]
  | [k], d => by simp only [graftF, graft_nil k d]
  | k :: k2 :: ks, d => by rw [graftF, graftF_nil (k2 :: ks) d]
end

mutual
theorem size_graft_leaf (c : CXCursor) :
    (t : CursorTree) → ∀ (d s : Nat), d < (spine s t).length →
      (graft [.node c []] d t).size = t.size + 1
  | .node r ks, 0, s, _ => by
    simp [graft, CursorTree.size, sizeF_append, CursorTree.sizeF]; omega
  | .node r ks, d + 1, s, h => by
    simp only [spine, List.length_cons, Nat.add_lt_add_iff_right] at h
    simp only [graft, CursorTree.size, sizeF_graftF_leaf c ks d (s + 1) h]; omega
theorem sizeF_graftF_leaf (c : CXCursor) :
    (ks : List CursorTree) → ∀ (d s : Nat), d < (spineF s ks).length →
      CursorTree.sizeF (graftF [.node c []] d ks) = CursorTree.sizeF ks + 1
  | [], d, s, h => by simp [spineF] at h
  | [k], d, s, h => by
    simp only [spineF] at h
    simp only [graftF, CursorTree.sizeF, size_graft_leaf c k d s h]
  | k :: k2 :: ks, d, s, h => by
    simp only [spineF] at h
    have ih := sizeF_graftF_leaf c (k2 :: ks) d _ h
    rw [graftF, CursorTree.sizeF.eq_2 k (k2 :: ks), CursorTree.sizeF, ih]; omega
end

mutual
theorem spine_graft_leaf (c : CXCursor) :
    (t : CursorTree) → ∀ (d s : Nat), d < (spine s t).length →
      spine s (graft [.node c []] d t) = (spine s t).take (d + 1) ++ [(c, s + t.size)]
  | .node r ks, 0, s, _ => by
    simp only [graft, spine, List.take_succ_cons, List.take_zero, List.cons_append,
      List.nil_append, List.cons.injEq, true_and]
    rw [spineF_snoc]
    simp [spine, spineF, CursorTree.size]; omega
  | .node r ks, d + 1, s, h => by
    simp only [spine, List.length_cons, Nat.add_lt_add_iff_right] at h
    have e1 : s + (CursorTree.node r ks).size = s + 1 + CursorTree.sizeF ks := by
      simp only [CursorTree.size]; omega
    simp only [graft, spine, List.take_succ_cons, List.cons_append, e1,
      spineF_graftF_leaf c ks d (s + 1) h]
theorem spineF_graftF_leaf (c : CXCursor) :
    (ks : List CursorTree) → ∀ (d s : Nat), d < (spineF s ks).length →
      spineF s (graftF [.node c []] d ks)
        = (spineF s ks).take (d + 1) ++ [(c, s + CursorTree.sizeF ks)]
  | [], d, s, h => by simp [spineF] at h
  | [k], d, s, h => by
    simp only [spineF] at h
    simp only [graftF, spineF, spine_graft_leaf c k d s h, CursorTree.sizeF, Nat.add_zero]
  | k :: k2 :: ks, d, s, h => by
    simp only [spineF] at h
    have ih := spineF_graftF_leaf c (k2 :: ks) d _ h
    obtain ⟨a, as, hg⟩ := List.exists_cons_of_ne_nil
      (graftF_ne_nil [.node c []] d (k2 :: ks) (by simp))
    rw [graftF, hg, spineF, ← hg, ih, spineF, CursorTree.sizeF.eq_2 k (k2 :: ks)]
    simp only [Nat.add_assoc]
theorem spineF_snoc (x : CursorTree) :
    (ks : List CursorTree) → ∀ (s : Nat),
      spineF s (ks ++ [x]) = spine (s + CursorTree.sizeF ks) x
  | [], s => by simp [spineF, CursorTree.sizeF]
  | [k], s => by simp [spineF, CursorTree.sizeF]
  | k :: k2 :: ks, s => by
    have ih := spineF_snoc x (k2 :: ks) (s + k.size)
    rw [show (k :: k2 :: ks) ++ [x] = k :: k2 :: (ks ++ [x]) from rfl, spineF]
    rw [show (k2 :: ks) ++ [x] = k2 :: (ks ++ [x]) from rfl] at ih
    rw [ih, CursorTree.sizeF.eq_2 k (k2 :: ks)]; simp only [Nat.add_assoc]
end

theorem scanParents_found (parent : CXCursor) (frames : List (CXCursor × Option Nat))
    (d : Nat) (f : CXCursor × Option Nat) (hf : frames[d]? = some f)
    (heq : cursorEq parent f.1 = true)
    (hne : ∀ j x, d < j → frames[j]? = some x → cursorEq parent x.1 = false) :
    ∀ n, d < n → n ≤ frames.length →
      scanParents parent frames n = some (f.2, frames.take (d + 1))
  | 0, h, _ => by omega
  | m + 1, h, hle => by
    unfold scanParents
    by_cases hmd : m = d
    · subst hmd
      simp [hf, heq]
    · have hlt : m < frames.length := by omega
      have hm : frames[m]? = some frames[m] := List.getElem?_eq_getElem hlt
      have := hne m _ (by omega) hm
      simp only [hm, this, Bool.false_eq_true, if_false]
      exact scanParents_found parent frames d f hf heq hne m (by omega) (by omega)

theorem cursorEq_refl (c : CXCursor) : cursorEq c c = true := by simp [cursorEq]

theorem new_layout (c q : CXCursor) (p d : Nat) (t : CursorTree)
    (hsp : (spine 0 t)[d]? = some (q, p)) :
    CursorNode.new (layout 0 none none t) c (some p)
      = (layout 0 none none (graft [.node c []] d t), t.size) := by
  have h := append_layout c q p t d 0 none [] rfl hsp
  simp only [List.nil_append, Nat.zero_add] at h
  simp only [CursorNode.new, length_layout]
  rw [← h]; rfl

theorem step_corr (u : ComprehensiveTreeUserData) (t : CursorTree) (c pc : CXCursor)
    (d p : Nat) (hc : Corr u t) (hfile : c.location.file.isSome = true)
    (hd : (spine 0 t)[d]? = some (pc, p))
    (hne : ∀ j x, j ≠ d → (spine 0 t)[j]? = some x → cursorEq pc x.1 = false) :
    (buildComprehensiveTree c pc u).1 = visitResultOfKind c.kind ∧
    Corr (buildComprehensiveTree c pc u).2 (graft [.node c []] d t) := by
  obtain ⟨hheap, hroot, hok, fr, lc, li, hsp, hfr, hpar, hlast, hlc⟩ := hc
  have hnf : c.location.file.isNone = false := by
    cases h : c.location.file with
    | none => simp [h] at hfile
    | some f => rfl
  have hdlt : d < (spine 0 t).length := by
    by_contra hcon
    rw [List.getElem?_eq_none (by omega)] at hd
    exact absurd hd (by simp)
  have hspg := spine_graft_leaf c t d 0 hdlt
  have hnew := new_layout c pc p d t hd
  have hlen : (spine 0 t).length = fr.length + 1 := by simp [hsp]
  by_cases hdl : d = fr.length
  · -- the reported parent is the last visited cursor
    have hlast' : (spine 0 t)[d]? = some (lc, li) := by
      rw [hsp, hdl]; simp
    rw [hlast'] at hd
    simp only [Option.some.injEq, Prod.mk.injEq] at hd
    obtain ⟨h1, h2⟩ := hd
    subst h1; subst h2
    have htake : (spine 0 t).take (d + 1) = spine 0 t := by
      apply List.take_of_length_le; omega
    simp only [buildComprehensiveTree, hnf, hroot, hlc, cursorEq_refl, hlast, hok, hheap,
      Bool.false_eq_true, if_false, if_true, Option.isNone_some, Bool.or_false, hnew]
    refine ⟨trivial, rfl, rfl, rfl, ?_⟩
    refine ⟨fr ++ [(lc, li)], c, t.size, ?_, by simp, ?_, rfl, rfl⟩
    · rw [hspg, htake, hsp]; simp
    · simp [hpar]
  · -- the reported parent is found by scanning the frames
    have hdfr : d < fr.length := by omega
    have hneq : cursorEq pc lc = false := by
      apply hne fr.length (lc, li) (by omega)
      rw [hsp]; simp
    have hfd : (u.parents)[d]? = some (pc, some p) := by
      rw [hpar, List.getElem?_map]
      have : fr[d]? = some (pc, p) := by
        rw [hsp, List.getElem?_append_left hdfr] at hd; exact hd
      simp [this]
    have hscan := scanParents_found pc u.parents d (pc, some p) hfd (cursorEq_refl pc)
      (by
        intro j x hj hx
        rw [hpar, List.getElem?_map] at hx
        cases hfj : fr[j]? with
        | none => simp [hfj] at hx
        | some y =>
          simp only [hfj, Option.map_some', Option.some.injEq] at hx
          subst hx
          apply hne j y (by omega)
          have hjl : j < fr.length := by
            by_contra hcon
            rw [List.getElem?_eq_none (by omega)] at hfj
            exact absurd hfj (by simp)
          rw [hsp, List.getElem?_append_left hjl]; exact hfj)
      u.parents.length (by rw [hpar]; simp; omega) (le_refl _)
    have htake : (spine 0 t).take (d + 1) = fr.take (d + 1) := by
      rw [hsp, List.take_append_of_le_length (by omega)]
    simp only [buildComprehensiveTree, hnf, hroot, hlc, hneq, hlast, hok, hheap, hscan,
      Bool.false_eq_true, if_false, Option.isNone_some, Bool.or_false, hnew]
    refine ⟨trivial, rfl, rfl, rfl, ?_⟩
    refine ⟨fr.take (d + 1), c, t.size, ?_, ?_, ?_, rfl, rfl⟩
    · rw [hspg, htake]; simp
    · intro h
      have hl : (fr.take (d + 1)).length = 0 := by rw [h]; rfl
      rw [List.length_take] at hl
      omega
    · simp [hpar, List.map_take]

theorem cursorEq_comm (a b : CXCursor) : cursorEq a b = cursorEq b a := by
  simp only [cursorEq]
  congr 1
  · exact decide_eq_decide.mpr ⟨Eq.symm, Eq.symm⟩
  · exact decide_eq_decide.mpr ⟨Eq.symm, Eq.symm⟩

theorem visitResultOfKind_ne_break (k : CXCursorKind) : visitResultOfKind k ≠ .Break := by
  cases k <;> simp [visitResultOfKind]

theorem step_corr_split (u : ComprehensiveTreeUserData) (t : CursorTree) (c pc : CXCursor)
    (p : Nat) (A B : List (CXCursor × Nat)) (hc : Corr u t)
    (hfile : c.location.file.isSome = true)
    (hsp : spine 0 t = A ++ (pc, p) :: B)
    (hA : ∀ x ∈ A, cursorEq pc x.1 = false) (hB : ∀ x ∈ B, cursorEq pc x.1 = false) :
    (buildComprehensiveTree c pc u).1 = visitResultOfKind c.kind ∧
    Corr (buildComprehensiveTree c pc u).2 (graft [.node c []] A.length t) ∧
    spine 0 (graft [.node c []] A.length t) = A ++ [(pc, p), (c, t.size)] := by
  have hd : (spine 0 t)[A.length]? = some (pc, p) := by
    rw [hsp, List.getElem?_append_right (le_refl _)]; simp
  have hne : ∀ j x, j ≠ A.length → (spine 0 t)[j]? = some x → cursorEq pc x.1 = false := by
    intro j x hj hx
    rw [hsp] at hx
    rcases Nat.lt_or_gt_of_ne hj with h | h
    · rw [List.getElem?_append_left h] at hx
      exact hA x (List.getElem?_mem hx)
    · rw [List.getElem?_append_right (by omega)] at hx
      obtain ⟨k, hk⟩ : ∃ k, j - A.length = k + 1 := ⟨j - A.length - 1, by omega⟩
      rw [hk, List.getElem?_cons_succ] at hx
      exact hB x (List.getElem?_mem hx)
  have h := step_corr u t c pc A.length p hc hfile hd hne
  refine ⟨h.1, h.2, ?_⟩
  have hlt : A.length < (spine 0 t).length := by rw [hsp]; simp
  rw [spine_graft_leaf c t A.length 0 hlt, hsp]
  simp [List.take_append_eq_append_take]

theorem visitForest_cons (pc c : CXCursor) (ks ts : List CursorTree)
    (u : ComprehensiveTreeUserData) :
    visitForest buildComprehensiveTree pc (.node c ks :: ts) u =
      match buildComprehensiveTree c pc u with
      | (.Break, s1) => (true, s1)
      | (.Continue, s1) => visitForest buildComprehensiveTree pc ts s1
      | (.Recurse, s1) =>
        match visitForest buildComprehensiveTree c ks s1 with
        | (true, s2) => (true, s2)
        | (false, s2) => visitForest buildComprehensiveTree pc ts s2 := by
  conv => lhs; rw [visitForest, visitTree]
  generalize buildComprehensiveTree c pc u = x
  obtain ⟨r, s1⟩ := x
  cases r
  · rfl
  · rfl
  · dsimp only
    generalize visitForest buildComprehensiveTree c ks s1 = y
    obtain ⟨b, s2⟩ := y
    cases b <;> rfl

theorem visit_cons_of_step (c : CXCursor) (ks rest : List CursorTree)
    (ihks : VisitSpec ks) (ihrest : VisitSpec rest)
    (pc : CXCursor) (u : ComprehensiveTreeUserData) (t : CursorTree)
    (p : Nat) (A B : List (CXCursor × Nat))
    (hr : (buildComprehensiveTree c pc u).1 = visitResultOfKind c.kind)
    (hc1 : Corr (buildComprehensiveTree c pc u).2 (graft [.node c []] A.length t))
    (hsp1 : spine 0 (graft [.node c []] A.length t) = A ++ [(pc, p), (c, t.size)])
    (hfiles : ∀ c' ∈ CursorTree.cursorsF (.node c ks :: rest), c'.location.file.isSome = true)
    (hpw : (A.map Prod.fst ++ pc :: CursorTree.cursorsF (.node c ks :: rest)).Pairwise
      (fun a b => cursorEq a b = false)) :
    (visitForest buildComprehensiveTree pc (.node c ks :: rest) u).1 = false ∧
    Corr (visitForest buildComprehensiveTree pc (.node c ks :: rest) u).2
      (graft (visitedForest (.node c ks :: rest)) A.length t) ∧
    ∃ B', spine 0 (graft (visitedForest (.node c ks :: rest)) A.length t)
        = A ++ (pc, p) :: B' ∧
      ∀ x ∈ B', x.1 ∈ CursorTree.cursorsF (.node c ks :: rest) ∨ x ∈ B := by
  have hcur : CursorTree.cursorsF (.node c ks :: rest)
      = c :: (CursorTree.cursorsF ks ++ CursorTree.cursorsF rest) := by
    simp [CursorTree.cursorsF, CursorTree.cursors]
  rw [hcur] at hpw hfiles
  have hpw' := List.pairwise_append.mp hpw
  have hpc := (List.pairwise_cons.mp hpw'.2.1).1
  have hbct : buildComprehensiveTree c pc u
      = (visitResultOfKind c.kind, (buildComprehensiveTree c pc u).2) :=
    Prod.ext hr rfl
  have hsp1' : spine 0 (graft [.node c []] A.length t)
      = (A ++ [(pc, p)]) ++ (c, t.size) :: [] := by rw [hsp1]; simp
  have hsp2 : spine 0 (graft [.node c []] A.length t)
      = A ++ (pc, p) :: [(c, t.size)] := by rw [hsp1]
  have hfr : ∀ c' ∈ CursorTree.cursorsF rest, c'.location.file.isSome = true :=
    fun c' h => hfiles c' (List.mem_cons_of_mem _ (List.mem_append_right _ h))
  have hpwr : (A.map Prod.fst ++ pc :: CursorTree.cursorsF rest).Pairwise
      (fun a b => cursorEq a b = false) := by
    refine hpw.sublist ?_
    apply List.Sublist.append_left
    apply List.Sublist.cons₂
    exact (List.sublist_append_right _ _).trans (List.sublist_cons_self _ _)
  have hgraft : ∀ g, graft (visitedForest rest) A.length
        (graft g (A.length + 1) (graft [.node c []] A.length t))
      = graft (.node c g :: visitedForest rest) A.length t := by
    intro g
    rw [graft_cons (.node c g) (visitedForest rest) t A.length, graft_node c g t A.length]
  rw [visitForest_cons, hbct]
  cases hk : visitResultOfKind c.kind with
  | Break => exact absurd hk (visitResultOfKind_ne_break _)
  | Continue =>
    have ih := ihrest pc (buildComprehensiveTree c pc u).2
      (graft [.node c []] A.length t) p A [(c, t.size)] hc1 hsp2
      (by
        intro x hx
        simp only [List.mem_singleton] at hx
        subst hx
        exact hpc c (List.mem_cons_self _ _)) hfr hpwr
    obtain ⟨i1, i2, B', i3, i4⟩ := ih
    have hg := hgraft []
    rw [graft_nil] at hg
    simp only [visitedForest, hk]
    rw [← hg]
    refine ⟨i1, i2, B', i3, ?_⟩
    intro x hx
    rcases i4 x hx with h | h
    · left; rw [hcur]
      exact List.mem_cons_of_mem _ (List.mem_append_right _ h)
    · left; rw [hcur]
      simp only [List.mem_singleton] at h
      subst h
      exact List.mem_cons_self _ _
  | Recurse =>
    have ih1 := ihks c (buildComprehensiveTree c pc u).2
      (graft [.node c []] A.length t) t.size (A ++ [(pc, p)]) [] hc1 hsp1'
      (by intro x hx; simp at hx)
      (fun c' h => hfiles c' (List.mem_cons_of_mem _ (List.mem_append_left _ h)))
      (by
        refine hpw.sublist ?_
        simp only [List.map_append, List.map_cons, List.map_nil, List.append_assoc,
          List.singleton_append]
        apply List.Sublist.append_left
        apply List.Sublist.cons₂
        apply List.Sublist.cons₂
        exact List.sublist_append_left _ _)
    obtain ⟨j1, j2, B2, j3, j4⟩ := ih1
    have hlen : (A ++ [(pc, p)]).length = A.length + 1 := by simp
    rw [hlen] at j2 j3
    have ih := ihrest pc
      (visitForest buildComprehensiveTree c ks (buildComprehensiveTree c pc u).2).2
      (graft (visitedForest ks) (A.length + 1) (graft [.node c []] A.length t))
      p A ((c, t.size) :: B2) j2 (by rw [j3]; simp)
      (by
        intro x hx
        rcases List.mem_cons.mp hx with h | h
        · subst h; exact hpc c (List.mem_cons_self _ _)
        · rcases j4 x h with h2 | h2
          · exact hpc x.1 (List.mem_cons_of_mem _ (List.mem_append_left _ h2))
          · simp at h2) hfr hpwr
    obtain ⟨i1, i2, B', i3, i4⟩ := ih
    have hg := hgraft (visitedForest ks)
    have hv : visitForest buildComprehensiveTree c ks (buildComprehensiveTree c pc u).2
        = (false, (visitForest buildComprehensiveTree c ks
            (buildComprehensiveTree c pc u).2).2) := Prod.ext j1 rfl
    simp only [visitedForest, hk]
    rw [hv, ← hg]
    refine ⟨i1, i2, B', i3, ?_⟩
    intro x hx
    rcases i4 x hx with h | h
    · left; rw [hcur]
      exact List.mem_cons_of_mem _ (List.mem_append_right _ h)
    · left; rw [hcur]
      rcases List.mem_cons.mp h with h1 | h1
      · subst h1; exact List.mem_cons_self _ _
      · rcases j4 x h1 with h2 | h2
        · exact List.mem_cons_of_mem _ (List.mem_append_left _ h2)
        · simp at h2

theorem visit_forest : (F : List CursorTree) → VisitSpec F
  | [] => by
    intro pc u t p A B hc hsp _ _ _
    simp only [visitForest, visitedForest, graft_nil]
    exact ⟨trivial, hc, B, hsp, fun x hx => Or.inr hx⟩
  | .node c ks :: rest => by
    intro pc u t p A B hc hsp hB hfiles hpw
    have hcur : CursorTree.cursorsF (.node c ks :: rest)
        = c :: (CursorTree.cursorsF ks ++ CursorTree.cursorsF rest) := by
      simp [CursorTree.cursorsF, CursorTree.cursors]
    have hpw' := List.pairwise_append.mp hpw
    have hA : ∀ x ∈ A, cursorEq pc x.1 = false := by
      intro x hx
      rw [cursorEq_comm]
      exact hpw'.2.2 x.1 (List.mem_map_of_mem _ hx) pc (List.mem_cons_self _ _)
    obtain ⟨hr, hc1, hsp1⟩ :=
      step_corr_split u t c pc p A B hc
        (hfiles c (by rw [hcur]; exact List.mem_cons_self _ _)) hsp hA hB
    exact visit_cons_of_step c ks rest (visit_forest ks) (visit_forest rest)
      pc u t p A B hr hc1 hsp1 hfiles hpw

theorem first_step (c r : CXCursor) (hfile : c.location.file.isSome = true) :
    (buildComprehensiveTree c r ComprehensiveTreeUserData.init).1 = visitResultOfKind c.kind ∧
    Corr (buildComprehensiveTree c r ComprehensiveTreeUserData.init).2
      (graft [.node c []] 0 (.node r [])) := by
  have hnf : c.location.file.isNone = false := by
    cases h : c.location.file with
    | none => simp [h] at hfile
    | some f => rfl
  have hnew := new_layout c r 0 0 (.node r []) (by simp [spine])
  rw [layout_leaf] at hnew
  simp only [leafCell] at hnew
  simp only [buildComprehensiveTree, hnf, ComprehensiveTreeUserData.init, CursorNode.new,
    List.nil_append, List.length_nil, Bool.false_eq_true, if_false, Option.isNone_some,
    Bool.or_false]
  simp only [CursorNode.new, List.length_singleton, List.length_nil] at hnew ⊢
  refine ⟨trivial, ?_⟩
  have h1 := congrArg Prod.fst hnew
  simp only at h1
  refine ⟨h1, rfl, rfl, [(r, 0)], c, 1, ?_, by simp, rfl, rfl, rfl⟩
  simp [graft, spine, spineF, CursorTree.size, CursorTree.sizeF]

theorem getElem?_layout_head (pre post : List CursorNode) (s : Nat) (par nxt : Option Nat)
    (c : CXCursor) (ks : List CursorTree) (hs : pre.length = s) :
    (pre ++ layout s par nxt (.node c ks) ++ post)[s]? =
      some (CursorNode.mk c par (if ks.isEmpty then none else some (s + 1)) nxt
        (lastStart (s + 1) ks)) := by
  simp only [layout, List.append_assoc, List.cons_append]
  exact getElem?_at_length _ _ _ _ hs.symm

mutual
theorem read_layout :
    (t : CursorTree) → ∀ (fuel s : Nat) (par nxt : Option Nat) (pre post : List CursorNode),
      pre.length = s → 2 * t.size ≤ fuel →
      readTree (pre ++ layout s par nxt t ++ post) fuel par s = some t
  | .node c ks, 0, s, par, nxt, pre, post, hs, hf => by
    simp only [CursorTree.size] at hf; omega
  | .node c ks, fuel + 1, s, par, nxt, pre, post, hs, hf => by
    simp only [CursorTree.size] at hf
    rw [readTree, getElem?_layout_head pre post s par nxt c ks hs]
    have ih := read_layoutF ks fuel (s + 1) (some s)
      (pre ++ [CursorNode.mk c par (if ks.isEmpty then none else some (s + 1)) nxt
        (lastStart (s + 1) ks)]) post (by simp [hs]) (by omega)
    simp only [layout, List.append_assoc, List.cons_append, List.nil_append] at ih ⊢
    simp only [if_true, ih]
theorem read_layoutF :
    (ks : List CursorTree) → ∀ (fuel s : Nat) (par : Option Nat) (pre post : List CursorNode),
      pre.length = s → 2 * CursorTree.sizeF ks + 1 ≤ fuel →
      readChain (pre ++ layoutF s par ks ++ post) fuel par
        (if ks.isEmpty then none else some s) = some ks
  | _, 0, _, _, _, _, _, hf => by omega
  | [], fuel + 1, s, par, pre, post, hs, hf => by
    simp [readChain]
  | .node c cs :: ks, fuel + 1, s, par, pre, post, hs, hf => by
    simp only [CursorTree.sizeF] at hf
    have hpos := (CursorTree.node c cs).size_pos
    have h1 := read_layout (.node c cs) fuel s par
      (if ks.isEmpty then none else some (s + (CursorTree.node c cs).size)) pre
      (layoutF (s + (CursorTree.node c cs).size) par ks ++ post) hs (by omega)
    have h2 := read_layoutF ks fuel (s + (CursorTree.node c cs).size) par
      (pre ++ layout s par
        (if ks.isEmpty then none else some (s + (CursorTree.node c cs).size)) (.node c cs))
      post (by simp [length_layout, hs]) (by omega)
    have hh := getElem?_layout_head pre (layoutF (s + (CursorTree.node c cs).size) par ks ++ post)
      s par (if ks.isEmpty then none else some (s + (CursorTree.node c cs).size)) c cs hs
    simp only [List.isEmpty_cons, Bool.false_eq_true, if_false]
    rw [readChain]
    rw [layoutF]
    simp only [List.append_assoc] at h1 h2 hh ⊢
    rw [hh]
    simp only [h1, h2]
end

/-- C1 (tree fidelity).  For every finite cursor tree with at least one child below its root,
whose cursors below the root all have a file and whose cursors are pairwise distinct under the
(kind, location) equality, `clang_visitChildren` with `buildComprehensiveTree` ends without a
violated assertion and without `Break`, and leaves a scratch tree whose root is the first node
allocated and wraps the root cursor (the first reported parent) and which, read through
`firstChild`/`nextSibling` with coherent `parent` pointers, is exactly the visited part of the
source tree: same parent/child relation, same child order.  The statement covers every tree, so
both the `parent == lastCursor` path and the stack rescan. -/
theorem buildComprehensiveTree_tree_fidelity (t : CursorTree)
    (hfile : ∀ c ∈ CursorTree.cursorsF t.children, c.location.file.isSome = true)
    (hdist : t.cursors.Pairwise (fun a b => cursorEq a b = false))
    (hkids : t.children ≠ []) :
    (clang_visitChildren buildComprehensiveTree t ComprehensiveTreeUserData.init).1 = false ∧
    (clang_visitChildren buildComprehensiveTree t ComprehensiveTreeUserData.init).2.assertFailed
      = false ∧
    ∃ r n, (clang_visitChildren buildComprehensiveTree t ComprehensiveTreeUserData.init).2.root
        = some r ∧
      (clang_visitChildren buildComprehensiveTree t ComprehensiveTreeUserData.init).2.heap[r]?
        = some n ∧ n.cursor = t.cursor ∧ n.parent = none ∧
      readTree (clang_visitChildren buildComprehensiveTree t ComprehensiveTreeUserData.init).2.heap
        (2 * (clang_visitChildren buildComprehensiveTree t
          ComprehensiveTreeUserData.init).2.heap.length) none r = some (visitedPart t) := by
  obtain ⟨r, F⟩ := t
  simp only [CursorTree.children] at hfile hkids
  simp only [CursorTree.cursors] at hdist
  cases F with
  | nil => exact absurd rfl hkids
  | cons k rest =>
    obtain ⟨c, ks⟩ := k
    have hcf : c.location.file.isSome = true :=
      hfile c (by simp [CursorTree.cursorsF, CursorTree.cursors])
    obtain ⟨hr, hc1⟩ := first_step c r hcf
    have h := visit_cons_of_step c ks rest (visit_forest ks) (visit_forest rest) r
      ComprehensiveTreeUserData.init (.node r []) 0 [] [] hr hc1
      (by simp [graft, spine, spineF, CursorTree.size, CursorTree.sizeF]) hfile
      (by simpa using hdist)
    obtain ⟨h1, h2, _⟩ := h
    have hg : graft (visitedForest (.node c ks :: rest)) ([] : List (CXCursor × Nat)).length
        (.node r []) = visitedPart (.node r (.node c ks :: rest)) := by
      simp [graft, visitedPart, CursorTree.cursor, CursorTree.children]
    rw [hg] at h2
    obtain ⟨hheap, hroot, hok, _⟩ := h2
    simp only [clang_visitChildren, CursorTree.cursor, CursorTree.children]
    refine ⟨h1, hok, 0, ?_⟩
    rw [hheap]
    have hread := read_layout (visitedPart (.node r (.node c ks :: rest)))
      (2 * (visitedPart (.node r (.node c ks :: rest))).size) 0 none none [] []
      rfl (le_refl _)
    simp only [List.nil_append, List.append_nil] at hread
    have hhead := getElem?_layout_head [] [] 0 none none r
      (visitedForest (.node c ks :: rest)) rfl
    simp only [List.nil_append, List.append_nil] at hhead
    refine ⟨_, hroot, hhead, rfl, rfl, ?_⟩
    rw [length_layout]; exact hread

/-- Witness of C1: the sample unit, whose traversal takes both the `parent == lastCursor` path
(first children) and the stack rescan (later siblings), and skips the child of a reference. -/
theorem buildComprehensiveTree_tree_fidelity_witness :
    (∀ c ∈ CursorTree.cursorsF sampleUnit.children, c.location.file.isSome = true) ∧
    sampleUnit.cursors.Pairwise (fun a b => cursorEq a b = false) ∧
    ∃ r n, (clang_visitChildren buildComprehensiveTree sampleUnit
        ComprehensiveTreeUserData.init).2.root = some r ∧
      (clang_visitChildren buildComprehensiveTree sampleUnit
        ComprehensiveTreeUserData.init).2.heap[r]? = some n ∧
      n.cursor = sampleUnit.cursor ∧ n.parent = none ∧
      readTree (clang_visitChildren buildComprehensiveTree sampleUnit
          ComprehensiveTreeUserData.init).2.heap
        (2 * (clang_visitChildren buildComprehensiveTree sampleUnit
          ComprehensiveTreeUserData.init).2.heap.length) none r
        = some (visitedPart sampleUnit) :=
  ⟨by decide, by decide,
    (buildComprehensiveTree_tree_fidelity sampleUnit (by decide) (by decide)
      (by simp [sampleUnit, CursorTree.children])).2.2⟩

/-! ## The symbol graph (C2 to C7) -/

theorem lookup_filter_ne {α : Type} (k key : QByteArray) (hne : k ≠ key) :
    (h : QHash α) → List.lookup k (h.filter (fun e => e.1 != key)) = List.lookup k h
  | [] => rfl
  | (a, b) :: es => by
    have ih := lookup_filter_ne k key hne es
    by_cases ha : a = key
    · subst ha
      have hka : (k == a) = false := by simpa using hne
      simp [List.filter, List.lookup, hka, ih]
    · have : (a != key) = true := by simpa using ha
      simp only [List.filter, this, List.lookup]
      cases hk : k == a <;> simp [ih]

theorem lookup_insert {α : Type} (h : QHash α) (key k : QByteArray) (v : α) :
    List.lookup k (QHash.insert h key v) = if k = key then some v else List.lookup k h := by
  unfold QHash.insert
  by_cases hk : k = key
  · subst hk; simp [List.lookup]
  · have : (k == key) = false := by simpa using hk
    simp [List.lookup, this, hk, lookup_filter_ne k key hk]

theorem contains_eq_false {α : Type} (h : QHash α) (k : QByteArray) :
    QHash.contains h k = false ↔ List.lookup k h = none := by
  unfold QHash.contains
  cases List.lookup k h <;> simp

theorem FreshGrowth.refl (g : Graph) : FreshGrowth g g := by
  refine ⟨⟨[], by simp⟩, fun _ _ h => h, ?_⟩
  intro i n hi hn
  have : i < g.nodes.length := by
    by_contra hc
    rw [List.getElem?_eq_none (by omega)] at hn
    exact absurd hn (by simp)
  omega

theorem FreshGrowth.of_eq {g g' : Graph} (hn : g'.nodes = g.nodes) (hs : g'.sNodes = g.sNodes) :
    FreshGrowth g g' := by
  have h := FreshGrowth.refl g
  unfold FreshGrowth at h ⊢
  rw [hn, hs]; exact h

theorem FreshGrowth.trans {g g1 g2 : Graph} (h1 : FreshGrowth g g1) (h2 : FreshGrowth g1 g2) :
    FreshGrowth g g2 := by
  obtain ⟨⟨n1, e1⟩, k1, f1⟩ := h1
  obtain ⟨⟨n2, e2⟩, k2, f2⟩ := h2
  refine ⟨⟨n1 ++ n2, by rw [e2, e1, List.append_assoc]⟩, fun k p h => k2 k p (k1 k p h), ?_⟩
  intro i n hi hn
  by_cases hlt : i < g1.nodes.length
  · have hn1 : g1.nodes[i]? = some n := by
      rw [e2, List.getElem?_append_left hlt] at hn; exact hn
    obtain ⟨a, b⟩ := f1 i n hi hn1
    exact ⟨a, k2 _ _ b⟩
  · obtain ⟨a, b⟩ := f2 i n (by omega) hn
    refine ⟨?_, b⟩
    cases hl : List.lookup n.id g.sNodes with
    | none => rfl
    | some p =>
      rw [k1 _ _ hl] at a
      exact absurd a (by simp)

theorem FreshGrowth.node_new (g : Graph) (parent : Option Nat) (type : NodeType)
    (cursor : CXCursor) (loc : Location) (id : QByteArray)
    (habs : QHash.contains g.sNodes id = false) :
    FreshGrowth g (Node.new g parent type cursor loc id).1 := by
  rw [contains_eq_false] at habs
  refine ⟨⟨_, rfl⟩, ?_, ?_⟩
  · intro k p hk
    simp only [Node.new, lookup_insert]
    have : k ≠ id := by
      intro h; subst h; rw [habs] at hk; exact absurd hk (by simp)
    simp [this, hk]
  · intro i n hi hn
    simp only [Node.new] at hn ⊢
    have hlt : i < (g.nodes ++ [Node.mk parent type cursor loc id]).length := by
      by_contra hc
      rw [List.getElem?_eq_none (by omega)] at hn
      exact absurd hn (by simp)
    simp only [List.length_append, List.length_singleton] at hlt
    have hi' : i = g.nodes.length := by omega
    subst hi'
    rw [List.getElem?_append_right (le_refl _)] at hn
    simp only [Nat.sub_self, List.getElem?_cons_zero, Option.some.injEq] at hn
    subst hn
    simp [lookup_insert, habs]

theorem FreshGrowth.qAssert_right {g g' : Graph} (b : Bool) (h : FreshGrowth g g') :
    FreshGrowth g (g'.qAssert b) :=
  h.trans (FreshGrowth.of_eq rfl rfl)

theorem FreshGrowth.qAssert_left {g g' : Graph} (b : Bool) (h : FreshGrowth (g.qAssert b) g') :
    FreshGrowth g g' :=
  (@FreshGrowth.of_eq g (g.qAssert b) rfl rfl).trans h

theorem buildTreeMacroExpansion_fresh (env : Clang) (cparent : Option CursorTree)
    (c : CursorTree) (g : Graph) :
    FreshGrowth g (buildTreeMacroExpansion env cparent c g).2 := by
  unfold buildTreeMacroExpansion
  split
  · simp only
    split
    · exact FreshGrowth.of_eq rfl rfl
    · rename_i hc
      split
      · exact FreshGrowth.of_eq rfl rfl
      · split
        · apply FreshGrowth.qAssert_left (!env.locationIsNull (env.location c.cursor))
          apply FreshGrowth.qAssert_left
          apply FreshGrowth.node_new
          simpa [Graph.qAssert] using hc
        · exact FreshGrowth.of_eq rfl rfl
  · exact FreshGrowth.refl g

theorem buildTreeDeclaration_fresh (env : Clang) (parent : Option Nat) (cp c : CursorTree)
    (type : NodeType) (g g2 : Graph) (p2 : Option Nat)
    (h : buildTreeDeclaration env parent cp c type g = some (g2, p2)) :
    FreshGrowth g g2 := by
  simp only [buildTreeDeclaration] at h
  split at h
  · split at h
    · exact absurd h (by simp)
    · rename_i hc
      simp only [Option.some.injEq, Prod.mk.injEq] at h
      rw [← h.1]
      apply FreshGrowth.node_new
      simpa using hc
  · simp only [Option.some.injEq, Prod.mk.injEq] at h
    rw [← h.1]; exact FreshGrowth.refl g

theorem addReferenceNode_fresh (env : Clang) (c : CursorTree) (id : QByteArray)
    (loc : Location) (g : Graph) (habs : QHash.contains g.sNodes id = false) :
    FreshGrowth g (addReferenceNode env c id loc g).2 := by
  unfold addReferenceNode
  split
  · simp only
    split
    · exact FreshGrowth.refl g
    · split
      · exact FreshGrowth.refl g
      · split
        · exact FreshGrowth.refl g
        · apply FreshGrowth.qAssert_right
          apply FreshGrowth.qAssert_left (!QHash.contains g.sNodes id)
          apply FreshGrowth.node_new
          simpa [Graph.qAssert] using habs
  · exact FreshGrowth.refl g

mutual
theorem buildTree_fresh (env : Clang) (parent : Option Nat) (cparent : Option CursorTree) :
    (c : CursorTree) → ∀ (st : BuildState),
      FreshGrowth st.graph (buildTree env parent cparent c st).graph
  | .node cursor children, st => by
    have hm := buildTreeMacroExpansion_fresh env cparent (.node cursor children) st.graph
    rw [buildTree]
    simp only
    by_cases h1 : (buildTreeMacroExpansion env cparent (.node cursor children) st.graph).1 = true
    · simp only [h1, if_true]; exact hm
    · simp only [h1, if_false, Bool.false_eq_true]
      by_cases h2 : env.nodeTypeFromCursor cursor = .Reference
      · simp only [h2, if_true]
        split
        · split
          · exact hm
          · exact hm
        · exact hm
      · simp only [h2, if_false]
        cases cparent with
        | none =>
          exact hm.trans
            (buildTreeChildren_fresh env parent (.node cursor children) children _)
        | some cp =>
          simp only
          by_cases h3 : env.nodeTypeFromCursor cursor = .Invalid
          · simp only [h3, ne_eq, not_true_eq_false, if_false]
            exact hm.trans
              (buildTreeChildren_fresh env parent (.node cursor children) children _)
          · simp only [h3, ne_eq, not_false_eq_true, if_true]
            cases hd : buildTreeDeclaration env parent cp (.node cursor children)
                (env.nodeTypeFromCursor cursor)
                (buildTreeMacroExpansion env (some cp) (.node cursor children) st.graph).2 with
            | none => exact hm
            | some r =>
              obtain ⟨g2, parent2⟩ := r
              have h2 := buildTreeDeclaration_fresh env parent cp _ _ _ g2 parent2 hd
              exact (hm.trans h2).trans
                (buildTreeChildren_fresh env parent2 (.node cursor children) children _)
theorem buildTreeChildren_fresh (env : Clang) (parent : Option Nat) (c : CursorTree) :
    (children : List CursorTree) → ∀ (st : BuildState),
      FreshGrowth st.graph (buildTreeChildren env parent c children st).graph
  | [], st => by rw [buildTreeChildren]; exact FreshGrowth.refl _
  | child :: rest, st => by
    rw [buildTreeChildren]
    exact (buildTree_fresh env parent (some c) child st).trans
      (buildTreeChildren_fresh env parent c rest _)
end

mutual
theorem addReference_fresh (env : Clang) :
    (c : CursorTree) → ∀ (id : QByteArray) (loc : Location) (g : Graph),
      FreshGrowth g (addReference env c id loc g)
  | .node cursor children, id, loc, g => by
    rw [addReference]
    split
    · exact FreshGrowth.refl g
    · rename_i hc
      have h1 := addReferenceNode_fresh env (.node cursor children) id loc g (by simpa using hc)
      simp only
      split
      · exact h1
      · exact h1.trans (addReferenceChildren_fresh env children _)
theorem addReferenceChildren_fresh (env : Clang) :
    (children : List CursorTree) → ∀ (g : Graph),
      FreshGrowth g (addReferenceChildren env children g)
  | [], g => by rw [addReferenceChildren]; exact FreshGrowth.refl g
  | child :: rest, g => by
    rw [addReferenceChildren]
    exact (addReference_fresh env child _ _ g).trans (addReferenceChildren_fresh env rest _)
end

theorem addReferences_fresh (env : Clang) :
    (es : List (QByteArray × PendingReference)) → ∀ (g : Graph),
      FreshGrowth g (addReferences env es g)
  | [], g => by rw [addReferences]; exact FreshGrowth.refl g
  | e :: rest, g => by
    rw [addReferences]
    exact (addReference_fresh env _ _ _ g).trans (addReferences_fresh env rest _)

theorem FreshGrowth.getElem?_old {g g' : Graph} (h : FreshGrowth g g') (i : Nat)
    (hi : i < g.nodes.length) : g'.nodes[i]? = g.nodes[i]? := by
  obtain ⟨⟨new, e⟩, _, _⟩ := h
  rw [e, List.getElem?_append_left hi]

theorem indexScratchTree_fresh (env : Clang) (sRoot : Option Nat) (root : CursorTree)
    (g : Graph) : FreshGrowth g (indexScratchTree env sRoot root g) := by
  unfold indexScratchTree
  exact (buildTree_fresh env sRoot none root { graph := g, references := [] }).trans
    (addReferences_fresh env _ _)

theorem declarationOf_decl (env : Clang) (g : Graph) (r decl : Nat) (n : Node)
    (hn : g.nodes[r]? = some n) (ht : n.type = .MethodDefinition)
    (hd : env.methodDeclaration g r = some decl) : declarationOf env g r = decl := by
  simp [declarationOf, hn, ht, hd]

theorem declarationOf_self (env : Clang) (g : Graph) (r : Nat) (n : Node)
    (hn : g.nodes[r]? = some n)
    (h : n.type ≠ .MethodDefinition ∨ env.methodDeclaration g r = none) :
    declarationOf env g r = r := by
  unfold declarationOf
  rw [hn]
  rcases h with h | h
  · simp [h]
  · simp only [h]; split <;> rfl

theorem contains_insert_self {α : Type} (h : QHash α) (k : QByteArray) (v : α) :
    QHash.contains (QHash.insert h k v) k = true := by
  simp [QHash.contains, lookup_insert]

theorem addReferenceNode_spec (env : Clang) (c : CursorTree) (id : QByteArray)
    (loc : Location) (g : Graph) :
    (addReferenceNode env c id loc g).2 = g ∨
    ∃ refNode, env.nodeTypeFromCursor c.cursor ≠ .Invalid ∧ env.locationExists loc = true ∧
      env.isValidCursor (referencedCursor env c.cursor) = true ∧
      (c.cursor.kind = .DeclRefExpr → declRefAccepts (referencedCursor env c.cursor).kind = true) ∧
      QHash.value g.sNodes
        (env.locationToString (env.location (referencedCursor env c.cursor))) = some refNode ∧
      addReferenceNode env c id loc g
        = (false, referenceCreated g (declarationOf env g refNode) c.cursor loc id) := by
  unfold addReferenceNode
  by_cases h1 : env.nodeTypeFromCursor c.cursor ≠ .Invalid
  · by_cases h2 : env.locationExists loc = true
    · by_cases h3 : env.isValidCursor (referencedCursor env c.cursor) = true
      · by_cases h4 : c.cursor.kind = .DeclRefExpr ∧
            declRefAccepts (referencedCursor env c.cursor).kind = false
        · left; simp [h1, h2, h3, h4.1, h4.2]
        · have h4' : (decide (c.cursor.kind = .DeclRefExpr) &&
              !declRefAccepts (referencedCursor env c.cursor).kind) = false := by
            by_cases hk : c.cursor.kind = .DeclRefExpr
            · have : declRefAccepts (referencedCursor env c.cursor).kind = true := by
                by_contra hcon
                exact h4 ⟨hk, by simpa using hcon⟩
              simp [this]
            · simp [hk]
          cases h5 : QHash.value g.sNodes
              (env.locationToString (env.location (referencedCursor env c.cursor))) with
          | none => left; simp [h1, h2, h3, h4', h5]
          | some refNode =>
            right
            refine ⟨refNode, h1, h2, h3, ?_, rfl, ?_⟩
            · intro hk
              by_contra hcon
              exact h4 ⟨hk, by simpa using hcon⟩
            · simp [h1, h2, h3, h4', h5, referenceCreated, Node.new, Graph.qAssert]
      · left; simp [h1, h2, h3]
    · left; simp [h2]
  · left; simp [h1]

theorem addReferenceNode_creates (env : Clang) (c : CursorTree) (id : QByteArray)
    (loc : Location) (g : Graph) (refNode : Nat)
    (h1 : env.nodeTypeFromCursor c.cursor ≠ .Invalid) (h2 : env.locationExists loc = true)
    (h3 : env.isValidCursor (referencedCursor env c.cursor) = true)
    (h4 : c.cursor.kind = .DeclRefExpr →
      declRefAccepts (referencedCursor env c.cursor).kind = true)
    (h5 : QHash.value g.sNodes
      (env.locationToString (env.location (referencedCursor env c.cursor))) = some refNode) :
    addReferenceNode env c id loc g
      = (false, referenceCreated g (declarationOf env g refNode) c.cursor loc id) := by
  have h4' : (decide (c.cursor.kind = .DeclRefExpr) &&
      !declRefAccepts (referencedCursor env c.cursor).kind) = false := by
    by_cases hk : c.cursor.kind = .DeclRefExpr
    · simp [h4 hk]
    · simp [hk]
  unfold addReferenceNode
  simp [h1, h2, h3, h4', h5, referenceCreated, Node.new, Graph.qAssert]

theorem addReference_unfold (env : Clang) (c : CursorTree) (id : QByteArray) (loc : Location)
    (g : Graph) :
    addReference env c id loc g =
      if QHash.contains g.sNodes id then g
      else if (addReferenceNode env c id loc g).1 then (addReferenceNode env c id loc g).2
      else addReferenceChildren env c.children (addReferenceNode env c id loc g).2 := by
  cases c with
  | node cursor children => rw [addReference]; rfl

theorem addReference_created_node (env : Clang) (c : CursorTree) (id : QByteArray)
    (loc : Location) (g : Graph) (p : Nat)
    (habs : QHash.contains g.sNodes id = false)
    (hr : addReferenceNode env c id loc g = (false, referenceCreated g p c.cursor loc id)) :
    (addReference env c id loc g).nodes[g.nodes.length]?
      = some { parent := some p, type := .Reference, cursor := c.cursor, location := loc,
               id := id } ∧
    List.lookup id (addReference env c id loc g).sNodes = some g.nodes.length := by
  rw [addReference_unfold, habs, hr]
  simp only [Bool.false_eq_true, if_false]
  have hf := addReferenceChildren_fresh env c.children (referenceCreated g p c.cursor loc id)
  constructor
  · rw [hf.getElem?_old _ (by simp [referenceCreated])]
    simp [referenceCreated]
  · apply hf.2.1
    simp [referenceCreated, lookup_insert]

/-- C4 (declaration/definition merge).  Whenever the resolving block of `addReference` creates a
node, the node found at the referenced cursor's Location being `refNode`, it creates exactly one
node, of type Reference, at the key it was called with; when the node found has type
MethodDefinition and `methodDeclaration()` gives a declaration, the new node's parent is that
declaration; when the node found has another type or has no linked declaration, the parent is
the node found.  The node is the first one `addReference` adds to the graph. -/
theorem reference_parent_is_declaration (env : Clang) (c : CursorTree) (id : QByteArray)
    (loc : Location) (g : Graph) (refNode : Nat) (n : Node)
    (hcreates : (addReferenceNode env c id loc g).2.nodes ≠ g.nodes)
    (hfound : QHash.value g.sNodes
      (env.locationToString (env.location (referencedCursor env c.cursor))) = some refNode)
    (hn : g.nodes[refNode]? = some n) :
    ∃ new, (addReferenceNode env c id loc g).2.nodes = g.nodes ++ [new] ∧
      new.type = .Reference ∧ new.id = id ∧ new.location = loc ∧ new.cursor = c.cursor ∧
      (∀ decl, n.type = .MethodDefinition → env.methodDeclaration g refNode = some decl →
        new.parent = some decl) ∧
      (n.type ≠ .MethodDefinition ∨ env.methodDeclaration g refNode = none →
        new.parent = some refNode) ∧
      (QHash.contains g.sNodes id = false →
        (addReference env c id loc g).nodes[g.nodes.length]? = some new) := by
  rcases addReferenceNode_spec env c id loc g with h | ⟨r, _, _, _, _, hv, hr⟩
  · rw [h] at hcreates; exact absurd rfl hcreates
  · rw [hfound] at hv
    have hrr : r = refNode := (Option.some.inj hv).symm
    subst hrr
    refine ⟨{ parent := some (declarationOf env g r), type := .Reference, cursor := c.cursor,
              location := loc, id := id }, ?_, rfl, rfl, rfl, rfl, ?_, ?_, ?_⟩
    · rw [hr]; rfl
    · intro decl ht hd
      simp only [declarationOf_decl env g r decl n hn ht hd]
    · intro h
      simp only [declarationOf_self env g r n hn h]
    · intro habs
      exact (addReference_created_node env c id loc g _ habs hr).1

theorem buildTree_unfold (env : Clang) (parent : Option Nat) (cparent : Option CursorTree)
    (c : CursorTree) (st : BuildState) :
    buildTree env parent cparent c st =
      if (buildTreeMacroExpansion env cparent c st.graph).1 then
        { st with graph := (buildTreeMacroExpansion env cparent c st.graph).2 }
      else if env.nodeTypeFromCursor c.cursor = .Reference then
        if env.locationExists (env.location c.cursor) then
          if !QHash.contains (buildTreeMacroExpansion env cparent c st.graph).2.sNodes
              (env.locationToString (env.location c.cursor)) then
            { graph := (buildTreeMacroExpansion env cparent c st.graph).2,
              references := QHash.insert st.references
                (env.locationToString (env.location c.cursor))
                { node := c, location := env.location c.cursor } }
          else { st with graph := (buildTreeMacroExpansion env cparent c st.graph).2 }
        else { st with graph := (buildTreeMacroExpansion env cparent c st.graph).2 }
      else
        match cparent with
        | some cp =>
          if env.nodeTypeFromCursor c.cursor ≠ .Invalid then
            match buildTreeDeclaration env parent cp c (env.nodeTypeFromCursor c.cursor)
                (buildTreeMacroExpansion env cparent c st.graph).2 with
            | none => { st with graph := (buildTreeMacroExpansion env cparent c st.graph).2 }
            | some (g2, parent2) =>
              buildTreeChildren env parent2 c c.children { st with graph := g2 }
          else buildTreeChildren env parent c c.children
            { st with graph := (buildTreeMacroExpansion env cparent c st.graph).2 }
        | none => buildTreeChildren env parent c c.children
            { st with graph := (buildTreeMacroExpansion env cparent c st.graph).2 } := by
  cases c with
  | node cursor children =>
    rw [buildTree]
    simp only [CursorTree.cursor, CursorTree.children]

theorem findMacroDefinition_first (symbolName : String) (defn : CursorTree) :
    (pre post : List CursorTree) →
      (∀ x ∈ pre, ¬(x.cursor.kind = .MacroDefinition ∧ symbolName = x.cursor.spelling)) →
      defn.cursor.kind = .MacroDefinition → symbolName = defn.cursor.spelling →
      findMacroDefinition symbolName (pre ++ defn :: post) = some defn
  | [], post, _, hk, hs => by
    simp [findMacroDefinition, hk, hs]
  | x :: pre, post, hpre, hk, hs => by
    have hx := hpre x (List.mem_cons_self _ _)
    have ih := findMacroDefinition_first symbolName defn pre post
      (fun y hy => hpre y (List.mem_cons_of_mem _ hy)) hk hs
    have hx' : (decide (x.cursor.kind = .MacroDefinition) &&
        symbolName == x.cursor.spelling) = false := by
      by_cases h1 : x.cursor.kind = .MacroDefinition
      · have : symbolName ≠ x.cursor.spelling := fun h => hx ⟨h1, h⟩
        simp [this]
      · simp [h1]
    simp only [List.cons_append, findMacroDefinition, hx', Bool.false_eq_true, if_false]
    exact ih

/-- C6 as amended (macro expansion).  For a macro-expansion scratch node `c` with parent `cp`:
when no graph node exists at its Location and the first sibling in sibling order that is a
macro definition with the same spelled name is `defn`, whose graph node `p` exists, `buildTree`
creates exactly one node, a Reference at the expansion's Location parented under `p`, leaves
the pending map as it was and does nothing else (no descendant is processed); when a graph node
already exists at the expansion's Location, `buildTree` leaves the nodes, the index and the
pending map as they were. -/
theorem macro_expansion_reference (env : Clang) (parent : Option Nat) (cp c : CursorTree)
    (st : BuildState) (hk : c.cursor.kind = .MacroExpansion) :
    (∀ (pre post : List CursorTree) (defn : CursorTree) (p : Nat),
      QHash.contains st.graph.sNodes (env.locationToString (env.location c.cursor)) = false →
      cp.children = pre ++ defn :: post →
      (∀ x ∈ pre, ¬(x.cursor.kind = .MacroDefinition ∧
        c.cursor.spelling = x.cursor.spelling)) →
      defn.cursor.kind = .MacroDefinition → c.cursor.spelling = defn.cursor.spelling →
      QHash.value st.graph.sNodes (env.locationToString (env.location defn.cursor)) = some p →
      (buildTree env parent (some cp) c st).graph.nodes
        = st.graph.nodes ++ [Node.mk (some p) .Reference c.cursor (env.location c.cursor)
            (env.locationToString (env.location c.cursor))] ∧
      (buildTree env parent (some cp) c st).graph.sNodes
        = QHash.insert st.graph.sNodes (env.locationToString (env.location c.cursor))
            st.graph.nodes.length ∧
      (buildTree env parent (some cp) c st).references = st.references) ∧
    (QHash.contains st.graph.sNodes (env.locationToString (env.location c.cursor)) = true →
      (buildTree env parent (some cp) c st).graph.nodes = st.graph.nodes ∧
      (buildTree env parent (some cp) c st).graph.sNodes = st.graph.sNodes ∧
      (buildTree env parent (some cp) c st).references = st.references) := by
  constructor
  · intro pre post defn p habs hsib hfirst hdk hds hnode
    have hfind := findMacroDefinition_first c.cursor.spelling defn pre post hfirst hdk hds
    rw [← hsib] at hfind
    have hm : buildTreeMacroExpansion env (some cp) c st.graph
        = (true, (Node.new ((st.graph.qAssert
              (!env.locationIsNull (env.location c.cursor))).qAssert true) (some p) .Reference
            c.cursor (env.location c.cursor)
            (env.locationToString (env.location c.cursor))).1) := by
      unfold buildTreeMacroExpansion
      have habs' : QHash.contains (st.graph.qAssert
          (!env.locationIsNull (env.location c.cursor))).sNodes
          (env.locationToString (env.location c.cursor)) = false := habs
      have hnode' : QHash.value (st.graph.qAssert
          (!env.locationIsNull (env.location c.cursor))).sNodes
          (env.locationToString (env.location defn.cursor)) = some p := hnode
      simp [hk, habs', hfind, hnode']
    rw [buildTree_unfold, hm]
    simp [Node.new, Graph.qAssert]
  · intro hpres
    have hm : buildTreeMacroExpansion env (some cp) c st.graph
        = (true, st.graph.qAssert (!env.locationIsNull (env.location c.cursor))) := by
      unfold buildTreeMacroExpansion
      have hpres' : QHash.contains (st.graph.qAssert
          (!env.locationIsNull (env.location c.cursor))).sNodes
          (env.locationToString (env.location c.cursor)) = true := hpres
      simp [hk, hpres']
    rw [buildTree_unfold, hm]
    simp [Graph.qAssert]

/-- C5 as amended (forward-declared class).  (1) For a use-site that is itself a class or struct
declaration which the parser resolves to itself, whose node type is not Invalid and whose
Location exists, where the definition cursor of the class is valid and a graph node `d`, not a
method definition, exists at the definition's Location, and no node exists yet at the key being
resolved, `addReference` creates the Reference node under `d`.  (2) For every other use-site
(not a class or struct declaration that the parser resolves to itself) the definition cursor
plays no part: when its node type is not Invalid, its Location exists, no node exists at the
key, the cursor the parser reports as referenced is valid (of an accepted kind for a
`DeclRefExpr`) and a graph node `r`, not a method definition, exists at the Location of that
reported cursor, `addReference` creates the Reference node under `r`; so a use-site whose
referenced cursor is a forward declaration is attached to the node of the forward
declaration. -/
theorem self_referential_class_resolves_to_definition (env : Clang) (c : CursorTree)
    (id : QByteArray) (loc : Location) (g : Graph) (d : Nat) (n : Node)
    (hkind : c.cursor.kind = .ClassDecl ∨ c.cursor.kind = .StructDecl)
    (hself : env.equalCursors (env.getCursorReferenced c.cursor) c.cursor = true)
    (habs : QHash.contains g.sNodes id = false)
    (ht : env.nodeTypeFromCursor c.cursor ≠ .Invalid) (he : env.locationExists loc = true)
    (hv : env.isValidCursor (env.getCursorDefinition (env.getCursorReferenced c.cursor)) = true)
    (hd : QHash.value g.sNodes (env.locationToString (env.location
      (env.getCursorDefinition (env.getCursorReferenced c.cursor)))) = some d)
    (hn : g.nodes[d]? = some n) (hnt : n.type ≠ .MethodDefinition) :
    ((addReference env c id loc g).nodes[g.nodes.length]?
      = some (Node.mk (some d) .Reference c.cursor loc id) ∧
     List.lookup id (addReference env c id loc g).sNodes = some g.nodes.length) ∧
    (∀ (c2 : CursorTree) (id2 : QByteArray) (loc2 : Location) (g2 : Graph) (r : Nat)
        (n2 : Node),
      ¬(env.equalCursors (env.getCursorReferenced c2.cursor) c2.cursor = true ∧
        (c2.cursor.kind = .ClassDecl ∨ c2.cursor.kind = .StructDecl)) →
      QHash.contains g2.sNodes id2 = false →
      env.nodeTypeFromCursor c2.cursor ≠ .Invalid → env.locationExists loc2 = true →
      env.isValidCursor (env.getCursorReferenced c2.cursor) = true →
      (c2.cursor.kind = .DeclRefExpr →
        declRefAccepts (env.getCursorReferenced c2.cursor).kind = true) →
      QHash.value g2.sNodes (env.locationToString (env.location
        (env.getCursorReferenced c2.cursor))) = some r →
      g2.nodes[r]? = some n2 → n2.type ≠ .MethodDefinition →
      (addReference env c2 id2 loc2 g2).nodes[g2.nodes.length]?
        = some (Node.mk (some r) .Reference c2.cursor loc2 id2) ∧
      List.lookup id2 (addReference env c2 id2 loc2 g2).sNodes = some g2.nodes.length) := by
  constructor
  · have href : referencedCursor env c.cursor
        = env.getCursorDefinition (env.getCursorReferenced c.cursor) := by
      unfold referencedCursor
      rcases hkind with h | h <;> simp [hself, h]
    have hcr := addReferenceNode_creates env c id loc g d ht he (by rw [href]; exact hv)
      (by intro h; rcases hkind with h2 | h2 <;> rw [h2] at h <;> exact absurd h (by decide))
      (by rw [href]; exact hd)
    rw [declarationOf_self env g d n hn (Or.inl hnt)] at hcr
    exact addReference_created_node env c id loc g d habs hcr
  · intro c2 id2 loc2 g2 r n2 hother habs2 ht2 he2 hv2 hk2 hr2 hn2 hnt2
    have href : referencedCursor env c2.cursor = env.getCursorReferenced c2.cursor := by
      unfold referencedCursor
      by_cases h1 : env.equalCursors (env.getCursorReferenced c2.cursor) c2.cursor = true
      · have h2 : ¬(c2.cursor.kind = .ClassDecl ∨ c2.cursor.kind = .StructDecl) :=
          fun hh => hother ⟨h1, hh⟩
        simp only [not_or] at h2
        simp [h1, h2.1, h2.2]
      · simp [h1]
    have hcr := addReferenceNode_creates env c2 id2 loc2 g2 r ht2 he2 (by rw [href]; exact hv2)
      (by rw [href]; exact hk2) (by rw [href]; exact hr2)
    rw [declarationOf_self env g2 r n2 hn2 (Or.inl hnt2)] at hcr
    exact addReference_created_node env c2 id2 loc2 g2 r habs2 hcr

/-- Witness of C4: the call at `d.cpp:1` refers to the definition of `C::m` at `c.cpp:4`, whose
node has the declaration at `c.h:8` linked; the Reference node is created under the
declaration's node. -/
theorem reference_parent_is_declaration_witness :
    (addReferenceNode methodClang (.node methodCallCursor []) "d.cpp:1"
        (methodClang.location methodCallCursor) (sampleBuild methodClang methodTree).graph).2.nodes
      ≠ (sampleBuild methodClang methodTree).graph.nodes ∧
    QHash.value (sampleBuild methodClang methodTree).graph.sNodes "c.cpp:4" = some 3 ∧
    ((sampleBuild methodClang methodTree).graph.nodes[3]?).map Node.type
      = some .MethodDefinition ∧
    QHash.value (sampleBuild methodClang methodTree).graph.sNodes "c.h:8" = some 2 ∧
    ∃ new, (addReferenceNode methodClang (.node methodCallCursor []) "d.cpp:1"
        (methodClang.location methodCallCursor) (sampleBuild methodClang methodTree).graph).2.nodes
        = (sampleBuild methodClang methodTree).graph.nodes ++ [new] ∧
      new.type = .Reference ∧ new.parent = some 2 :=
  ⟨by decide, by decide, by decide, by decide,
    (reference_parent_is_declaration methodClang (.node methodCallCursor []) "d.cpp:1"
      (methodClang.location methodCallCursor) (sampleBuild methodClang methodTree).graph 3
      (Node.mk (some 0) .MethodDefinition methodDefCursor (methodClang.location methodDefCursor)
        "c.cpp:4")
      (by decide) (by decide) (by decide)).elim
      (fun new h => ⟨new, h.1, h.2.1, h.2.2.2.2.2.1 2 (by decide) (by decide)⟩)⟩

/-- C5, counterexample.  In the spec's scenario (class forward-declared at `x.h:5`, defined at
`x.h:20`, use-site at `y.c:7` whose referenced cursor is the forward declaration) graph nodes
exist at both Locations after the pass, and the Reference node at `y.c:7` is created under the
node of the forward declaration, not under the node of the definition. -/
theorem forward_declared_class_counterexample :
    forwardClang.getCursorReferenced classUseCursor = forwardDeclCursor ∧
    forwardClang.getCursorDefinition forwardDeclCursor = classDefCursor ∧
    List.lookup "x.h:5" (indexScratchTree forwardClang (some 0) forwardTree sampleGraph).sNodes
      = some 1 ∧
    List.lookup "x.h:20" (indexScratchTree forwardClang (some 0) forwardTree sampleGraph).sNodes
      = some 2 ∧
    List.lookup "y.c:7" (indexScratchTree forwardClang (some 0) forwardTree sampleGraph).sNodes
      = some 3 ∧
    (indexScratchTree forwardClang (some 0) forwardTree sampleGraph).nodes[3]?
      = some (Node.mk (some 1) .Reference classUseCursor
          (forwardClang.location classUseCursor) "y.c:7") := by
  decide

/-- Witness of C5 as amended.  First part: the forward declaration at `x.h:5` resolved as a
use-site of its own, in a graph that holds the definition at `x.h:20`, gets its Reference node
under the node of the definition.  Second part: the use-site at `y.c:7`, whose referenced
cursor is the forward declaration, in a graph that holds the forward declaration (node 1) and
the definition (node 2), gets its Reference node under the node of the forward declaration. -/
theorem self_referential_class_resolves_to_definition_witness :
    (forwardDeclCursor.kind = .ClassDecl ∨ forwardDeclCursor.kind = .StructDecl) ∧
    forwardClang.equalCursors (forwardClang.getCursorReferenced forwardDeclCursor)
      forwardDeclCursor = true ∧
    QHash.contains (sampleBuild forwardClang definitionOnlyTree).graph.sNodes "x.h:5" = false ∧
    QHash.value (sampleBuild forwardClang definitionOnlyTree).graph.sNodes "x.h:20" = some 1 ∧
    (addReference forwardClang (.node forwardDeclCursor []) "x.h:5"
        (forwardClang.location forwardDeclCursor)
        (sampleBuild forwardClang definitionOnlyTree).graph).nodes[2]?
      = some (Node.mk (some 1) .Reference forwardDeclCursor
          (forwardClang.location forwardDeclCursor) "x.h:5") ∧
    forwardClang.getCursorReferenced classUseCursor = forwardDeclCursor ∧
    QHash.value (sampleBuild forwardClang forwardTree).graph.sNodes "x.h:5" = some 1 ∧
    QHash.value (sampleBuild forwardClang forwardTree).graph.sNodes "x.h:20" = some 2 ∧
    (addReference forwardClang (.node classUseCursor []) "y.c:7"
        (forwardClang.location classUseCursor)
        (sampleBuild forwardClang forwardTree).graph).nodes[3]?
      = some (Node.mk (some 1) .Reference classUseCursor
          (forwardClang.location classUseCursor) "y.c:7") :=
  ⟨by decide, by decide, by decide, by decide,
    (self_referential_class_resolves_to_definition forwardClang (.node forwardDeclCursor [])
      "x.h:5" (forwardClang.location forwardDeclCursor)
      (sampleBuild forwardClang definitionOnlyTree).graph 1
      (Node.mk (some 0) .Class classDefCursor (forwardClang.location classDefCursor) "x.h:20")
      (by decide) (by decide) (by decide) (by decide) (by decide) (by decide) (by decide)
      (by decide) (by decide)).1.1,
    by decide, by decide, by decide,
    ((self_referential_class_resolves_to_definition forwardClang (.node forwardDeclCursor [])
      "x.h:5" (forwardClang.location forwardDeclCursor)
      (sampleBuild forwardClang definitionOnlyTree).graph 1
      (Node.mk (some 0) .Class classDefCursor (forwardClang.location classDefCursor) "x.h:20")
      (by decide) (by decide) (by decide) (by decide) (by decide) (by decide) (by decide)
      (by decide) (by decide)).2 (.node classUseCursor []) "y.c:7"
      (forwardClang.location classUseCursor) (sampleBuild forwardClang forwardTree).graph 1
      (Node.mk (some 0) .Class forwardDeclCursor (forwardClang.location forwardDeclCursor)
        "x.h:5")
      (by decide) (by decide) (by decide) (by decide) (by decide) (by decide) (by decide)
      (by decide) (by decide)).1⟩

/-- C6, counterexample.  The expansion of `FOO` at `b.c:10` has two sibling definitions of
`FOO`; the graph node of the second one exists (`a.h:3`), the first one has none.  `buildTree`
takes the first sibling with the name, finds no node, and creates the Reference node with a
null parent (violating `Q_ASSERT(parent)`), not under the node of the sibling whose node
exists. -/
theorem macro_expansion_counterexample :
    List.lookup "a.h:3"
      (indexScratchTree goneClang (some 0) twoDefinitionsTree sampleGraph).sNodes = some 1 ∧
    List.lookup "b.c:10"
      (indexScratchTree goneClang (some 0) twoDefinitionsTree sampleGraph).sNodes = some 2 ∧
    ((indexScratchTree goneClang (some 0) twoDefinitionsTree sampleGraph).nodes[2]?).map
      (fun n => (n.type, n.parent)) = some (.Reference, none) ∧
    (indexScratchTree goneClang (some 0) twoDefinitionsTree sampleGraph).assertFailed = true := by
  decide

/-- Witness of C6 as amended: the spec's scenario, `FOO` defined at `a.h:3` and expanded at
`b.c:10`. -/
theorem macro_expansion_reference_witness :
    macroExpansionNode.cursor.kind = .MacroExpansion ∧
    macroTree.children = [] ++ macroDefinitionNode :: [macroExpansionNode] ∧
    QHash.value macroStateAtExpansion.graph.sNodes "a.h:3" = some 1 ∧
    (buildTree sampleClang (some 0) (some macroTree) macroExpansionNode
        macroStateAtExpansion).graph.nodes
      = macroStateAtExpansion.graph.nodes ++
        [Node.mk (some 1) .Reference macroExpansionNode.cursor
          (sampleClang.location macroExpansionNode.cursor) "b.c:10"] :=
  ⟨by decide, rfl, by decide,
    ((macro_expansion_reference sampleClang (some 0) macroTree macroExpansionNode
      macroStateAtExpansion (by decide)).1 [] [macroExpansionNode] macroDefinitionNode 1
      (by decide) rfl (by simp) (by decide) (by decide) (by decide)).1⟩

/-! ## Reading the scratch tree back; a callback that matches no frame -/

mutual
theorem readTree_mono (heap extra : List CursorNode) :
    (fuel : Nat) → ∀ (fuel2 : Nat) (par : Option Nat) (p : Nat) (t : CursorTree),
      fuel ≤ fuel2 → readTree heap fuel par p = some t →
      readTree (heap ++ extra) fuel2 par p = some t
  | 0, _, _, _, _, _, h => by simp [readTree] at h
  | fuel + 1, 0, _, _, _, hle, _ => by omega
  | fuel + 1, fuel2 + 1, par, p, t, hle, h => by
    rw [readTree] at h ⊢
    cases hn : heap[p]? with
    | none => simp [hn] at h
    | some n =>
      have hp : p < heap.length := by
        by_contra hc
        rw [List.getElem?_eq_none (by omega)] at hn
        exact absurd hn (by simp)
      rw [List.getElem?_append_left hp, hn]
      simp only [hn] at h ⊢
      by_cases hpar : n.parent = par
      · simp only [hpar, if_true] at h ⊢
        cases hc : readChain heap fuel (some p) n.firstChild with
        | none => simp [hc] at h
        | some ks =>
          rw [readChain_mono heap extra fuel fuel2 (some p) n.firstChild ks (by omega) hc]
          simp only [hc] at h
          exact h
      · simp [hpar] at h
theorem readChain_mono (heap extra : List CursorNode) :
    (fuel : Nat) → ∀ (fuel2 : Nat) (par : Option Nat) (c : Option Nat) (ts : List CursorTree),
      fuel ≤ fuel2 → readChain heap fuel par c = some ts →
      readChain (heap ++ extra) fuel2 par c = some ts
  | 0, _, _, _, _, _, h => by simp [readChain] at h
  | fuel + 1, 0, _, _, _, hle, _ => by omega
  | fuel + 1, fuel2 + 1, par, none, ts, _, h => by
    rw [readChain] at h ⊢; exact h
  | fuel + 1, fuel2 + 1, par, some c, ts, hle, h => by
    rw [readChain] at h ⊢
    cases hn : heap[c]? with
    | none => simp [hn] at h
    | some n =>
      have hp : c < heap.length := by
        by_contra hc
        rw [List.getElem?_eq_none (by omega)] at hn
        exact absurd hn (by simp)
      rw [List.getElem?_append_left hp, hn]
      simp only [hn] at h ⊢
      cases h1 : readTree heap fuel par c with
      | none => simp [h1] at h
      | some t =>
        cases h2 : readChain heap fuel par n.nextSibling with
        | none => simp [h1, h2] at h
        | some rest =>
          rw [readTree_mono heap extra fuel fuel2 par c t (by omega) h1,
            readChain_mono heap extra fuel fuel2 par n.nextSibling rest (by omega) h2]
          simp only [h1, h2] at h
          exact h
end

theorem scanParents_none (parent : CXCursor) (frames : List (CXCursor × Option Nat))
    (h : ∀ f ∈ frames, cursorEq parent f.1 = false) :
    ∀ n, scanParents parent frames n = none
  | 0 => rfl
  | m + 1 => by
    unfold scanParents
    cases hm : frames[m]? with
    | none => exact scanParents_none parent frames h m
    | some f =>
      have := h f (List.getElem?_mem hm)
      simp only [this, Bool.false_eq_true, if_false]
      exact scanParents_none parent frames h m

theorem buildComprehensiveTree_orphan (u : ComprehensiveTreeUserData)
    (cursor parent : CXCursor) (r : Nat) (hroot : u.root = some r)
    (hfile : cursor.location.file.isSome = true)
    (hlast : cursorEq parent u.lastCursor = false)
    (hframes : ∀ f ∈ u.parents, cursorEq parent f.1 = false) :
    buildComprehensiveTree cursor parent u
      = (visitResultOfKind cursor.kind,
          { heap := u.heap ++ [CursorNode.mk cursor none none none none],
            root := u.root, last := some u.heap.length, parents := u.parents,
            lastCursor := cursor, assertFailed := true }) := by
  have hnf : cursor.location.file.isNone = false := by
    cases h : cursor.location.file with
    | none => simp [h] at hfile
    | some f => rfl
  simp [buildComprehensiveTree, hnf, hroot, hlast, scanParents_none parent u.parents hframes,
    CursorNode.new]

/-! ## Pending references (C7, C3) -/

theorem applyStores_append (refs : QHash PendingReference)
    (a b : List (QByteArray × PendingReference)) :
    applyStores refs (a ++ b) = applyStores (applyStores refs a) b := by
  simp [applyStores, List.foldl_append]

mutual
theorem buildTree_stores (env : Clang) (parent : Option Nat) (cparent : Option CursorTree) :
    (c : CursorTree) → ∀ (st : BuildState),
      buildTree env parent cparent c st =
        { graph := (buildTree env parent cparent c
                      { graph := st.graph, references := [] }).graph,
          references := applyStores st.references
                          (buildTreeStores env parent cparent c st.graph) }
  | .node cursor children, st => by
    rw [buildTree, buildTree, buildTreeStores]
    simp only
    by_cases h1 : (buildTreeMacroExpansion env cparent (.node cursor children) st.graph).1 = true
    · simp [h1, applyStores]
    · simp only [h1, if_false, Bool.false_eq_true]
      by_cases h2 : env.nodeTypeFromCursor cursor = .Reference
      · simp only [h2, if_true]
        split
        · split
          · simp [applyStores]
          · simp [applyStores]
        · simp [applyStores]
      · simp only [h2, if_false]
        cases cparent with
        | none =>
          simp only
          rw [buildTreeChildren_stores env parent (.node cursor children) children
            { graph := _, references := st.references }]
        | some cp =>
          simp only
          by_cases h3 : env.nodeTypeFromCursor cursor = .Invalid
          · simp only [h3, ne_eq, not_true_eq_false, if_false]
            rw [buildTreeChildren_stores env parent (.node cursor children) children
              { graph := _, references := st.references }]
          · simp only [h3, ne_eq, not_false_eq_true, if_true]
            cases hd : buildTreeDeclaration env parent cp (.node cursor children)
                (env.nodeTypeFromCursor cursor)
                (buildTreeMacroExpansion env (some cp) (.node cursor children) st.graph).2 with
            | none => simp [applyStores]
            | some r =>
              obtain ⟨g2, parent2⟩ := r
              simp only
              rw [buildTreeChildren_stores env parent2 (.node cursor children) children
                { graph := g2, references := st.references }]
theorem buildTreeChildren_stores (env : Clang) (parent : Option Nat) (c : CursorTree) :
    (children : List CursorTree) → ∀ (st : BuildState),
      buildTreeChildren env parent c children st =
        { graph := (buildTreeChildren env parent c children
                      { graph := st.graph, references := [] }).graph,
          references := applyStores st.references
                          (buildTreeChildrenStores env parent c children st.graph) }
  | [], st => by
    simp [buildTreeChildren, buildTreeChildrenStores, applyStores]
  | child :: rest, st => by
    rw [buildTreeChildren, buildTreeChildren, buildTreeChildrenStores,
      buildTree_stores env parent (some c) child st,
      buildTreeChildren_stores env parent c rest
        { graph := _, references := applyStores st.references _ },
      applyStores_append]
    simp only
    rw [buildTreeChildren_stores env parent c rest
      (buildTree env parent (some c) child { graph := st.graph, references := [] })]
end

theorem lookup_applyStores_ne (k : QByteArray) :
    (stores : List (QByteArray × PendingReference)) → ∀ (refs : QHash PendingReference),
      (∀ e ∈ stores, e.1 ≠ k) → List.lookup k (applyStores refs stores) = List.lookup k refs
  | [], refs, _ => rfl
  | e :: rest, refs, h => by
    have he := h e (List.mem_cons_self _ _)
    have ih := lookup_applyStores_ne k rest (QHash.insert refs e.1 e.2)
      (fun x hx => h x (List.mem_cons_of_mem _ hx))
    simp only [applyStores, List.foldl_cons] at ih ⊢
    rw [ih, lookup_insert]
    simp [Ne.symm he]

theorem count_insert_self (refs : QHash PendingReference) (k : QByteArray)
    (v : PendingReference) :
    ((QHash.insert refs k v).filter (fun e => e.1 == k)).length = 1 := by
  unfold QHash.insert
  have : (refs.filter (fun e => e.1 != k)).filter (fun e => e.1 == k) = [] := by
    rw [List.filter_filter]
    apply List.filter_eq_nil_iff.mpr
    intro a _
    by_cases h : a.1 = k <;> simp [h]
  simp [List.filter_cons, this]

theorem count_insert_other (refs : QHash PendingReference) (k k2 : QByteArray)
    (v : PendingReference) (h : k2 ≠ k) :
    ((QHash.insert refs k2 v).filter (fun e => e.1 == k)).length
      = (refs.filter (fun e => e.1 == k)).length := by
  unfold QHash.insert
  have h1 : (k2 == k) = false := by simpa using h
  have h2 : (refs.filter (fun e => e.1 != k2)).filter (fun e => e.1 == k)
      = refs.filter (fun e => e.1 == k) := by
    rw [List.filter_filter]
    apply List.filter_congr
    intro a _
    by_cases ha : a.1 = k
    · simp [ha, Ne.symm h]
    · simp [ha]
  simp [List.filter_cons, h1, h2]

theorem count_applyStores_ne (k : QByteArray) :
    (stores : List (QByteArray × PendingReference)) → ∀ (refs : QHash PendingReference),
      (∀ e ∈ stores, e.1 ≠ k) →
      ((applyStores refs stores).filter (fun e => e.1 == k)).length
        = (refs.filter (fun e => e.1 == k)).length
  | [], refs, _ => rfl
  | e :: rest, refs, h => by
    have he := h e (List.mem_cons_self _ _)
    have ih := count_applyStores_ne k rest (QHash.insert refs e.1 e.2)
      (fun x hx => h x (List.mem_cons_of_mem _ hx))
    simp only [applyStores, List.foldl_cons] at ih ⊢
    rw [ih, count_insert_other refs k e.1 e.2 he]

/-- C7 as amended (pending references, last writer wins).  `buildTree` leaves in the pending
map the result of its assignments `references[id] = r` in the order it executes them, and the
graph does not depend on the map: when the last assignment for a key `k` stores `p`, whatever
was assigned or held for `k` before, the map afterwards holds exactly one entry for `k` and that
entry is `p`.  Of two Reference-kind scratch nodes stored under the same key in one pass, the
entry is the one visited last; the earlier one is overwritten. -/
theorem pending_last_writer_wins (env : Clang) (parent : Option Nat)
    (cparent : Option CursorTree) (c : CursorTree) (st : BuildState) (k : QByteArray)
    (p : PendingReference) (pre post : List (QByteArray × PendingReference))
    (hlog : buildTreeStores env parent cparent c st.graph = pre ++ (k, p) :: post)
    (hpost : ∀ e ∈ post, e.1 ≠ k) :
    (buildTree env parent cparent c st).references
      = applyStores st.references (buildTreeStores env parent cparent c st.graph) ∧
    List.lookup k (buildTree env parent cparent c st).references = some p ∧
    ((buildTree env parent cparent c st).references.filter (fun e => e.1 == k)).length = 1 := by
  have h := buildTree_stores env parent cparent c st
  have hrefs : (buildTree env parent cparent c st).references
      = applyStores st.references (buildTreeStores env parent cparent c st.graph) := by
    rw [h]
  refine ⟨hrefs, ?_, ?_⟩
  · rw [hrefs, hlog, applyStores_append]
    have : applyStores (applyStores st.references pre) ((k, p) :: post)
        = applyStores (QHash.insert (applyStores st.references pre) k p) post := rfl
    rw [this, lookup_applyStores_ne k post _ hpost, lookup_insert]
    simp
  · rw [hrefs, hlog, applyStores_append]
    have : applyStores (applyStores st.references pre) ((k, p) :: post)
        = applyStores (QHash.insert (applyStores st.references pre) k p) post := rfl
    rw [this, count_applyStores_ne k post _ hpost, count_insert_self]

theorem addReferenceNode_lookup_other (env : Clang) (c : CursorTree) (id : QByteArray)
    (loc : Location) (g : Graph) (k : QByteArray) (hk : id ≠ k) :
    List.lookup k (addReferenceNode env c id loc g).2.sNodes = List.lookup k g.sNodes := by
  rcases addReferenceNode_spec env c id loc g with h | ⟨r, _, _, _, _, _, hr⟩
  · rw [h]
  · rw [hr]
    simp [referenceCreated, lookup_insert, Ne.symm hk]

mutual
theorem addReference_lookup_none (env : Clang) (k : QByteArray) :
    (c : CursorTree) → ∀ (id : QByteArray) (loc : Location) (g : Graph),
      id ≠ k → k ∉ keysBelow env c → List.lookup k g.sNodes = none →
      List.lookup k (addReference env c id loc g).sNodes = none
  | .node cursor children, id, loc, g, hid, hbelow, hnone => by
    rw [addReference]
    simp only [keysBelow] at hbelow
    have h1 := addReferenceNode_lookup_other env (.node cursor children) id loc g k hid
    split
    · exact hnone
    · simp only
      split
      · rw [h1]; exact hnone
      · exact addReferenceChildren_lookup_none env k children _ hbelow (by rw [h1]; exact hnone)
theorem addReferenceChildren_lookup_none (env : Clang) (k : QByteArray) :
    (children : List CursorTree) → ∀ (g : Graph),
      k ∉ keysOfForest env children → List.lookup k g.sNodes = none →
      List.lookup k (addReferenceChildren env children g).sNodes = none
  | [], g, _, hnone => by rw [addReferenceChildren]; exact hnone
  | child :: rest, g, hbelow, hnone => by
    rw [addReferenceChildren]
    simp only [keysOfForest, List.mem_cons, List.mem_append, not_or] at hbelow
    obtain ⟨h1, h2, h3⟩ := hbelow
    exact addReferenceChildren_lookup_none env k rest _ h3
      (addReference_lookup_none env k child _ _ g (Ne.symm h1) h2 hnone)
end

theorem addReferences_append (env : Clang) :
    (a b : List (QByteArray × PendingReference)) → ∀ (g : Graph),
      addReferences env (a ++ b) g = addReferences env b (addReferences env a g)
  | [], b, g => rfl
  | e :: a, b, g => by
    simp only [List.cons_append, addReferences]
    exact addReferences_append env a b _

theorem addReferences_lookup_none (env : Clang) (k : QByteArray) :
    (es : List (QByteArray × PendingReference)) → ∀ (g : Graph),
      (∀ e ∈ es, e.1 ≠ k ∧ k ∉ keysBelow env e.2.node) → List.lookup k g.sNodes = none →
      List.lookup k (addReferences env es g).sNodes = none
  | [], g, _, hnone => hnone
  | e :: rest, g, h, hnone => by
    rw [addReferences]
    obtain ⟨h1, h2⟩ := h e (List.mem_cons_self _ _)
    exact addReferences_lookup_none env k rest _
      (fun x hx => h x (List.mem_cons_of_mem _ hx))
      (addReference_lookup_none env k e.2.node e.1 e.2.location g h1 h2 hnone)

theorem keys_insert_nodup {α : Type} (refs : QHash α) (k : QByteArray) (v : α)
    (h : (refs.map Prod.fst).Nodup) : ((QHash.insert refs k v).map Prod.fst).Nodup := by
  unfold QHash.insert
  rw [List.map_cons, List.nodup_cons]
  constructor
  · intro hm
    rw [List.mem_map] at hm
    obtain ⟨e, he, hk⟩ := hm
    have := (List.mem_filter.mp he).2
    simp [hk] at this
  · exact h.sublist ((List.filter_sublist _).map _)

theorem keys_applyStores_nodup :
    (stores : List (QByteArray × PendingReference)) → ∀ (refs : QHash PendingReference),
      (refs.map Prod.fst).Nodup → ((applyStores refs stores).map Prod.fst).Nodup
  | [], _, h => h
  | e :: rest, refs, h =>
    keys_applyStores_nodup rest _ (keys_insert_nodup refs e.1 e.2 h)

theorem buildTree_references_nodup (env : Clang) (parent : Option Nat)
    (cparent : Option CursorTree) (c : CursorTree) (g : Graph) :
    ((buildTree env parent cparent c { graph := g, references := [] }).references.map
      Prod.fst).Nodup := by
  rw [buildTree_stores]
  exact keys_applyStores_nodup _ [] List.nodup_nil

theorem mem_of_lookup {α : Type} (k : QByteArray) (v : α) :
    (h : QHash α) → List.lookup k h = some v → (k, v) ∈ h
  | [], hl => by simp [List.lookup] at hl
  | (a, b) :: es, hl => by
    simp only [List.lookup] at hl
    cases hk : k == a with
    | true =>
      simp only [hk, Option.some.injEq] at hl
      have : k = a := by simpa using hk
      subst this; subst hl
      exact List.mem_cons_self _ _
    | false =>
      simp only [hk] at hl
      exact List.mem_cons_of_mem _ (mem_of_lookup k v es hl)

theorem addReferences_resolves (env : Clang) (g1 : Graph) (R : CursorTree) (locR : Location)
    (kR : QByteArray) (d : Nat) (nd : Node)
    (pre post : List (QByteArray × PendingReference))
    (hpre : ∀ e ∈ pre, e.1 ≠ kR ∧ kR ∉ keysBelow env e.2.node)
    (hfree : List.lookup kR g1.sNodes = none)
    (htype : env.nodeTypeFromCursor R.cursor ≠ .Invalid)
    (hexists : env.locationExists locR = true)
    (hvalid : env.isValidCursor (referencedCursor env R.cursor) = true)
    (hkind : R.cursor.kind = .DeclRefExpr →
      declRefAccepts (referencedCursor env R.cursor).kind = true)
    (hD : List.lookup (env.locationToString (env.location (referencedCursor env R.cursor)))
      g1.sNodes = some d)
    (hnd : g1.nodes[d]? = some nd) :
    ∃ p gm, FreshGrowth g1 gm ∧
      List.lookup kR
        (addReferences env (pre ++ (kR, { node := R, location := locR }) :: post) g1).sNodes
        = some p ∧
      (addReferences env (pre ++ (kR, { node := R, location := locR }) :: post) g1).nodes[p]?
        = some (Node.mk (some (declarationOf env gm d)) .Reference R.cursor locR kR) ∧
      (nd.type ≠ .MethodDefinition → declarationOf env gm d = d) := by
  have hgm := addReferences_fresh env pre g1
  have hnone := addReferences_lookup_none env kR pre g1 hpre hfree
  have hD' := hgm.2.1 _ _ hD
  have hcr := addReferenceNode_creates env R kR locR (addReferences env pre g1) d htype hexists
    hvalid hkind hD'
  have hcn := addReference_created_node env R kR locR (addReferences env pre g1) _
    ((contains_eq_false _ _).mpr hnone) hcr
  have hpost := addReferences_fresh env post
    (addReference env R kR locR (addReferences env pre g1))
  have hstep := addReference_fresh env R kR locR (addReferences env pre g1)
  refine ⟨(addReferences env pre g1).nodes.length, addReferences env pre g1, hgm, ?_, ?_, ?_⟩
  · rw [addReferences_append, addReferences]
    exact hpost.2.1 _ _ hcn.2
  · rw [addReferences_append, addReferences]
    have hlt : (addReferences env pre g1).nodes.length
        < (addReference env R kR locR (addReferences env pre g1)).nodes.length := by
      by_contra hc
      have := hcn.1
      rw [List.getElem?_eq_none (by omega)] at this
      exact absurd this (by simp)
    rw [hpost.getElem?_old _ hlt]
    exact hcn.1
  · intro hnt
    have hdlt : d < g1.nodes.length := by
      by_contra hc
      rw [List.getElem?_eq_none (by omega)] at hnd
      exact absurd hnd (by simp)
    have : (addReferences env pre g1).nodes[d]? = some nd := by
      rw [hgm.getElem?_old d hdlt]; exact hnd
    exact declarationOf_self env _ d nd this (Or.inl hnt)

/-- C3 as amended (deferred-reference soundness).  Let the build pass over a scratch tree leave
the Reference-kind node `R` pending under its key `kR` with no graph node at `kR`, and a graph
node `d` at the Location of the cursor the parser reports as referenced by `R` (valid, of an
accepted kind); let no scratch node below another pending entry have the key `kR`.  Then
resolving the pending entries in any order leaves at `kR` a Reference node for `R` whose parent
is the declaration that `addReference` takes for `d` at the moment of resolving: `d` itself
unless `d` is a method definition (then its linked method declaration, when it has one).
Nothing in the statement depends on where in the tree the referenced declaration was visited. -/
theorem deferred_reference_resolves (env : Clang) (sRoot : Option Nat) (root : CursorTree)
    (g0 : Graph) (R : CursorTree) (locR : Location) (kR : QByteArray) (d : Nat) (nd : Node)
    (es : List (QByteArray × PendingReference))
    (hperm : es.Perm (buildTree env sRoot none root { graph := g0, references := [] }).references)
    (hpending : (kR, { node := R, location := locR })
      ∈ (buildTree env sRoot none root { graph := g0, references := [] }).references)
    (hfree : List.lookup kR
      (buildTree env sRoot none root { graph := g0, references := [] }).graph.sNodes = none)
    (htype : env.nodeTypeFromCursor R.cursor = .Reference)
    (hexists : env.locationExists locR = true)
    (hvalid : env.isValidCursor (referencedCursor env R.cursor) = true)
    (hkind : R.cursor.kind = .DeclRefExpr →
      declRefAccepts (referencedCursor env R.cursor).kind = true)
    (hD : List.lookup (env.locationToString (env.location (referencedCursor env R.cursor)))
      (buildTree env sRoot none root { graph := g0, references := [] }).graph.sNodes = some d)
    (hnd : (buildTree env sRoot none root { graph := g0, references := [] }).graph.nodes[d]?
      = some nd)
    (hsweep : ∀ e ∈ (buildTree env sRoot none root { graph := g0, references := [] }).references,
      e.1 ≠ kR → kR ∉ keysBelow env e.2.node) :
    ∃ p gm,
      FreshGrowth (buildTree env sRoot none root { graph := g0, references := [] }).graph gm ∧
      List.lookup kR (addReferences env es
        (buildTree env sRoot none root { graph := g0, references := [] }).graph).sNodes
        = some p ∧
      (addReferences env es
        (buildTree env sRoot none root { graph := g0, references := [] }).graph).nodes[p]?
        = some (Node.mk (some (declarationOf env gm d)) .Reference R.cursor locR kR) ∧
      (nd.type ≠ .MethodDefinition → declarationOf env gm d = d) := by
  have hnodup := buildTree_references_nodup env sRoot none root g0
  have hnodup' : (es.map Prod.fst).Nodup := (hperm.map Prod.fst).nodup_iff.mpr hnodup
  have hmem : (kR, ({ node := R, location := locR } : PendingReference)) ∈ es :=
    hperm.mem_iff.mpr hpending
  obtain ⟨pre, post, hes⟩ := List.append_of_mem hmem
  have hpre : ∀ e ∈ pre, e.1 ≠ kR ∧ kR ∉ keysBelow env e.2.node := by
    intro e he
    have hne : e.1 ≠ kR := by
      intro heq
      rw [hes, List.map_append, List.map_cons] at hnodup'
      have hdis := (List.nodup_append.mp hnodup').2.2
      exact hdis (List.mem_map_of_mem Prod.fst he) (by rw [heq]; exact List.mem_cons_self _ _)
    refine ⟨hne, hsweep e ?_ hne⟩
    apply hperm.mem_iff.mp
    rw [hes]
    exact List.mem_append_left _ he
  have htype' : env.nodeTypeFromCursor R.cursor ≠ .Invalid := by
    rw [htype]; decide
  rw [hes]
  exact addReferences_resolves env _ R locR kR d nd pre post hpre hfree htype' hexists hvalid
    hkind hD hnd

/-- C7, counterexample.  Two Reference-kind scratch nodes with the same existing Location key
`a.c:5`, no graph node at that key: after the pass the pending map holds one entry for the key,
and its scratch node is the one visited second, not the one visited first. -/
theorem pending_first_writer_counterexample :
    sampleClang.nodeTypeFromCursor firstUseCursor = .Reference ∧
    sampleClang.nodeTypeFromCursor secondUseCursor = .Reference ∧
    sampleClang.locationToString (sampleClang.location firstUseCursor) = "a.c:5" ∧
    sampleClang.locationToString (sampleClang.location secondUseCursor) = "a.c:5" ∧
    List.lookup "a.c:5" (sampleBuild sampleClang twoUsesTree).graph.sNodes = none ∧
    (sampleBuild sampleClang twoUsesTree).references.map (fun e => (e.1, e.2.node.cursor))
      = [("a.c:5", secondUseCursor)] ∧
    secondUseCursor ≠ firstUseCursor := by
  decide

/-- Witness of C7 as amended: the two reference expressions at `a.c:5`. -/
theorem pending_last_writer_wins_witness :
    buildTreeStores sampleClang (some 0) none twoUsesTree sampleGraph
      = [("a.c:5", PendingReference.mk (.node firstUseCursor [])
            (sampleClang.location firstUseCursor))]
        ++ ("a.c:5", PendingReference.mk (.node secondUseCursor [])
            (sampleClang.location secondUseCursor)) :: [] ∧
    (List.lookup "a.c:5" (sampleBuild sampleClang twoUsesTree).references).map
      (fun p => p.node.cursor) = some secondUseCursor ∧
    ((sampleBuild sampleClang twoUsesTree).references.filter
      (fun e => e.1 == "a.c:5")).length = 1 :=
  have h := pending_last_writer_wins sampleClang (some 0) none twoUsesTree
    { graph := sampleGraph, references := [] } "a.c:5"
    (PendingReference.mk (.node secondUseCursor []) (sampleClang.location secondUseCursor))
    [("a.c:5", PendingReference.mk (.node firstUseCursor [])
        (sampleClang.location firstUseCursor))] [] rfl (by simp)
  ⟨rfl, congrArg (Option.map fun p => p.node.cursor) h.2.1, h.2.2⟩

/-- C3, counterexample, on two inputs.  (1) The call site at `d.cpp:1` is visited before the
definition of `C::m` at `c.cpp:4`, which the parser reports as its referenced cursor (kind
CXXMethod, accepted); the build pass creates the definition's node (index 4) and the
declaration's node (index 3).  After the build pass and the resolve pass the Reference node at
`d.cpp:1` has the declaration's node as its parent, not the node of the referenced definition.
(2) The use of `v` at `a.c:2` is the only pending entry with its key, and the build pass creates
the node of `v` (index 2); the other pending entry, at `a.c:3`, is resolved first and has a child
with the Location key `a.c:2` that refers to `w`.  After both passes the Reference node at
`a.c:2` is the child's: its parent is the node of `w` (index 3), not the node of `v`. -/
theorem deferred_reference_counterexample :
    (methodClang.nodeTypeFromCursor methodCallCursor = .Reference ∧
     referencedCursor methodClang methodCallCursor = methodDefCursor ∧
     declRefAccepts methodDefCursor.kind = true ∧
     List.lookup "d.cpp:1" sampleGraph.sNodes = none ∧
     (sampleBuild methodClang methodTreeUseFirst).references.map
       (fun e => (e.1, e.2.node.cursor)) = [("d.cpp:1", methodCallCursor)] ∧
     List.lookup "c.cpp:4" (sampleBuild methodClang methodTreeUseFirst).graph.sNodes = some 4 ∧
     List.lookup "c.h:8" (sampleBuild methodClang methodTreeUseFirst).graph.sNodes = some 3 ∧
     List.lookup "d.cpp:1"
       (indexScratchTree methodClang (some 0) methodTreeUseFirst sampleGraph).sNodes = some 5 ∧
     ((indexScratchTree methodClang (some 0) methodTreeUseFirst sampleGraph).nodes[5]?).map
       (fun n => (n.type, n.parent)) = some (.Reference, some 3)) ∧
    (sweptKeyClang.nodeTypeFromCursor earlyUseCursor = .Reference ∧
     referencedCursor sweptKeyClang earlyUseCursor = lateVarCursor ∧
     declRefAccepts lateVarCursor.kind = true ∧
     List.lookup "a.c:2" sampleGraph.sNodes = none ∧
     (sampleBuild sweptKeyClang sweptKeyTree).references.map
       (fun e => (e.1, e.2.node.cursor)) = [("a.c:3", outerUseCursor), ("a.c:2", earlyUseCursor)] ∧
     List.lookup "a.c:2" (sampleBuild sweptKeyClang sweptKeyTree).graph.sNodes = none ∧
     List.lookup "a.c:9" (sampleBuild sweptKeyClang sweptKeyTree).graph.sNodes = some 2 ∧
     List.lookup "a.c:8" (sampleBuild sweptKeyClang sweptKeyTree).graph.sNodes = some 3 ∧
     List.lookup "a.c:2"
       (indexScratchTree sweptKeyClang (some 0) sweptKeyTree sampleGraph).sNodes = some 5 ∧
     ((indexScratchTree sweptKeyClang (some 0) sweptKeyTree sampleGraph).nodes[5]?).map
       (fun n => (n.type, n.parent, n.cursor)) = some (.Reference, some 3, innerUseCursor)) := by
  decide

/-- Witness of C3 as amended: the use at `a.c:2` is visited before the declaration of the
variable at `a.c:9` and resolves to it. -/
theorem deferred_reference_resolves_witness :
    (sampleBuild useBeforeDeclClang useBeforeDeclTree).references.map
      (fun e => (e.1, e.2.node.cursor)) = [("a.c:2", earlyUseCursor)] ∧
    List.lookup "a.c:2" (sampleBuild useBeforeDeclClang useBeforeDeclTree).graph.sNodes = none ∧
    List.lookup "a.c:9" (sampleBuild useBeforeDeclClang useBeforeDeclTree).graph.sNodes
      = some 2 ∧
    ∃ p gm, FreshGrowth (sampleBuild useBeforeDeclClang useBeforeDeclTree).graph gm ∧
      List.lookup "a.c:2" (addReferences useBeforeDeclClang
        (sampleBuild useBeforeDeclClang useBeforeDeclTree).references
        (sampleBuild useBeforeDeclClang useBeforeDeclTree).graph).sNodes = some p ∧
      (addReferences useBeforeDeclClang
        (sampleBuild useBeforeDeclClang useBeforeDeclTree).references
        (sampleBuild useBeforeDeclClang useBeforeDeclTree).graph).nodes[p]?
        = some (Node.mk (some (declarationOf useBeforeDeclClang gm 2)) .Reference
            earlyUseCursor (useBeforeDeclClang.location earlyUseCursor) "a.c:2") ∧
      (NodeType.Variable ≠ .MethodDefinition → declarationOf useBeforeDeclClang gm 2 = 2) :=
  ⟨by decide, by decide, by decide,
    deferred_reference_resolves useBeforeDeclClang (some 0) useBeforeDeclTree sampleGraph
      (.node earlyUseCursor []) (useBeforeDeclClang.location earlyUseCursor) "a.c:2" 2
      (Node.mk (some 0) .Variable lateVarCursor (useBeforeDeclClang.location lateVarCursor)
        "a.c:9")
      (sampleBuild useBeforeDeclClang useBeforeDeclTree).references
      (List.Perm.refl _) (List.Mem.head _) (by decide) (by decide) (by decide) (by decide)
      (by decide) (by decide) (by decide)
      (by
        intro e he hne
        have h1 : e = ("a.c:2", PendingReference.mk (.node earlyUseCursor [])
            (useBeforeDeclClang.location earlyUseCursor)) :=
          List.mem_singleton.mp he
        rw [h1] at hne
        exact absurd rfl hne)⟩

/-! ## The parse task (C9, C10) -/

theorem parseOnce_lastModified (env : RunEnv) (f : Nat → Nat) (i argCount : Nat)
    (s : RunState) :
    parseOnce { env with lastModified := f } i argCount s = parseOnce env i argCount s := by
  unfold parseOnce
  simp only
  split <;> simp

theorem attempt_lastModified (env : RunEnv) (f : Nat → Nat) (i : Nat) (s : RunState) :
    attempt { env with lastModified := f } i s = attempt env i s := by
  simp only [attempt, attemptParse, parseOnce_lastModified]

/-- C9 (race during parse), the code at a failing input and in general.  `run` compares the
modification times read before and after the parse, but the `continue` it takes when they
differ only leaves the `do { } while (false)` loop: the result of `run` does not depend on the
modification times at all.  For the task `raceEnv`, whose file changes during the only parse,
the unit is kept: it is used to build the scratch tree and the graph gets the nodes of the
file, and the parser is invoked once. -/
theorem race_during_parse_keeps_unit :
    (∀ (env : RunEnv) (f : Nat → Nat) (clang : Clang) (sRoot : Option Nat) (g : Graph),
      run { env with lastModified := f } clang sRoot g = run env clang sRoot g) ∧
    raceEnv.lastModified 0 ≠ raceEnv.lastModified 1 ∧
    (run raceEnv sampleClang (some 0) sampleGraph).trace
      = [.parse 1 [some "-I/usr/include"] false, .visitChildren, .treeLock, .buildTree,
         .addReferences, .treeUnlock, .finished] ∧
    (run raceEnv sampleClang (some 0) sampleGraph).graph.sNodes
      = [("b.c:10", 2), ("a.h:3", 1)] ∧
    sampleGraph.sNodes = [] := by
  refine ⟨?_, by decide, by decide, by decide, rfl⟩
  intro env f clang sRoot g
  simp only [run, attemptLoop, attempt_lastModified]

/-- C10 (preamble lock discipline), the code at a failing input and in general.  With
preambles enabled, whenever `PreCompile::get` returns null the `WithPCH` attempt leaves through
`if (!precompile) continue;` without releasing `sPchMutex`: `run` returns with the lock held.
For the task `noPreambleEnv` the lock is taken once, never released, and held while the parser
is invoked. -/
theorem preamble_lock_leaks :
    (∀ (env : RunEnv) (clang : Clang) (sRoot : Option Nat) (g : Graph),
      (run { env with disablePch := false, precompileGet := none } clang sRoot g).pchHeld
        = true) ∧
    (run noPreambleEnv sampleClang (some 0) sampleGraph).trace
      = [.pchLock, .parse 1 [some "-I/usr/include"] true, .visitChildren, .treeLock,
         .buildTree, .addReferences, .treeUnlock, .finished] ∧
    (run noPreambleEnv sampleClang (some 0) sampleGraph).pchHeld = true := by
  refine ⟨?_, by decide, by decide⟩
  intro env clang sRoot g
  have h1 : ∀ (e : RunEnv) (s : RunState), s.pchHeld = true →
      (attempt { e with disablePch := false, precompileGet := none } 1 s).pchHeld = true := by
    intro e s hs
    simp only [attempt, attemptParse, parseOnce, WithPCH]
    simp only [Nat.reduceBEq, Bool.and_false, Bool.false_eq_true, if_false]
    split <;> (try split) <;> simp [hs]
  have h0 : ∀ (e : RunEnv) (s : RunState),
      attempt { e with disablePch := false, precompileGet := none } 0 s = s.lock := by
    intro e s
    simp [attempt, WithPCH]
  have hl : (attemptLoop { env with disablePch := false, precompileGet := none }).pchHeld
      = true := by
    simp only [attemptLoop, Option.isNone_none, if_true, h0]
    split
    · exact h1 env _ rfl
    · rfl
  simp only [run]
  split
  · exact hl
  · exact hl

/-! ## Uniqueness per Location (C2) -/

theorem KeyedGrowth.of_nodes_eq (env : Clang) {g g2 : Graph} (h : g2.nodes = g.nodes) :
    KeyedGrowth env g g2 := by
  intro i n hi hn
  rw [h, List.getElem?_eq_none (by omega)] at hn
  exact absurd hn (by simp)

theorem KeyedGrowth.keyed_trans (env : Clang) {g g1 g2 : Graph} (h1 : KeyedGrowth env g g1)
    (hf : FreshGrowth g1 g2) (h2 : KeyedGrowth env g1 g2) : KeyedGrowth env g g2 := by
  intro i n hi hn
  by_cases hlt : i < g1.nodes.length
  · rw [hf.getElem?_old i hlt] at hn
    exact h1 i n hi hn
  · exact h2 i n (by omega) hn

theorem KeyedGrowth.keyed_node_new (env : Clang) (g : Graph) (parent : Option Nat) (type : NodeType)
    (cursor : CXCursor) (loc : Location) :
    KeyedGrowth env g (Node.new g parent type cursor loc (env.locationToString loc)).1 := by
  intro i n hi hn
  simp only [Node.new] at hn
  have hlt : i < (g.nodes ++ [Node.mk parent type cursor loc (env.locationToString loc)]).length := by
    by_contra hc
    rw [List.getElem?_eq_none (by omega)] at hn
    exact absurd hn (by simp)
  simp only [List.length_append, List.length_singleton] at hlt
  have hi2 : i = g.nodes.length := by omega
  subst hi2
  rw [List.getElem?_append_right (le_refl _)] at hn
  simp only [Nat.sub_self, List.getElem?_cons_zero, Option.some.injEq] at hn
  subst hn
  rfl

theorem KeyedGrowth.keyed_qAssert_left (env : Clang) {g g2 : Graph} (b : Bool)
    (h : KeyedGrowth env (g.qAssert b) g2) : KeyedGrowth env g g2 := h

theorem buildTreeMacroExpansion_keyed (env : Clang) (cparent : Option CursorTree)
    (c : CursorTree) (g : Graph) :
    KeyedGrowth env g (buildTreeMacroExpansion env cparent c g).2 := by
  unfold buildTreeMacroExpansion
  split
  · simp only
    split
    · exact KeyedGrowth.of_nodes_eq env rfl
    · split
      · exact KeyedGrowth.of_nodes_eq env rfl
      · split
        · apply KeyedGrowth.keyed_qAssert_left env (!env.locationIsNull (env.location c.cursor))
          apply KeyedGrowth.keyed_qAssert_left env
          exact KeyedGrowth.keyed_node_new env _ _ _ _ _
        · exact KeyedGrowth.of_nodes_eq env rfl
  · exact KeyedGrowth.of_nodes_eq env rfl

theorem buildTreeDeclaration_keyed (env : Clang) (parent : Option Nat) (cp c : CursorTree)
    (type : NodeType) (g g2 : Graph) (p2 : Option Nat)
    (h : buildTreeDeclaration env parent cp c type g = some (g2, p2)) :
    KeyedGrowth env g g2 := by
  simp only [buildTreeDeclaration] at h
  split at h
  · split at h
    · exact absurd h (by simp)
    · simp only [Option.some.injEq, Prod.mk.injEq] at h
      rw [← h.1]
      exact KeyedGrowth.keyed_node_new env _ _ _ _ _
  · simp only [Option.some.injEq, Prod.mk.injEq] at h
    rw [← h.1]; exact KeyedGrowth.of_nodes_eq env rfl

mutual
theorem buildTree_keyed (env : Clang) (parent : Option Nat) (cparent : Option CursorTree) :
    (c : CursorTree) → ∀ (st : BuildState),
      KeyedGrowth env st.graph (buildTree env parent cparent c st).graph
  | .node cursor children, st => by
    have hm := buildTreeMacroExpansion_keyed env cparent (.node cursor children) st.graph
    have hmf := buildTreeMacroExpansion_fresh env cparent (.node cursor children) st.graph
    rw [buildTree]
    simp only
    by_cases h1 : (buildTreeMacroExpansion env cparent (.node cursor children) st.graph).1 = true
    · simp only [h1, if_true]; exact hm
    · simp only [h1, if_false, Bool.false_eq_true]
      by_cases h2 : env.nodeTypeFromCursor cursor = .Reference
      · simp only [h2, if_true]
        split
        · split
          · exact hm
          · exact hm
        · exact hm
      · simp only [h2, if_false]
        cases cparent with
        | none =>
          simp only
          exact hm.keyed_trans env
            (buildTreeChildren_fresh env parent (.node cursor children) children
              { graph := _, references := st.references })
            (buildTreeChildren_keyed env parent (.node cursor children) children
              { graph := _, references := st.references })
        | some cp =>
          simp only
          by_cases h3 : env.nodeTypeFromCursor cursor = .Invalid
          · simp only [h3, ne_eq, not_true_eq_false, if_false]
            exact hm.keyed_trans env
              (buildTreeChildren_fresh env parent (.node cursor children) children
                { graph := _, references := st.references })
              (buildTreeChildren_keyed env parent (.node cursor children) children
                { graph := _, references := st.references })
          · simp only [h3, ne_eq, not_false_eq_true, if_true]
            cases hd : buildTreeDeclaration env parent cp (.node cursor children)
                (env.nodeTypeFromCursor cursor)
                (buildTreeMacroExpansion env (some cp) (.node cursor children) st.graph).2 with
            | none => exact hm
            | some r =>
              obtain ⟨g2, parent2⟩ := r
              have k2 := buildTreeDeclaration_keyed env parent cp _ _ _ g2 parent2 hd
              have f2 := buildTreeDeclaration_fresh env parent cp _ _ _ g2 parent2 hd
              exact (hm.keyed_trans env f2 k2).keyed_trans env
                (buildTreeChildren_fresh env parent2 (.node cursor children) children
                  { graph := g2, references := st.references })
                (buildTreeChildren_keyed env parent2 (.node cursor children) children
                  { graph := g2, references := st.references })
theorem buildTreeChildren_keyed (env : Clang) (parent : Option Nat) (c : CursorTree) :
    (children : List CursorTree) → ∀ (st : BuildState),
      KeyedGrowth env st.graph (buildTreeChildren env parent c children st).graph
  | [], st => by rw [buildTreeChildren]; exact KeyedGrowth.of_nodes_eq env rfl
  | child :: rest, st => by
    rw [buildTreeChildren]
    exact (buildTree_keyed env parent (some c) child st).keyed_trans env
      (buildTreeChildren_fresh env parent c rest _)
      (buildTreeChildren_keyed env parent c rest _)
end

theorem addReferenceNode_keyed (env : Clang) (c : CursorTree) (loc : Location) (g : Graph) :
    KeyedGrowth env g (addReferenceNode env c (env.locationToString loc) loc g).2 := by
  rcases addReferenceNode_spec env c (env.locationToString loc) loc g with h | ⟨r, _, _, _, _, _, hr⟩
  · rw [h]; exact KeyedGrowth.of_nodes_eq env rfl
  · rw [hr]
    exact KeyedGrowth.keyed_node_new env g _ .Reference c.cursor loc

mutual
theorem addReference_keyed (env : Clang) :
    (c : CursorTree) → ∀ (loc : Location) (g : Graph),
      KeyedGrowth env g (addReference env c (env.locationToString loc) loc g)
  | .node cursor children, loc, g => by
    rw [addReference]
    have h1 := addReferenceNode_keyed env (.node cursor children) loc g
    split
    · exact KeyedGrowth.of_nodes_eq env rfl
    · simp only
      split
      · exact h1
      · exact h1.keyed_trans env (addReferenceChildren_fresh env children _)
          (addReferenceChildren_keyed env children _)
theorem addReferenceChildren_keyed (env : Clang) :
    (children : List CursorTree) → ∀ (g : Graph),
      KeyedGrowth env g (addReferenceChildren env children g)
  | [], g => by rw [addReferenceChildren]; exact KeyedGrowth.of_nodes_eq env rfl
  | child :: rest, g => by
    rw [addReferenceChildren]
    exact (addReference_keyed env child _ g).keyed_trans env
      (addReferenceChildren_fresh env rest _) (addReferenceChildren_keyed env rest _)
end

theorem addReferences_keyed (env : Clang) :
    (es : List (QByteArray × PendingReference)) → ∀ (g : Graph),
      (∀ e ∈ es, e.1 = env.locationToString e.2.location) →
      KeyedGrowth env g (addReferences env es g)
  | [], g, _ => by rw [addReferences]; exact KeyedGrowth.of_nodes_eq env rfl
  | e :: rest, g, h => by
    rw [addReferences]
    have he := h e (List.mem_cons_self _ _)
    have h1 : KeyedGrowth env g (addReference env e.2.node e.1 e.2.location g) := by
      rw [he]; exact addReference_keyed env e.2.node e.2.location g
    exact h1.keyed_trans env (addReferences_fresh env rest _)
      (addReferences_keyed env rest _ (fun x hx => h x (List.mem_cons_of_mem _ hx)))

mutual
theorem buildTreeStores_keyed (env : Clang) (parent : Option Nat)
    (cparent : Option CursorTree) :
    (c : CursorTree) → ∀ (g : Graph),
      ∀ e ∈ buildTreeStores env parent cparent c g, e.1 = env.locationToString e.2.location
  | .node cursor children, g => by
    rw [buildTreeStores]
    simp only
    by_cases h1 : (buildTreeMacroExpansion env cparent (.node cursor children) g).1 = true
    · simp [h1]
    · simp only [h1, if_false, Bool.false_eq_true]
      by_cases h2 : env.nodeTypeFromCursor cursor = .Reference
      · simp only [h2, if_true]
        split
        · split
          · intro e he
            simp only [List.mem_singleton] at he
            rw [he]
          · simp
        · simp
      · simp only [h2, if_false]
        cases cparent with
        | none => exact buildTreeChildrenStores_keyed env parent _ children _
        | some cp =>
          simp only
          by_cases h3 : env.nodeTypeFromCursor cursor = .Invalid
          · simp only [h3, ne_eq, not_true_eq_false, if_false]
            exact buildTreeChildrenStores_keyed env parent _ children _
          · simp only [h3, ne_eq, not_false_eq_true, if_true]
            cases hd : buildTreeDeclaration env parent cp (.node cursor children)
                (env.nodeTypeFromCursor cursor)
                (buildTreeMacroExpansion env (some cp) (.node cursor children) g).2 with
            | none => simp
            | some r =>
              obtain ⟨g2, parent2⟩ := r
              exact buildTreeChildrenStores_keyed env parent2 _ children _
theorem buildTreeChildrenStores_keyed (env : Clang) (parent : Option Nat) (c : CursorTree) :
    (children : List CursorTree) → ∀ (g : Graph),
      ∀ e ∈ buildTreeChildrenStores env parent c children g,
        e.1 = env.locationToString e.2.location
  | [], g => by simp [buildTreeChildrenStores]
  | child :: rest, g => by
    rw [buildTreeChildrenStores]
    intro e he
    rcases List.mem_append.mp he with h | h
    · exact buildTreeStores_keyed env parent (some c) child g e h
    · exact buildTreeChildrenStores_keyed env parent c rest _ e h
end

theorem mem_applyStores :
    (stores : List (QByteArray × PendingReference)) → ∀ (refs : QHash PendingReference)
      (e : QByteArray × PendingReference),
      e ∈ applyStores refs stores → e ∈ refs ∨ e ∈ stores
  | [], refs, e, h => Or.inl h
  | s :: rest, refs, e, h => by
    have ih := mem_applyStores rest (QHash.insert refs s.1 s.2) e h
    rcases ih with h1 | h1
    · unfold QHash.insert at h1
      rcases List.mem_cons.mp h1 with h2 | h2
      · right; rw [h2]; exact List.mem_cons_self _ _
      · left; exact (List.mem_filter.mp h2).1
    · right; exact List.mem_cons_of_mem _ h1

theorem buildTree_references_keyed (env : Clang) (parent : Option Nat)
    (cparent : Option CursorTree) (c : CursorTree) (g : Graph) :
    ∀ e ∈ (buildTree env parent cparent c { graph := g, references := [] }).references,
      e.1 = env.locationToString e.2.location := by
  intro e he
  rw [buildTree_stores] at he
  rcases mem_applyStores _ _ e he with h | h
  · simp at h
  · exact buildTreeStores_keyed env parent cparent c g e h

theorem indexScratchTree_keyed (env : Clang) (sRoot : Option Nat) (root : CursorTree)
    (g : Graph) (hhash : ∀ m e, e ∈ env.hashOrder m → e ∈ m) :
    KeyedGrowth env g (indexScratchTree env sRoot root g) := by
  unfold indexScratchTree
  exact (buildTree_keyed env sRoot none root { graph := g, references := [] }).keyed_trans env
    (addReferences_fresh env _ _)
    (addReferences_keyed env _ _
      (fun e he => buildTree_references_keyed env sRoot none root g e (hhash _ e he)))

/-- C2 (uniqueness).  From any graph and for any scratch tree, the graph only grows by nodes
created at keys that were absent from `Node::sNodes` at the moment of creation: this holds for
every call of `buildTree` (macro-expansion and declaration branch), for every call of
`addReference`, and for the build pass followed by the resolve pass; no entry of the index is
overwritten.  Hence, when every node of the starting graph other than `sRoot` is the index entry
of its own key and that key is the string of its Location, and the pending map is iterated over
its own entries, two nodes other than `sRoot` that have the same key or the same Location after
the pass are one node: at most one node exists per Location. -/
theorem node_creation_uniqueness (env : Clang) (sRoot : Option Nat) (root : CursorTree)
    (g : Graph)
    (hidx : ∀ i n, g.nodes[i]? = some n → some i ≠ sRoot →
      List.lookup n.id g.sNodes = some i ∧ n.id = env.locationToString n.location)
    (hhash : ∀ m e, e ∈ env.hashOrder m → e ∈ m) :
    (∀ parent cparent c st, FreshGrowth st.graph (buildTree env parent cparent c st).graph) ∧
    (∀ c id loc g1, FreshGrowth g1 (addReference env c id loc g1)) ∧
    FreshGrowth g (indexScratchTree env sRoot root g) ∧
    (∀ i j ni nj, (indexScratchTree env sRoot root g).nodes[i]? = some ni →
      (indexScratchTree env sRoot root g).nodes[j]? = some nj →
      some i ≠ sRoot → some j ≠ sRoot →
      ni.id = nj.id ∨ ni.location = nj.location → i = j) := by
  have hf := indexScratchTree_fresh env sRoot root g
  have hk := indexScratchTree_keyed env sRoot root g hhash
  refine ⟨fun parent cparent c st => buildTree_fresh env parent cparent c st,
    fun c id loc g1 => addReference_fresh env c id loc g1, hf, ?_⟩
  have hall : ∀ i n, (indexScratchTree env sRoot root g).nodes[i]? = some n → some i ≠ sRoot →
      List.lookup n.id (indexScratchTree env sRoot root g).sNodes = some i ∧
      n.id = env.locationToString n.location := by
    intro i n hn hi
    by_cases hlt : i < g.nodes.length
    · rw [hf.getElem?_old i hlt] at hn
      exact ⟨hf.2.1 _ _ (hidx i n hn hi).1, (hidx i n hn hi).2⟩
    · exact ⟨(hf.2.2 i n (by omega) hn).2, hk i n (by omega) hn⟩
  intro i j ni nj hi hj hri hrj hsame
  have h1 := hall i ni hi hri
  have h2 := hall j nj hj hrj
  have hid : ni.id = nj.id := by
    rcases hsame with h | h
    · exact h
    · rw [h1.2, h2.2, h]
  have h3 := h1.1
  rw [hid, h2.1] at h3
  exact (Option.some.inj h3).symm

/-- Witness of C2: the sample graph (the root alone) and the scratch tree of `b.c`. -/
theorem node_creation_uniqueness_witness :
    (∀ i n, sampleGraph.nodes[i]? = some n → some i ≠ some 0 →
      List.lookup n.id sampleGraph.sNodes = some i ∧
      n.id = sampleClang.locationToString n.location) ∧
    FreshGrowth sampleGraph (indexScratchTree sampleClang (some 0) macroTree sampleGraph) ∧
    (indexScratchTree sampleClang (some 0) macroTree sampleGraph).sNodes
      = [("b.c:10", 2), ("a.h:3", 1)] :=
  have h : ∀ i n, sampleGraph.nodes[i]? = some n → some i ≠ some 0 →
      List.lookup n.id sampleGraph.sNodes = some i ∧
      n.id = sampleClang.locationToString n.location := by
    intro i n hn hi
    cases i with
    | zero => exact absurd rfl hi
    | succ k => simp [sampleGraph] at hn
  ⟨h, (node_creation_uniqueness sampleClang (some 0) macroTree sampleGraph h
    (fun _ _ he => he)).2.2.1, by decide⟩

/-! ## The declaration branch of `buildTree` -/

theorem cursor_of_node (c : CXCursor) (ks : List CursorTree) :
    (CursorTree.node c ks).cursor = c := rfl

theorem children_of_node (c : CXCursor) (ks : List CursorTree) :
    (CursorTree.node c ks).children = ks := rfl

theorem buildTreeMacroExpansion_not_returned (env : Clang) (cparent : Option CursorTree)
    (c : CursorTree) (g : Graph)
    (h : (buildTreeMacroExpansion env cparent c g).1 = false) :
    (buildTreeMacroExpansion env cparent c g).2.nodes = g.nodes ∧
    (buildTreeMacroExpansion env cparent c g).2.sNodes = g.sNodes := by
  unfold buildTreeMacroExpansion at h ⊢
  by_cases hk : c.cursor.kind = .MacroExpansion
  · simp only [hk, if_true] at h ⊢
    split at h
    · simp at h
    · rename_i hc
      simp only [hc, if_false, Bool.false_eq_true]
      cases cparent with
      | none => simp at h
      | some cp =>
        simp only at h ⊢
        cases hf : findMacroDefinition c.cursor.spelling cp.children with
        | none => simp [Graph.qAssert]
        | some cn => simp [hf] at h
  · simp [hk]

theorem buildTreeChildren_nodes_old (env : Clang) (parent : Option Nat) (c : CursorTree)
    (children : List CursorTree) (st : BuildState) (i : Nat) (hi : i < st.graph.nodes.length) :
    (buildTreeChildren env parent c children st).graph.nodes[i]? = st.graph.nodes[i]? :=
  (buildTreeChildren_fresh env parent c children st).getElem?_old i hi

/-! ## The attempts of the parse task (C13, C14) -/

theorem parseCalls_append (a b : List Event) :
    parseCalls (a ++ b) = parseCalls a ++ parseCalls b := by
  induction a with
  | nil => rfl
  | cons e a ih =>
    cases e <;> simp [parseCalls, ih]

theorem args_with_preamble (opts : List String) (f : String) :
    (((fillArgs (resizeArgs [] (opts.length + 2)) opts).set opts.length (some "-pch")).set
      (opts.length + 1) (some f)) = opts.map some ++ [some "-pch", some f] := by
  have h1 : fillArgs (resizeArgs [] (opts.length + 2)) opts = opts.map some ++ [none, none] := by
    have hr : resizeArgs [] (opts.length + 2) = List.replicate (opts.length + 2) none := by
      simp [resizeArgs]
    rw [fillArgs, hr, List.drop_replicate]
    have : opts.length + 2 - opts.length = 2 := by omega
    rw [this]; rfl
  rw [h1]
  have hl : (opts.map some).length = opts.length := by simp
  rw [List.set_append_right _ _ (by simp), List.set_append_right _ _ (by simp)]
  simp

theorem args_without_preamble_fresh (opts : List String) :
    fillArgs (resizeArgs [] opts.length) opts = opts.map some := by
  simp [fillArgs, resizeArgs, List.drop_replicate]
  split <;> simp_all

theorem args_without_preamble_reused (opts : List String) (a b : Option String) :
    fillArgs (resizeArgs (opts.map some ++ [a, b]) opts.length) opts
      = opts.map some ++ [a, b] := by
  simp [fillArgs, resizeArgs]

theorem attempt_without_preamble (env : RunEnv) (s : RunState)
    (hargs : s.args = [] ∨ ∃ a b : String,
      s.args = env.compilerOptions.map some ++ [some a, some b]) :
    parseCalls (attempt env 1 s).trace
      = parseCalls s.trace ++ [(1, env.compilerOptions.map some)] ∧
    (attempt env 1 s).assertFailed = s.assertFailed ∧
    (attempt env 1 s).unit = env.parse 1 (env.compilerOptions.map some) ∧
    (attempt env 1 s).args
      = fillArgs (resizeArgs s.args env.compilerOptions.length) env.compilerOptions := by
  have hargs2 : fillArgs (resizeArgs s.args env.compilerOptions.length) env.compilerOptions
        = env.compilerOptions.map some ∨ ∃ a b : String,
      fillArgs (resizeArgs s.args env.compilerOptions.length) env.compilerOptions
        = env.compilerOptions.map some ++ [some a, some b] := by
    rcases hargs with h | ⟨a, b, h⟩
    · left; rw [h]; exact args_without_preamble_fresh _
    · right; exact ⟨a, b, by rw [h]; exact args_without_preamble_reused _ _ _⟩
  have htake : (fillArgs (resizeArgs s.args env.compilerOptions.length)
      env.compilerOptions).take env.compilerOptions.length = env.compilerOptions.map some := by
    rcases hargs2 with h | ⟨a, b, h⟩
    · rw [h]; simp
    · rw [h]; simp [List.take_append_eq_append_take]
  have hnone : (fillArgs (resizeArgs s.args env.compilerOptions.length)
      env.compilerOptions).contains none = false := by
    rcases hargs2 with h | ⟨a, b, h⟩
    · rw [h]; simp
    · rw [h]; simp
  simp only [attempt, attemptParse, parseOnce, WithPCH]
  simp only [Nat.reduceBEq, Bool.and_false, Bool.false_eq_true, if_false, htake, hnone,
    Bool.or_false, ne_eq, ite_self]
  cases hp : env.parse 1 (env.compilerOptions.map some) with
  | none =>
    simp [parseCalls_append, parseCalls]
  | some u =>
    simp [parseCalls_append, parseCalls]

theorem attempt_with_preamble (env : RunEnv) (s : RunState) (pc : PreCompile)
    (hargs : s.args = []) (hen : env.disablePch = false) (hget : env.precompileGet = some pc)
    (hlang : env.language = .LangCPlusPlus) (hfile : env.isFile pc.filename = true) :
    parseCalls (attempt env 0 s).trace
      = parseCalls s.trace
        ++ [(0, env.compilerOptions.map some ++ [some "-pch", some pc.filename])] ∧
    (attempt env 0 s).assertFailed = s.assertFailed ∧
    (attempt env 0 s).unit
      = env.parse 0 (env.compilerOptions.map some ++ [some "-pch", some pc.filename]) ∧
    (attempt env 0 s).args
      = env.compilerOptions.map some ++ [some "-pch", some pc.filename] := by
  simp only [attempt, attemptParse, parseOnce, WithPCH, hen, hget, hlang, hfile,
    RunState.lock, RunState.unlock, hargs, args_with_preamble]
  simp only [Bool.not_false, Nat.reduceBEq, Bool.and_true, if_true, ne_eq, not_true_eq_false,
    if_false, Bool.not_true, Bool.false_eq_true, ite_self, hfile, args_with_preamble]
  have htake : (env.compilerOptions.map some ++ [some "-pch", some pc.filename]).take
      (env.compilerOptions.length + 2)
      = env.compilerOptions.map some ++ [some "-pch", some pc.filename] := by
    apply List.take_of_length_le; simp
  have hnone : (env.compilerOptions.map some ++ [some "-pch", some pc.filename]).contains none
      = false := by simp
  rw [htake, hnone]
  cases hp : env.parse 0 (env.compilerOptions.map some ++ [some "-pch", some pc.filename]) with
  | none => simp [parseCalls_append, parseCalls]
  | some u => simp [parseCalls_append, parseCalls]

theorem attempt_preamble_skipped (env : RunEnv) (s : RunState)
    (hskip : env.disablePch = true ∨ env.precompileGet = none ∨
      env.language ≠ .LangCPlusPlus ∨
      ∀ pc, env.precompileGet = some pc → env.isFile pc.filename = false) :
    parseCalls (attempt env 0 s).trace = parseCalls s.trace ∧
    (attempt env 0 s).assertFailed = s.assertFailed ∧
    (attempt env 0 s).unit = s.unit ∧ (attempt env 0 s).args = s.args := by
  simp only [attempt, WithPCH, RunState.lock, RunState.unlock]
  by_cases hd : env.disablePch = true
  · simp [hd]
  · simp only [hd, Bool.not_false, Nat.reduceBEq, Bool.and_true, if_true, Bool.false_eq_true]
    cases hg : env.precompileGet with
    | none => simp [parseCalls_append, parseCalls]
    | some pc =>
      simp only
      by_cases hl : env.language = .LangCPlusPlus
      · have hf : env.isFile pc.filename = false := by
          rcases hskip with h | h | h | h
          · exact absurd h hd
          · rw [hg] at h; simp at h
          · exact absurd hl h
          · exact h pc hg
        simp [hl, hf, parseCalls_append, parseCalls]
      · simp [hl, parseCalls_append, parseCalls]

theorem attemptLoop_cases (env : RunEnv) :
    ((env.disablePch = true ∨ env.precompileGet = none ∨ env.language ≠ .LangCPlusPlus ∨
        ∀ pc, env.precompileGet = some pc → env.isFile pc.filename = false) ∧
      parseCalls (attemptLoop env).trace = [(1, env.compilerOptions.map some)] ∧
      (attemptLoop env).assertFailed = false) ∨
    (∃ pc, (env.disablePch = false ∧ env.precompileGet = some pc ∧
        env.language = .LangCPlusPlus ∧ env.isFile pc.filename = true) ∧
      (env.parse 0 (env.compilerOptions.map some ++ [some "-pch", some pc.filename])).isSome
        = true ∧
      parseCalls (attemptLoop env).trace
        = [(0, env.compilerOptions.map some ++ [some "-pch", some pc.filename])] ∧
      (attemptLoop env).assertFailed = false) ∨
    (∃ pc, (env.disablePch = false ∧ env.precompileGet = some pc ∧
        env.language = .LangCPlusPlus ∧ env.isFile pc.filename = true) ∧
      env.parse 0 (env.compilerOptions.map some ++ [some "-pch", some pc.filename]) = none ∧
      parseCalls (attemptLoop env).trace
        = [(0, env.compilerOptions.map some ++ [some "-pch", some pc.filename]),
           (1, env.compilerOptions.map some)] ∧
      (attemptLoop env).assertFailed = false ∧
      (attemptLoop env).args
        = env.compilerOptions.map some ++ [some "-pch", some pc.filename]) := by
  have hloop : attemptLoop env =
      if (attempt env 0 RunState.init).unit.isNone
      then attempt env 1 (attempt env 0 RunState.init)
      else attempt env 0 RunState.init := by
    rfl
  by_cases hu : env.disablePch = false ∧ ∃ pc, env.precompileGet = some pc ∧
      env.language = .LangCPlusPlus ∧ env.isFile pc.filename = true
  · obtain ⟨hen, pc, hget, hlang, hfile⟩ := hu
    obtain ⟨h1, h2, h3, h4⟩ := attempt_with_preamble env
      RunState.init pc rfl hen hget hlang hfile
    cases hp : env.parse 0 (env.compilerOptions.map some ++ [some "-pch", some pc.filename]) with
    | some u =>
      right; left
      refine ⟨pc, ⟨hen, hget, hlang, hfile⟩, by rw [hp]; rfl, ?_, ?_⟩
      · rw [hloop, h3, hp]; simpa [parseCalls, RunState.init] using h1
      · rw [hloop, h3, hp]; simpa [RunState.init] using h2
    | none =>
      right; right
      obtain ⟨k1, k2, _, k4⟩ := attempt_without_preamble env
        (attempt env 0 RunState.init) (Or.inr ⟨"-pch", pc.filename, h4⟩)
      have hargs : (attempt env 1 (attempt env 0 RunState.init)).args
          = env.compilerOptions.map some ++ [some "-pch", some pc.filename] := by
        rw [k4, h4]; exact args_without_preamble_reused _ _ _
      refine ⟨pc, ⟨hen, hget, hlang, hfile⟩, hp, ?_, ?_, ?_⟩
      · rw [hloop, h3, hp]; simp only [Option.isNone_none, if_true]
        rw [k1, h1]; simp [parseCalls, RunState.init]
      · rw [hloop, h3, hp]; simp only [Option.isNone_none, if_true]
        rw [k2, h2]; rfl
      · rw [hloop, h3, hp]; simp only [Option.isNone_none, if_true]
        exact hargs
  · left
    have hskip : env.disablePch = true ∨ env.precompileGet = none ∨
        env.language ≠ .LangCPlusPlus ∨
        ∀ pc, env.precompileGet = some pc → env.isFile pc.filename = false := by
      by_cases hd : env.disablePch = true
      · exact Or.inl hd
      · cases hg : env.precompileGet with
        | none => exact Or.inr (Or.inl rfl)
        | some pc =>
          by_cases hl : env.language = .LangCPlusPlus
          · right; right; right
            intro pc2 h2
            cases h2
            by_contra hf
            exact hu ⟨by simpa using hd, pc, hg, hl, by simpa using hf⟩
          · exact Or.inr (Or.inr (Or.inl hl))
    obtain ⟨h1, h2, h3, h4⟩ := attempt_preamble_skipped env
      RunState.init hskip
    obtain ⟨k1, k2, _, _⟩ := attempt_without_preamble env
      (attempt env 0 RunState.init) (Or.inl h4)
    have h3' : (attempt env 0 RunState.init).unit = none := h3
    refine ⟨hskip, ?_, ?_⟩
    · rw [hloop, h3']; simp only [Option.isNone_none, if_true]
      rw [k1, h1]; rfl
    · rw [hloop, h3']; simp only [Option.isNone_none, if_true]
      rw [k2, h2]; rfl

theorem parseCalls_run (env : RunEnv) (clang : Clang) (sRoot : Option Nat) (g : Graph) :
    parseCalls (run env clang sRoot g).trace = parseCalls (attemptLoop env).trace := by
  unfold run
  simp only
  cases hu : (attemptLoop env).unit with
  | none => simp [parseCalls_append, parseCalls]
  | some unit =>
    simp only [parseCalls_append, indexUserData]
    split
    · simp [parseCalls]
    · split <;> simp [parseCalls]

/-- C13 (two-attempt state machine).  Among the events of `run`, the parser is invoked for the
`WithPCH` attempt (attempt 0) exactly when preambles are not disabled, `PreCompile::get` returns
an entry, the language is C++ and the preamble file of the entry is a file; it is invoked for
the `WithoutPCH` attempt (attempt 1) exactly when there was no invocation for attempt 0 or that
invocation returned no unit.  The parser is invoked at most twice, for these two attempts only,
and an invocation that returns a unit is the last one. -/
theorem two_attempt_state_machine (env : RunEnv) (clang : Clang) (sRoot : Option Nat)
    (g : Graph) :
    ((∃ args, (0, args) ∈ parseCalls (run env clang sRoot g).trace) ↔
      (env.disablePch = false ∧ ∃ pc, env.precompileGet = some pc ∧
        env.language = .LangCPlusPlus ∧ env.isFile pc.filename = true)) ∧
    ((∃ args, (1, args) ∈ parseCalls (run env clang sRoot g).trace) ↔
      ((¬ ∃ args, (0, args) ∈ parseCalls (run env clang sRoot g).trace) ∨
        ∃ args, (0, args) ∈ parseCalls (run env clang sRoot g).trace ∧
          env.parse 0 args = none)) ∧
    (parseCalls (run env clang sRoot g).trace).length ≤ 2 ∧
    (∀ c ∈ parseCalls (run env clang sRoot g).trace, c.1 = 0 ∨ c.1 = 1) ∧
    (∀ pre post c, parseCalls (run env clang sRoot g).trace = pre ++ c :: post →
      (env.parse c.1 c.2).isSome = true → post = []) := by
  rw [parseCalls_run]
  rcases attemptLoop_cases env with
    ⟨hskip, hc, -⟩ | ⟨pc, hu, hp, hc, -⟩ | ⟨pc, hu, hp, hc, -⟩
  · rw [hc]
    have hno : ¬(env.disablePch = false ∧ ∃ pc, env.precompileGet = some pc ∧
        env.language = .LangCPlusPlus ∧ env.isFile pc.filename = true) := by
      rintro ⟨h1, pc, h2, h3, h4⟩
      rcases hskip with h | h | h | h
      · rw [h1] at h; simp at h
      · rw [h2] at h; simp at h
      · exact h h3
      · rw [h pc h2] at h4; simp at h4
    refine ⟨?_, ?_, by simp, ?_, ?_⟩
    · simp [hno]
    · simp
    · intro c hc; simp at hc; subst hc; simp
    · intro pre post c h _
      cases pre with
      | nil => simp at h; exact h.2
      | cons a pre => simp at h
  · rw [hc]
    have hyes : env.disablePch = false ∧ ∃ pc, env.precompileGet = some pc ∧
        env.language = .LangCPlusPlus ∧ env.isFile pc.filename = true :=
      ⟨hu.1, pc, hu.2.1, hu.2.2.1, hu.2.2.2⟩
    refine ⟨?_, ?_, by simp, ?_, ?_⟩
    · simp [hyes]
    · constructor
      · intro h; simp at h
      · rintro (h | ⟨args, h, hn⟩)
        · simp at h
        · simp at h; subst h; rw [hn] at hp; simp at hp
    · intro c hc; simp at hc; subst hc; simp
    · intro pre post c h _
      cases pre with
      | nil => simp at h; exact h.2
      | cons a pre => simp at h
  · rw [hc]
    have hyes : env.disablePch = false ∧ ∃ pc, env.precompileGet = some pc ∧
        env.language = .LangCPlusPlus ∧ env.isFile pc.filename = true :=
      ⟨hu.1, pc, hu.2.1, hu.2.2.1, hu.2.2.2⟩
    refine ⟨?_, ?_, by simp, ?_, ?_⟩
    · simp [hyes]
    · constructor
      · intro _; right
        exact ⟨_, by simp, hp⟩
      · intro _; exact ⟨env.compilerOptions.map some, by simp⟩
    · intro c hc; simp at hc; rcases hc with h | h <;> subst h <;> simp
    · intro pre post c h hs
      cases pre with
      | nil =>
        simp at h
        rw [← h.1] at hs
        simp [hp] at hs
      | cons a pre =>
        cases pre with
        | nil => simp at h; exact h.2.2
        | cons b pre => simp at h

/-- C14 (parser argument list).  Every invocation of the parser for the `WithPCH` attempt is
passed exactly the compiler options followed by `"-pch"` and the file name of the preamble
entry, every invocation for the `WithoutPCH` attempt exactly the compiler options; no entry
passed is null and `Q_ASSERT(!args.contains(0))` is never violated.  When the `WithPCH`
invocation returned no unit, the vector `args` keeps its two extra entries to the end of the
loop, and the `WithoutPCH` invocation that follows is still passed the compiler options alone,
the first `argCount` entries. -/
theorem parser_argument_list (env : RunEnv) (clang : Clang) (sRoot : Option Nat) (g : Graph) :
    (∀ args, (0, args) ∈ parseCalls (run env clang sRoot g).trace →
      ∃ pc, env.precompileGet = some pc ∧
        args = env.compilerOptions.map some ++ [some "-pch", some pc.filename]) ∧
    (∀ args, (1, args) ∈ parseCalls (run env clang sRoot g).trace →
      args = env.compilerOptions.map some) ∧
    (∀ c ∈ parseCalls (run env clang sRoot g).trace, none ∉ c.2) ∧
    (attemptLoop env).assertFailed = false ∧
    (∀ args, (0, args) ∈ parseCalls (run env clang sRoot g).trace →
      env.parse 0 args = none →
      (attemptLoop env).args = args ∧ args.length = env.compilerOptions.length + 2 ∧
      (1, env.compilerOptions.map some) ∈ parseCalls (run env clang sRoot g).trace) := by
  rw [parseCalls_run]
  rcases attemptLoop_cases env with
    ⟨-, hc, ha⟩ | ⟨pc, hu, hp, hc, ha⟩ | ⟨pc, hu, hp, hc, ha, hargs⟩
  · rw [hc]
    refine ⟨by simp, by simp, ?_, ha, by simp⟩
    intro c hc; simp at hc; subst hc; simp
  · rw [hc]
    refine ⟨?_, by simp, ?_, ha, ?_⟩
    · intro args h; simp at h; exact ⟨pc, hu.2.1, h⟩
    · intro c hc; simp at hc; subst hc; simp
    · intro args h hn; simp at h; subst h; rw [hn] at hp; simp at hp
  · rw [hc]
    refine ⟨?_, ?_, ?_, ha, ?_⟩
    · intro args h; simp at h; exact ⟨pc, hu.2.1, h⟩
    · intro args h; simpa using h
    · intro c hc; simp at hc; rcases hc with h | h <;> subst h <;> simp
    · intro args h _; simp at h; subst h
      exact ⟨hargs, by simp, by simp⟩

/-- The argument lists of a sample run: the preamble attempt fails, and the second invocation is passed the two
compiler options alone although `args` still has four entries. -/
theorem fallback_attempt_arguments :
    parseCalls (attemptLoop fallbackEnv).trace
      = [(0, [some "-I/usr/include", some "-DX=1", some "-pch", some "p.pch"]),
         (1, [some "-I/usr/include", some "-DX=1"])] ∧
    (attemptLoop fallbackEnv).args
      = [some "-I/usr/include", some "-DX=1", some "-pch", some "p.pch"] ∧
    (attemptLoop fallbackEnv).assertFailed = false := by
  decide

/-! ## The sweep and the kind filter of `addReference` (C15, C16) -/

theorem addReferenceNode_returned (env : Clang) (c : CursorTree) (id : QByteArray)
    (loc : Location) (g : Graph) :
    (addReferenceNode env c id loc g).1 = true ↔
      (env.nodeTypeFromCursor c.cursor ≠ .Invalid ∧ env.locationExists loc = true ∧
        (env.isValidCursor (referencedCursor env c.cursor) = false ∨
         (c.cursor.kind = .DeclRefExpr ∧
           declRefAccepts (referencedCursor env c.cursor).kind = false) ∨
         QHash.value g.sNodes
           (env.locationToString (env.location (referencedCursor env c.cursor))) = none)) := by
  unfold addReferenceNode
  by_cases h1 : env.nodeTypeFromCursor c.cursor = .Invalid
  · simp [h1]
  by_cases h2 : env.locationExists loc = true
  swap
  · simp [h1, h2]
  by_cases h3 : env.isValidCursor (referencedCursor env c.cursor) = true
  swap
  · simp [h1, h2, h3]
  by_cases h4 : c.cursor.kind = .DeclRefExpr ∧
      declRefAccepts (referencedCursor env c.cursor).kind = false
  · simp [h1, h2, h3, h4.1, h4.2]
  · cases h5 : QHash.value g.sNodes
        (env.locationToString (env.location (referencedCursor env c.cursor))) with
    | none =>
      have h4' : ¬(c.cursor.kind = .DeclRefExpr ∧
          (!declRefAccepts (referencedCursor env c.cursor).kind) = true) := by
        simpa using h4
      simp only [h1, h2, h3, ne_eq, not_false_eq_true, decide_True, Bool.and_self, if_true,
        Bool.not_true, Bool.false_eq_true, if_false, h5, Bool.and_eq_true, decide_eq_true_eq,
        h4', true_and, or_true, and_self, iff_true]
    | some r =>
      have h4' : ¬(c.cursor.kind = .DeclRefExpr ∧
          (!declRefAccepts (referencedCursor env c.cursor).kind) = true) := by
        simpa using h4
      simp only [h1, h2, h3, ne_eq, not_false_eq_true, decide_True, Bool.and_self, if_true,
        Bool.not_true, Bool.false_eq_true, if_false, h5, Bool.and_eq_true, decide_eq_true_eq,
        h4', true_and]
      simp
      intro hk
      simpa [hk] using h4

theorem addReferenceNode_returned_graph (env : Clang) (c : CursorTree) (id : QByteArray)
    (loc : Location) (g : Graph) (h : (addReferenceNode env c id loc g).1 = true) :
    (addReferenceNode env c id loc g).2 = g := by
  rcases addReferenceNode_spec env c id loc g with h1 | ⟨r, _, _, _, _, _, h6⟩
  · exact h1
  · rw [h6] at h; simp at h

theorem addReferenceChildren_eq_foldl (env : Clang) :
    (children : List CursorTree) → ∀ (g : Graph),
      addReferenceChildren env children g
        = children.foldl (fun g2 child => addReference env child
            (env.locationToString (env.location child.cursor)) (env.location child.cursor) g2) g
  | [], _ => by rw [addReferenceChildren]; rfl
  | child :: rest, g => by
    rw [addReferenceChildren, List.foldl_cons]
    exact addReferenceChildren_eq_foldl env rest _

theorem addReferenceNode_skipped (env : Clang) (c : CursorTree) (id : QByteArray)
    (loc : Location) (g : Graph)
    (h : env.nodeTypeFromCursor c.cursor = .Invalid ∨ env.locationExists loc = false) :
    addReferenceNode env c id loc g = (false, g) := by
  unfold addReferenceNode
  have : (decide (env.nodeTypeFromCursor c.cursor ≠ .Invalid) && env.locationExists loc)
      = false := by
    rcases h with h | h
    · simp [h]
    · simp [h]
  simp only [this, Bool.false_eq_true, if_false]

/-- C15 as amended (the sweep below a resolved reference).  The call `addReference(c, id, loc)`
on a graph that has no node at `id` goes on, after its block, to call `addReference` on every
child of `c` in order, each with the string of the child's own Location as key and that Location
as location, in these outcomes only: (1) the block was skipped (node type Invalid, or a Location
that does not exist), the children are then resolved on the graph as it was; (2) the Reference
node was created (valid referenced cursor, of an accepted kind for a `DeclRefExpr`, with a graph
node `r` at its Location), the children are then resolved on the graph with the new node.  (3)
In every other outcome (a node already at the key; no valid referenced cursor; a `DeclRefExpr`
filtered out by kind; no graph node at the referenced Location) the call returns at once and
the graph is left as it is: nothing below `c` is resolved. -/
theorem resolver_sweep_below_resolved (env : Clang) (c : CursorTree) (id : QByteArray)
    (loc : Location) (g : Graph) :
    (QHash.contains g.sNodes id = false →
      (env.nodeTypeFromCursor c.cursor = .Invalid ∨ env.locationExists loc = false) →
      addReference env c id loc g
        = c.children.foldl (fun g2 child => addReference env child
            (env.locationToString (env.location child.cursor)) (env.location child.cursor) g2)
            g) ∧
    (∀ r, QHash.contains g.sNodes id = false →
      env.nodeTypeFromCursor c.cursor ≠ .Invalid → env.locationExists loc = true →
      env.isValidCursor (referencedCursor env c.cursor) = true →
      (c.cursor.kind = .DeclRefExpr →
        declRefAccepts (referencedCursor env c.cursor).kind = true) →
      QHash.value g.sNodes
        (env.locationToString (env.location (referencedCursor env c.cursor))) = some r →
      addReference env c id loc g
        = c.children.foldl (fun g2 child => addReference env child
            (env.locationToString (env.location child.cursor)) (env.location child.cursor) g2)
            (referenceCreated g (declarationOf env g r) c.cursor loc id)) ∧
    ((QHash.contains g.sNodes id = true ∨
      (env.nodeTypeFromCursor c.cursor ≠ .Invalid ∧ env.locationExists loc = true ∧
        (env.isValidCursor (referencedCursor env c.cursor) = false ∨
         (c.cursor.kind = .DeclRefExpr ∧
           declRefAccepts (referencedCursor env c.cursor).kind = false) ∨
         QHash.value g.sNodes
           (env.locationToString (env.location (referencedCursor env c.cursor))) = none))) →
      addReference env c id loc g = g) := by
  refine ⟨?_, ?_, ?_⟩
  · intro habs hskip
    rw [addReference_unfold, habs, addReferenceNode_skipped env c id loc g hskip]
    simp only [Bool.false_eq_true, if_false]
    exact addReferenceChildren_eq_foldl env c.children g
  · intro r habs h1 h2 h3 h4 h5
    rw [addReference_unfold, habs, addReferenceNode_creates env c id loc g r h1 h2 h3 h4 h5]
    simp only [Bool.false_eq_true, if_false]
    exact addReferenceChildren_eq_foldl env c.children _
  · rintro (h | h)
    · rw [addReference_unfold]
      simp [h]
    · have hr := (addReferenceNode_returned env c id loc g).mpr h
      rw [addReference_unfold]
      simp only [hr, if_true]
      split
      · rfl
      · exact addReferenceNode_returned_graph env c id loc g hr

/-- C15, counterexample.  In the scratch tree `nestedPendingTree` the pending reference at
`a.c:3` has the reference expression at `a.c:4` below it.  First input: a parser that reports a
referenced cursor (the variable `w`, node 3) for the expression at `a.c:4` only.  Resolving the
expression at `a.c:4` on its own would create its node; the resolve phase over the pending
references leaves the graph as it is and the key `a.c:4` without a node, because the call for
`a.c:3` finds no referenced cursor and returns before its loop over the children.  Second
input: the key `a.c:3` already has a node; the call for `a.c:3` returns at once and `a.c:4`,
which resolving on its own would give a node, gets none. -/
theorem resolver_sweep_counterexample :
    ((sampleBuild deepOnlyClang nestedPendingTree).references.map
        (fun e => (e.1, e.2.node.cursor, e.2.node.descendants.map CursorTree.cursor))
      = [("a.c:3", outerUseCursor, [deepUseCursor]), ("a.c:2", earlyUseCursor, [])] ∧
     deepOnlyClang.isValidCursor (referencedCursor deepOnlyClang outerUseCursor) = false ∧
     List.lookup "a.c:4" (addReference deepOnlyClang (.node deepUseCursor []) "a.c:4"
        (deepOnlyClang.location deepUseCursor)
        (sampleBuild deepOnlyClang nestedPendingTree).graph).sNodes = some 4 ∧
     List.lookup "a.c:4" (addReferences deepOnlyClang
        (sampleBuild deepOnlyClang nestedPendingTree).references
        (sampleBuild deepOnlyClang nestedPendingTree).graph).sNodes = none ∧
     (addReferences deepOnlyClang (sampleBuild deepOnlyClang nestedPendingTree).references
        (sampleBuild deepOnlyClang nestedPendingTree).graph).nodes
      = (sampleBuild deepOnlyClang nestedPendingTree).graph.nodes) ∧
    (List.lookup "a.c:3" (addReference nestedPendingClang (.node outerUseCursor []) "a.c:3"
        (nestedPendingClang.location outerUseCursor)
        (sampleBuild nestedPendingClang nestedPendingTree).graph).sNodes = some 4 ∧
     List.lookup "a.c:4" (addReference nestedPendingClang (.node deepUseCursor []) "a.c:4"
        (nestedPendingClang.location deepUseCursor)
        (addReference nestedPendingClang (.node outerUseCursor []) "a.c:3"
          (nestedPendingClang.location outerUseCursor)
          (sampleBuild nestedPendingClang nestedPendingTree).graph)).sNodes = some 5 ∧
     List.lookup "a.c:4" (addReference nestedPendingClang
        (.node outerUseCursor [.node deepUseCursor []]) "a.c:3"
        (nestedPendingClang.location outerUseCursor)
        (addReference nestedPendingClang (.node outerUseCursor []) "a.c:3"
          (nestedPendingClang.location outerUseCursor)
          (sampleBuild nestedPendingClang nestedPendingTree).graph)).sNodes = none) := by
  decide

/-- Witness of C15 as amended: with the parser answers of `sweptKeyClang`, the pending reference
at `a.c:3` is resolved (its target `w` has the node of index 3, the new node gets index 4) and
`addReference` is then called on the reference expression below it, with that node's own key
`a.c:2`: the expression gets the node of index 5, under the node of `w`. -/
theorem resolver_sweep_below_resolved_witness :
    QHash.contains (sampleBuild sweptKeyClang sweptKeyTree).graph.sNodes "a.c:3" = false ∧
    QHash.value (sampleBuild sweptKeyClang sweptKeyTree).graph.sNodes "a.c:8" = some 3 ∧
    addReference sweptKeyClang (.node outerUseCursor [.node innerUseCursor []]) "a.c:3"
        (sweptKeyClang.location outerUseCursor) (sampleBuild sweptKeyClang sweptKeyTree).graph
      = addReference sweptKeyClang (.node innerUseCursor []) "a.c:2"
          (sweptKeyClang.location innerUseCursor)
          (referenceCreated (sampleBuild sweptKeyClang sweptKeyTree).graph 3 outerUseCursor
            (sweptKeyClang.location outerUseCursor) "a.c:3") ∧
    ((addReference sweptKeyClang (.node outerUseCursor [.node innerUseCursor []]) "a.c:3"
        (sweptKeyClang.location outerUseCursor)
        (sampleBuild sweptKeyClang sweptKeyTree).graph).nodes.drop 4).map
        (fun n => (n.parent, n.cursor, n.id))
      = [(some 3, outerUseCursor, "a.c:3"), (some 3, innerUseCursor, "a.c:2")] :=
  ⟨by decide, by decide,
   (resolver_sweep_below_resolved sweptKeyClang (.node outerUseCursor [.node innerUseCursor []])
      "a.c:3" (sweptKeyClang.location outerUseCursor)
      (sampleBuild sweptKeyClang sweptKeyTree).graph).2.1 3 (by decide) (by decide) (by decide)
      (by decide) (by decide) (by decide),
   by decide⟩

theorem declRefAccepts_iff (k : CXCursorKind) :
    declRefAccepts k = true ↔
      k = .ParmDecl ∨ k = .VarDecl ∨ k = .FieldDecl ∨ k = .CXXMethod ∨
      k = .EnumConstantDecl ∨ k = .FunctionDecl := by
  cases k <;> simp [declRefAccepts]

theorem SameCells.same_refl (q : Nat) (h : List CursorNode) : SameCells q h h := by
  intro i
  cases hi : h[i]? with
  | none => exact Or.inl ⟨rfl, rfl⟩
  | some n => exact Or.inr ⟨n, n, rfl, rfl, rfl, fun _ => rfl⟩

theorem SameCells.same_trans {q : Nat} {h1 h2 h3 : List CursorNode}
    (a : SameCells q h1 h2) (b : SameCells q h2 h3) : SameCells q h1 h3 := by
  intro i
  rcases a i with ⟨a1, a2⟩ | ⟨n, n2, a1, a2, a3, a4⟩
  · rcases b i with ⟨_, b2⟩ | ⟨m, m2, b1, _⟩
    · exact Or.inl ⟨a1, b2⟩
    · rw [a2] at b1; exact absurd b1 (by simp)
  · rcases b i with ⟨b1, _⟩ | ⟨m, m2, b1, b2, b3, b4⟩
    · rw [a2] at b1; exact absurd b1 (by simp)
    · rw [a2] at b1
      have hm : n2 = m := Option.some.inj b1
      subst hm
      exact Or.inr ⟨n, m2, a1, b2, b3.trans a3, fun hne => (b4 hne).trans (a4 hne)⟩

theorem SameCells.of_updateAt (q : Nat) (h : List CursorNode) (x : Nat)
    (f : CursorNode → CursorNode) (hc : ∀ n, (f n).cursor = n.cursor)
    (hf : x ≠ q → ∀ n, (f n).firstChild = n.firstChild) :
    SameCells q h (updateAt h x f) := by
  intro i
  unfold updateAt
  cases hx : h[x]? with
  | none => exact SameCells.same_refl q h i
  | some nx =>
    simp only
    have hxl : x < h.length := by
      by_contra hcon
      rw [List.getElem?_eq_none (by omega)] at hx
      exact absurd hx (by simp)
    by_cases hix : i = x
    · subst hix
      refine Or.inr ⟨nx, f nx, hx, ?_, hc nx, fun hne => hf hne nx⟩
      simp [List.getElem?_set, hxl]
    · have : (h.set x (f nx))[i]? = h[i]? := by
        rw [List.getElem?_set]
        simp [Ne.symm hix]
      rw [this]
      exact SameCells.same_refl q h i

theorem SameCells.of_append (h : List CursorNode) (this c : Nat) :
    SameCells this h (CursorNode.append h this c) := by
  unfold CursorNode.append
  have s1 := SameCells.of_updateAt this h c (fun n => { n with parent := some this })
    (fun _ => rfl) (fun _ _ => rfl)
  refine SameCells.same_trans ?_ (SameCells.of_updateAt this _ this
    (fun n => { n with nextSibling := none }) (fun _ => rfl) (fun _ _ => rfl))
  refine SameCells.same_trans s1 ?_
  split
  · rename_i l _
    exact SameCells.same_trans
      (SameCells.of_updateAt this _ l (fun n => { n with nextSibling := some c })
        (fun _ => rfl) (fun _ _ => rfl))
      (SameCells.of_updateAt this _ this (fun n => { n with lastChild := some c })
        (fun _ => rfl) (fun _ _ => rfl))
  · exact SameCells.of_updateAt this _ this
      (fun n => { n with lastChild := some c, firstChild := some c })
      (fun _ => rfl) (fun hne => absurd rfl hne)

/-- The cells after `new CursorNode(c, p)`: the old cells keep their cursors, only the cell of
`p` can get a first child, and the new cell has the cursor `c` and no child. -/
theorem CursorNode.new_cells (heap : List CursorNode) (c : CXCursor) (p : Option Nat)
    (hp : ∀ q, p = some q → q < heap.length) :
    (CursorNode.new heap c p).2 = heap.length ∧
    (∀ i n, heap[i]? = some n →
      ∃ n2, (CursorNode.new heap c p).1[i]? = some n2 ∧ n2.cursor = n.cursor ∧
        (some i ≠ p → n2.firstChild = n.firstChild)) ∧
    (∃ n2, (CursorNode.new heap c p).1[heap.length]? = some n2 ∧ n2.cursor = c ∧
      n2.firstChild = none) ∧
    (∀ i n2, (CursorNode.new heap c p).1[i]? = some n2 →
      i = heap.length ∨ ∃ n, heap[i]? = some n) := by
  have hcell : (heap ++ [CursorNode.mk c p none none none])[heap.length]?
      = some (CursorNode.mk c p none none none) := by
    rw [List.getElem?_append_right (le_refl _)]; simp
  have hold : ∀ i, i < heap.length →
      (heap ++ [CursorNode.mk c p none none none])[i]? = heap[i]? :=
    fun i hi => List.getElem?_append_left hi
  have hbig : ∀ i, heap.length < i →
      (heap ++ [CursorNode.mk c p none none none])[i]? = none := by
    intro i hi
    apply List.getElem?_eq_none
    simp; omega
  cases p with
  | none =>
    simp only [CursorNode.new]
    refine ⟨trivial, ?_, ⟨_, hcell, rfl, rfl⟩, ?_⟩
    · intro i n hi
      have hil : i < heap.length := by
        by_contra hcon
        rw [List.getElem?_eq_none (by omega)] at hi
        exact absurd hi (by simp)
      exact ⟨n, by rw [hold i hil]; exact hi, rfl, fun _ => rfl⟩
    · intro i n2 hi
      rcases Nat.lt_trichotomy i heap.length with h | h | h
      · right
        rw [hold i h] at hi
        exact ⟨n2, hi⟩
      · exact Or.inl h
      · rw [hbig i h] at hi; exact absurd hi (by simp)
  | some q =>
    have hq := hp q rfl
    simp only [CursorNode.new]
    have hs := SameCells.of_append (heap ++ [CursorNode.mk c (some q) none none none]) q
      heap.length
    refine ⟨trivial, ?_, ?_, ?_⟩
    · intro i n hi
      have hil : i < heap.length := by
        by_contra hcon
        rw [List.getElem?_eq_none (by omega)] at hi
        exact absurd hi (by simp)
      rcases hs i with ⟨h1, _⟩ | ⟨m, m2, h1, h2, h3, h4⟩
      · rw [hold i hil, hi] at h1; exact absurd h1 (by simp)
      · rw [hold i hil, hi] at h1
        have hm : n = m := Option.some.inj h1
        subst hm
        exact ⟨m2, h2, h3, fun hne => h4 (fun heq => hne (by rw [heq]))⟩
    · rcases hs heap.length with ⟨h1, _⟩ | ⟨m, m2, h1, h2, h3, h4⟩
      · rw [hcell] at h1; exact absurd h1 (by simp)
      · rw [hcell] at h1
        have hm : CursorNode.mk c (some q) none none none = m := Option.some.inj h1
        subst hm
        exact ⟨m2, h2, h3, h4 (by omega)⟩
    · intro i n2 hi
      rcases hs i with ⟨_, h2⟩ | ⟨m, m2, h1, _⟩
      · rw [hi] at h2; exact absurd h2 (by simp)
      · rcases Nat.lt_trichotomy i heap.length with h | h | h
        · right
          rw [hold i h] at h1
          exact ⟨m, h1⟩
        · exact Or.inl h
        · rw [hbig i h] at h1; exact absurd h1 (by simp)

theorem cursorEq_kind (a b : CXCursor) (h : cursorEq a b = true) : a.kind = b.kind := by
  simp only [cursorEq, Bool.and_eq_true, decide_eq_true_eq] at h
  exact h.1

theorem scanParents_found_eq (parent : CXCursor) (frames : List (CXCursor × Option Nat)) :
    ∀ (n : Nat) (p : Option Nat) (ps : List (CXCursor × Option Nat)),
      scanParents parent frames n = some (p, ps) →
      ∃ i f, frames[i]? = some f ∧ cursorEq parent f.1 = true ∧ p = f.2 ∧
        ps = frames.take (i + 1)
  | 0, _, _, h => by simp [scanParents] at h
  | m + 1, p, ps, h => by
    unfold scanParents at h
    cases hm : frames[m]? with
    | none =>
      simp only [hm] at h
      exact scanParents_found_eq parent frames m p ps h
    | some f =>
      simp only [hm] at h
      by_cases he : cursorEq parent f.1 = true
      · simp only [he, if_true, Option.some.injEq, Prod.mk.injEq] at h
        exact ⟨m, f, hm, he, h.1.symm, h.2.symm⟩
      · simp only [he, if_false, Bool.false_eq_true] at h
        exact scanParents_found_eq parent frames m p ps h

/-- The last step of `buildComprehensiveTree`, `u->last = new CursorNode(cursor, p)`, keeps
`ChildlessRefs` when the node `p` has a cursor that is no `DeclRefExpr`. -/
theorem childless_attach (c : CXCursor) (p : Option Nat) (heap : List CursorNode)
    (root : Option Nat) (parents : List (CXCursor × Option Nat)) (af : Bool)
    (h1 : ∀ (i : Nat) (n : CursorNode), heap[i]? = some n → n.firstChild.isSome = true →
      n.cursor.kind ≠ .DeclRefExpr)
    (h3 : ∀ f ∈ parents, ∀ q, f.2 = some q →
      ∃ n, heap[q]? = some n ∧ n.cursor.kind = f.1.kind)
    (hp : ∀ q, p = some q → ∃ n, heap[q]? = some n ∧ n.cursor.kind ≠ .DeclRefExpr) :
    ChildlessRefs (ComprehensiveTreeUserData.mk (CursorNode.new heap c p).1 root
      (some (CursorNode.new heap c p).2) parents c af) := by
  have hlt : ∀ q, p = some q → q < heap.length := by
    intro q hq
    obtain ⟨n, hn, _⟩ := hp q hq
    by_contra hcon
    rw [List.getElem?_eq_none (by omega)] at hn
    exact absurd hn (by simp)
  obtain ⟨hptr, hold, ⟨nn, hnn, hnc, hnf⟩, hsrc⟩ := CursorNode.new_cells heap c p hlt
  refine ⟨?_, ?_, ?_⟩
  · intro i n2 hi hfc
    rcases hsrc i n2 hi with heq | ⟨n, hn⟩
    · subst heq
      rw [hnn] at hi
      have : nn = n2 := Option.some.inj hi
      subst this
      rw [hnf] at hfc
      simp at hfc
    · obtain ⟨m2, hm2, hmc, hmf⟩ := hold i n hn
      rw [hi] at hm2
      have : n2 = m2 := Option.some.inj hm2
      subst this
      rw [hmc]
      by_cases hip : some i = p
      · obtain ⟨n3, hn3, hk⟩ := hp i hip.symm
        rw [hn] at hn3
        have : n = n3 := Option.some.inj hn3
        subst this
        exact hk
      · rw [hmf hip] at hfc
        exact h1 i n hn hfc
  · intro l hl
    simp only [Option.some.injEq] at hl
    subst hl
    rw [hptr]
    exact ⟨nn, hnn, by rw [hnc]⟩
  · intro f hf q hq
    obtain ⟨n, hn, hk⟩ := h3 f hf q hq
    obtain ⟨n2, hn2, hc2, _⟩ := hold q n hn
    exact ⟨n2, hn2, by rw [hc2]; exact hk⟩

/-- A callback whose reported parent is no `DeclRefExpr` keeps `ChildlessRefs`. -/
theorem buildComprehensiveTree_childless (c pc : CXCursor) (u : ComprehensiveTreeUserData)
    (h : ChildlessRefs u) (hpc : pc.kind ≠ .DeclRefExpr) :
    ChildlessRefs (buildComprehensiveTree c pc u).2 := by
  obtain ⟨h1, h2, h3⟩ := h
  by_cases hf : c.location.file.isNone = true
  · simp only [buildComprehensiveTree, hf, if_true]
    exact ⟨h1, h2, h3⟩
  cases hroot : u.root with
  | none =>
    simp only [buildComprehensiveTree, hf, hroot, CursorNode.new, Bool.false_eq_true, if_false]
    have hcell : (u.heap ++ [CursorNode.mk pc none none none none])[u.heap.length]?
        = some (CursorNode.mk pc none none none none) := by
      rw [List.getElem?_append_right (le_refl _)]; simp
    have hold : ∀ (i : Nat) (n : CursorNode), u.heap[i]? = some n →
        (u.heap ++ [CursorNode.mk pc none none none none])[i]? = some n := by
      intro i n hi
      have hil : i < u.heap.length := by
        by_contra hcon
        rw [List.getElem?_eq_none (by omega)] at hi
        exact absurd hi (by simp)
      rw [List.getElem?_append_left hil]; exact hi
    exact childless_attach c (some u.heap.length)
      (u.heap ++ [CursorNode.mk pc none none none none]) (some u.heap.length)
      (u.parents ++ [(pc, some u.heap.length)]) _
      (by
        intro i n hi hfc
        rcases Nat.lt_trichotomy i u.heap.length with hlt | heq | hgt
        · rw [List.getElem?_append_left hlt] at hi
          exact h1 i n hi hfc
        · subst heq
          rw [hcell] at hi
          have : CursorNode.mk pc none none none none = n := Option.some.inj hi
          subst this
          simp at hfc
        · rw [List.getElem?_eq_none (by simp; omega)] at hi
          exact absurd hi (by simp))
      (by
        intro f hfm q hq
        rcases List.mem_append.mp hfm with hfm | hfm
        · obtain ⟨n, hn, hk⟩ := h3 f hfm q hq
          exact ⟨n, hold q n hn, hk⟩
        · simp only [List.mem_singleton] at hfm
          subst hfm
          simp only [Option.some.injEq] at hq
          subst hq
          exact ⟨_, hcell, rfl⟩)
      (by
        intro q hq
        simp only [Option.some.injEq] at hq
        subst hq
        exact ⟨_, hcell, hpc⟩)
  | some r =>
    by_cases hl : cursorEq pc u.lastCursor = true
    · simp only [buildComprehensiveTree, hf, hroot, hl, Bool.false_eq_true, if_false, if_true]
      have hlast : ∀ q, u.last = some q →
          ∃ n, u.heap[q]? = some n ∧ n.cursor.kind = pc.kind := by
        intro q hq
        obtain ⟨n, hn, hk⟩ := h2 q hq
        exact ⟨n, hn, by rw [hk, cursorEq_kind pc u.lastCursor hl]⟩
      exact childless_attach c u.last u.heap (some r) (u.parents ++ [(pc, u.last)]) _ h1
        (by
          intro f hfm q hq
          rcases List.mem_append.mp hfm with hfm | hfm
          · exact h3 f hfm q hq
          · simp only [List.mem_singleton] at hfm
            subst hfm
            exact hlast q hq)
        (by
          intro q hq
          obtain ⟨n, hn, hk⟩ := hlast q hq
          exact ⟨n, hn, by rw [hk]; exact hpc⟩)
    · cases hs : scanParents pc u.parents u.parents.length with
      | none =>
        simp only [buildComprehensiveTree, hf, hroot, hl, hs, Bool.false_eq_true, if_false]
        exact childless_attach c none u.heap (some r) u.parents _ h1 h3
          (by intro q hq; simp at hq)
      | some pp =>
        obtain ⟨p, ps⟩ := pp
        obtain ⟨i, f, hfi, hfe, hpf, hps⟩ := scanParents_found_eq pc u.parents _ p ps hs
        simp only [buildComprehensiveTree, hf, hroot, hl, hs, Bool.false_eq_true, if_false]
        exact childless_attach c p u.heap (some r) ps _ h1
          (by
            intro f2 hfm q hq
            rw [hps] at hfm
            exact h3 f2 (List.mem_of_mem_take hfm) q hq)
          (by
            intro q hq
            obtain ⟨n, hn, hk⟩ := h3 f (List.getElem?_mem hfi) q (by rw [← hpf]; exact hq)
            exact ⟨n, hn, by rw [hk, ← cursorEq_kind pc f.1 hfe]; exact hpc⟩)

theorem buildComprehensiveTree_recurse_kind (c pc : CXCursor) (u : ComprehensiveTreeUserData)
    (h : (buildComprehensiveTree c pc u).1 = .Recurse) : c.kind ≠ .DeclRefExpr := by
  intro hk
  unfold buildComprehensiveTree at h
  split at h
  · simp at h
  · simp only [hk, visitResultOfKind] at h
    simp at h

/-- The traversal below a cursor that is no `DeclRefExpr` keeps `ChildlessRefs`: the parents it
reports are that cursor or cursors for which the visitor answered `Recurse`. -/
theorem visitForest_childless :
    (F : List CursorTree) → ∀ (pc : CXCursor) (u : ComprehensiveTreeUserData),
      ChildlessRefs u → pc.kind ≠ .DeclRefExpr →
      ChildlessRefs (visitForest buildComprehensiveTree pc F u).2
  | [], _, _, h, _ => by simpa [visitForest] using h
  | .node c ks :: ts, pc, u, h, hpc => by
    rw [visitForest_cons]
    have hstep := buildComprehensiveTree_childless c pc u h hpc
    have hrec := buildComprehensiveTree_recurse_kind c pc u
    generalize buildComprehensiveTree c pc u = x at hstep hrec
    obtain ⟨r, s1⟩ := x
    cases r with
    | Break => exact hstep
    | Continue => exact visitForest_childless ts pc s1 hstep hpc
    | Recurse =>
      have hks := visitForest_childless ks c s1 hstep (hrec rfl)
      simp only
      generalize visitForest buildComprehensiveTree c ks s1 = y at hks
      obtain ⟨b, s2⟩ := y
      cases b with
      | true => exact hks
      | false => exact visitForest_childless ts pc s2 hks hpc

theorem childlessRefs_init : ChildlessRefs ComprehensiveTreeUserData.init := by
  refine ⟨?_, ?_, ?_⟩
  · intro i n hi; simp [ComprehensiveTreeUserData.init] at hi
  · intro l hl; simp [ComprehensiveTreeUserData.init] at hl
  · intro f hf; simp [ComprehensiveTreeUserData.init] at hf

mutual
/-- Every node with a child of a tree read from the heap is a heap cell with a first child. -/
theorem readTree_parent_cells (heap : List CursorNode) :
    (fuel : Nat) → ∀ (par : Option Nat) (p : Nat) (t : CursorTree),
      readTree heap fuel par p = some t →
      ∀ s, (s = t ∨ s ∈ t.descendants) → s.children ≠ [] →
        ∃ (i : Nat) (n : CursorNode), heap[i]? = some n ∧ n.cursor = s.cursor ∧
          n.firstChild.isSome = true
  | 0, _, _, _, h => by simp [readTree] at h
  | fuel + 1, par, p, t, h => by
    rw [readTree] at h
    cases hn : heap[p]? with
    | none => simp [hn] at h
    | some n =>
      simp only [hn] at h
      by_cases hpar : n.parent = par
      · simp only [hpar, if_true] at h
        cases hc : readChain heap fuel (some p) n.firstChild with
        | none => simp [hc] at h
        | some ks =>
          simp only [hc, Option.some.injEq] at h
          subst h
          intro s hs hch
          rcases hs with hs | hs
          · subst hs
            refine ⟨p, n, hn, rfl, ?_⟩
            cases hfc : n.firstChild with
            | some x => rfl
            | none =>
              exfalso
              rw [hfc] at hc
              cases fuel with
              | zero => simp [readChain] at hc
              | succ k =>
                simp only [readChain, Option.some.injEq] at hc
                exact hch (by rw [children_of_node]; exact hc.symm)
          · simp only [CursorTree.descendants] at hs
            exact readChain_parent_cells heap fuel (some p) n.firstChild ks hc s hs hch
      · simp [hpar] at h
theorem readChain_parent_cells (heap : List CursorNode) :
    (fuel : Nat) → ∀ (par : Option Nat) (c : Option Nat) (ks : List CursorTree),
      readChain heap fuel par c = some ks →
      ∀ s ∈ CursorTree.descendantsF ks, s.children ≠ [] →
        ∃ (i : Nat) (n : CursorNode), heap[i]? = some n ∧ n.cursor = s.cursor ∧
          n.firstChild.isSome = true
  | 0, _, _, _, h => by simp [readChain] at h
  | fuel + 1, par, none, ks, h => by
    simp only [readChain, Option.some.injEq] at h
    subst h
    intro s hs
    simp [CursorTree.descendantsF] at hs
  | fuel + 1, par, some c, ks, h => by
    rw [readChain] at h
    cases hn : heap[c]? with
    | none => simp [hn] at h
    | some n =>
      simp only [hn] at h
      cases h1 : readTree heap fuel par c with
      | none => simp [h1] at h
      | some t =>
        cases h2 : readChain heap fuel par n.nextSibling with
        | none => simp [h1, h2] at h
        | some ts =>
          simp only [h1, h2, Option.some.injEq] at h
          subst h
          intro s hs hch
          simp only [CursorTree.descendantsF, List.mem_cons, List.mem_append] at hs
          rcases hs with hs | hs | hs
          · exact readTree_parent_cells heap fuel par c t h1 s (Or.inl hs) hch
          · exact readTree_parent_cells heap fuel par c t h1 s (Or.inr hs) hch
          · exact readChain_parent_cells heap fuel par n.nextSibling ts h2 s hs hch
end

/-- A `DeclRefExpr` node of the scratch tree that `buildComprehensiveTree` builds from the
traversal of a translation unit has no children: the visitor answers `Continue` for that kind,
so the parser reports no cursor with it as the parent. -/
theorem declRef_scratch_leaf (unit root c : CursorTree) (fuel r : Nat)
    (hunit : unit.cursor.kind ≠ .DeclRefExpr)
    (hread : readTree (clang_visitChildren buildComprehensiveTree unit
      ComprehensiveTreeUserData.init).2.heap fuel none r = some root)
    (hnode : c = root ∨ c ∈ root.descendants)
    (hk : c.cursor.kind = .DeclRefExpr) : c.children = [] := by
  by_contra hch
  have hinv := visitForest_childless unit.children unit.cursor ComprehensiveTreeUserData.init
    childlessRefs_init hunit
  obtain ⟨i, n, hi, hc, hfc⟩ := readTree_parent_cells _ fuel none r root hread c hnode hch
  exact hinv.1 i n hi hfc (by rw [hc]; exact hk)

mutual
theorem descendants_trans (a : CursorTree) :
    (c : CursorTree) → ∀ (b : CursorTree), b ∈ c.descendants → a ∈ b.descendants →
      a ∈ c.descendants
  | .node _ ks, b, hb, ha => by
    simp only [CursorTree.descendants] at hb ⊢
    exact descendantsF_trans a ks b hb ha
theorem descendantsF_trans (a : CursorTree) :
    (ks : List CursorTree) → ∀ (b : CursorTree), b ∈ CursorTree.descendantsF ks →
      a ∈ b.descendants → a ∈ CursorTree.descendantsF ks
  | [], b, hb, _ => by simp [CursorTree.descendantsF] at hb
  | k :: ks, b, hb, ha => by
    simp only [CursorTree.descendantsF, List.mem_cons, List.mem_append] at hb ⊢
    rcases hb with hb | hb | hb
    · subst hb
      exact Or.inr (Or.inl ha)
    · exact Or.inr (Or.inl (descendants_trans a k b hb ha))
    · exact Or.inr (Or.inr (descendantsF_trans a ks b hb ha))
end

theorem mem_descendantsF_of_mem (k : CursorTree) :
    (ks : List CursorTree) → k ∈ ks → k ∈ CursorTree.descendantsF ks
  | [], h => by simp at h
  | x :: xs, h => by
    simp only [CursorTree.descendantsF, List.mem_cons, List.mem_append]
    rcases List.mem_cons.mp h with h | h
    · exact Or.inl h
    · exact Or.inr (Or.inr (mem_descendantsF_of_mem k xs h))

mutual
theorem buildTreeStores_nodes (env : Clang) (parent : Option Nat)
    (cparent : Option CursorTree) :
    (c : CursorTree) → ∀ (g : Graph),
      ∀ e ∈ buildTreeStores env parent cparent c g, e.2.node = c ∨ e.2.node ∈ c.descendants
  | .node cursor children, g => by
    rw [buildTreeStores]
    simp only
    have hkids : ∀ (p2 : Option Nat) (g2 : Graph),
        ∀ e ∈ buildTreeChildrenStores env p2 (.node cursor children) children g2,
          e.2.node = .node cursor children ∨
            e.2.node ∈ (CursorTree.node cursor children).descendants :=
      fun p2 g2 e he => Or.inr (by
        simp only [CursorTree.descendants]
        exact buildTreeChildrenStores_nodes env p2 (.node cursor children) children g2 e he)
    by_cases h1 : (buildTreeMacroExpansion env cparent (.node cursor children) g).1 = true
    · simp [h1]
    · simp only [h1, if_false, Bool.false_eq_true]
      by_cases h2 : env.nodeTypeFromCursor cursor = .Reference
      · simp only [h2, if_true]
        split
        · split
          · intro e he
            simp only [List.mem_singleton] at he
            rw [he]
            exact Or.inl rfl
          · simp
        · simp
      · simp only [h2, if_false]
        cases cparent with
        | none => exact hkids parent _
        | some cp =>
          simp only
          by_cases h3 : env.nodeTypeFromCursor cursor = .Invalid
          · simp only [h3, ne_eq, not_true_eq_false, if_false]
            exact hkids parent _
          · simp only [h3, ne_eq, not_false_eq_true, if_true]
            cases hd : buildTreeDeclaration env parent cp (.node cursor children)
                (env.nodeTypeFromCursor cursor)
                (buildTreeMacroExpansion env (some cp) (.node cursor children) g).2 with
            | none => simp
            | some r =>
              obtain ⟨g2, parent2⟩ := r
              exact hkids parent2 _
theorem buildTreeChildrenStores_nodes (env : Clang) (parent : Option Nat) (c : CursorTree) :
    (children : List CursorTree) → ∀ (g : Graph),
      ∀ e ∈ buildTreeChildrenStores env parent c children g,
        e.2.node ∈ CursorTree.descendantsF children
  | [], g => by simp [buildTreeChildrenStores]
  | child :: rest, g => by
    rw [buildTreeChildrenStores]
    intro e he
    simp only [CursorTree.descendantsF, List.mem_cons, List.mem_append]
    rcases List.mem_append.mp he with h | h
    · rcases buildTreeStores_nodes env parent (some c) child g e h with h2 | h2
      · exact Or.inl h2
      · exact Or.inr (Or.inl h2)
    · exact Or.inr (Or.inr (buildTreeChildrenStores_nodes env parent c rest _ e h))
end

/-- Every node that the resolve phase passes to `addReference`, the scratch node of a pending
reference or a node below it, is a node of the scratch tree that the build pass ran over. -/
theorem pending_nodes_of_scratch_tree (env : Clang) (sRoot : Option Nat) (root : CursorTree)
    (g : Graph) :
    ∀ e ∈ (buildTree env sRoot none root { graph := g, references := [] }).references,
      ∀ c, (c = e.2.node ∨ c ∈ e.2.node.descendants) →
        (c = root ∨ c ∈ root.descendants) := by
  intro e he c hc
  rw [buildTree_stores] at he
  rcases mem_applyStores _ _ e he with h | h
  · simp at h
  · rcases buildTreeStores_nodes env sRoot none root g e h with h2 | h2
    · rw [h2] at hc; exact hc
    · rcases hc with hc | hc
      · right; rw [hc]; exact h2
      · right; exact descendants_trans c root e.2.node h2 hc

/-- The scratch tree that the traversal of a cursor tree leaves, read from the first node
allocated: the visited part of the cursor tree. -/
theorem visit_reads_visitedPart (t : CursorTree)
    (hfile : ∀ c ∈ CursorTree.cursorsF t.children, c.location.file.isSome = true)
    (hdist : t.cursors.Pairwise (fun a b => cursorEq a b = false))
    (hkids : t.children ≠ []) :
    readTree (clang_visitChildren buildComprehensiveTree t ComprehensiveTreeUserData.init).2.heap
      (2 * (clang_visitChildren buildComprehensiveTree t
        ComprehensiveTreeUserData.init).2.heap.length) none 0 = some (visitedPart t) := by
  obtain ⟨r, F⟩ := t
  simp only [CursorTree.children] at hfile hkids
  simp only [CursorTree.cursors] at hdist
  cases F with
  | nil => exact absurd rfl hkids
  | cons k rest =>
    obtain ⟨c, ks⟩ := k
    have hcf : c.location.file.isSome = true :=
      hfile c (by simp [CursorTree.cursorsF, CursorTree.cursors])
    obtain ⟨hr, hc1⟩ := first_step c r hcf
    have h := visit_cons_of_step c ks rest (visit_forest ks) (visit_forest rest) r
      ComprehensiveTreeUserData.init (.node r []) 0 [] [] hr hc1
      (by simp [graft, spine, spineF, CursorTree.size, CursorTree.sizeF]) hfile
      (by simpa using hdist)
    obtain ⟨_, h2, _⟩ := h
    have hg : graft (visitedForest (.node c ks :: rest)) ([] : List (CXCursor × Nat)).length
        (.node r []) = visitedPart (.node r (.node c ks :: rest)) := by
      simp [graft, visitedPart, CursorTree.cursor, CursorTree.children]
    rw [hg] at h2
    obtain ⟨hheap, _, _, _⟩ := h2
    simp only [clang_visitChildren, CursorTree.cursor, CursorTree.children]
    rw [hheap]
    have hread := read_layout (visitedPart (.node r (.node c ks :: rest)))
      (2 * (visitedPart (.node r (.node c ks :: rest))).size) 0 none none [] []
      rfl (le_refl _)
    simp only [List.nil_append, List.append_nil] at hread
    rw [length_layout]; exact hread

/-- C16 (reference-kind filter).  Let `c` be a node of the scratch tree that `run` builds from
a translation unit: after `clang_visitChildren` with `buildComprehensiveTree` from the
translation unit cursor, the tree `root` read back through `firstChild`/`nextSibling` from a
node `p` of the heap (`run` reads it from `ud.root`), of which `c` is the root or a node below
it.  Let the referenced cursor of `c` be valid.  (1) The kinds that pass the filter are
ParmDecl, VarDecl, FieldDecl, CXXMethod, EnumConstantDecl and FunctionDecl.  (2) For a use-site
of kind `DeclRefExpr`, `addReference` (and its block) changes the graph only if the referenced
kind passes the filter.  (3) For a use-site of kind `DeclRefExpr` whose referenced kind does
not pass (NonTypeTemplateParameter included), `addReference` leaves the graph as it is: such a
node has no children in the scratch tree, so nothing below it is resolved either.  (4) When the
key has no graph node, the node type is not Invalid, the Location exists and the referenced
Location has the graph node `r`, the Reference node is created at the key, for a `DeclRefExpr`
with a referenced kind that passes and for a use-site of any other kind whatever the referenced
kind is. -/
theorem reference_kind_filter (env : Clang) (unit root c : CursorTree) (p : Nat)
    (id : QByteArray) (loc : Location) (g : Graph)
    (hunit : unit.cursor.kind = .TranslationUnit)
    (hread : readTree (clang_visitChildren buildComprehensiveTree unit
        ComprehensiveTreeUserData.init).2.heap
      (2 * (clang_visitChildren buildComprehensiveTree unit
        ComprehensiveTreeUserData.init).2.heap.length) none p = some root)
    (hnode : c = root ∨ c ∈ root.descendants)
    (hvalid : env.isValidCursor (referencedCursor env c.cursor) = true) :
    (∀ k, declRefAccepts k = true ↔
      k = .ParmDecl ∨ k = .VarDecl ∨ k = .FieldDecl ∨ k = .CXXMethod ∨
      k = .EnumConstantDecl ∨ k = .FunctionDecl) ∧
    (c.cursor.kind = .DeclRefExpr →
      ((addReferenceNode env c id loc g).2 ≠ g ∨ addReference env c id loc g ≠ g) →
      declRefAccepts (referencedCursor env c.cursor).kind = true) ∧
    (c.cursor.kind = .DeclRefExpr →
      declRefAccepts (referencedCursor env c.cursor).kind = false →
      addReference env c id loc g = g) ∧
    (∀ r, (c.cursor.kind ≠ .DeclRefExpr ∨
        declRefAccepts (referencedCursor env c.cursor).kind = true) →
      QHash.contains g.sNodes id = false →
      env.nodeTypeFromCursor c.cursor ≠ .Invalid → env.locationExists loc = true →
      QHash.value g.sNodes
        (env.locationToString (env.location (referencedCursor env c.cursor))) = some r →
      (addReference env c id loc g).nodes[g.nodes.length]?
        = some (Node.mk (some (declarationOf env g r)) .Reference c.cursor loc id) ∧
      List.lookup id (addReference env c id loc g).sNodes = some g.nodes.length) := by
  have hrej : c.cursor.kind = .DeclRefExpr →
      declRefAccepts (referencedCursor env c.cursor).kind = false →
      addReference env c id loc g = g := by
    intro hk hrej
    have hch : c.children = [] :=
      declRef_scratch_leaf unit root c _ p (by rw [hunit]; decide) hread hnode hk
    rw [addReference_unfold]
    by_cases hc : QHash.contains g.sNodes id = true
    · simp [hc]
    · simp only [hc, Bool.false_eq_true, if_false]
      by_cases hb : env.nodeTypeFromCursor c.cursor ≠ .Invalid ∧ env.locationExists loc = true
      · have hr := (addReferenceNode_returned env c id loc g).mpr
          ⟨hb.1, hb.2, Or.inr (Or.inl ⟨hk, hrej⟩)⟩
        simp only [hr, if_true]
        exact addReferenceNode_returned_graph env c id loc g hr
      · have hskip : addReferenceNode env c id loc g = (false, g) := by
          apply addReferenceNode_skipped
          by_cases h1 : env.nodeTypeFromCursor c.cursor = .Invalid
          · exact Or.inl h1
          · right
            cases h2 : env.locationExists loc with
            | false => rfl
            | true => exact absurd ⟨h1, h2⟩ hb
        rw [hskip, hch]
        simp [addReferenceChildren]
  refine ⟨declRefAccepts_iff, ?_, hrej, ?_⟩
  · intro hk hne
    cases hacc : declRefAccepts (referencedCursor env c.cursor).kind with
    | true => rfl
    | false =>
      exfalso
      rcases hne with hne | hne
      · rcases addReferenceNode_spec env c id loc g with h | ⟨r, _, _, _, h4, _, _⟩
        · exact hne h
        · rw [h4 hk] at hacc; simp at hacc
      · exact hne (hrej hk hacc)
  · intro r hpass habs htype hexists hval
    have hcr := addReferenceNode_creates env c id loc g r htype hexists hvalid
      (fun hk => by
        rcases hpass with h | h
        · exact absurd hk h
        · exact h) hval
    exact addReference_created_node env c id loc g _ habs hcr

/-- Witness of C16: in the cursor tree `useWithChildUnit` the use of `v` at `a.c:2` is a
`DeclRefExpr` with a type reference below it; the traversal skips what is below it, the scratch
tree is `useBeforeDeclTree` and the use is a node of it, without children.  Its referenced
cursor is the variable declaration at `a.c:9`, a kind that passes the filter, and its Reference
node is created under the node of `v` (index 2). -/
theorem reference_kind_filter_witness :
    useWithChildUnit.cursor.kind = .TranslationUnit ∧
    readTree (clang_visitChildren buildComprehensiveTree useWithChildUnit
        ComprehensiveTreeUserData.init).2.heap
      (2 * (clang_visitChildren buildComprehensiveTree useWithChildUnit
        ComprehensiveTreeUserData.init).2.heap.length) none 0
      = some useBeforeDeclTree ∧
    CursorTree.node earlyUseCursor [] ∈ useBeforeDeclTree.descendants ∧
    useBeforeDeclClang.isValidCursor (referencedCursor useBeforeDeclClang earlyUseCursor)
      = true ∧
    earlyUseCursor.kind = .DeclRefExpr ∧
    (referencedCursor useBeforeDeclClang earlyUseCursor).kind = .VarDecl ∧
    (addReference useBeforeDeclClang (.node earlyUseCursor []) "a.c:2"
        (useBeforeDeclClang.location earlyUseCursor)
        (sampleBuild useBeforeDeclClang useBeforeDeclTree).graph).nodes[3]?
      = some (Node.mk (some 2) .Reference earlyUseCursor
          (useBeforeDeclClang.location earlyUseCursor) "a.c:2") := by
  have hread : readTree (clang_visitChildren buildComprehensiveTree useWithChildUnit
        ComprehensiveTreeUserData.init).2.heap
      (2 * (clang_visitChildren buildComprehensiveTree useWithChildUnit
        ComprehensiveTreeUserData.init).2.heap.length) none 0
      = some useBeforeDeclTree := by
    have h := visit_reads_visitedPart useWithChildUnit (by decide) (by decide)
      (by simp [useWithChildUnit, CursorTree.children])
    have e : visitedPart useWithChildUnit = useBeforeDeclTree := by
      simp [visitedPart, visitedForest, useWithChildUnit, useBeforeDeclTree,
        CursorTree.children, CursorTree.cursor, visitResultOfKind, earlyUseCursor,
        sampleCursorAt, lateVarCursor]
    rw [e] at h
    exact h
  have hnode : CursorTree.node earlyUseCursor [] ∈ useBeforeDeclTree.descendants := by
    simp [useBeforeDeclTree, CursorTree.descendants, CursorTree.descendantsF]
  exact ⟨by decide, hread, hnode, by decide, by decide, by decide,
    ((reference_kind_filter useBeforeDeclClang useWithChildUnit useBeforeDeclTree
      (.node earlyUseCursor []) 0 "a.c:2" (useBeforeDeclClang.location earlyUseCursor)
      (sampleBuild useBeforeDeclClang useBeforeDeclTree).graph (by decide) hread
      (Or.inr hnode) (by decide)).2.2.2 2
      (Or.inr (by decide)) (by decide) (by decide) (by decide) (by decide)).1⟩

/-! ## Node conservation in the tree reconstruction (C17) -/

theorem Corr.shaped {u : ComprehensiveTreeUserData} {t : CursorTree} (h : Corr u t) :
    Shaped u t := by
  obtain ⟨hheap, hroot, _, fr, lc, li, hsp, hfr, hpar, hlast, _⟩ := h
  refine ⟨hheap, hroot, fr, lc, li, hsp, hfr, ?_, hlast⟩
  rw [hpar]; simp

theorem scanParents_some (parent : CXCursor) (frames : List (CXCursor × Option Nat)) :
    ∀ (n : Nat) (p : Option Nat) (ps : List (CXCursor × Option Nat)),
      scanParents parent frames n = some (p, ps) →
      ∃ i f, i < n ∧ frames[i]? = some f ∧ p = f.2 ∧ ps = frames.take (i + 1)
  | 0, _, _, h => by simp [scanParents] at h
  | m + 1, p, ps, h => by
    unfold scanParents at h
    cases hm : frames[m]? with
    | none =>
      simp only [hm] at h
      obtain ⟨i, f, hi, h1, h2, h3⟩ := scanParents_some parent frames m p ps h
      exact ⟨i, f, by omega, h1, h2, h3⟩
    | some f =>
      simp only [hm] at h
      by_cases he : cursorEq parent f.1 = true
      · simp only [he, if_true, Option.some.injEq, Prod.mk.injEq] at h
        exact ⟨m, f, by omega, hm, h.1.symm, h.2.symm⟩
      · simp only [he, if_false, Bool.false_eq_true] at h
        obtain ⟨i, f2, hi, h1, h2, h3⟩ := scanParents_some parent frames m p ps h
        exact ⟨i, f2, by omega, h1, h2, h3⟩

theorem buildComprehensiveTree_no_file (c pc : CXCursor) (u : ComprehensiveTreeUserData)
    (h : c.location.file.isSome = false) : (buildComprehensiveTree c pc u).2 = u := by
  have : c.location.file.isNone = true := by
    cases hf : c.location.file with
    | none => rfl
    | some f => simp [hf] at h
  simp [buildComprehensiveTree, this]

theorem buildComprehensiveTree_assert_mono (c pc : CXCursor) (u : ComprehensiveTreeUserData)
    (h : (buildComprehensiveTree c pc u).2.assertFailed = false) : u.assertFailed = false := by
  cases hu : u.assertFailed with
  | false => rfl
  | true =>
    exfalso
    unfold buildComprehensiveTree at h
    split at h
    · rw [hu] at h; exact absurd h (by simp)
    · simp only at h
      split at h
      · simp [hu] at h
      · split at h
        · simp [hu] at h
        · split at h
          · simp [hu] at h
          · simp [hu] at h

theorem step_shaped (u : ComprehensiveTreeUserData) (t : CursorTree) (c pc : CXCursor)
    (hs : Shaped u t) (hfile : c.location.file.isSome = true)
    (hok : (buildComprehensiveTree c pc u).2.assertFailed = false) :
    ∃ d, d < (spine 0 t).length ∧
      Shaped (buildComprehensiveTree c pc u).2 (graft [.node c []] d t) := by
  obtain ⟨hheap, hroot, fr, lc, li, hsp, hfr, hpar, hlast⟩ := hs
  have hu := buildComprehensiveTree_assert_mono c pc u hok
  have hnf : c.location.file.isNone = false := by
    cases h : c.location.file with
    | none => simp [h] at hfile
    | some f => rfl
  have hlen : (spine 0 t).length = fr.length + 1 := by simp [hsp]
  have hplen : u.parents.length = fr.length := by
    have := congrArg List.length hpar
    simpa using this
  by_cases hl : cursorEq pc u.lastCursor = true
  · have hd : (spine 0 t)[fr.length]? = some (lc, li) := by rw [hsp]; simp
    have hnew := new_layout c lc li fr.length t hd
    have hspg := spine_graft_leaf c t fr.length 0 (by omega)
    have htake : (spine 0 t).take (fr.length + 1) = spine 0 t := by
      apply List.take_of_length_le; omega
    refine ⟨fr.length, by omega, ?_⟩
    simp only [buildComprehensiveTree, hnf, hroot, hl, hlast, hu, hheap,
      Bool.false_eq_true, if_false, if_true, Option.isNone_some, Bool.or_false, hnew]
    refine ⟨rfl, rfl, fr ++ [(lc, li)], c, t.size, ?_, by simp, ?_, rfl⟩
    · rw [hspg, htake, hsp]; simp
    · simp [hpar]
  · have hl' : cursorEq pc u.lastCursor = false := by simpa using hl
    cases hscan : scanParents pc u.parents u.parents.length with
    | none =>
      exfalso
      simp only [buildComprehensiveTree, hnf, hroot, hl', hlast, hu, hscan,
        Bool.false_eq_true, if_false, Option.isNone_some, Bool.or_false] at hok
      simp at hok
    | some r =>
      obtain ⟨p, ps⟩ := r
      obtain ⟨i, f, hi, hfi, hp, hps⟩ := scanParents_some pc u.parents _ p ps hscan
      have hifr : i < fr.length := by omega
      have hy : ∃ y, fr[i]? = some y ∧ f.2 = some y.2 := by
        have h1 : (u.parents.map Prod.snd)[i]? = some f.2 := by
          rw [List.getElem?_map, hfi]; rfl
        rw [hpar, List.getElem?_map] at h1
        cases hfr2 : fr[i]? with
        | none => simp [hfr2] at h1
        | some y =>
          simp only [hfr2, Option.map_some', Option.some.injEq] at h1
          exact ⟨y, rfl, h1.symm⟩
      obtain ⟨y, hyi, hy2⟩ := hy
      have hd : (spine 0 t)[i]? = some (y.1, y.2) := by
        rw [hsp, List.getElem?_append_left hifr]; exact hyi
      have hnew := new_layout c y.1 y.2 i t hd
      have hspg := spine_graft_leaf c t i 0 (by omega)
      have htake : (spine 0 t).take (i + 1) = fr.take (i + 1) := by
        rw [hsp, List.take_append_of_le_length (by omega)]
      refine ⟨i, by omega, ?_⟩
      have hp2 : p = some y.2 := by rw [hp, hy2]
      subst hp2
      subst hps
      simp only [buildComprehensiveTree, hnf, hroot, hl', hlast, hu, hheap, hscan,
        Bool.false_eq_true, if_false, Option.isNone_some, Bool.or_false, hnew]
      refine ⟨rfl, rfl, fr.take (i + 1), c, t.size, ?_, ?_, ?_, rfl⟩
      · rw [hspg, htake]; simp
      · intro h
        have hl0 : (fr.take (i + 1)).length = 0 := by rw [h]; rfl
        rw [List.length_take] at hl0
        omega
      · simp only [List.map_take, hpar]

mutual
theorem spine_cells :
    (t : CursorTree) → ∀ (s : Nat) (par nxt : Option Nat) (pre post : List CursorNode),
      pre.length = s →
      (∃ n, (pre ++ layout s par nxt t ++ post)[s]? = some n ∧ n.parent = par ∧
        n.nextSibling = nxt) ∧
      (spine s t)[0]? = some (t.cursor, s) ∧
      (∀ j a b, (spine s t)[j]? = some a → (spine s t)[j + 1]? = some b →
        ∃ n, (pre ++ layout s par nxt t ++ post)[b.2]? = some n ∧ n.parent = some a.2 ∧
          n.nextSibling = none)
  | .node c ks, s, par, nxt, pre, post, hs => by
    have hh := getElem?_layout_head pre post s par nxt c ks hs
    have ih := spineF_cells ks (s + 1) (some s)
      (pre ++ [CursorNode.mk c par (if ks.isEmpty then none else some (s + 1)) nxt
        (lastStart (s + 1) ks)]) post (by simp [hs])
    have heq : pre ++ [CursorNode.mk c par (if ks.isEmpty then none else some (s + 1)) nxt
          (lastStart (s + 1) ks)] ++ layoutF (s + 1) (some s) ks ++ post
        = pre ++ layout s par nxt (.node c ks) ++ post := by
      simp [layout]
    rw [heq] at ih
    refine ⟨⟨_, hh, rfl, rfl⟩, by simp [spine, CursorTree.cursor], ?_⟩
    intro j a b ha hb
    simp only [spine] at ha hb
    cases j with
    | zero =>
      simp only [List.getElem?_cons_zero, Option.some.injEq] at ha
      simp only [Nat.zero_add, List.getElem?_cons_succ] at hb
      subst ha
      exact ih.1 b hb
    | succ j =>
      simp only [List.getElem?_cons_succ] at ha hb
      exact ih.2 j a b ha hb
theorem spineF_cells :
    (ks : List CursorTree) → ∀ (s : Nat) (par : Option Nat) (pre post : List CursorNode),
      pre.length = s →
      (∀ a, (spineF s ks)[0]? = some a →
        ∃ n, (pre ++ layoutF s par ks ++ post)[a.2]? = some n ∧ n.parent = par ∧
          n.nextSibling = none) ∧
      (∀ j a b, (spineF s ks)[j]? = some a → (spineF s ks)[j + 1]? = some b →
        ∃ n, (pre ++ layoutF s par ks ++ post)[b.2]? = some n ∧ n.parent = some a.2 ∧
          n.nextSibling = none)
  | [], s, par, pre, post, hs => by
    simp [spineF]
  | [k], s, par, pre, post, hs => by
    have ih := spine_cells k s par none pre post hs
    have heq : pre ++ layoutF s par [k] ++ post = pre ++ layout s par none k ++ post := by
      simp [layoutF]
    rw [heq]
    simp only [spineF]
    refine ⟨?_, ih.2.2⟩
    intro a ha
    rw [ih.2.1] at ha
    simp only [Option.some.injEq] at ha
    subst ha
    exact ih.1
  | k :: k2 :: ks, s, par, pre, post, hs => by
    have ih := spineF_cells (k2 :: ks) (s + k.size) par
      (pre ++ layout s par (some (s + k.size)) k) post (by simp [length_layout, hs])
    have heq : pre ++ layoutF s par (k :: k2 :: ks) ++ post
        = pre ++ layout s par (some (s + k.size)) k ++ layoutF (s + k.size) par (k2 :: ks)
          ++ post := by
      simp [layoutF]
    rw [heq]
    simp only [spineF]
    exact ih
end

mutual
theorem count_layout :
    (t : CursorTree) → ∀ (fuel s : Nat) (par nxt : Option Nat) (pre post : List CursorNode),
      pre.length = s → 2 * t.size ≤ fuel →
      CursorNode.count (pre ++ layout s par nxt t ++ post) fuel s = some t.size
  | .node c ks, 0, s, par, nxt, pre, post, hs, hf => by
    simp only [CursorTree.size] at hf; omega
  | .node c ks, fuel + 1, s, par, nxt, pre, post, hs, hf => by
    simp only [CursorTree.size] at hf
    rw [CursorNode.count, getElem?_layout_head pre post s par nxt c ks hs]
    have ih := countLoop_layoutF ks fuel (s + 1) (some s)
      (pre ++ [CursorNode.mk c par (if ks.isEmpty then none else some (s + 1)) nxt
        (lastStart (s + 1) ks)]) post (by simp [hs]) (by omega)
    simp only [layout, List.append_assoc, List.cons_append, List.nil_append] at ih ⊢
    simp only [ih, CursorTree.size]
theorem countLoop_layoutF :
    (ks : List CursorTree) → ∀ (fuel s : Nat) (par : Option Nat) (pre post : List CursorNode),
      pre.length = s → 2 * CursorTree.sizeF ks + 1 ≤ fuel →
      CursorNode.countLoop (pre ++ layoutF s par ks ++ post) fuel
        (if ks.isEmpty then none else some s) = some (CursorTree.sizeF ks)
  | _, 0, _, _, _, _, _, hf => by omega
  | [], fuel + 1, s, par, pre, post, hs, hf => by
    simp [CursorNode.countLoop, CursorTree.sizeF]
  | .node c cs :: ks, fuel + 1, s, par, pre, post, hs, hf => by
    simp only [CursorTree.sizeF] at hf
    have hpos := (CursorTree.node c cs).size_pos
    have h1 := count_layout (.node c cs) fuel s par
      (if ks.isEmpty then none else some (s + (CursorTree.node c cs).size)) pre
      (layoutF (s + (CursorTree.node c cs).size) par ks ++ post) hs (by omega)
    have h2 := countLoop_layoutF ks fuel (s + (CursorTree.node c cs).size) par
      (pre ++ layout s par
        (if ks.isEmpty then none else some (s + (CursorTree.node c cs).size)) (.node c cs))
      post (by simp [length_layout, hs]) (by omega)
    have hh := getElem?_layout_head pre (layoutF (s + (CursorTree.node c cs).size) par ks ++ post)
      s par (if ks.isEmpty then none else some (s + (CursorTree.node c cs).size)) c cs hs
    simp only [List.isEmpty_cons, Bool.false_eq_true, if_false]
    rw [CursorNode.countLoop]
    rw [layoutF]
    simp only [List.append_assoc] at h1 h2 hh ⊢
    rw [hh]
    simp only [h1, h2, CursorTree.sizeF]
end

theorem visitCallbacks_cons (cb : CXCursor × CXCursor) (rest : List (CXCursor × CXCursor))
    (u : ComprehensiveTreeUserData) :
    visitCallbacks (cb :: rest) u
      = visitCallbacks rest (buildComprehensiveTree cb.1 cb.2 u).2 := rfl

theorem visitCallbacks_append (a b : List (CXCursor × CXCursor))
    (u : ComprehensiveTreeUserData) :
    visitCallbacks (a ++ b) u = visitCallbacks b (visitCallbacks a u) := by
  simp [visitCallbacks, List.foldl_append]

theorem visitCallbacks_assert_mono :
    (calls : List (CXCursor × CXCursor)) → ∀ (u : ComprehensiveTreeUserData),
      (visitCallbacks calls u).assertFailed = false → u.assertFailed = false
  | [], _, h => h
  | cb :: rest, u, h =>
    buildComprehensiveTree_assert_mono cb.1 cb.2 u
      (visitCallbacks_assert_mono rest _ h)

theorem fileCallbacks_cons (cb : CXCursor × CXCursor) (rest : List (CXCursor × CXCursor)) :
    fileCallbacks (cb :: rest)
      = (if cb.1.location.file.isSome then 1 else 0) + fileCallbacks rest := by
  simp only [fileCallbacks, List.filter_cons]
  split
  · simp only [List.length_cons]; omega
  · simp

theorem visitCallbacks_shaped :
    (calls : List (CXCursor × CXCursor)) → ∀ (u : ComprehensiveTreeUserData) (n : Nat),
      ((u = ComprehensiveTreeUserData.init ∧ n = 0) ∨ ∃ t, Shaped u t ∧ t.size = n + 1) →
      (visitCallbacks calls u).assertFailed = false →
      ((visitCallbacks calls u = ComprehensiveTreeUserData.init ∧
          n + fileCallbacks calls = 0) ∨
        ∃ t, Shaped (visitCallbacks calls u) t ∧ t.size = n + fileCallbacks calls + 1)
  | [], u, n, h, _ => by
    simpa [visitCallbacks, fileCallbacks] using h
  | cb :: rest, u, n, h, hok => by
    rw [visitCallbacks_cons] at hok ⊢
    rw [fileCallbacks_cons]
    have hstep := visitCallbacks_assert_mono rest _ hok
    by_cases hfile : cb.1.location.file.isSome = true
    · simp only [hfile, if_true]
      have hnext : ∃ t, Shaped (buildComprehensiveTree cb.1 cb.2 u).2 t ∧
          t.size = (n + 1) + 1 := by
        rcases h with ⟨hu, hn⟩ | ⟨t, hs, hsize⟩
        · subst hu; subst hn
          refine ⟨_, (first_step cb.1 cb.2 hfile).2.shaped, ?_⟩
          simp [graft, CursorTree.size, CursorTree.sizeF]
        · obtain ⟨d, hd, hs2⟩ := step_shaped u t cb.1 cb.2 hs hfile hstep
          exact ⟨_, hs2, by rw [size_graft_leaf cb.1 t d 0 hd, hsize]⟩
      have ih := visitCallbacks_shaped rest _ (n + 1) (Or.inr hnext) hok
      rcases ih with ⟨_, h0⟩ | ⟨t, hs, hsize⟩
      · omega
      · right
        exact ⟨t, hs, by rw [hsize]; omega⟩
    · have hfile' : cb.1.location.file.isSome = false := by simpa using hfile
      rw [buildComprehensiveTree_no_file cb.1 cb.2 u hfile'] at hok ⊢
      simp only [hfile', Bool.false_eq_true, if_false, Nat.zero_add]
      exact visitCallbacks_shaped rest u n h hok

theorem shaped_facts (u : ComprehensiveTreeUserData) (t : CursorTree) (hs : Shaped u t) :
    ∃ (path : List Nat) (l : Nat) (nl : CursorNode),
      u.root = some 0 ∧ u.last = some l ∧ u.heap[l]? = some nl ∧
      u.parents.map Prod.snd = path.map some ∧
      path.head? = some 0 ∧
      (∃ n0, u.heap[0]? = some n0 ∧ n0.parent = none) ∧
      (∀ j a b, path[j]? = some a → path[j + 1]? = some b →
        ∃ n, u.heap[b]? = some n ∧ n.parent = some a) ∧
      nl.parent = path.getLast? ∧
      (∀ q ∈ path, ∃ n, u.heap[q]? = some n ∧ n.nextSibling = none) ∧
      nl.nextSibling = none ∧
      (∀ fuel, 2 * u.heap.length ≤ fuel → CursorNode.count u.heap fuel 0 = some t.size) := by
  obtain ⟨hheap, hroot, fr, lc, li, hsp, hfr, hpar, hlast⟩ := hs
  have hcells := spine_cells t 0 none none [] [] rfl
  simp only [List.nil_append, List.append_nil] at hcells
  rw [← hheap] at hcells
  obtain ⟨⟨n0, hn0, hn0p, hn0s⟩, hhead, hchain⟩ := hcells
  have hlen : (spine 0 t).length = fr.length + 1 := by simp [hsp]
  have hfrpos : 0 < fr.length := List.length_pos.mpr hfr
  have hspfr : ∀ j, j < fr.length → (spine 0 t)[j]? = fr[j]? := by
    intro j hj; rw [hsp, List.getElem?_append_left hj]
  have hsplast : (spine 0 t)[fr.length]? = some (lc, li) := by rw [hsp]; simp
  -- the last frame and the last node
  have hprev : ∃ a, fr[fr.length - 1]? = some a := by
    have : fr.length - 1 < fr.length := by omega
    exact ⟨fr[fr.length - 1], List.getElem?_eq_getElem this⟩
  obtain ⟨alast, halast⟩ := hprev
  have hlastcell := hchain (fr.length - 1) alast (lc, li)
    (by rw [hspfr _ (by omega)]; exact halast)
    (by rw [show fr.length - 1 + 1 = fr.length by omega]; exact hsplast)
  obtain ⟨nl, hnl, hnlp, hnls⟩ := hlastcell
  refine ⟨fr.map Prod.snd, li, nl, hroot, hlast, hnl, ?_, ?_, ⟨n0, hn0, hn0p⟩, ?_, ?_, ?_,
    hnls, ?_⟩
  · rw [hpar]; simp
  · have h0 : fr[0]? = some (t.cursor, 0) := by rw [← hspfr 0 hfrpos]; exact hhead
    cases fr with
    | nil => exact absurd rfl hfr
    | cons x xs =>
      simp only [List.getElem?_cons_zero, Option.some.injEq] at h0
      simp [h0]
  · intro j a b ha hb
    rw [List.getElem?_map] at ha hb
    cases hfa : fr[j]? with
    | none => simp [hfa] at ha
    | some x =>
      cases hfb : fr[j + 1]? with
      | none => simp [hfb] at hb
      | some y =>
        simp only [hfa, hfb, Option.map_some', Option.some.injEq] at ha hb
        subst ha; subst hb
        have hj1 : j + 1 < fr.length := by
          by_contra hc
          rw [List.getElem?_eq_none (by omega)] at hfb
          exact absurd hfb (by simp)
        obtain ⟨n, h1, h2, _⟩ := hchain j x y
          (by rw [hspfr j (by omega)]; exact hfa) (by rw [hspfr _ hj1]; exact hfb)
        exact ⟨n, h1, h2⟩
  · rw [hnlp, List.getLast?_eq_getElem?]
    simp only [List.length_map, List.getElem?_map, halast, Option.map_some']
  · intro q hq
    obtain ⟨x, hx, hxq⟩ := List.mem_map.mp hq
    obtain ⟨j, hj, hjx⟩ := List.getElem_of_mem hx
    cases j with
    | zero =>
      have h0 : fr[0]? = some (t.cursor, 0) := by rw [← hspfr 0 hfrpos]; exact hhead
      rw [List.getElem?_eq_getElem hj, hjx] at h0
      simp only [Option.some.injEq] at h0
      rw [← hxq, h0]
      exact ⟨n0, hn0, hn0s⟩
    | succ j =>
      have hprevj : j < fr.length := by omega
      obtain ⟨n, h1, _, h3⟩ := hchain j fr[j] x
        (by rw [hspfr j hprevj]; exact List.getElem?_eq_getElem hprevj)
        (by rw [hspfr _ hj, List.getElem?_eq_getElem hj, hjx])
      rw [← hxq]
      exact ⟨n, h1, h3⟩
  · intro fuel hfuel
    have hc := count_layout t fuel 0 none none [] [] rfl
      (by rw [hheap, length_layout] at hfuel; exact hfuel)
    simp only [List.nil_append, List.append_nil] at hc
    rw [hheap]; exact hc

/-- C17 (node conservation in tree reconstruction).  Let the visitor be called for any sequence
of pairs (cursor, reported parent), cursors possibly colliding under the (kind, location)
equality, such that no assertion is violated (every parent lookup succeeds).  Then after every
prefix `pre` of the sequence: while no cursor with a file has been received the state is the
initial one; afterwards the nodes of the frame stack are a path `path` of parent links that
starts at the root (whose parent is null) and ends at the parent of the last created node, no
node of the stack and not the last created node has a next sibling (so the assignment
`nextSibling = 0` in `append`, whose receiver is one of them, changes nothing), and
`root->count()` returns 1 plus the number of callbacks received for cursors that have a
file. -/
theorem node_conservation (calls : List (CXCursor × CXCursor))
    (hok : (visitCallbacks calls ComprehensiveTreeUserData.init).assertFailed = false) :
    ∀ pre rest, calls = pre ++ rest →
      (fileCallbacks pre = 0 →
        visitCallbacks pre ComprehensiveTreeUserData.init = ComprehensiveTreeUserData.init) ∧
      (0 < fileCallbacks pre →
        ∃ (path : List Nat) (l : Nat) (nl : CursorNode),
          (visitCallbacks pre ComprehensiveTreeUserData.init).root = some 0 ∧
          (visitCallbacks pre ComprehensiveTreeUserData.init).last = some l ∧
          (visitCallbacks pre ComprehensiveTreeUserData.init).heap[l]? = some nl ∧
          (visitCallbacks pre ComprehensiveTreeUserData.init).parents.map Prod.snd
            = path.map some ∧
          path.head? = some 0 ∧
          (∃ n0, (visitCallbacks pre ComprehensiveTreeUserData.init).heap[0]? = some n0 ∧
            n0.parent = none) ∧
          (∀ j a b, path[j]? = some a → path[j + 1]? = some b →
            ∃ n, (visitCallbacks pre ComprehensiveTreeUserData.init).heap[b]? = some n ∧
              n.parent = some a) ∧
          nl.parent = path.getLast? ∧
          (∀ q ∈ path,
            ∃ n, (visitCallbacks pre ComprehensiveTreeUserData.init).heap[q]? = some n ∧
              n.nextSibling = none) ∧
          nl.nextSibling = none ∧
          (∀ fuel,
            2 * (visitCallbacks pre ComprehensiveTreeUserData.init).heap.length ≤ fuel →
            CursorNode.count (visitCallbacks pre ComprehensiveTreeUserData.init).heap fuel 0
              = some (1 + fileCallbacks pre))) := by
  intro pre rest hcalls
  have hpre : (visitCallbacks pre ComprehensiveTreeUserData.init).assertFailed = false := by
    rw [hcalls, visitCallbacks_append] at hok
    exact visitCallbacks_assert_mono rest _ hok
  have hinv := visitCallbacks_shaped pre ComprehensiveTreeUserData.init 0
    (Or.inl ⟨rfl, rfl⟩) hpre
  simp only [Nat.zero_add] at hinv
  constructor
  · intro h0
    rcases hinv with ⟨h, _⟩ | ⟨t, hs, hsize⟩
    · exact h
    · exfalso
      obtain ⟨_, hroot, _⟩ := hs
      have hnone : ∀ (cs : List (CXCursor × CXCursor)) (u : ComprehensiveTreeUserData),
          fileCallbacks cs = 0 → visitCallbacks cs u = u := by
        intro cs
        induction cs with
        | nil => intro u _; rfl
        | cons cb cs ih =>
          intro u hz
          rw [fileCallbacks_cons] at hz
          have hf : cb.1.location.file.isSome = false := by
            cases hb : cb.1.location.file.isSome with
            | false => rfl
            | true => simp [hb] at hz
          rw [visitCallbacks_cons, buildComprehensiveTree_no_file cb.1 cb.2 u hf]
          exact ih u (by simpa [hf] using hz)
      rw [hnone pre _ h0] at hroot
      simp [ComprehensiveTreeUserData.init] at hroot
  · intro hpos
    rcases hinv with ⟨_, h0⟩ | ⟨t, hs, hsize⟩
    · omega
    · obtain ⟨path, l, nl, h1, h2, h3, h4, h5, h6, h7, h8, h9, h10, h11⟩ :=
        shaped_facts _ t hs
      refine ⟨path, l, nl, h1, h2, h3, h4, h5, h6, h7, h8, h9, h10, ?_⟩
      intro fuel hfuel
      rw [h11 fuel hfuel, hsize, Nat.add_comm]

/-- Witness of C17: the callback sequence `collidingCalls` has five callbacks for cursors with a
file, one of them reported with a parent that collides with the class cursor; no assertion is
violated, and the count of the root is six. -/
theorem node_conservation_witness :
    (visitCallbacks collidingCalls ComprehensiveTreeUserData.init).assertFailed = false ∧
    fileCallbacks collidingCalls = 5 ∧
    (visitCallbacks collidingCalls ComprehensiveTreeUserData.init).parents.map Prod.snd
      = [some 0] ∧
    (∀ fuel,
      2 * (visitCallbacks collidingCalls ComprehensiveTreeUserData.init).heap.length ≤ fuel →
      CursorNode.count (visitCallbacks collidingCalls ComprehensiveTreeUserData.init).heap
        fuel 0 = some 6) := by
  obtain ⟨_, _, _, _, _, _, _, _, _, _, _, _, _, hcount⟩ :=
    (node_conservation collidingCalls (by decide) collidingCalls [] (by simp)).2 (by decide)
  exact ⟨by decide, by decide, by decide, hcount⟩

/-! ## Structural inconsistency: the traversal and the passes go on (C8) -/

theorem getElem?_lt {α : Type} (l : List α) (i : Nat) (a : α) (h : l[i]? = some a) :
    i < l.length := by
  by_contra hcon
  rw [List.getElem?_eq_none (by omega)] at h
  exact absurd h (by simp)

mutual
/-- In a well-linked heap the scratch tree below a cell reads back with enough fuel. -/
theorem readTree_total (heap : List CursorNode) (hw : WellLinked heap) :
    (fuel : Nat) → ∀ (par : Option Nat) (p : Nat) (n : CursorNode),
      heap[p]? = some n → n.parent = par → 2 * (heap.length - p) ≤ fuel →
      ∃ t, readTree heap fuel par p = some t
  | 0, _, p, n, hn, _, hf => by
    have := getElem?_lt heap p n hn
    omega
  | fuel + 1, par, p, n, hn, hpar, hf => by
    have hp := getElem?_lt heap p n hn
    obtain ⟨ha, _, _⟩ := hw p n hn
    have hchain : ∃ ks, readChain heap fuel (some p) n.firstChild = some ks := by
      apply readChain_total heap hw fuel (some p) n.firstChild
      · intro x hx
        exact (ha x hx).2
      · intro x hx
        obtain ⟨hlt, m, hm, _⟩ := ha x hx
        have := getElem?_lt heap x m hm
        omega
      · omega
    obtain ⟨ks, hks⟩ := hchain
    exact ⟨.node n.cursor ks, by rw [readTree]; simp [hn, hpar, hks]⟩
theorem readChain_total (heap : List CursorNode) (hw : WellLinked heap) :
    (fuel : Nat) → ∀ (par : Option Nat) (c : Option Nat),
      (∀ x, c = some x → ∃ m, heap[x]? = some m ∧ m.parent = par) →
      (∀ x, c = some x → 2 * (heap.length - x) + 1 ≤ fuel) → 1 ≤ fuel →
      ∃ ks, readChain heap fuel par c = some ks
  | 0, _, _, _, _, h1 => by omega
  | fuel + 1, par, none, _, _, _ => ⟨[], by simp [readChain]⟩
  | fuel + 1, par, some c, hc, hf, _ => by
    obtain ⟨m, hm, hmp⟩ := hc c rfl
    have hfc := hf c rfl
    have hcl := getElem?_lt heap c m hm
    obtain ⟨_, hb, _⟩ := hw c m hm
    obtain ⟨t, ht⟩ := readTree_total heap hw fuel par c m hm hmp (by omega)
    have hrest : ∃ ts, readChain heap fuel par m.nextSibling = some ts := by
      apply readChain_total heap hw fuel par m.nextSibling
      · intro x hx
        obtain ⟨_, m2, hm2, hp2⟩ := hb x hx
        exact ⟨m2, hm2, by rw [hp2, hmp]⟩
      · intro x hx
        obtain ⟨hlt, m2, hm2, _⟩ := hb x hx
        have := getElem?_lt heap x m2 hm2
        omega
      · omega
    obtain ⟨ts, hts⟩ := hrest
    exact ⟨t :: ts, by rw [readChain]; simp [hm, ht, hts]⟩
end

theorem Relinked.relinked_refl (q ptr : Nat) (L : Nat → Prop) (h : List CursorNode) :
    Relinked q ptr L h h := by
  intro i
  cases hi : h[i]? with
  | none => exact Or.inl ⟨rfl, rfl⟩
  | some n => exact Or.inr ⟨n, n, rfl, rfl, Or.inl rfl, Or.inl rfl, Or.inl rfl, Or.inl rfl⟩

theorem Relinked.relinked_trans {q ptr : Nat} {L : Nat → Prop} {h1 h2 h3 : List CursorNode}
    (a : Relinked q ptr L h1 h2) (b : Relinked q ptr L h2 h3) : Relinked q ptr L h1 h3 := by
  intro i
  rcases a i with ⟨a1, a2⟩ | ⟨n, n2, a1, a2, ap, af, al, an⟩
  · rcases b i with ⟨_, b2⟩ | ⟨m, m2, b1, _⟩
    · exact Or.inl ⟨a1, b2⟩
    · rw [a2] at b1; exact absurd b1 (by simp)
  · rcases b i with ⟨b1, _⟩ | ⟨m, m2, b1, b2, bp, bf, bl, bn⟩
    · rw [a2] at b1; exact absurd b1 (by simp)
    · rw [a2] at b1
      have hm : n2 = m := Option.some.inj b1
      subst hm
      refine Or.inr ⟨n, m2, a1, b2, ?_, ?_, ?_, ?_⟩
      · rcases bp with bp | bp
        · rcases ap with ap | ap
          · exact Or.inl (bp.trans ap)
          · exact Or.inr ⟨ap.1, bp.trans ap.2⟩
        · exact Or.inr bp
      · rcases bf with bf | bf
        · rcases af with af | af
          · exact Or.inl (bf.trans af)
          · exact Or.inr ⟨af.1, bf.trans af.2⟩
        · exact Or.inr bf
      · rcases bl with bl | bl
        · rcases al with al | al
          · exact Or.inl (bl.trans al)
          · exact Or.inr ⟨al.1, bl.trans al.2⟩
        · exact Or.inr bl
      · rcases bn with bn | bn | bn
        · rcases an with an | an | an
          · exact Or.inl (bn.trans an)
          · exact Or.inr (Or.inl (bn.trans an))
          · exact Or.inr (Or.inr ⟨an.1, bn.trans an.2⟩)
        · exact Or.inr (Or.inl bn)
        · exact Or.inr (Or.inr bn)

theorem getElem?_updateAt (h : List CursorNode) (x : Nat) (f : CursorNode → CursorNode)
    (i : Nat) : (updateAt h x f)[i]? = if i = x then (h[i]?).map f else h[i]? := by
  unfold updateAt
  cases hx : h[x]? with
  | none =>
    simp only
    split
    · rename_i hix
      rw [hix, hx]; rfl
    · rfl
  | some nx =>
    simp only
    have hxl := getElem?_lt h x nx hx
    by_cases hix : i = x
    · subst hix
      simp [List.getElem?_set, hxl, hx]
    · simp only [hix, if_false]
      rw [List.getElem?_set]
      simp [Ne.symm hix]

theorem Relinked.of_update (q ptr : Nat) (L : Nat → Prop) (h : List CursorNode) (x : Nat)
    (f : CursorNode → CursorNode)
    (hf : ∀ n, ((f n).parent = n.parent ∨ (x = ptr ∧ (f n).parent = some q)) ∧
      ((f n).firstChild = n.firstChild ∨ (x = q ∧ (f n).firstChild = some ptr)) ∧
      ((f n).lastChild = n.lastChild ∨ (x = q ∧ (f n).lastChild = some ptr)) ∧
      ((f n).nextSibling = n.nextSibling ∨ (f n).nextSibling = none ∨
        (L x ∧ (f n).nextSibling = some ptr))) :
    Relinked q ptr L h (updateAt h x f) := by
  intro i
  rw [getElem?_updateAt]
  by_cases hix : i = x
  · subst hix
    simp only [if_true]
    cases hi : h[i]? with
    | none => exact Or.inl ⟨rfl, rfl⟩
    | some n => exact Or.inr ⟨n, f n, rfl, rfl, hf n⟩
  · simp only [hix, if_false]
    exact Relinked.relinked_refl q ptr L h i

/-- The links changed by `this->append(c)`. -/
theorem Relinked.of_appended (h : List CursorNode) (this c : Nat) :
    Relinked this c (fun i => (h[this]?).bind (fun n => n.lastChild) = some i) h
      (CursorNode.append h this c) := by
  unfold CursorNode.append
  have hlast : ((updateAt h c (fun n => { n with parent := some this }))[this]?).bind
      (fun n => n.lastChild) = (h[this]?).bind (fun n => n.lastChild) := by
    rw [getElem?_updateAt]
    split
    · cases h[this]? <;> rfl
    · rfl
  have s1 := Relinked.of_update this c
    (fun i => (h[this]?).bind (fun n => n.lastChild) = some i) h c
    (fun n => { n with parent := some this })
    (fun n => ⟨Or.inr ⟨rfl, rfl⟩, Or.inl rfl, Or.inl rfl, Or.inl rfl⟩)
  refine Relinked.relinked_trans ?_ (Relinked.of_update this c _ _ this
    (fun n => { n with nextSibling := none })
    (fun n => ⟨Or.inl rfl, Or.inl rfl, Or.inl rfl, Or.inr (Or.inl rfl)⟩))
  refine Relinked.relinked_trans s1 ?_
  split
  · rename_i l hl
    rw [hlast] at hl
    exact Relinked.relinked_trans
      (Relinked.of_update this c _ _ l (fun n => { n with nextSibling := some c })
        (fun n => ⟨Or.inl rfl, Or.inl rfl, Or.inl rfl, Or.inr (Or.inr ⟨hl, rfl⟩)⟩))
      (Relinked.of_update this c _ _ this (fun n => { n with lastChild := some c })
        (fun n => ⟨Or.inl rfl, Or.inl rfl, Or.inr ⟨rfl, rfl⟩, Or.inl rfl⟩))
  · exact Relinked.of_update this c _ _ this
      (fun n => { n with lastChild := some c, firstChild := some c })
      (fun n => ⟨Or.inl rfl, Or.inr ⟨rfl, rfl⟩, Or.inr ⟨rfl, rfl⟩, Or.inl rfl⟩)

theorem WellLinked.snoc {heap : List CursorNode} (hw : WellLinked heap) (c : CXCursor)
    (p : Option Nat) : WellLinked (heap ++ [CursorNode.mk c p none none none]) := by
  have hold : ∀ (i : Nat) (n : CursorNode), heap[i]? = some n →
      (heap ++ [CursorNode.mk c p none none none])[i]? = some n := by
    intro i n hi
    rw [List.getElem?_append_left (getElem?_lt heap i n hi)]; exact hi
  intro i n hi
  rcases Nat.lt_trichotomy i heap.length with hlt | heq | hgt
  · rw [List.getElem?_append_left hlt] at hi
    obtain ⟨ha, hb, hc⟩ := hw i n hi
    refine ⟨?_, ?_, ?_⟩
    · intro x hx
      obtain ⟨h1, m, hm, hp⟩ := ha x hx
      exact ⟨h1, m, hold x m hm, hp⟩
    · intro x hx
      obtain ⟨h1, m, hm, hp⟩ := hb x hx
      exact ⟨h1, m, hold x m hm, hp⟩
    · intro x hx
      obtain ⟨h1, m, hm, hp⟩ := hc x hx
      exact ⟨h1, m, hold x m hm, hp⟩
  · subst heq
    rw [List.getElem?_append_right (le_refl _)] at hi
    simp only [Nat.sub_self, List.getElem?_cons_zero, Option.some.injEq] at hi
    subst hi
    exact ⟨fun x hx => by simp at hx, fun x hx => by simp at hx, fun x hx => by simp at hx⟩
  · rw [List.getElem?_eq_none (by simp; omega)] at hi
    exact absurd hi (by simp)

/-- The heap after `new CursorNode(c, p)` for an allocated `p` (or null) is well linked, has one
cell more, and every old cell keeps its parent pointer. -/
theorem WellLinked.new {heap : List CursorNode} (hw : WellLinked heap) (c : CXCursor)
    (p : Option Nat) (hp : ∀ q, p = some q → q < heap.length) :
    WellLinked (CursorNode.new heap c p).1 ∧
    (CursorNode.new heap c p).1.length = heap.length + 1 ∧
    (CursorNode.new heap c p).2 = heap.length ∧
    (∀ (i : Nat) (n : CursorNode), heap[i]? = some n →
      ∃ n2, (CursorNode.new heap c p).1[i]? = some n2 ∧ n2.parent = n.parent) ∧
    (∃ n2, (CursorNode.new heap c p).1[heap.length]? = some n2 ∧ n2.parent = p) := by
  have hcell : (heap ++ [CursorNode.mk c p none none none])[heap.length]?
      = some (CursorNode.mk c p none none none) := by
    rw [List.getElem?_append_right (le_refl _)]; simp
  have hold : ∀ (i : Nat) (n : CursorNode), heap[i]? = some n →
      (heap ++ [CursorNode.mk c p none none none])[i]? = some n := by
    intro i n hi
    rw [List.getElem?_append_left (getElem?_lt heap i n hi)]; exact hi
  have hw1 := hw.snoc c p
  cases p with
  | none =>
    simp only [CursorNode.new]
    exact ⟨hw1, by simp, trivial, fun i n hi => ⟨n, hold i n hi, rfl⟩, ⟨_, hcell, rfl⟩⟩
  | some q =>
    have hq := hp q rfl
    simp only [CursorNode.new]
    have hr := Relinked.of_appended (heap ++ [CursorNode.mk c (some q) none none none]) q
      heap.length
    -- every cell keeps its parent
    have hpar : ∀ (i : Nat) (n : CursorNode),
        (heap ++ [CursorNode.mk c (some q) none none none])[i]? = some n →
        ∃ n2, (CursorNode.append (heap ++ [CursorNode.mk c (some q) none none none]) q
          heap.length)[i]? = some n2 ∧ n2.parent = n.parent := by
      intro i n hi
      rcases hr i with ⟨h1, _⟩ | ⟨m, m2, h1, h2, hpp, _⟩
      · rw [hi] at h1; exact absurd h1 (by simp)
      · rw [hi] at h1
        have hm : n = m := Option.some.inj h1
        subst hm
        refine ⟨m2, h2, ?_⟩
        rcases hpp with hpp | ⟨hip, hpp⟩
        · exact hpp
        · subst hip
          rw [hcell] at hi
          have : CursorNode.mk c (some q) none none none = n := Option.some.inj hi
          subst this
          exact hpp
    have hlen : (CursorNode.append (heap ++ [CursorNode.mk c (some q) none none none]) q
        heap.length).length = heap.length + 1 := by
      simp [CursorNode.append, updateAt_length]
      split <;> simp [updateAt_length]
    refine ⟨?_, hlen, trivial, ?_, ?_⟩
    · intro i n2 hi
      rcases hr i with ⟨_, h2⟩ | ⟨n, m2, h1, h2, hpp, hff, hll, hnn⟩
      · rw [hi] at h2; exact absurd h2 (by simp)
      · rw [hi] at h2
        have hm : n2 = m2 := Option.some.inj h2
        subst hm
        obtain ⟨ha, hb, hc⟩ := hw1 i n h1
        have hsame : n2.parent = n.parent := by
          obtain ⟨x, hx, hxp⟩ := hpar i n h1
          rw [hi] at hx
          have : n2 = x := Option.some.inj hx
          subst this
          exact hxp
        have hnew : ∃ m, (CursorNode.append (heap ++ [CursorNode.mk c (some q) none none none])
            q heap.length)[heap.length]? = some m ∧ m.parent = some q := by
          obtain ⟨x, hx, hxp⟩ := hpar heap.length _ hcell
          exact ⟨x, hx, hxp⟩
        refine ⟨?_, ?_, ?_⟩
        · intro x hx
          rcases hff with hff | ⟨hiq, hff⟩
          · rw [hff] at hx
            obtain ⟨hlt, m, hm, hmp⟩ := ha x hx
            obtain ⟨m3, hm3, hp3⟩ := hpar x m hm
            exact ⟨hlt, m3, hm3, by rw [hp3, hmp]⟩
          · rw [hff] at hx
            have hxe : heap.length = x := Option.some.inj hx
            subst hxe
            subst hiq
            exact ⟨hq, hnew⟩
        · intro x hx
          rcases hnn with hnn | hnn | ⟨hL, hnn⟩
          · rw [hnn] at hx
            obtain ⟨hlt, m, hm, hmp⟩ := hb x hx
            obtain ⟨m3, hm3, hp3⟩ := hpar x m hm
            exact ⟨hlt, m3, hm3, by rw [hp3, hmp, hsame]⟩
          · rw [hnn] at hx; exact absurd hx (by simp)
          · rw [hnn] at hx
            have hxe : heap.length = x := Option.some.inj hx
            subst hxe
            -- `i` is the last child of `q` in the old heap
            have hqcell : (heap ++ [CursorNode.mk c (some q) none none none])[q]? = heap[q]? :=
              List.getElem?_append_left hq
            simp only [hqcell] at hL
            cases hqn : heap[q]? with
            | none => rw [hqn] at hL; simp at hL
            | some nq =>
              rw [hqn] at hL
              simp only [Option.some_bind] at hL
              obtain ⟨_, _, hcq⟩ := hw q nq hqn
              obtain ⟨_, mi, hmi, hmip⟩ := hcq i hL
              have hil := getElem?_lt heap i mi hmi
              have hni : n = mi := by
                rw [hold i mi hmi] at h1
                exact (Option.some.inj h1).symm
              obtain ⟨x, hx2, hxp⟩ := hnew
              exact ⟨hil, x, hx2, by rw [hxp, hsame, hni, hmip]⟩
        · intro x hx
          rcases hll with hll | ⟨hiq, hll⟩
          · rw [hll] at hx
            obtain ⟨hlt, m, hm, hmp⟩ := hc x hx
            obtain ⟨m3, hm3, hp3⟩ := hpar x m hm
            exact ⟨hlt, m3, hm3, by rw [hp3, hmp]⟩
          · rw [hll] at hx
            have hxe : heap.length = x := Option.some.inj hx
            subst hxe
            subst hiq
            exact ⟨hq, hnew⟩
    · intro i n hi
      exact hpar i n (hold i n hi)
    · obtain ⟨x, hx, hxp⟩ := hpar heap.length _ hcell
      exact ⟨x, hx, hxp⟩

theorem scanParents_found_mem (parent : CXCursor) (frames : List (CXCursor × Option Nat)) :
    ∀ (n : Nat) (p : Option Nat) (ps : List (CXCursor × Option Nat)),
      scanParents parent frames n = some (p, ps) →
      (∃ f ∈ frames, p = f.2) ∧ ∀ f ∈ ps, f ∈ frames := by
  intro n p ps h
  obtain ⟨i, f, _, hf, hp, hps⟩ := scanParents_some parent frames n p ps h
  refine ⟨⟨f, List.getElem?_mem hf, hp⟩, ?_⟩
  intro f2 hf2
  rw [hps] at hf2
  exact List.mem_of_mem_take hf2

/-- The last step of `buildComprehensiveTree`, `u->last = new CursorNode(cursor, p)`, keeps the
state well formed when `p` is null or allocated. -/
theorem wellFormed_attach (c : CXCursor) (p : Option Nat) (heap : List CursorNode)
    (root : Option Nat) (parents : List (CXCursor × Option Nat)) (af : Bool)
    (hw : WellLinked heap)
    (hroot : ∀ r, root = some r → ∃ n, heap[r]? = some n ∧ n.parent = none)
    (hfr : ∀ f ∈ parents, ∀ q, f.2 = some q → q < heap.length)
    (hp : ∀ q, p = some q → q < heap.length) :
    WellFormed (ComprehensiveTreeUserData.mk (CursorNode.new heap c p).1 root
      (some (CursorNode.new heap c p).2) parents c af) := by
  obtain ⟨hw2, hlen, hptr, hold, _⟩ := hw.new c p hp
  refine ⟨hw2, ?_, ?_, ?_⟩
  · intro r hr
    obtain ⟨n, hn, hnp⟩ := hroot r hr
    obtain ⟨n2, hn2, hp2⟩ := hold r n hn
    exact ⟨n2, hn2, by rw [hp2, hnp]⟩
  · intro l hl
    simp only [Option.some.injEq] at hl
    rw [hlen, ← hl, hptr]
    omega
  · intro f hf q hq
    have := hfr f hf q hq
    rw [hlen]
    omega

/-- Every callback keeps the traversal state well formed, whatever parent it reports. -/
theorem buildComprehensiveTree_wellFormed (c pc : CXCursor) (u : ComprehensiveTreeUserData)
    (h : WellFormed u) : WellFormed (buildComprehensiveTree c pc u).2 := by
  obtain ⟨hw, hroot, hlast, hfr⟩ := h
  by_cases hf : c.location.file.isNone = true
  · simp only [buildComprehensiveTree, hf, if_true]
    exact ⟨hw, hroot, hlast, hfr⟩
  cases hr : u.root with
  | none =>
    simp only [buildComprehensiveTree, hf, hr, CursorNode.new, Bool.false_eq_true, if_false]
    have hcell : (u.heap ++ [CursorNode.mk pc none none none none])[u.heap.length]?
        = some (CursorNode.mk pc none none none none) := by
      rw [List.getElem?_append_right (le_refl _)]; simp
    exact wellFormed_attach c (some u.heap.length)
      (u.heap ++ [CursorNode.mk pc none none none none]) (some u.heap.length)
      (u.parents ++ [(pc, some u.heap.length)]) _ (hw.snoc pc none)
      (by
        intro r hr2
        simp only [Option.some.injEq] at hr2
        subst hr2
        exact ⟨_, hcell, rfl⟩)
      (by
        intro f hfm q hq
        rcases List.mem_append.mp hfm with hfm | hfm
        · have := hfr f hfm q hq
          simp; omega
        · simp only [List.mem_singleton] at hfm
          subst hfm
          simp only [Option.some.injEq] at hq
          subst hq
          simp)
      (by
        intro q hq
        simp only [Option.some.injEq] at hq
        subst hq
        simp)
  | some r =>
    have hroot2 : ∀ r2, some r = some r2 → ∃ n, u.heap[r2]? = some n ∧ n.parent = none := by
      intro r2 h2
      exact hroot r2 (by rw [hr]; exact h2)
    by_cases hl : cursorEq pc u.lastCursor = true
    · simp only [buildComprehensiveTree, hf, hr, hl, Bool.false_eq_true, if_false, if_true]
      exact wellFormed_attach c u.last u.heap (some r) (u.parents ++ [(pc, u.last)]) _ hw
        hroot2
        (by
          intro f hfm q hq
          rcases List.mem_append.mp hfm with hfm | hfm
          · exact hfr f hfm q hq
          · simp only [List.mem_singleton] at hfm
            subst hfm
            exact hlast q hq)
        hlast
    · cases hs : scanParents pc u.parents u.parents.length with
      | none =>
        simp only [buildComprehensiveTree, hf, hr, hl, hs, Bool.false_eq_true, if_false]
        exact wellFormed_attach c none u.heap (some r) u.parents _ hw hroot2 hfr
          (by intro q hq; simp at hq)
      | some pp =>
        obtain ⟨p, ps⟩ := pp
        obtain ⟨⟨f, hfm, hpf⟩, hps⟩ := scanParents_found_mem pc u.parents _ p ps hs
        simp only [buildComprehensiveTree, hf, hr, hl, hs, Bool.false_eq_true, if_false]
        exact wellFormed_attach c p u.heap (some r) ps _ hw hroot2
          (fun f2 hf2 q hq => hfr f2 (hps f2 hf2) q hq)
          (fun q hq => hfr f hfm q (by rw [← hpf]; exact hq))

theorem wellFormed_init : WellFormed ComprehensiveTreeUserData.init := by
  refine ⟨?_, ?_, ?_, ?_⟩
  · intro i n hi; simp [ComprehensiveTreeUserData.init] at hi
  · intro r hr; simp [ComprehensiveTreeUserData.init] at hr
  · intro l hl; simp [ComprehensiveTreeUserData.init] at hl
  · intro f hf; simp [ComprehensiveTreeUserData.init] at hf

theorem visitCallbacks_wellFormed :
    (calls : List (CXCursor × CXCursor)) → ∀ (u : ComprehensiveTreeUserData),
      WellFormed u → WellFormed (visitCallbacks calls u)
  | [], _, h => h
  | cb :: rest, u, h => by
    rw [visitCallbacks_cons]
    exact visitCallbacks_wellFormed rest _ (buildComprehensiveTree_wellFormed cb.1 cb.2 u h)

/-- For a well-formed traversal state with a root, the block `if (ud.root)` of `run` runs the
build pass and the resolve pass over the scratch tree read from the root. -/
theorem indexUserData_runs (ud : ComprehensiveTreeUserData) (r : Nat) (h : WellFormed ud)
    (hr : ud.root = some r) :
    ∃ t, readTree ud.heap (2 * ud.heap.length) none r = some t ∧
      ∀ (clang : Clang) (sRoot : Option Nat) (g : Graph),
        indexUserData clang sRoot ud g
          = (indexScratchTree clang sRoot t g,
              [.treeLock, .buildTree, .addReferences, .treeUnlock, .finished]) := by
  obtain ⟨hw, hroot, _, _⟩ := h
  obtain ⟨n, hn, hnp⟩ := hroot r hr
  obtain ⟨t, ht⟩ := readTree_total ud.heap hw (2 * ud.heap.length) none r n hn hnp (by omega)
  refine ⟨t, ht, ?_⟩
  intro clang sRoot g
  simp [indexUserData, hr, ht]

theorem buildComprehensiveTree_root (c pc : CXCursor) (u : ComprehensiveTreeUserData)
    (r : Nat) (h : u.root = some r) : (buildComprehensiveTree c pc u).2.root = some r := by
  unfold buildComprehensiveTree
  split
  · exact h
  · simp only [h]
    split
    · rfl
    · split <;> rfl

theorem visitCallbacks_root :
    (calls : List (CXCursor × CXCursor)) → ∀ (u : ComprehensiveTreeUserData) (r : Nat),
      u.root = some r → (visitCallbacks calls u).root = some r
  | [], _, _, h => h
  | cb :: rest, u, r, h => by
    rw [visitCallbacks_cons]
    exact visitCallbacks_root rest _ r (buildComprehensiveTree_root cb.1 cb.2 u r h)

theorem visitCallbacks_assert_sticky (calls : List (CXCursor × CXCursor))
    (u : ComprehensiveTreeUserData) (h : u.assertFailed = true) :
    (visitCallbacks calls u).assertFailed = true := by
  cases hr : (visitCallbacks calls u).assertFailed with
  | true => rfl
  | false =>
    have := visitCallbacks_assert_mono calls u hr
    rw [h] at this
    exact absurd this (by simp)

/-- C8 (structural inconsistency), the code in general and at a failing input.  (1) When
`buildComprehensiveTree` is called after the first cursor, for a cursor that has a file, with a
reported parent that equals neither the last visited cursor nor the cursor of any frame,
`Q_ASSERT(p)` is violated; with assertions compiled out the call allocates a CursorNode for the
cursor, with a null parent and no link from any existing node, makes it the last visited node
and cursor, and leaves the root, the frames and every existing node as they were.  It returns
`Continue` or `Recurse` by the cursor's kind, never `Break`, so the parser goes on with the
traversal; whatever callbacks follow, the root stays and the assertion flag stays set.  When
the state before the call was reached from the initial state of `run` by callbacks, the file's
indexing is not abandoned: if the inconsistent callback is the last one, the block
`if (ud.root)` of `run` runs the build and resolve passes over the scratch tree `t` that the
state had below its root before the call; and whatever callbacks follow, the heap still reads
back as a tree below the root and `run` runs both passes over it.  (2) Failing input: after the
callback for the class at `a.c:1`, the callback for the field at `a.c:10` reports the parent
`a.c:9`.  The heap grows by one cell, the last node and cursor change, the call returns
`Recurse` and the flag is set.  Two more callbacks follow (`callsAfterOrphan`); the passes then
run and add to the graph the class at `a.c:1` and the variable at `a.c:7`, which was visited
after the inconsistency. -/
theorem structural_inconsistency_creates_orphan :
    (∀ (u : ComprehensiveTreeUserData) (cursor parent : CXCursor) (r : Nat),
      u.root = some r → cursor.location.file.isSome = true →
      cursorEq parent u.lastCursor = false →
      (∀ f ∈ u.parents, cursorEq parent f.1 = false) →
      buildComprehensiveTree cursor parent u
        = (visitResultOfKind cursor.kind,
            ComprehensiveTreeUserData.mk
              (u.heap ++ [CursorNode.mk cursor none none none none])
              u.root (some u.heap.length) u.parents cursor true) ∧
      (buildComprehensiveTree cursor parent u).1 ≠ .Break ∧
      (∀ (later : List (CXCursor × CXCursor)),
        (visitCallbacks later (buildComprehensiveTree cursor parent u).2).root = some r ∧
        (visitCallbacks later (buildComprehensiveTree cursor parent u).2).assertFailed
          = true) ∧
      (∀ (calls : List (CXCursor × CXCursor)),
        u = visitCallbacks calls ComprehensiveTreeUserData.init →
        (∃ t, readTree u.heap (2 * u.heap.length) none r = some t ∧
          ∀ (clang : Clang) (sRoot : Option Nat) (g : Graph),
            indexUserData clang sRoot (buildComprehensiveTree cursor parent u).2 g
              = (indexScratchTree clang sRoot t g,
                  [.treeLock, .buildTree, .addReferences, .treeUnlock, .finished])) ∧
        (∀ (later : List (CXCursor × CXCursor)),
          ∃ t2, readTree
              (visitCallbacks later (buildComprehensiveTree cursor parent u).2).heap
              (2 * (visitCallbacks later
                (buildComprehensiveTree cursor parent u).2).heap.length) none r = some t2 ∧
            ∀ (clang : Clang) (sRoot : Option Nat) (g : Graph),
              indexUserData clang sRoot
                  (visitCallbacks later (buildComprehensiveTree cursor parent u).2) g
                = (indexScratchTree clang sRoot t2 g,
                    [.treeLock, .buildTree, .addReferences, .treeUnlock, .finished])))) ∧
    (sampleStateAfterFirst
        = visitCallbacks [(sampleCursor .ClassDecl 1, sampleCursor .TranslationUnit 0)]
            ComprehensiveTreeUserData.init ∧
      sampleStateAfterFirst.root = some 0 ∧
      sampleStateAfterFirst.assertFailed = false ∧
      cursorEq (sampleCursor .ClassDecl 9) sampleStateAfterFirst.lastCursor = false ∧
      (∀ f ∈ sampleStateAfterFirst.parents,
        cursorEq (sampleCursor .ClassDecl 9) f.1 = false) ∧
      buildComprehensiveTree (sampleCursor .FieldDecl 10) (sampleCursor .ClassDecl 9)
          sampleStateAfterFirst
        = (.Recurse,
            ComprehensiveTreeUserData.mk
              (sampleStateAfterFirst.heap ++
                [CursorNode.mk (sampleCursor .FieldDecl 10) none none none none])
              (some 0) (some 2) sampleStateAfterFirst.parents (sampleCursor .FieldDecl 10)
              true) ∧
      (buildComprehensiveTree (sampleCursor .FieldDecl 10) (sampleCursor .ClassDecl 9)
        sampleStateAfterFirst).2.last ≠ sampleStateAfterFirst.last ∧
      (visitCallbacks callsAfterOrphan
        (buildComprehensiveTree (sampleCursor .FieldDecl 10) (sampleCursor .ClassDecl 9)
          sampleStateAfterFirst).2).heap.map (fun n => (n.cursor.data, n.parent))
        = [(0, none), (1, some 0), (10, none), (11, some 2), (7, some 0)] ∧
      indexUserData sampleClang (some 0)
          (visitCallbacks callsAfterOrphan
            (buildComprehensiveTree (sampleCursor .FieldDecl 10) (sampleCursor .ClassDecl 9)
              sampleStateAfterFirst).2) sampleGraph
        = (indexScratchTree sampleClang (some 0)
            (.node (sampleCursor .TranslationUnit 0)
              [.node (sampleCursor .ClassDecl 1) [], .node (sampleCursor .VarDecl 7) []])
            sampleGraph,
           [.treeLock, .buildTree, .addReferences, .treeUnlock, .finished]) ∧
      (indexUserData sampleClang (some 0)
          (visitCallbacks callsAfterOrphan
            (buildComprehensiveTree (sampleCursor .FieldDecl 10) (sampleCursor .ClassDecl 9)
              sampleStateAfterFirst).2) sampleGraph).1.sNodes
        = [("a.c:7", 2), ("a.c:1", 1)]) := by
  refine ⟨?_, by decide⟩
  intro u cursor parent r hroot hfile hlast hframes
  have h := buildComprehensiveTree_orphan u cursor parent r hroot hfile hlast hframes
  have hr : (buildComprehensiveTree cursor parent u).2.root = some r := by rw [h]; exact hroot
  have ha : (buildComprehensiveTree cursor parent u).2.assertFailed = true := by rw [h]
  refine ⟨h, ?_, ?_, ?_⟩
  · rw [h]; exact visitResultOfKind_ne_break cursor.kind
  · intro later
    exact ⟨visitCallbacks_root later _ r hr, visitCallbacks_assert_sticky later _ ha⟩
  · intro calls hu
    have hwf : WellFormed u := by
      rw [hu]
      exact visitCallbacks_wellFormed calls _ wellFormed_init
    have hwf2 := buildComprehensiveTree_wellFormed cursor parent u hwf
    constructor
    · obtain ⟨t, ht, _⟩ := indexUserData_runs u r hwf hroot
      refine ⟨t, ht, ?_⟩
      intro clang sRoot g
      have ht2 := readTree_mono u.heap [CursorNode.mk cursor none none none none]
        (2 * u.heap.length) (2 * (u.heap.length + 1)) none r t (by omega) ht
      rw [h]
      simp [indexUserData, hroot, ht2]
    · intro later
      exact indexUserData_runs _ r (visitCallbacks_wellFormed later _ hwf2)
        (visitCallbacks_root later _ r hr)

/-! ## The parent of a macro expansion (C18) -/

theorem buildTreeChildren_append (env : Clang) (parent : Option Nat) (c : CursorTree) :
    (a b : List CursorTree) → ∀ (st : BuildState),
      buildTreeChildren env parent c (a ++ b) st
        = buildTreeChildren env parent c b (buildTreeChildren env parent c a st)
  | [], b, st => by simp [buildTreeChildren]
  | k :: a, b, st => by
    simp only [List.cons_append, buildTreeChildren]
    exact buildTreeChildren_append env parent c a b _

theorem buildTreeMacroExpansion_other_kind (env : Clang) (cparent : Option CursorTree)
    (c : CursorTree) (g : Graph) (hk : c.cursor.kind ≠ .MacroExpansion) :
    buildTreeMacroExpansion env cparent c g = (false, g) := by
  simp [buildTreeMacroExpansion, hk]

theorem buildTreeMacroExpansion_found (env : Clang) (cp c defn : CursorTree) (g : Graph)
    (hk : c.cursor.kind = .MacroExpansion)
    (habs : QHash.contains g.sNodes (env.locationToString (env.location c.cursor)) = false)
    (hf : findMacroDefinition c.cursor.spelling cp.children = some defn) :
    buildTreeMacroExpansion env (some cp) c g
      = (true, (Node.new
          ((g.qAssert (!env.locationIsNull (env.location c.cursor))).qAssert
            (QHash.value g.sNodes (env.locationToString (env.location defn.cursor))).isSome)
          (QHash.value g.sNodes (env.locationToString (env.location defn.cursor)))
          .Reference c.cursor (env.location c.cursor)
          (env.locationToString (env.location c.cursor))).1) := by
  have habs' : QHash.contains (g.qAssert (!env.locationIsNull (env.location c.cursor))).sNodes
      (env.locationToString (env.location c.cursor)) = false := habs
  simp only [buildTreeMacroExpansion, hk, if_true, habs', Bool.false_eq_true, if_false, hf]
  rfl

theorem buildTree_declaration_indexed (env : Clang) (parent : Option Nat) (cp c : CursorTree)
    (st : BuildState) (hk : c.cursor.kind ≠ .MacroExpansion)
    (hnotref : env.nodeTypeFromCursor c.cursor ≠ .Reference)
    (hdecl : env.nodeTypeFromCursor c.cursor ≠ .Invalid)
    (hexists : env.locationExists (env.location c.cursor) = true) :
    ∃ p, List.lookup (env.locationToString (env.location c.cursor))
      (buildTree env parent (some cp) c st).graph.sNodes = some p := by
  rw [buildTree_unfold, buildTreeMacroExpansion_other_kind env _ c _ hk]
  simp only [Bool.false_eq_true, if_false, hnotref, hdecl, ne_eq, not_false_eq_true, if_true,
    buildTreeDeclaration, hexists]
  cases hl : List.lookup (env.locationToString (env.location c.cursor)) st.graph.sNodes with
  | some p =>
    have : QHash.contains st.graph.sNodes (env.locationToString (env.location c.cursor))
        = true := by simp [QHash.contains, hl]
    simp only [this, if_true]
    exact ⟨p, hl⟩
  | none =>
    have : QHash.contains st.graph.sNodes (env.locationToString (env.location c.cursor))
        = false := by simp [QHash.contains, hl]
    simp only [this, Bool.false_eq_true, if_false]
    exact ⟨st.graph.nodes.length, (buildTreeChildren_fresh env _ _ c.children _).2.1 _ _
      (by simp [Node.new, lookup_insert])⟩

theorem buildTree_macro_found (env : Clang) (parent : Option Nat) (cp c defn : CursorTree)
    (st : BuildState) (hk : c.cursor.kind = .MacroExpansion)
    (habs : QHash.contains st.graph.sNodes (env.locationToString (env.location c.cursor))
      = false)
    (hf : findMacroDefinition c.cursor.spelling cp.children = some defn) :
    (buildTree env parent (some cp) c st).graph
      = (Node.new
          ((st.graph.qAssert (!env.locationIsNull (env.location c.cursor))).qAssert
            (QHash.value st.graph.sNodes
              (env.locationToString (env.location defn.cursor))).isSome)
          (QHash.value st.graph.sNodes (env.locationToString (env.location defn.cursor)))
          .Reference c.cursor (env.location c.cursor)
          (env.locationToString (env.location c.cursor))).1 := by
  rw [buildTree_unfold, buildTreeMacroExpansion_found env cp c defn st.graph hk habs hf]
  simp

/-- C18 (macro-definition parent), the code in general and at a failing input.  (1) Whenever
the macro-expansion branch of `buildTree` finds a sibling macro definition with the spelled name
(the first one in sibling order) and the graph has no node at that definition's Location at
that moment, `Q_ASSERT(parent)` is violated and the Reference node is created with a null
parent.  (2) In the scratch tree `expansionFirstTree` the definition of `FOO` comes after the
expansion: the expansion is visited first, the definition has no node yet, the assertion is
violated and the Reference node at `b.c:10` has no parent; the definition gets its node
afterwards.  (3) When the first matching definition comes before the expansion among the
siblings, has a node type that is neither Reference nor Invalid and a Location that exists, the
graph has a node for it when the expansion is reached, the assertion on the parent holds and a
Reference node created for the expansion has that node as its parent. -/
theorem macro_definition_parent_missing :
    (∀ (env : Clang) (parent : Option Nat) (cp c defn : CursorTree) (st : BuildState),
      c.cursor.kind = .MacroExpansion →
      QHash.contains st.graph.sNodes (env.locationToString (env.location c.cursor)) = false →
      findMacroDefinition c.cursor.spelling cp.children = some defn →
      QHash.value st.graph.sNodes (env.locationToString (env.location defn.cursor)) = none →
      (buildTree env parent (some cp) c st).graph.assertFailed = true ∧
      (buildTree env parent (some cp) c st).graph.nodes
        = st.graph.nodes ++ [Node.mk none .Reference c.cursor (env.location c.cursor)
            (env.locationToString (env.location c.cursor))]) ∧
    ((findMacroDefinition "FOO" expansionFirstTree.children).map CursorTree.cursor
        = some (sampleCursorAt .MacroDefinition "b.c" 20 "FOO") ∧
      sampleGraph.assertFailed = false ∧
      (indexScratchTree sampleClang (some 0) expansionFirstTree sampleGraph).assertFailed
        = true ∧
      (indexScratchTree sampleClang (some 0) expansionFirstTree sampleGraph).nodes.map
          (fun n => (n.id, n.type, n.parent))
        = [("", .Root, none), ("b.c:10", .Reference, none),
           ("b.c:20", .MacroDefinition, some 0)]) ∧
    (∀ (env : Clang) (parent : Option Nat) (cp c defn : CursorTree) (st : BuildState)
      (pre mid post : List CursorTree),
      cp.children = pre ++ defn :: (mid ++ c :: post) →
      (∀ x ∈ pre, ¬(x.cursor.kind = .MacroDefinition ∧
        c.cursor.spelling = x.cursor.spelling)) →
      defn.cursor.kind = .MacroDefinition → c.cursor.spelling = defn.cursor.spelling →
      env.nodeTypeFromCursor defn.cursor ≠ .Reference →
      env.nodeTypeFromCursor defn.cursor ≠ .Invalid →
      env.locationExists (env.location defn.cursor) = true →
      c.cursor.kind = .MacroExpansion →
      QHash.contains (buildTreeChildren env parent cp (pre ++ defn :: mid) st).graph.sNodes
        (env.locationToString (env.location c.cursor)) = false →
      ∃ p, QHash.value (buildTreeChildren env parent cp (pre ++ defn :: mid) st).graph.sNodes
          (env.locationToString (env.location defn.cursor)) = some p ∧
        (buildTree env parent (some cp) c
            (buildTreeChildren env parent cp (pre ++ defn :: mid) st)).graph.assertFailed
          = ((buildTreeChildren env parent cp (pre ++ defn :: mid) st).graph.assertFailed
              || env.locationIsNull (env.location c.cursor)) ∧
        (buildTree env parent (some cp) c
            (buildTreeChildren env parent cp (pre ++ defn :: mid) st)).graph.nodes
          = (buildTreeChildren env parent cp (pre ++ defn :: mid) st).graph.nodes
            ++ [Node.mk (some p) .Reference c.cursor (env.location c.cursor)
                (env.locationToString (env.location c.cursor))]) := by
  refine ⟨?_, by decide, ?_⟩
  · intro env parent cp c defn st hk habs hf hnone
    rw [buildTree_macro_found env parent cp c defn st hk habs hf, hnone]
    simp [Node.new, Graph.qAssert]
  · intro env parent cp c defn st pre mid post hch hpre hdk hsp hnr hni hex hk habs
    have hf : findMacroDefinition c.cursor.spelling cp.children = some defn := by
      rw [hch]; exact findMacroDefinition_first _ defn pre _ hpre hdk hsp
    have hdk' : defn.cursor.kind ≠ .MacroExpansion := by rw [hdk]; simp
    have hsplit : buildTreeChildren env parent cp (pre ++ defn :: mid) st
        = buildTreeChildren env parent cp mid
            (buildTree env parent (some cp) defn (buildTreeChildren env parent cp pre st)) := by
      rw [buildTreeChildren_append, buildTreeChildren]
    obtain ⟨p, hp⟩ := buildTree_declaration_indexed env parent cp defn
      (buildTreeChildren env parent cp pre st) hdk' hnr hni hex
    have hp2 : QHash.value (buildTreeChildren env parent cp (pre ++ defn :: mid) st).graph.sNodes
        (env.locationToString (env.location defn.cursor)) = some p := by
      rw [hsplit]
      exact (buildTreeChildren_fresh env parent cp mid _).2.1 _ _ hp
    refine ⟨p, hp2, ?_, ?_⟩
    · rw [buildTree_macro_found env parent cp c defn _ hk habs hf, hp2]
      simp [Node.new, Graph.qAssert]
    · rw [buildTree_macro_found env parent cp c defn _ hk habs hf, hp2]
      simp [Node.new, Graph.qAssert]

/-! ## Indexing a scratch tree twice (C11) -/

theorem FreshGrowth.included {g g2 : Graph} (h : FreshGrowth g g2) : IndexIncluded g g2 := by
  intro k hk
  simp only [QHash.contains, Option.isSome_iff_exists] at hk ⊢
  obtain ⟨p, hp⟩ := hk
  exact ⟨p, h.2.1 k p hp⟩

theorem IndexIncluded.included_trans {g g1 g2 : Graph} (h1 : IndexIncluded g g1)
    (h2 : IndexIncluded g1 g2) : IndexIncluded g g2 :=
  fun k hk => h2 k (h1 k hk)

theorem IndexIncluded.of_sNodes_eq {g g2 : Graph} (h : g2.sNodes = g.sNodes) :
    IndexIncluded g g2 := by
  intro k hk; rw [h]; exact hk

theorem IndexIncluded.absent {g g2 : Graph} (h : IndexIncluded g g2) (k : QByteArray)
    (hk : QHash.contains g2.sNodes k = false) : QHash.contains g.sNodes k = false := by
  cases hc : QHash.contains g.sNodes k with
  | false => rfl
  | true => rw [h k hc] at hk; exact absurd hk (by simp)

/-- The outcomes of the macro-expansion block at the head of `buildTree`. -/
theorem buildTreeMacroExpansion_cases (env : Clang) (cparent : Option CursorTree)
    (c : CursorTree) (g : Graph) :
    (c.cursor.kind ≠ .MacroExpansion ∧ buildTreeMacroExpansion env cparent c g = (false, g)) ∨
    (c.cursor.kind = .MacroExpansion ∧
      (buildTreeMacroExpansion env cparent c g).1 = true ∧
      (buildTreeMacroExpansion env cparent c g).2.nodes = g.nodes ∧
      (buildTreeMacroExpansion env cparent c g).2.sNodes = g.sNodes ∧
      (QHash.contains g.sNodes (env.locationToString (env.location c.cursor)) = true ∨
        cparent = none)) ∨
    (c.cursor.kind = .MacroExpansion ∧
      (buildTreeMacroExpansion env cparent c g).1 = true ∧
      QHash.contains g.sNodes (env.locationToString (env.location c.cursor)) = false ∧
      QHash.contains (buildTreeMacroExpansion env cparent c g).2.sNodes
        (env.locationToString (env.location c.cursor)) = true ∧
      ∃ cp defn, cparent = some cp ∧
        findMacroDefinition c.cursor.spelling cp.children = some defn) ∨
    (c.cursor.kind = .MacroExpansion ∧
      (buildTreeMacroExpansion env cparent c g).1 = false ∧
      (buildTreeMacroExpansion env cparent c g).2.nodes = g.nodes ∧
      (buildTreeMacroExpansion env cparent c g).2.sNodes = g.sNodes ∧
      QHash.contains g.sNodes (env.locationToString (env.location c.cursor)) = false ∧
      ∃ cp, cparent = some cp ∧
        findMacroDefinition c.cursor.spelling cp.children = none) := by
  by_cases hk : c.cursor.kind = .MacroExpansion
  · right
    by_cases hc : QHash.contains g.sNodes (env.locationToString (env.location c.cursor)) = true
    · left
      refine ⟨hk, ?_⟩
      simp [buildTreeMacroExpansion, hk, Graph.qAssert, hc]
    · have hc2 : QHash.contains g.sNodes (env.locationToString (env.location c.cursor))
          = false := by simpa using hc
      cases cparent with
      | none =>
        left
        refine ⟨hk, ?_⟩
        simp [buildTreeMacroExpansion, hk, Graph.qAssert, hc2]
      | some cp =>
        cases hf : findMacroDefinition c.cursor.spelling cp.children with
        | none =>
          right; right
          refine ⟨hk, ?_⟩
          simp [buildTreeMacroExpansion, hk, hf, Graph.qAssert, hc2]
        | some defn =>
          right; left
          rw [buildTreeMacroExpansion_found env cp c defn g hk hc2 hf]
          refine ⟨hk, rfl, hc2, ?_, cp, defn, rfl, hf⟩
          simp [Node.new, QHash.contains, lookup_insert]
  · left
    exact ⟨hk, buildTreeMacroExpansion_other_kind env cparent c g hk⟩

theorem buildTreeStores_unfold (env : Clang) (parent : Option Nat)
    (cparent : Option CursorTree) (c : CursorTree) (g : Graph) :
    buildTreeStores env parent cparent c g =
      if (buildTreeMacroExpansion env cparent c g).1 then []
      else if env.nodeTypeFromCursor c.cursor = .Reference then
        if env.locationExists (env.location c.cursor) then
          if !QHash.contains (buildTreeMacroExpansion env cparent c g).2.sNodes
              (env.locationToString (env.location c.cursor)) then
            [(env.locationToString (env.location c.cursor),
              { node := c, location := env.location c.cursor })]
          else []
        else []
      else
        match cparent with
        | some cp =>
          if env.nodeTypeFromCursor c.cursor ≠ .Invalid then
            match buildTreeDeclaration env parent cp c (env.nodeTypeFromCursor c.cursor)
                (buildTreeMacroExpansion env cparent c g).2 with
            | none => []
            | some (g2, parent2) => buildTreeChildrenStores env parent2 c c.children g2
          else buildTreeChildrenStores env parent c c.children
            (buildTreeMacroExpansion env cparent c g).2
        | none => buildTreeChildrenStores env parent c c.children
            (buildTreeMacroExpansion env cparent c g).2 := by
  cases c with
  | node cursor children =>
    rw [buildTreeStores]
    simp only [cursor_of_node, children_of_node]

theorem buildTree_graph_eq (env : Clang) (parent : Option Nat) (cparent : Option CursorTree)
    (c : CursorTree) (st : BuildState) :
    (buildTree env parent cparent c st).graph
      = (buildTree env parent cparent c { graph := st.graph, references := [] }).graph := by
  rw [buildTree_stores]

theorem buildTreeChildren_graph_eq (env : Clang) (parent : Option Nat) (c : CursorTree)
    (children : List CursorTree) (st : BuildState) :
    (buildTreeChildren env parent c children st).graph
      = (buildTreeChildren env parent c children
          { graph := st.graph, references := [] }).graph := by
  rw [buildTreeChildren_stores]

/-- The outcomes of the declaration branch of `buildTree` before the loop over the children. -/
theorem buildTreeDeclaration_cases (env : Clang) (parent : Option Nat) (cp c : CursorTree)
    (type : NodeType) (g : Graph) :
    (env.locationExists (env.location c.cursor) = false ∧
      buildTreeDeclaration env parent cp c type g = some (g, parent)) ∨
    (env.locationExists (env.location c.cursor) = true ∧
      QHash.contains g.sNodes (env.locationToString (env.location c.cursor)) = true ∧
      buildTreeDeclaration env parent cp c type g = none) ∨
    (env.locationExists (env.location c.cursor) = true ∧
      QHash.contains g.sNodes (env.locationToString (env.location c.cursor)) = false ∧
      ∃ g2 p2, buildTreeDeclaration env parent cp c type g = some (g2, p2) ∧
        QHash.contains g2.sNodes (env.locationToString (env.location c.cursor)) = true) := by
  by_cases he : env.locationExists (env.location c.cursor) = true
  · right
    by_cases hc : QHash.contains g.sNodes (env.locationToString (env.location c.cursor)) = true
    · left
      exact ⟨he, hc, by simp [buildTreeDeclaration, he, hc]⟩
    · right
      have hc2 : QHash.contains g.sNodes (env.locationToString (env.location c.cursor))
          = false := by simpa using hc
      refine ⟨he, hc2, ?_⟩
      simp only [buildTreeDeclaration, he, if_true, hc2, Bool.false_eq_true, if_false]
      exact ⟨_, _, rfl, by simp [Node.new, QHash.contains, lookup_insert]⟩
  · left
    have he2 : env.locationExists (env.location c.cursor) = false := by simpa using he
    exact ⟨he2, by simp [buildTreeDeclaration, he2]⟩

theorem IndexIncluded.contra {g g2 : Graph} (h : IndexIncluded g g2) (k : QByteArray)
    (h1 : QHash.contains g.sNodes k = true) (h2 : QHash.contains g2.sNodes k = false) :
    False := by
  rw [h k h1] at h2; exact absurd h2 (by simp)

mutual
theorem buildTree_again (env : Clang) (cparent : Option CursorTree) :
    (c : CursorTree) → ∀ (parent parent2 : Option Nat) (g g2 : Graph),
      IndexIncluded (buildTree env parent cparent c (BuildState.mk g [])).graph g2 →
      (buildTree env parent2 cparent c (BuildState.mk g2 [])).graph.nodes = g2.nodes ∧
      (buildTree env parent2 cparent c (BuildState.mk g2 [])).graph.sNodes = g2.sNodes ∧
      ∀ e ∈ buildTreeStores env parent2 cparent c g2,
        e ∈ buildTreeStores env parent cparent c g
  | .node cursor children, parent, parent2, g, g2, H => by
    have dispatch : ∀ (m1 m2 : Graph), m1.sNodes = g.sNodes → m2.nodes = g2.nodes →
        m2.sNodes = g2.sNodes →
        buildTreeMacroExpansion env cparent (.node cursor children) g = (false, m1) →
        buildTreeMacroExpansion env cparent (.node cursor children) g2 = (false, m2) →
        (buildTree env parent2 cparent (.node cursor children) (BuildState.mk g2 [])).graph.nodes
          = g2.nodes ∧
        (buildTree env parent2 cparent (.node cursor children)
          (BuildState.mk g2 [])).graph.sNodes = g2.sNodes ∧
        ∀ e ∈ buildTreeStores env parent2 cparent (.node cursor children) g2,
          e ∈ buildTreeStores env parent cparent (.node cursor children) g := by
      intro m1 m2 hs1 hn2 hs2 e1 e2
      have hinc : IndexIncluded g2 m2 := IndexIncluded.of_sNodes_eq hs2
      rw [buildTree_unfold, e1] at H
      rw [buildTree_unfold, buildTreeStores_unfold env parent2, buildTreeStores_unfold env parent,
        e2, e1]
      simp only [Bool.false_eq_true, if_false, cursor_of_node, children_of_node] at H ⊢
      by_cases ht : env.nodeTypeFromCursor cursor = .Reference
      · simp only [ht, if_true] at H ⊢
        have hg1 : IndexIncluded m1 g2 := by
          split at H
          · split at H
            · exact H
            · exact H
          · exact H
        refine ⟨?_, ?_, ?_⟩
        · split
          · split
            · exact hn2
            · exact hn2
          · exact hn2
        · split
          · split
            · exact hs2
            · exact hs2
          · exact hs2
        · by_cases he : env.locationExists (env.location cursor) = true
          · simp only [he, if_true]
            by_cases hc2 : QHash.contains m2.sNodes
                (env.locationToString (env.location cursor)) = true
            · simp [hc2]
            · have hc2' : QHash.contains m2.sNodes
                  (env.locationToString (env.location cursor)) = false := by simpa using hc2
              have hc1 : QHash.contains m1.sNodes
                  (env.locationToString (env.location cursor)) = false :=
                (hg1.included_trans hinc).absent _ hc2'
              simp [hc2', hc1]
          · simp [he]
      · simp only [ht, if_false] at H ⊢
        have children_case : ∀ (p p2 : Option Nat),
            IndexIncluded (buildTreeChildren env p (.node cursor children) children
              (BuildState.mk m1 [])).graph g2 →
            (buildTreeChildren env p2 (.node cursor children) children
              (BuildState.mk m2 [])).graph.nodes = g2.nodes ∧
            (buildTreeChildren env p2 (.node cursor children) children
              (BuildState.mk m2 [])).graph.sNodes = g2.sNodes ∧
            ∀ e ∈ buildTreeChildrenStores env p2 (.node cursor children) children m2,
              e ∈ buildTreeChildrenStores env p (.node cursor children) children m1 := by
          intro p p2 HH
          obtain ⟨a, b, c'⟩ := buildTreeChildren_again env (.node cursor children) children
            p p2 m1 m2 (HH.included_trans hinc)
          exact ⟨a.trans hn2, b.trans hs2, c'⟩
        cases cparent with
        | none => exact children_case parent parent2 H
        | some cp =>
          simp only at H ⊢
          by_cases hi : env.nodeTypeFromCursor cursor = .Invalid
          · simp only [hi, ne_eq, not_true_eq_false, if_false] at H ⊢
            exact children_case parent parent2 H
          · simp only [hi, ne_eq, not_false_eq_true, if_true] at H ⊢
            rcases buildTreeDeclaration_cases env parent2 cp (.node cursor children)
                (env.nodeTypeFromCursor cursor) m2 with
              ⟨he2, hd2⟩ | ⟨he2, hc2, hd2⟩ | ⟨he2, hc2, ga, pa, hd2, hca⟩
            · rcases buildTreeDeclaration_cases env parent cp (.node cursor children)
                  (env.nodeTypeFromCursor cursor) m1 with
                ⟨he1, hd1⟩ | ⟨he1, _, _⟩ | ⟨he1, _, _⟩
              · rw [hd1] at H
                rw [hd2, hd1]
                exact children_case parent parent2 H
              · rw [he1] at he2; exact absurd he2 (by simp)
              · rw [he1] at he2; exact absurd he2 (by simp)
            · rw [hd2]
              exact ⟨hn2, hs2, by simp⟩
            · exfalso
              have hc2g : QHash.contains g2.sNodes
                  (env.locationToString (env.location (CursorTree.node cursor children).cursor))
                  = false := by rw [← hs2]; exact hc2
              rcases buildTreeDeclaration_cases env parent cp (.node cursor children)
                  (env.nodeTypeFromCursor cursor) m1 with
                ⟨he1, _⟩ | ⟨_, hc1, hd1⟩ | ⟨_, _, gb, pb, hd1, hcb⟩
              · rw [he1] at he2; exact absurd he2 (by simp)
              · rw [hd1] at H
                exact H.contra _ hc1 hc2g
              · rw [hd1] at H
                have hfr := (buildTreeChildren_fresh env pb (.node cursor children) children
                  (BuildState.mk gb [])).included
                exact (hfr.included_trans H).contra _ hcb hc2g
    rcases buildTreeMacroExpansion_cases env cparent (.node cursor children) g2 with
      ⟨hk2, hm2⟩ | ⟨hk2, hm2, hn2, hs2, -⟩ | ⟨hk2, hm2, habs2, -, cp, defn, hcp, hf⟩ |
        ⟨hk2, hm2, hn2, hs2, habs2, cp, hcp, hf⟩
    · exact dispatch g g2 rfl rfl rfl
        (buildTreeMacroExpansion_other_kind env cparent _ g hk2) hm2
    · rw [buildTree_unfold, buildTreeStores_unfold env parent2]
      simp only [hm2, if_true]
      exact ⟨hn2, hs2, by simp⟩
    · exfalso
      rcases buildTreeMacroExpansion_cases env cparent (.node cursor children) g with
        ⟨hk1, -⟩ | ⟨-, hm1, -, hs1, hor⟩ | ⟨-, hm1, -, hcon1, -⟩ |
          ⟨-, -, -, -, -, cp1, hcp1, hf1⟩
      · exact hk1 hk2
      · rw [buildTree_unfold] at H
        simp only [hm1, if_true] at H
        rcases hor with h | h
        · exact H.contra _ (by rw [hs1]; exact h) habs2
        · rw [h] at hcp; exact absurd hcp (by simp)
      · rw [buildTree_unfold] at H
        simp only [hm1, if_true] at H
        exact H.contra _ hcon1 habs2
      · rw [hcp] at hcp1
        cases hcp1
        rw [hf] at hf1; exact absurd hf1 (by simp)
    · rcases buildTreeMacroExpansion_cases env cparent (.node cursor children) g with
        ⟨hk1, -⟩ | ⟨-, hm1, -, hs1, hor⟩ | ⟨-, -, -, -, cp1, defn1, hcp1, hf1⟩ |
          ⟨-, hm1, -, hs1, -, -⟩
      · exact absurd hk2 hk1
      · exfalso
        rw [buildTree_unfold] at H
        simp only [hm1, if_true] at H
        rcases hor with h | h
        · exact H.contra _ (by rw [hs1]; exact h) habs2
        · rw [h] at hcp; exact absurd hcp (by simp)
      · exfalso
        rw [hcp] at hcp1
        cases hcp1
        rw [hf] at hf1; exact absurd hf1 (by simp)
      · exact dispatch _ _ hs1 hn2 hs2 (Prod.ext hm1 rfl) (Prod.ext hm2 rfl)
theorem buildTreeChildren_again (env : Clang) (c : CursorTree) :
    (children : List CursorTree) → ∀ (parent parent2 : Option Nat) (g g2 : Graph),
      IndexIncluded (buildTreeChildren env parent c children (BuildState.mk g [])).graph g2 →
      (buildTreeChildren env parent2 c children (BuildState.mk g2 [])).graph.nodes = g2.nodes ∧
      (buildTreeChildren env parent2 c children (BuildState.mk g2 [])).graph.sNodes
        = g2.sNodes ∧
      ∀ e ∈ buildTreeChildrenStores env parent2 c children g2,
        e ∈ buildTreeChildrenStores env parent c children g
  | [], parent, parent2, g, g2, _ => by
    simp [buildTreeChildren, buildTreeChildrenStores]
  | child :: rest, parent, parent2, g, g2, H => by
    rw [buildTreeChildren] at H
    rw [buildTreeChildren_graph_eq] at H
    have hfr := (buildTreeChildren_fresh env parent c rest
      (BuildState.mk (buildTree env parent (some c) child (BuildState.mk g [])).graph
        [])).included
    obtain ⟨a1, a2, a3⟩ := buildTree_again env (some c) child parent parent2 g g2
      (hfr.included_trans H)
    have H2 : IndexIncluded
        (buildTreeChildren env parent c rest
          (BuildState.mk (buildTree env parent (some c) child (BuildState.mk g [])).graph
            [])).graph
        (buildTree env parent2 (some c) child (BuildState.mk g2 [])).graph :=
      H.included_trans (IndexIncluded.of_sNodes_eq a2)
    obtain ⟨b1, b2, b3⟩ := buildTreeChildren_again env c rest parent parent2 _ _ H2
    rw [buildTreeChildren, buildTreeChildren_graph_eq, buildTreeChildrenStores,
      buildTreeChildrenStores]
    refine ⟨b1.trans a1, b2.trans a2, ?_⟩
    intro e he
    rcases List.mem_append.mp he with h | h
    · exact List.mem_append.mpr (Or.inl (a3 e h))
    · exact List.mem_append.mpr (Or.inr (b3 e h))
end

mutual
theorem buildTreeStores_absent (env : Clang) (cparent : Option CursorTree) :
    (c : CursorTree) → ∀ (parent : Option Nat) (g : Graph),
      ∀ e ∈ buildTreeStores env parent cparent c g, QHash.contains g.sNodes e.1 = false
  | .node cursor children, parent, g => by
    rw [buildTreeStores_unfold]
    simp only [cursor_of_node, children_of_node]
    have hmf := (buildTreeMacroExpansion_fresh env cparent (.node cursor children) g).included
    by_cases h1 : (buildTreeMacroExpansion env cparent (.node cursor children) g).1 = true
    · simp [h1]
    · simp only [h1, if_false, Bool.false_eq_true]
      by_cases h2 : env.nodeTypeFromCursor cursor = .Reference
      · simp only [h2, if_true]
        split
        · split
          · rename_i hc
            intro e he
            simp only [List.mem_singleton] at he
            rw [he]
            exact hmf.absent _ (by simpa using hc)
          · simp
        · simp
      · simp only [h2, if_false]
        cases cparent with
        | none =>
          intro e he
          exact hmf.absent _
            (buildTreeChildrenStores_absent env (.node cursor children) children parent _ e he)
        | some cp =>
          simp only
          by_cases h3 : env.nodeTypeFromCursor cursor = .Invalid
          · simp only [h3, ne_eq, not_true_eq_false, if_false]
            intro e he
            exact hmf.absent _
              (buildTreeChildrenStores_absent env (.node cursor children) children parent _ e he)
          · simp only [h3, ne_eq, not_false_eq_true, if_true]
            cases hd : buildTreeDeclaration env parent cp (.node cursor children)
                (env.nodeTypeFromCursor cursor)
                (buildTreeMacroExpansion env (some cp) (.node cursor children) g).2 with
            | none => simp
            | some r =>
              obtain ⟨g2, parent2⟩ := r
              have h2 := (buildTreeDeclaration_fresh env parent cp _ _ _ g2 parent2 hd).included
              intro e he
              exact (hmf.included_trans h2).absent _
                (buildTreeChildrenStores_absent env (.node cursor children) children parent2 _
                  e he)
theorem buildTreeChildrenStores_absent (env : Clang) (c : CursorTree) :
    (children : List CursorTree) → ∀ (parent : Option Nat) (g : Graph),
      ∀ e ∈ buildTreeChildrenStores env parent c children g,
        QHash.contains g.sNodes e.1 = false
  | [], parent, g => by simp [buildTreeChildrenStores]
  | child :: rest, parent, g => by
    rw [buildTreeChildrenStores]
    intro e he
    rcases List.mem_append.mp he with h | h
    · exact buildTreeStores_absent env (some c) child parent g e h
    · exact (buildTree_fresh env parent (some c) child
        (BuildState.mk g [])).included.absent _
        (buildTreeChildrenStores_absent env c rest parent _ e h)
end

theorem key_mem_insert (refs : QHash PendingReference) (s : QByteArray × PendingReference)
    (k : QByteArray) (h : k ∈ refs.map Prod.fst) :
    k ∈ (QHash.insert refs s.1 s.2).map Prod.fst := by
  simp only [QHash.insert, List.map_cons, List.mem_cons, List.mem_map, List.mem_filter]
  by_cases hk : k = s.1
  · exact Or.inl hk
  · right
    obtain ⟨e, he, hek⟩ := List.mem_map.mp h
    exact ⟨e, ⟨he, by simpa [hek] using hk⟩, hek⟩

theorem key_mem_applyStores_old :
    (stores : List (QByteArray × PendingReference)) → ∀ (refs : QHash PendingReference)
      (k : QByteArray), k ∈ refs.map Prod.fst → k ∈ (applyStores refs stores).map Prod.fst
  | [], _, _, h => h
  | s :: rest, refs, k, h =>
    key_mem_applyStores_old rest (QHash.insert refs s.1 s.2) k (key_mem_insert refs s k h)

theorem key_mem_applyStores :
    (stores : List (QByteArray × PendingReference)) → ∀ (refs : QHash PendingReference)
      (e : QByteArray × PendingReference),
      e ∈ stores → e.1 ∈ (applyStores refs stores).map Prod.fst
  | [], _, _, h => by simp at h
  | s :: rest, refs, e, h => by
    rcases List.mem_cons.mp h with h1 | h1
    · subst h1
      exact key_mem_applyStores_old rest (QHash.insert refs e.1 e.2) e.1
        (by simp [QHash.insert])
    · exact key_mem_applyStores rest (QHash.insert refs s.1 s.2) e h1

theorem ReferenceGrowth.reference_of_nodes_eq {g g2 : Graph} (h : g2.nodes = g.nodes) :
    ReferenceGrowth g g2 := by
  intro i n hi hn
  rw [h, List.getElem?_eq_none (by omega)] at hn
  exact absurd hn (by simp)

theorem ReferenceGrowth.reference_trans {g g1 g2 : Graph} (h1 : ReferenceGrowth g g1)
    (hf : FreshGrowth g1 g2) (h2 : ReferenceGrowth g1 g2) : ReferenceGrowth g g2 := by
  intro i n hi hn
  by_cases hlt : i < g1.nodes.length
  · rw [hf.getElem?_old i hlt] at hn
    exact h1 i n hi hn
  · exact h2 i n (by omega) hn

theorem addReferenceNode_reference (env : Clang) (c : CursorTree) (id : QByteArray)
    (loc : Location) (g : Graph) :
    ReferenceGrowth g (addReferenceNode env c id loc g).2 := by
  rcases addReferenceNode_spec env c id loc g with h | ⟨r, _, _, _, _, _, hr⟩
  · rw [h]; exact ReferenceGrowth.reference_of_nodes_eq rfl
  · rw [hr]
    intro i n hi hn
    simp only [referenceCreated] at hn
    have hlt : i < (g.nodes ++ [Node.mk (some (declarationOf env g r)) .Reference c.cursor
        loc id]).length := by
      by_contra hc
      rw [List.getElem?_eq_none (by omega)] at hn
      exact absurd hn (by simp)
    simp only [List.length_append, List.length_singleton] at hlt
    have hi2 : i = g.nodes.length := by omega
    subst hi2
    rw [List.getElem?_append_right (le_refl _)] at hn
    simp only [Nat.sub_self, List.getElem?_cons_zero, Option.some.injEq] at hn
    subst hn
    rfl

mutual
theorem addReference_reference (env : Clang) :
    (c : CursorTree) → ∀ (id : QByteArray) (loc : Location) (g : Graph),
      ReferenceGrowth g (addReference env c id loc g)
  | .node cursor children, id, loc, g => by
    rw [addReference]
    have h1 := addReferenceNode_reference env (.node cursor children) id loc g
    split
    · exact ReferenceGrowth.reference_of_nodes_eq rfl
    · simp only
      split
      · exact h1
      · exact h1.reference_trans (addReferenceChildren_fresh env children _)
          (addReferenceChildren_reference env children _)
theorem addReferenceChildren_reference (env : Clang) :
    (children : List CursorTree) → ∀ (g : Graph),
      ReferenceGrowth g (addReferenceChildren env children g)
  | [], g => by rw [addReferenceChildren]; exact ReferenceGrowth.reference_of_nodes_eq rfl
  | child :: rest, g => by
    rw [addReferenceChildren]
    exact (addReference_reference env child _ _ g).reference_trans
      (addReferenceChildren_fresh env rest _) (addReferenceChildren_reference env rest _)
end

theorem addReferences_reference (env : Clang) :
    (es : List (QByteArray × PendingReference)) → ∀ (g : Graph),
      ReferenceGrowth g (addReferences env es g)
  | [], g => by rw [addReferences]; exact ReferenceGrowth.reference_of_nodes_eq rfl
  | e :: rest, g => by
    rw [addReferences]
    exact (addReference_reference env _ _ _ g).reference_trans
      (addReferences_fresh env rest _) (addReferences_reference env rest _)

/-- C11 as amended (re-indexing).  Run the build pass and the resolve pass on a scratch tree
from any graph, and then once more from the graph the first run produced.  The build pass of
the second run creates no node and changes no index entry.  The second run as a whole keeps
every node of the first run as it is (parent link included) and every index entry, and what it
adds are Reference nodes at keys that had no node.  When the hash iterates over its own entries
and the first run left no key of its pending map without a node, the second run creates
nothing: the nodes and the index after it are those after the first run. -/
theorem reindex_creates_references_only (env : Clang) (sRoot : Option Nat) (root : CursorTree)
    (g0 : Graph) :
    (buildTree env sRoot none root
        (BuildState.mk (indexScratchTree env sRoot root g0) [])).graph.nodes
      = (indexScratchTree env sRoot root g0).nodes ∧
    (buildTree env sRoot none root
        (BuildState.mk (indexScratchTree env sRoot root g0) [])).graph.sNodes
      = (indexScratchTree env sRoot root g0).sNodes ∧
    FreshGrowth (indexScratchTree env sRoot root g0)
      (indexScratchTree env sRoot root (indexScratchTree env sRoot root g0)) ∧
    ReferenceGrowth (indexScratchTree env sRoot root g0)
      (indexScratchTree env sRoot root (indexScratchTree env sRoot root g0)) ∧
    ((∀ m e, e ∈ env.hashOrder m → e ∈ m) →
      (∀ e ∈ (buildTree env sRoot none root (BuildState.mk g0 [])).references,
        QHash.contains (indexScratchTree env sRoot root g0).sNodes e.1 = true) →
      (indexScratchTree env sRoot root (indexScratchTree env sRoot root g0)).nodes
        = (indexScratchTree env sRoot root g0).nodes ∧
      (indexScratchTree env sRoot root (indexScratchTree env sRoot root g0)).sNodes
        = (indexScratchTree env sRoot root g0).sNodes) := by
  have hinc : IndexIncluded (buildTree env sRoot none root (BuildState.mk g0 [])).graph
      (indexScratchTree env sRoot root g0) :=
    (addReferences_fresh env _ _).included
  obtain ⟨h1, h2, h3⟩ := buildTree_again env none root sRoot sRoot g0
    (indexScratchTree env sRoot root g0) hinc
  refine ⟨h1, h2, indexScratchTree_fresh env sRoot root _, ?_, ?_⟩
  · have hr := addReferences_reference env
      (env.hashOrder (buildTree env sRoot none root
        (BuildState.mk (indexScratchTree env sRoot root g0) [])).references)
      (buildTree env sRoot none root
        (BuildState.mk (indexScratchTree env sRoot root g0) [])).graph
    intro i n hi hn
    exact hr i n (by rw [h1]; exact hi) hn
  · intro hhash hall
    have href : ∀ g, (buildTree env sRoot none root (BuildState.mk g [])).references
        = applyStores [] (buildTreeStores env sRoot none root g) :=
      fun g => by rw [buildTree_stores]
    have hempty : (buildTree env sRoot none root
        (BuildState.mk (indexScratchTree env sRoot root g0) [])).references = [] := by
      apply List.eq_nil_iff_forall_not_mem.mpr
      intro e he
      rw [href] at he
      rw [href] at hall
      rcases mem_applyStores _ _ e he with h | h
      · simp at h
      · have habs := buildTreeStores_absent env none root sRoot _ e h
        have hin1 := h3 e h
        have hkey := key_mem_applyStores _ [] e hin1
        obtain ⟨e1, he1, hk1⟩ := List.mem_map.mp hkey
        have := hall e1 he1
        rw [hk1, habs] at this
        exact absurd this (by simp)
    have horder : env.hashOrder (buildTree env sRoot none root
        (BuildState.mk (indexScratchTree env sRoot root g0) [])).references = [] := by
      apply List.eq_nil_iff_forall_not_mem.mpr
      intro e he
      have := hhash _ e he
      rw [hempty] at this
      simp at this
    have hres : indexScratchTree env sRoot root (indexScratchTree env sRoot root g0)
        = (buildTree env sRoot none root
            (BuildState.mk (indexScratchTree env sRoot root g0) [])).graph := by
      conv => lhs; rw [indexScratchTree]
      rw [horder, addReferences]
    rw [hres]
    exact ⟨h1, h2⟩

/-- C11, counterexample.  In the scratch tree of `a.c` the reference at `a.c:2` refers to the
cursor at `a.c:3`, itself a reference (to `w`).  In the first run the entry at `a.c:2` is
resolved first, finds no node at `a.c:3` and is dropped; the entry at `a.c:3` then gets its
node.  The second run on the same tree, from the graph of the first, queues `a.c:2` again,
finds the node at `a.c:3` and creates a node: the index has a key it did not have. -/
theorem reindex_idempotence_counterexample :
    (indexScratchTree chainClang (some 0) chainTree sampleGraph).nodes.map
        (fun n => (n.id, n.type, n.parent))
      = [("", .Root, none), ("a.c:8", .Variable, some 0), ("a.c:3", .Reference, some 1)] ∧
    List.lookup "a.c:2" (indexScratchTree chainClang (some 0) chainTree sampleGraph).sNodes
      = none ∧
    (indexScratchTree chainClang (some 0) chainTree
        (indexScratchTree chainClang (some 0) chainTree sampleGraph)).nodes.map
        (fun n => (n.id, n.type, n.parent))
      = [("", .Root, none), ("a.c:8", .Variable, some 0), ("a.c:3", .Reference, some 1),
         ("a.c:2", .Reference, some 2)] ∧
    List.lookup "a.c:2" (indexScratchTree chainClang (some 0) chainTree
        (indexScratchTree chainClang (some 0) chainTree sampleGraph)).sNodes = some 3 := by
  decide

/-- Witness of C11 as amended: in the scratch tree `useBeforeDeclTree` the only pending
reference is resolved by the first run, and the second run leaves the nodes and the index as
they are. -/
theorem reindex_creates_references_only_witness :
    (∀ e ∈ (buildTree useBeforeDeclClang (some 0) none useBeforeDeclTree
        (BuildState.mk sampleGraph [])).references,
      QHash.contains (indexScratchTree useBeforeDeclClang (some 0) useBeforeDeclTree
        sampleGraph).sNodes e.1 = true) ∧
    (indexScratchTree useBeforeDeclClang (some 0) useBeforeDeclTree
        (indexScratchTree useBeforeDeclClang (some 0) useBeforeDeclTree sampleGraph)).nodes
      = (indexScratchTree useBeforeDeclClang (some 0) useBeforeDeclTree sampleGraph).nodes ∧
    (indexScratchTree useBeforeDeclClang (some 0) useBeforeDeclTree
        (indexScratchTree useBeforeDeclClang (some 0) useBeforeDeclTree sampleGraph)).sNodes
      = (indexScratchTree useBeforeDeclClang (some 0) useBeforeDeclTree sampleGraph).sNodes :=
  ⟨by decide,
   (reindex_creates_references_only useBeforeDeclClang (some 0) useBeforeDeclTree
      sampleGraph).2.2.2.2 (fun _ _ h => h) (by decide)⟩

/-! ## Semantic parents: the new node and its children (C12) -/

theorem buildTreeChildren_eq_foldl (env : Clang) (parent : Option Nat) (c : CursorTree) :
    (children : List CursorTree) → ∀ (st : BuildState),
      buildTreeChildren env parent c children st
        = children.foldl (fun s child => buildTree env parent (some c) child s) st
  | [], _ => by rw [buildTreeChildren]; rfl
  | child :: rest, st => by
    rw [buildTreeChildren, List.foldl_cons]
    exact buildTreeChildren_eq_foldl env parent c rest _

theorem buildTree_creates_not_returned (env : Clang) (parent : Option Nat) (cp : CursorTree)
    (cursor : CXCursor) (children : List CursorTree) (st : BuildState)
    (hnotref : env.nodeTypeFromCursor cursor ≠ .Reference)
    (hfree : QHash.contains st.graph.sNodes (env.locationToString (env.location cursor))
      = false)
    (hcreates : ((buildTree env parent (some cp) (.node cursor children) st).graph.nodeAt
      (env.locationToString (env.location cursor))).map Node.type
        = some (env.nodeTypeFromCursor cursor)) :
    (buildTreeMacroExpansion env (some cp) (.node cursor children) st.graph).1 = false := by
  cases hb : (buildTreeMacroExpansion env (some cp) (.node cursor children) st.graph).1 with
  | false => rfl
  | true =>
    exfalso
    rcases buildTreeMacroExpansion_cases env (some cp) (.node cursor children) st.graph with
      ⟨_, h⟩ | ⟨_, _, _, _, h | h⟩ | ⟨hk, _, _, _, cp2, defn, hcp, hf⟩ | ⟨_, h, _⟩
    · rw [h] at hb; simp at hb
    · rw [cursor_of_node, hfree] at h; simp at h
    · simp at h
    · have hcp2 : cp = cp2 := Option.some.inj hcp
      subst hcp2
      have hm := buildTreeMacroExpansion_found env cp (.node cursor children) defn st.graph hk
        (by rw [cursor_of_node]; exact hfree) hf
      rw [buildTree_unfold, hm] at hcreates
      simp [Graph.nodeAt, QHash.value, Node.new, lookup_insert, Graph.qAssert,
        cursor_of_node] at hcreates
      exact hnotref hcreates.symm
    · rw [h] at hb; simp at hb

/-- C12 (semantic-parent correction).  Let `buildTree` create the graph node of a
declaration-like scratch node that has a scratch parent `cp`: the node type is neither
Reference nor Invalid, the Location exists, its key has no graph node before the call, and
after the call the node at that key has the node type of the scratch node.  Then the node is
created at the next free index, under the key of its Location, with the parent `P`: the graph
node at the Location of the semantic parent when the semantic parent cursor is valid, is not
`clang_equalCursors` to the cursor of the scratch parent, and has a graph node; in every other
case the graph parent passed into the call.  After the creation `buildTree` is called on every
child of the scratch node, in order, with the new node as the graph parent and the scratch node
as the scratch parent, each call on the state the one before it left; the state after the last
call is the result. -/
theorem semantic_parent_correction (env : Clang) (parent : Option Nat) (cp : CursorTree)
    (cursor : CXCursor) (children : List CursorTree) (st : BuildState)
    (hnotref : env.nodeTypeFromCursor cursor ≠ .Reference)
    (hdecl : env.nodeTypeFromCursor cursor ≠ .Invalid)
    (hexists : env.locationExists (env.location cursor) = true)
    (hfree : QHash.contains st.graph.sNodes (env.locationToString (env.location cursor))
      = false)
    (hcreates : ((buildTree env parent (some cp) (.node cursor children) st).graph.nodeAt
      (env.locationToString (env.location cursor))).map Node.type
        = some (env.nodeTypeFromCursor cursor)) :
    ∃ P : Option Nat,
      (∀ q, env.isValidCursor (env.getCursorSemanticParent cursor) = true →
        env.equalCursors (env.getCursorSemanticParent cursor) cp.cursor = false →
        QHash.value st.graph.sNodes (env.locationToString
          (env.location (env.getCursorSemanticParent cursor))) = some q →
        P = some q) ∧
      (env.isValidCursor (env.getCursorSemanticParent cursor) = false ∨
        env.equalCursors (env.getCursorSemanticParent cursor) cp.cursor = true ∨
        QHash.value st.graph.sNodes (env.locationToString
          (env.location (env.getCursorSemanticParent cursor))) = none →
        P = parent) ∧
      buildTree env parent (some cp) (.node cursor children) st
        = children.foldl
            (fun s child => buildTree env (some st.graph.nodes.length)
              (some (.node cursor children)) child s)
            (BuildState.mk (Node.new
                (buildTreeMacroExpansion env (some cp) (.node cursor children) st.graph).2
                P (env.nodeTypeFromCursor cursor) cursor (env.location cursor)
                (env.locationToString (env.location cursor))).1 st.references) ∧
      (buildTree env parent (some cp) (.node cursor children) st).graph.nodes[
          st.graph.nodes.length]?
        = some (Node.mk P (env.nodeTypeFromCursor cursor) cursor (env.location cursor)
            (env.locationToString (env.location cursor))) ∧
      List.lookup (env.locationToString (env.location cursor))
          (buildTree env parent (some cp) (.node cursor children) st).graph.sNodes
        = some st.graph.nodes.length := by
  have hblock := buildTree_creates_not_returned env parent cp cursor children st hnotref hfree
    hcreates
  obtain ⟨hmn, hms⟩ := buildTreeMacroExpansion_not_returned env (some cp)
    (.node cursor children) st.graph hblock
  have key : ∀ P : Option Nat,
      buildTree env parent (some cp) (.node cursor children) st
        = buildTreeChildren env (some st.graph.nodes.length) (.node cursor children) children
            { st with graph := (Node.new
                (buildTreeMacroExpansion env (some cp) (.node cursor children) st.graph).2
                P (env.nodeTypeFromCursor cursor) cursor (env.location cursor)
                (env.locationToString (env.location cursor))).1 } →
      buildTree env parent (some cp) (.node cursor children) st
        = children.foldl
            (fun s child => buildTree env (some st.graph.nodes.length)
              (some (.node cursor children)) child s)
            (BuildState.mk (Node.new
                (buildTreeMacroExpansion env (some cp) (.node cursor children) st.graph).2
                P (env.nodeTypeFromCursor cursor) cursor (env.location cursor)
                (env.locationToString (env.location cursor))).1 st.references) ∧
      (buildTree env parent (some cp) (.node cursor children) st).graph.nodes[
          st.graph.nodes.length]?
        = some (Node.mk P (env.nodeTypeFromCursor cursor) cursor (env.location cursor)
            (env.locationToString (env.location cursor))) ∧
      List.lookup (env.locationToString (env.location cursor))
          (buildTree env parent (some cp) (.node cursor children) st).graph.sNodes
        = some st.graph.nodes.length := by
    intro P hunf
    refine ⟨?_, ?_, ?_⟩
    · rw [hunf, buildTreeChildren_eq_foldl]
    · rw [hunf, buildTreeChildren_nodes_old _ _ _ _ _ _ (by simp [Node.new, hmn])]
      simp [Node.new, hmn]
    · rw [hunf]
      exact (buildTreeChildren_fresh env _ _ children _).2.1 _ _
        (by simp [Node.new, hmn, lookup_insert])
  by_cases hc : (env.isValidCursor (env.getCursorSemanticParent cursor)
      && !env.equalCursors (env.getCursorSemanticParent cursor) cp.cursor) = true
  · cases hv : QHash.value st.graph.sNodes (env.locationToString
        (env.location (env.getCursorSemanticParent cursor))) with
    | none =>
      refine ⟨parent, ?_, ?_, key parent ?_⟩
      · intro q _ _ h3; simp at h3
      · intro _; rfl
      · rw [buildTree_unfold]
        simp [hblock, hnotref, hdecl, children_of_node, buildTreeDeclaration, cursor_of_node,
          hexists, hms, hfree, hc, hv, Node.new, hmn]
    | some p =>
      refine ⟨some p, ?_, ?_, key (some p) ?_⟩
      · intro q _ _ h3; simpa using h3
      · simp only [Bool.and_eq_true, Bool.not_eq_true'] at hc
        rintro (h | h | h)
        · rw [hc.1] at h; simp at h
        · rw [hc.2] at h; simp at h
        · simp at h
      · rw [buildTree_unfold]
        simp [hblock, hnotref, hdecl, children_of_node, buildTreeDeclaration, cursor_of_node,
          hexists, hms, hfree, hc, hv, Node.new, hmn]
  · refine ⟨parent, ?_, ?_, key parent ?_⟩
    · intro q h1 h2 _
      simp [h1, h2] at hc
    · intro _; rfl
    · rw [buildTree_unfold]
      simp [hblock, hnotref, hdecl, children_of_node, buildTreeDeclaration, cursor_of_node,
        hexists, hms, hfree, hc, Node.new, hmn]

/-- Witness of C12: in the scratch tree of `c.cpp` the definition of `C::m` at `c.cpp:4` is a
child of the translation unit (graph parent: the root, index 0) and has the class `C` as its
semantic parent; the class has the node of index 1, and the node created for the definition
(index 3) has that node as its parent.  The variable of the body at `c.cpp:5`, the child of the
definition in the scratch tree, is then built with the new node as its graph parent: its node
(index 4) has the parent 3. -/
theorem semantic_parent_correction_witness :
    semanticClang.nodeTypeFromCursor methodDefCursor = .MethodDefinition ∧
    semanticClang.isValidCursor (semanticClang.getCursorSemanticParent methodDefCursor) = true ∧
    semanticClang.equalCursors (semanticClang.getCursorSemanticParent methodDefCursor)
      methodBodyTree.cursor = false ∧
    QHash.value semanticStateAtBody.graph.sNodes "c.h:7" = some 1 ∧
    QHash.contains semanticStateAtBody.graph.sNodes "c.cpp:4" = false ∧
    methodDefNode.children = [.node bodyVarCursor []] ∧
    (buildTree semanticClang (some 0) (some methodBodyTree) methodDefNode
        semanticStateAtBody).graph.nodes[3]?
      = some (Node.mk (some 1) .MethodDefinition methodDefCursor
          (semanticClang.location methodDefCursor) "c.cpp:4") ∧
    (buildTree semanticClang (some 0) (some methodBodyTree) methodDefNode
        semanticStateAtBody).graph.nodes[4]?
      = some (Node.mk (some 3) .Variable bodyVarCursor
          (semanticClang.location bodyVarCursor) "c.cpp:5") := by
  obtain ⟨P, h1, _, _, h4, _⟩ := semantic_parent_correction semanticClang (some 0)
    methodBodyTree methodDefCursor [.node bodyVarCursor []] semanticStateAtBody (by decide)
    (by decide) (by decide) (by decide) (by decide)
  have hP : P = some 1 := h1 1 (by decide) (by decide) (by decide)
  subst hP
  exact ⟨by decide, by decide, by decide, by decide, by decide, rfl, h4, by decide⟩

/-! ## The order of the resolve phase (C19) -/

theorem Graph.Consistent.lookup_lt {g : Graph} (h : g.Consistent) (k : QByteArray) (p : Nat)
    (hl : List.lookup k g.sNodes = some p) : p < g.nodes.length :=
  h (k, p) (mem_of_lookup k p g.sNodes hl)

theorem addReferenceNode_consistent (env : Clang) (c : CursorTree) (id : QByteArray)
    (loc : Location) (g : Graph) (h : g.Consistent) :
    (addReferenceNode env c id loc g).2.Consistent := by
  rcases addReferenceNode_spec env c id loc g with h1 | ⟨r, _, _, _, _, _, hr⟩
  · rw [h1]; exact h
  · rw [hr]
    intro e he
    simp only [referenceCreated, QHash.insert, List.mem_cons, List.mem_filter] at he
    simp only [referenceCreated, List.length_append, List.length_singleton]
    rcases he with h1 | h1
    · rw [h1]; simp
    · have := h e h1.1
      omega

mutual
theorem addReference_consistent (env : Clang) :
    (c : CursorTree) → ∀ (id : QByteArray) (loc : Location) (g : Graph),
      g.Consistent → (addReference env c id loc g).Consistent
  | .node cursor children, id, loc, g, h => by
    rw [addReference]
    have h1 := addReferenceNode_consistent env (.node cursor children) id loc g h
    split
    · exact h
    · simp only
      split
      · exact h1
      · exact addReferenceChildren_consistent env children _ h1
theorem addReferenceChildren_consistent (env : Clang) :
    (children : List CursorTree) → ∀ (g : Graph),
      g.Consistent → (addReferenceChildren env children g).Consistent
  | [], g, h => by rw [addReferenceChildren]; exact h
  | child :: rest, g, h => by
    rw [addReferenceChildren]
    exact addReferenceChildren_consistent env rest _
      (addReference_consistent env child _ _ g h)
end

theorem addReferences_consistent (env : Clang) :
    (es : List (QByteArray × PendingReference)) → ∀ (g : Graph),
      g.Consistent → (addReferences env es g).Consistent
  | [], _, h => h
  | e :: rest, g, h => by
    rw [addReferences]
    exact addReferences_consistent env rest _ (addReference_consistent env _ _ _ g h)

mutual
theorem addReference_lookup_other (env : Clang) (k : QByteArray) :
    (c : CursorTree) → ∀ (id : QByteArray) (loc : Location) (g : Graph),
      id ≠ k → k ∉ keysBelow env c →
      List.lookup k (addReference env c id loc g).sNodes = List.lookup k g.sNodes
  | .node cursor children, id, loc, g, hid, hbelow => by
    rw [addReference]
    simp only [keysBelow] at hbelow
    have h1 := addReferenceNode_lookup_other env (.node cursor children) id loc g k hid
    split
    · rfl
    · simp only
      split
      · exact h1
      · exact (addReferenceChildren_lookup_other env k children _ hbelow).trans h1
theorem addReferenceChildren_lookup_other (env : Clang) (k : QByteArray) :
    (children : List CursorTree) → ∀ (g : Graph),
      k ∉ keysOfForest env children →
      List.lookup k (addReferenceChildren env children g).sNodes = List.lookup k g.sNodes
  | [], g, _ => by rw [addReferenceChildren]
  | child :: rest, g, hbelow => by
    rw [addReferenceChildren]
    simp only [keysOfForest, List.mem_cons, List.mem_append, not_or] at hbelow
    obtain ⟨h1, h2, h3⟩ := hbelow
    exact (addReferenceChildren_lookup_other env k rest _ h3).trans
      (addReference_lookup_other env k child _ _ g (Ne.symm h1) h2)
end

theorem addReferences_lookup_other (env : Clang) (k : QByteArray) :
    (es : List (QByteArray × PendingReference)) → ∀ (g : Graph),
      (∀ e ∈ es, k ∉ entryKeys env e) →
      List.lookup k (addReferences env es g).sNodes = List.lookup k g.sNodes
  | [], _, _ => rfl
  | e :: rest, g, h => by
    rw [addReferences]
    have he := h e (List.mem_cons_self _ _)
    simp only [entryKeys, List.mem_cons, not_or] at he
    exact (addReferences_lookup_other env k rest _
      (fun x hx => h x (List.mem_cons_of_mem _ hx))).trans
      (addReference_lookup_other env k e.2.node e.1 e.2.location g (Ne.symm he.1) he.2)

theorem nodeAt_of_fresh {g g2 : Graph} (hf : FreshGrowth g g2) (hc : g.Consistent)
    (k : QByteArray) (hl : List.lookup k g2.sNodes = List.lookup k g.sNodes) :
    g2.nodeAt k = g.nodeAt k := by
  simp only [Graph.nodeAt, QHash.value, hl]
  cases hp : List.lookup k g.sNodes with
  | none => rfl
  | some p =>
    simp only [Option.some_bind]
    exact hf.getElem?_old p (hc.lookup_lt k p hp)

theorem contains_eq_nodeAt_isSome {g : Graph} (h : g.Consistent) (k : QByteArray) :
    QHash.contains g.sNodes k = (g.nodeAt k).isSome := by
  simp only [QHash.contains, Graph.nodeAt, QHash.value]
  cases hl : List.lookup k g.sNodes with
  | none => rfl
  | some p =>
    have hp := h.lookup_lt k p hl
    simp [List.getElem?_eq_getElem hp]

theorem nodeAt_referenceCreated (g : Graph) (p : Nat) (cursor : CXCursor) (loc : Location)
    (id : QByteArray) :
    (referenceCreated g p cursor loc id).nodeAt id
      = some (Node.mk (some p) .Reference cursor loc id) := by
  simp [Graph.nodeAt, QHash.value, referenceCreated, lookup_insert]

theorem addReferenceNode_unchanged (env : Clang) (c : CursorTree) (id : QByteArray)
    (loc : Location) (g : Graph)
    (h : ¬(env.nodeTypeFromCursor c.cursor ≠ .Invalid ∧ env.locationExists loc = true ∧
      env.isValidCursor (referencedCursor env c.cursor) = true ∧
      (c.cursor.kind = .DeclRefExpr →
        declRefAccepts (referencedCursor env c.cursor).kind = true) ∧
      ∃ r, QHash.value g.sNodes
        (env.locationToString (env.location (referencedCursor env c.cursor))) = some r)) :
    (addReferenceNode env c id loc g).2 = g := by
  rcases addReferenceNode_spec env c id loc g with h1 | ⟨r, a, b, c', d, e, _⟩
  · exact h1
  · exact absurd ⟨a, b, c', d, r, e⟩ h

theorem declarationOf_stable (env : Clang) (g0 g : Graph) (r : Nat) (hf : FreshGrowth g0 g)
    (hr : r < g0.nodes.length)
    (hstable : env.methodDeclaration g r = env.methodDeclaration g0 r) :
    declarationOf env g r = declarationOf env g0 r := by
  simp only [declarationOf, hf.getElem?_old r hr, hstable]

theorem GrownWithin.target {g0 g : Graph} {P : List QByteArray} (h : GrownWithin g0 P g)
    (t : QByteArray) (ht : List.lookup t g0.sNodes = none → t ∉ P) :
    List.lookup t g.sNodes = List.lookup t g0.sNodes := by
  cases hl : List.lookup t g0.sNodes with
  | some d => exact h.1.2.1 _ _ hl
  | none => rw [← hl]; exact h.2.2 t (ht hl)

theorem GrownWithin.addReferenceNode {g0 g : Graph} {P : List QByteArray}
    (h : GrownWithin g0 P g) (env : Clang) (c : CursorTree) (id : QByteArray) (loc : Location)
    (hid : id ∈ P) (habs : QHash.contains g.sNodes id = false) :
    GrownWithin g0 P (addReferenceNode env c id loc g).2 := by
  refine ⟨h.1.trans (addReferenceNode_fresh env c id loc g habs),
    addReferenceNode_consistent env c id loc g h.2.1, ?_⟩
  intro k hk
  rw [addReferenceNode_lookup_other env c id loc g k (fun heq => hk (heq ▸ hid))]
  exact h.2.2 k hk

theorem GrownWithin.addReference {g0 g : Graph} {P : List QByteArray}
    (h : GrownWithin g0 P g) (env : Clang) (c : CursorTree) (id : QByteArray) (loc : Location)
    (hid : id ∈ P) (hbelow : ∀ k ∈ keysBelow env c, k ∈ P) :
    GrownWithin g0 P (addReference env c id loc g) := by
  refine ⟨h.1.trans (addReference_fresh env c id loc g),
    addReference_consistent env c id loc g h.2.1, ?_⟩
  intro k hk
  rw [addReference_lookup_other env k c id loc g (fun heq => hk (heq ▸ hid))
    (fun hmem => hk (hbelow k hmem))]
  exact h.2.2 k hk

theorem addReferenceNode_nodeAt_other (env : Clang) (c : CursorTree) (id : QByteArray)
    (loc : Location) (g : Graph) (k : QByteArray) (hk : id ≠ k) (hc : g.Consistent)
    (habs : QHash.contains g.sNodes id = false) :
    (addReferenceNode env c id loc g).2.nodeAt k = g.nodeAt k :=
  nodeAt_of_fresh (addReferenceNode_fresh env c id loc g habs) hc k
    (addReferenceNode_lookup_other env c id loc g k hk)

theorem nodeAt_none_of_absent (g : Graph) (k : QByteArray)
    (h : QHash.contains g.sNodes k = false) : g.nodeAt k = none := by
  simp only [QHash.contains] at h
  cases hl : List.lookup k g.sNodes with
  | none => simp [Graph.nodeAt, QHash.value, hl]
  | some p => simp [hl] at h

/-- The block of `addReference` on two graphs grown from the same graph: same outcome. -/
theorem addReferenceNode_agree (env : Clang) (g0 : Graph) (P : List QByteArray)
    (hc0 : g0.Consistent)
    (hstable : ∀ g d, FreshGrowth g0 g → env.methodDeclaration g d = env.methodDeclaration g0 d)
    (c : CursorTree) (id : QByteArray) (loc : Location) (g g2 : Graph)
    (hg : GrownWithin g0 P g) (hg2 : GrownWithin g0 P g2)
    (ht : List.lookup (env.locationToString (env.location (referencedCursor env c.cursor)))
      g0.sNodes = none →
      env.locationToString (env.location (referencedCursor env c.cursor)) ∉ P)
    (habs : QHash.contains g.sNodes id = false)
    (habs2 : QHash.contains g2.sNodes id = false) :
    (addReferenceNode env c id loc g).1 = (addReferenceNode env c id loc g2).1 ∧
    (addReferenceNode env c id loc g).2.nodeAt id
      = (addReferenceNode env c id loc g2).2.nodeAt id := by
  have htg := hg.target _ ht
  have htg2 := hg2.target _ ht
  by_cases hcond : env.nodeTypeFromCursor c.cursor ≠ .Invalid ∧
      env.locationExists loc = true ∧
      env.isValidCursor (referencedCursor env c.cursor) = true ∧
      (c.cursor.kind = .DeclRefExpr →
        declRefAccepts (referencedCursor env c.cursor).kind = true) ∧
      ∃ r, QHash.value g0.sNodes
        (env.locationToString (env.location (referencedCursor env c.cursor))) = some r
  · obtain ⟨h1, h2, h3, h4, r, h5⟩ := hcond
    have h5g : QHash.value g.sNodes
        (env.locationToString (env.location (referencedCursor env c.cursor))) = some r := by
      simp only [QHash.value] at h5 ⊢
      rw [htg]; exact h5
    have h5g2 : QHash.value g2.sNodes
        (env.locationToString (env.location (referencedCursor env c.cursor))) = some r := by
      simp only [QHash.value] at h5 ⊢
      rw [htg2]; exact h5
    have hr : r < g0.nodes.length := hc0.lookup_lt _ r h5
    rw [addReferenceNode_creates env c id loc g r h1 h2 h3 h4 h5g,
      addReferenceNode_creates env c id loc g2 r h1 h2 h3 h4 h5g2]
    refine ⟨rfl, ?_⟩
    simp only
    rw [nodeAt_referenceCreated, nodeAt_referenceCreated,
      declarationOf_stable env g0 g r hg.1 hr (hstable g r hg.1),
      declarationOf_stable env g0 g2 r hg2.1 hr (hstable g2 r hg2.1)]
  · have hcondg : ∀ gx : Graph, List.lookup
          (env.locationToString (env.location (referencedCursor env c.cursor))) gx.sNodes
          = List.lookup
          (env.locationToString (env.location (referencedCursor env c.cursor))) g0.sNodes →
        ¬(env.nodeTypeFromCursor c.cursor ≠ .Invalid ∧
          env.locationExists loc = true ∧
          env.isValidCursor (referencedCursor env c.cursor) = true ∧
          (c.cursor.kind = .DeclRefExpr →
            declRefAccepts (referencedCursor env c.cursor).kind = true) ∧
          ∃ r, QHash.value gx.sNodes
            (env.locationToString (env.location (referencedCursor env c.cursor)))
              = some r) := by
      intro gx hx
      simp only [QHash.value] at hcond ⊢
      rw [hx]; exact hcond
    have hret : ∀ gx : Graph, List.lookup
          (env.locationToString (env.location (referencedCursor env c.cursor))) gx.sNodes
          = List.lookup
          (env.locationToString (env.location (referencedCursor env c.cursor))) g0.sNodes →
        ((addReferenceNode env c id loc gx).1 = true ↔
          (addReferenceNode env c id loc g0).1 = true) := by
      intro gx hx
      rw [addReferenceNode_returned, addReferenceNode_returned]
      simp only [QHash.value, hx]
    rw [addReferenceNode_unchanged env c id loc g (hcondg g htg),
      addReferenceNode_unchanged env c id loc g2 (hcondg g2 htg2),
      nodeAt_none_of_absent g id habs, nodeAt_none_of_absent g2 id habs2]
    refine ⟨?_, rfl⟩
    have e1 := hret g htg
    have e2 := hret g2 htg2
    cases h1 : (addReferenceNode env c id loc g).1 <;>
      cases h2 : (addReferenceNode env c id loc g2).1 <;> simp_all

theorem GrownWithin.addReferenceChildren {g0 g : Graph} {P : List QByteArray}
    (h : GrownWithin g0 P g) (env : Clang) (children : List CursorTree)
    (hbelow : ∀ k ∈ keysOfForest env children, k ∈ P) :
    GrownWithin g0 P (addReferenceChildren env children g) := by
  refine ⟨h.1.trans (addReferenceChildren_fresh env children g),
    addReferenceChildren_consistent env children g h.2.1, ?_⟩
  intro k hk
  rw [addReferenceChildren_lookup_other env k children g (fun hmem => hk (hbelow k hmem))]
  exact h.2.2 k hk

mutual
theorem addReference_rel (env : Clang) (g0 : Graph) (P : List QByteArray)
    (hc0 : g0.Consistent)
    (hstable : ∀ g d, FreshGrowth g0 g →
      env.methodDeclaration g d = env.methodDeclaration g0 d) :
    (c : CursorTree) → ∀ (id : QByteArray) (loc : Location) (g g2 : Graph),
      GrownWithin g0 P g → GrownWithin g0 P g2 →
      id ∈ P → (∀ k ∈ keysBelow env c, k ∈ P) →
      (∀ t ∈ targetKeys env c, List.lookup t g0.sNodes = none → t ∉ P) →
      (∀ k, k = id ∨ k ∈ keysBelow env c → g.nodeAt k = g2.nodeAt k) →
      ∀ k, k = id ∨ k ∈ keysBelow env c →
        (addReference env c id loc g).nodeAt k = (addReference env c id loc g2).nodeAt k
  | .node cursor children, id, loc, g, g2, hg, hg2, hid, hbelow, htargets, hrel => by
    have hkb : keysBelow env (.node cursor children) = keysOfForest env children := by
      rw [keysBelow]
    have htk : targetKeys env (.node cursor children)
        = env.locationToString (env.location (referencedCursor env cursor))
          :: targetKeysF env children := by
      rw [targetKeys]
    rw [hkb] at hbelow hrel ⊢
    have hcon : QHash.contains g.sNodes id = QHash.contains g2.sNodes id := by
      rw [contains_eq_nodeAt_isSome hg.2.1, contains_eq_nodeAt_isSome hg2.2.1,
        hrel id (Or.inl rfl)]
    rw [addReference_unfold, addReference_unfold]
    simp only [children_of_node]
    by_cases hc : QHash.contains g.sNodes id = true
    · have hc2 : QHash.contains g2.sNodes id = true := by rw [← hcon]; exact hc
      simp only [hc, hc2, if_true]
      exact hrel
    · have hc' : QHash.contains g.sNodes id = false := by simpa using hc
      have hc2' : QHash.contains g2.sNodes id = false := by rw [← hcon]; exact hc'
      obtain ⟨hb1, hbid⟩ := addReferenceNode_agree env g0 P hc0 hstable
        (.node cursor children) id loc g g2 hg hg2
        (htargets _ (by rw [htk]; exact List.mem_cons_self _ _)) hc' hc2'
      simp only [hc', hc2', Bool.false_eq_true, if_false]
      rw [← hb1]
      have hother : ∀ k, k ≠ id →
          (addReferenceNode env (.node cursor children) id loc g).2.nodeAt k
            = g.nodeAt k ∧
          (addReferenceNode env (.node cursor children) id loc g2).2.nodeAt k
            = g2.nodeAt k := by
        intro k hk
        exact ⟨addReferenceNode_nodeAt_other env _ id loc g k (Ne.symm hk) hg.2.1 hc',
          addReferenceNode_nodeAt_other env _ id loc g2 k (Ne.symm hk) hg2.2.1 hc2'⟩
      have hrel1 : ∀ k, k = id ∨ k ∈ keysOfForest env children →
          (addReferenceNode env (.node cursor children) id loc g).2.nodeAt k
            = (addReferenceNode env (.node cursor children) id loc g2).2.nodeAt k := by
        intro k hk
        by_cases hkid : k = id
        · rw [hkid]; exact hbid
        · rw [(hother k hkid).1, (hother k hkid).2]
          exact hrel k hk
      by_cases hret : (addReferenceNode env (.node cursor children) id loc g).1 = true
      · simp only [hret, if_true]
        exact hrel1
      · simp only [hret, Bool.false_eq_true, if_false]
        have hg1 := hg.addReferenceNode env (.node cursor children) id loc hid hc'
        have hg1' := hg2.addReferenceNode env (.node cursor children) id loc hid hc2'
        have ih := addReferenceChildren_rel env g0 P hc0 hstable children _ _ hg1 hg1' hbelow
          (fun t ht => htargets t (by rw [htk]; exact List.mem_cons_of_mem _ ht))
          (fun k hk => hrel1 k (Or.inr hk))
        intro k hk
        by_cases hkb2 : k ∈ keysOfForest env children
        · exact ih k hkb2
        · rw [nodeAt_of_fresh (addReferenceChildren_fresh env children _) hg1.2.1 k
              (addReferenceChildren_lookup_other env k children _ hkb2),
            nodeAt_of_fresh (addReferenceChildren_fresh env children _) hg1'.2.1 k
              (addReferenceChildren_lookup_other env k children _ hkb2)]
          exact hrel1 k hk
theorem addReferenceChildren_rel (env : Clang) (g0 : Graph) (P : List QByteArray)
    (hc0 : g0.Consistent)
    (hstable : ∀ g d, FreshGrowth g0 g →
      env.methodDeclaration g d = env.methodDeclaration g0 d) :
    (children : List CursorTree) → ∀ (g g2 : Graph),
      GrownWithin g0 P g → GrownWithin g0 P g2 →
      (∀ k ∈ keysOfForest env children, k ∈ P) →
      (∀ t ∈ targetKeysF env children, List.lookup t g0.sNodes = none → t ∉ P) →
      (∀ k ∈ keysOfForest env children, g.nodeAt k = g2.nodeAt k) →
      ∀ k ∈ keysOfForest env children,
        (addReferenceChildren env children g).nodeAt k
          = (addReferenceChildren env children g2).nodeAt k
  | [], _, _, _, _, _, _, _, k, hk => by simp [keysOfForest] at hk
  | child :: rest, g, g2, hg, hg2, hbelow, htargets, hrel, k, hk => by
    have hkf : ∀ x, x ∈ keysOfForest env (child :: rest) ↔
        (x = env.locationToString (env.location child.cursor) ∨ x ∈ keysBelow env child)
          ∨ x ∈ keysOfForest env rest := by
      intro x
      rw [keysOfForest]
      simp only [List.mem_cons, List.mem_append, or_assoc]
    have htf : ∀ t, t ∈ targetKeysF env (child :: rest) ↔
        t ∈ targetKeys env child ∨ t ∈ targetKeysF env rest := by
      intro t
      rw [targetKeysF]
      simp only [List.mem_append]
    rw [addReferenceChildren, addReferenceChildren]
    have hidP : env.locationToString (env.location child.cursor) ∈ P :=
      hbelow _ ((hkf _).mpr (Or.inl (Or.inl rfl)))
    have hbelowc : ∀ x ∈ keysBelow env child, x ∈ P :=
      fun x hx => hbelow x ((hkf x).mpr (Or.inl (Or.inr hx)))
    have ihc := addReference_rel env g0 P hc0 hstable child
      (env.locationToString (env.location child.cursor)) (env.location child.cursor) g g2
      hg hg2 hidP hbelowc
      (fun t ht => htargets t ((htf t).mpr (Or.inl ht)))
      (fun x hx => hrel x ((hkf x).mpr (Or.inl hx)))
    have hg1 := hg.addReference env child
      (env.locationToString (env.location child.cursor)) (env.location child.cursor)
      hidP hbelowc
    have hg1' := hg2.addReference env child
      (env.locationToString (env.location child.cursor)) (env.location child.cursor)
      hidP hbelowc
    have hrel1 : ∀ x ∈ keysOfForest env (child :: rest),
        (addReference env child (env.locationToString (env.location child.cursor))
          (env.location child.cursor) g).nodeAt x
        = (addReference env child (env.locationToString (env.location child.cursor))
          (env.location child.cursor) g2).nodeAt x := by
      intro x hx
      by_cases hxc : x = env.locationToString (env.location child.cursor) ∨
          x ∈ keysBelow env child
      · exact ihc x hxc
      · simp only [not_or] at hxc
        rw [nodeAt_of_fresh (addReference_fresh env child _ _ g) hg.2.1 x
            (addReference_lookup_other env x child _ _ g (Ne.symm hxc.1) hxc.2),
          nodeAt_of_fresh (addReference_fresh env child _ _ g2) hg2.2.1 x
            (addReference_lookup_other env x child _ _ g2 (Ne.symm hxc.1) hxc.2)]
        exact hrel x hx
    have ihr := addReferenceChildren_rel env g0 P hc0 hstable rest _ _ hg1 hg1'
      (fun x hx => hbelow x ((hkf x).mpr (Or.inr hx)))
      (fun t ht => htargets t ((htf t).mpr (Or.inr ht)))
      (fun x hx => hrel1 x ((hkf x).mpr (Or.inr hx)))
    by_cases hkr : k ∈ keysOfForest env rest
    · exact ihr k hkr
    · rw [nodeAt_of_fresh (addReferenceChildren_fresh env rest _) hg1.2.1 k
          (addReferenceChildren_lookup_other env k rest _ hkr),
        nodeAt_of_fresh (addReferenceChildren_fresh env rest _) hg1'.2.1 k
          (addReferenceChildren_lookup_other env k rest _ hkr)]
      exact hrel1 k hk
end

theorem GrownWithin.grown_refl (g : Graph) (P : List QByteArray) (hc : g.Consistent) :
    GrownWithin g P g :=
  ⟨FreshGrowth.refl g, hc, fun _ _ => rfl⟩

/-- Resolving the entries of a list whose key sets are pairwise disjoint, on a graph on which
the keys of the entries are still as in `g0`: at the keys of an entry the result is that of
resolving that entry alone on `g0`. -/
theorem addReferences_nodeAt_entry (env : Clang) (g0 : Graph) (P : List QByteArray)
    (hc0 : g0.Consistent)
    (hstable : ∀ g d, FreshGrowth g0 g →
      env.methodDeclaration g d = env.methodDeclaration g0 d) :
    (es : List (QByteArray × PendingReference)) → ∀ (g : Graph),
      GrownWithin g0 P g →
      es.Pairwise (fun a b => ∀ k ∈ entryKeys env a, k ∉ entryKeys env b) →
      (∀ e ∈ es, ∀ k ∈ entryKeys env e, k ∈ P) →
      (∀ e ∈ es, ∀ t ∈ targetKeys env e.2.node, List.lookup t g0.sNodes = none → t ∉ P) →
      (∀ e ∈ es, ∀ k ∈ entryKeys env e, g.nodeAt k = g0.nodeAt k) →
      ∀ e ∈ es, ∀ k ∈ entryKeys env e,
        (addReferences env es g).nodeAt k
          = (addReference env e.2.node e.1 e.2.location g0).nodeAt k
  | [], _, _, _, _, _, _, e, he, _, _ => by simp at he
  | e0 :: rest, g, hg, hpair, hkeys, htargets, hsame, e, he, k, hk => by
    rw [addReferences]
    have hpair0 := (List.pairwise_cons.mp hpair).1
    have hpairr := (List.pairwise_cons.mp hpair).2
    have hmem : ∀ x, x ∈ entryKeys env e0 ↔ x = e0.1 ∨ x ∈ keysBelow env e0.2.node := by
      intro x
      simp only [entryKeys, List.mem_cons]
    have hid0 : e0.1 ∈ P := hkeys e0 (List.mem_cons_self _ _) _ ((hmem _).mpr (Or.inl rfl))
    have hbelow0 : ∀ x ∈ keysBelow env e0.2.node, x ∈ P :=
      fun x hx => hkeys e0 (List.mem_cons_self _ _) x ((hmem x).mpr (Or.inr hx))
    have hg1 := hg.addReference env e0.2.node e0.1 e0.2.location hid0 hbelow0
    have hother : ∀ x, x ∉ entryKeys env e0 →
        (addReference env e0.2.node e0.1 e0.2.location g).nodeAt x = g.nodeAt x := by
      intro x hx
      rw [hmem, not_or] at hx
      exact nodeAt_of_fresh (addReference_fresh env _ _ _ g) hg.2.1 x
        (addReference_lookup_other env x e0.2.node e0.1 e0.2.location g (Ne.symm hx.1) hx.2)
    have hdisj : ∀ e2 ∈ rest, ∀ x ∈ entryKeys env e2, x ∉ entryKeys env e0 :=
      fun e2 he2 x hx hx0 => hpair0 e2 he2 x hx0 hx
    rcases List.mem_cons.mp he with heq | hrest
    · subst heq
      have hnot : ∀ e2 ∈ rest, k ∉ entryKeys env e2 :=
        fun e2 he2 hk2 => hpair0 e2 he2 k hk hk2
      rw [nodeAt_of_fresh (addReferences_fresh env rest _) hg1.2.1 k
        (addReferences_lookup_other env k rest _ hnot)]
      exact addReference_rel env g0 P hc0 hstable e.2.node e.1 e.2.location g g0 hg
        (GrownWithin.grown_refl g0 P hc0) hid0 hbelow0
        (htargets e (List.mem_cons_self _ _))
        (fun x hx => hsame e (List.mem_cons_self _ _) x ((hmem x).mpr hx))
        k ((hmem k).mp hk)
    · exact addReferences_nodeAt_entry env g0 P hc0 hstable rest _ hg1 hpairr
        (fun e2 he2 => hkeys e2 (List.mem_cons_of_mem _ he2))
        (fun e2 he2 => htargets e2 (List.mem_cons_of_mem _ he2))
        (fun e2 he2 x hx => by
          rw [hother x (hdisj e2 he2 x hx)]
          exact hsame e2 (List.mem_cons_of_mem _ he2) x hx)
        e hrest k hk

/-- C19 (as amended): order independence of the resolution of the pending references holds when
the entries do not interfere.  Let the pending references be any list whose key sets are
pairwise disjoint (the key set of an entry: its own key and the Location keys of the scratch
nodes below its scratch node), on a graph whose index is consistent, such that the Location key
of the referenced cursor of any scratch node of an entry, when it has no graph node, is not in
the key set of any entry, and such that `methodDeclaration()` of a node does not change when
nodes are added.  Then calling `addReference` on all entries gives, for every order of the
entries, the same keys and for each key the same node (the same parent): at the keys of a
pending entry the nodes are those that resolving that entry alone on the graph gives. -/
theorem resolve_order_independent (env : Clang) (g : Graph)
    (es1 es2 : List (QByteArray × PendingReference))
    (hperm : es1.Perm es2)
    (hdisjoint : es1.Pairwise (fun a b => ∀ k ∈ entryKeys env a, k ∉ entryKeys env b))
    (hcons : g.Consistent)
    (htarget : ∀ e ∈ es1, ∀ t ∈ targetKeys env e.2.node, List.lookup t g.sNodes = none →
      ∀ e2 ∈ es1, t ∉ entryKeys env e2)
    (hstable : ∀ g2 d, FreshGrowth g g2 →
      env.methodDeclaration g2 d = env.methodDeclaration g d) :
    (∀ k, (addReferences env es1 g).nodeAt k = (addReferences env es2 g).nodeAt k) ∧
    (∀ k, QHash.contains (addReferences env es1 g).sNodes k
      = QHash.contains (addReferences env es2 g).sNodes k) ∧
    (∀ e ∈ es1, ∀ k ∈ entryKeys env e, (addReferences env es1 g).nodeAt k
      = (addReference env e.2.node e.1 e.2.location g).nodeAt k) := by
  have hsymm : ∀ a b : QByteArray × PendingReference,
      (∀ k ∈ entryKeys env a, k ∉ entryKeys env b) →
      (∀ k ∈ entryKeys env b, k ∉ entryKeys env a) :=
    fun a b h k hkb hka => h k hka hkb
  have hdisjoint2 : es2.Pairwise (fun a b => ∀ k ∈ entryKeys env a, k ∉ entryKeys env b) :=
    (hperm.pairwise_iff (fun {a b} h => hsymm a b h)).mp hdisjoint
  have hP : ∀ e ∈ es1, ∀ k ∈ entryKeys env e, k ∈ es1.flatMap (entryKeys env) :=
    fun e he k hk => List.mem_flatMap.mpr ⟨e, he, hk⟩
  have hT : ∀ e ∈ es1, ∀ t ∈ targetKeys env e.2.node, List.lookup t g.sNodes = none →
      t ∉ es1.flatMap (entryKeys env) := by
    intro e he t ht hl hmem
    obtain ⟨e2, he2, hk2⟩ := List.mem_flatMap.mp hmem
    exact htarget e he t ht hl e2 he2 hk2
  have h1 := addReferences_nodeAt_entry env g (es1.flatMap (entryKeys env)) hcons hstable es1 g
    (GrownWithin.grown_refl g _ hcons) hdisjoint hP hT (fun _ _ _ _ => rfl)
  have h2 := addReferences_nodeAt_entry env g (es1.flatMap (entryKeys env)) hcons hstable es2 g
    (GrownWithin.grown_refl g _ hcons) hdisjoint2
    (fun e he => hP e (hperm.mem_iff.mpr he))
    (fun e he => hT e (hperm.mem_iff.mpr he)) (fun _ _ _ _ => rfl)
  have hnode : ∀ k, (addReferences env es1 g).nodeAt k = (addReferences env es2 g).nodeAt k := by
    intro k
    by_cases hk : k ∈ es1.flatMap (entryKeys env)
    · obtain ⟨e, he, hek⟩ := List.mem_flatMap.mp hk
      rw [h1 e he k hek, h2 e (hperm.mem_iff.mp he) k hek]
    · have hk1 : ∀ e ∈ es1, k ∉ entryKeys env e :=
        fun e he hmem => hk (List.mem_flatMap.mpr ⟨e, he, hmem⟩)
      have hk2 : ∀ e ∈ es2, k ∉ entryKeys env e := fun e he => hk1 e (hperm.mem_iff.mpr he)
      rw [nodeAt_of_fresh (addReferences_fresh env es1 g) hcons k
          (addReferences_lookup_other env k es1 g hk1),
        nodeAt_of_fresh (addReferences_fresh env es2 g) hcons k
          (addReferences_lookup_other env k es2 g hk2)]
  refine ⟨hnode, ?_, h1⟩
  intro k
  rw [contains_eq_nodeAt_isSome (addReferences_consistent env es1 g hcons),
    contains_eq_nodeAt_isSome (addReferences_consistent env es2 g hcons), hnode k]

/-- C19 (as stated) fails: the result depends on the order in which the pending references are
resolved.  First input (`chainTree`): the reference at `a.c:2` refers to the cursor at `a.c:3`,
whose node is itself created by the resolution of a pending reference.  In the order of the map
(`a.c:2` first) the key `a.c:2` gets no node; in the reverse order it gets node 3.  Second
input (`sweptKeyTree`): the child of the pending reference at `a.c:3` has the key of the pending
entry `a.c:2`.  In the order of the map the node at `a.c:2` is the child's, under the node of
`w` (index 3); in the reverse order it is the pending entry's, under the node of `v` (index 2):
the parent differs. -/
theorem resolve_order_counterexample :
    ((sampleBuild chainClang chainTree).references.map Prod.fst = ["a.c:2", "a.c:3"] ∧
     List.lookup "a.c:2" (addReferences chainClang
        (sampleBuild chainClang chainTree).references
        (sampleBuild chainClang chainTree).graph).sNodes = none ∧
     List.lookup "a.c:2" (addReferences chainClang
        (sampleBuild chainClang chainTree).references.reverse
        (sampleBuild chainClang chainTree).graph).sNodes = some 3) ∧
    ((sampleBuild sweptKeyClang sweptKeyTree).references.map Prod.fst = ["a.c:3", "a.c:2"] ∧
     ((addReferences sweptKeyClang (sampleBuild sweptKeyClang sweptKeyTree).references
        (sampleBuild sweptKeyClang sweptKeyTree).graph).nodeAt "a.c:2").map
        (fun n => (n.parent, n.cursor)) = some (some 3, innerUseCursor) ∧
     ((addReferences sweptKeyClang (sampleBuild sweptKeyClang sweptKeyTree).references.reverse
        (sampleBuild sweptKeyClang sweptKeyTree).graph).nodeAt "a.c:2").map
        (fun n => (n.parent, n.cursor)) = some (some 2, earlyUseCursor)) := by
  decide

/-- Witness of C19 as amended: the pending references of `nestedPendingTree` are the use at
`a.c:2` and the reference at `a.c:3`, which has the reference at `a.c:4` below it; their key
sets are disjoint and all three refer to declarations that have their nodes after the build
pass.  Resolved in the order of the map or in the reverse order, every key has the same
node. -/
theorem resolve_order_independent_witness :
    (sampleBuild nestedPendingClang nestedPendingTree).references.map
        (fun e => (e.1, keysBelow nestedPendingClang e.2.node))
      = [("a.c:3", ["a.c:4"]), ("a.c:2", [])] ∧
    (sampleBuild nestedPendingClang nestedPendingTree).references.Pairwise
      (fun a b => ∀ k ∈ entryKeys nestedPendingClang a, k ∉ entryKeys nestedPendingClang b) ∧
    (sampleBuild nestedPendingClang nestedPendingTree).graph.Consistent ∧
    ((∀ k, (addReferences nestedPendingClang
          (sampleBuild nestedPendingClang nestedPendingTree).references
          (sampleBuild nestedPendingClang nestedPendingTree).graph).nodeAt k
        = (addReferences nestedPendingClang
          (sampleBuild nestedPendingClang nestedPendingTree).references.reverse
          (sampleBuild nestedPendingClang nestedPendingTree).graph).nodeAt k) ∧
      (∀ k, QHash.contains (addReferences nestedPendingClang
          (sampleBuild nestedPendingClang nestedPendingTree).references
          (sampleBuild nestedPendingClang nestedPendingTree).graph).sNodes k
        = QHash.contains (addReferences nestedPendingClang
          (sampleBuild nestedPendingClang nestedPendingTree).references.reverse
          (sampleBuild nestedPendingClang nestedPendingTree).graph).sNodes k) ∧
      (∀ e ∈ (sampleBuild nestedPendingClang nestedPendingTree).references,
        ∀ k ∈ entryKeys nestedPendingClang e,
        (addReferences nestedPendingClang
          (sampleBuild nestedPendingClang nestedPendingTree).references
          (sampleBuild nestedPendingClang nestedPendingTree).graph).nodeAt k
        = (addReference nestedPendingClang e.2.node e.1 e.2.location
          (sampleBuild nestedPendingClang nestedPendingTree).graph).nodeAt k)) :=
  ⟨by decide, by decide, by unfold Graph.Consistent; decide,
   resolve_order_independent nestedPendingClang
     (sampleBuild nestedPendingClang nestedPendingTree).graph
     (sampleBuild nestedPendingClang nestedPendingTree).references
     (sampleBuild nestedPendingClang nestedPendingTree).references.reverse
     (List.reverse_perm _).symm (by decide) (by unfold Graph.Consistent; decide)
     (by decide) (fun _ _ _ => rfl)⟩

/-- On `nestedPendingTree` the sweep below the pending reference at `a.c:3` creates the node of
the reference at `a.c:4` in both orders. -/
theorem nested_pending_resolved :
    ((addReferences nestedPendingClang
        (sampleBuild nestedPendingClang nestedPendingTree).references
        (sampleBuild nestedPendingClang nestedPendingTree).graph).nodeAt "a.c:4").map
        (fun n => (n.parent, n.cursor)) = some (some 3, deepUseCursor) ∧
    ((addReferences nestedPendingClang
        (sampleBuild nestedPendingClang nestedPendingTree).references.reverse
        (sampleBuild nestedPendingClang nestedPendingTree).graph).nodeAt "a.c:4").map
        (fun n => (n.parent, n.cursor)) = some (some 3, deepUseCursor) := by
  decide

end RTags
